import Mathlib

/-!
# MinScm (bootstrap.cpp): environment frames and the evaluator

A shallow embedding of the interpreter of `src/bootstrap.cpp`.

* An `Object*` of the C++ code is an `Obj`.  The kinds whose objects can be
  mutated after construction (`Pair`, `String`, `Vector`, `Environment`) are
  references into the `Store`; the immutable kinds carry their contents.
* `error(msg)` prints `msg` and throws; the embedding returns `Res.error` with
  the store at the moment of the throw, since the heap is global and keeps
  every mutation made before the throw.
* Loops and recursion whose termination depends on the shape of the heap take
  a fuel argument and answer `Res.outOfFuel` when it is used up.
-/

namespace MinScm

/-- The `enum ObjectType` of the source. -/
inductive ObjectType where
  | otFixnum | otFlonum | otSymbol | otPair | otString | otBoolean | otChar
  | otNull | otProcedure | otVector | otEof | otEnvironment | otTag
  deriving DecidableEq, Repr

/-- An object pointer.  `pair`, `string`, `vector` and `environment` hold the
address of a mutable record of the store; `flonum` holds the bit pattern of
the double; `builtin` is a `UnaryProcedure`, `BinaryProcedure` or
`TrinaryProcedure` (its `arity` is 1, 2 or 3) registered under `name`; `lambda`
is a `Lambda` with its fields `_name`, `_body`, `_env`, `_argumentNames`,
`_hasRest`. -/
inductive Obj where
  | fixnum (value : Int)
  | flonum (bits : Nat)
  | symbol (name : String)
  | pair (addr : Nat)
  | string (addr : Nat)
  | boolean (value : Bool)
  | char (value : Int)
  | null
  | builtin (name : String) (arity : Nat)
  | lambda (name : String) (body : Obj) (env : Nat) (argumentNames : List String) (hasRest : Bool)
  | vector (addr : Nat)
  | eof
  | environment (addr : Nat)
  | tag (value : Obj)
  deriving DecidableEq, Repr

/-- The virtual `getType()`. -/
def Obj.getType : Obj → ObjectType
  | .fixnum _ => .otFixnum
  | .flonum _ => .otFlonum
  | .symbol _ => .otSymbol
  | .pair _ => .otPair
  | .string _ => .otString
  | .boolean _ => .otBoolean
  | .char _ => .otChar
  | .null => .otNull
  | .builtin _ _ => .otProcedure
  | .lambda _ _ _ _ _ => .otProcedure
  | .vector _ => .otVector
  | .eof => .otEof
  | .environment _ => .otEnvironment
  | .tag _ => .otTag

/-- An `Environment` object: `_data` (a `map<string, Object*>`, kept as an
association list with unique keys) and `_outer` (`none` is `NULL`). -/
structure Frame where
  data : List (String × Obj)
  outer : Option Nat
  deriving DecidableEq, Repr

/-- The heap: the mutable records, each kind addressed by its index. -/
structure Store where
  pairs : List (Obj × Obj)
  frames : List Frame
  strings : List (List Int)
  vectors : List (List Obj)
  deriving DecidableEq, Repr

/-- The messages passed to `error(...)`, one constructor per message. -/
inductive Err where
  /-- "Symbol 'identifier' is constant and must not be changed" -/
  | constantSymbol (identifier : String)
  /-- "Unknown variable 'identifier'" -/
  | unknownVariable (identifier : String)
  /-- "Invalid parameter count" (Environment::extendIntoNew) -/
  | invalidParameterCount
  /-- "name: Invalid parameter count. Expected: expected, got got" -/
  | builtinParameterCount (name : String) (expected got : Nat)
  /-- "procedure: Invalid argument type" -/
  | invalidArgumentType (procedure : String)
  /-- "eval: Empty list can not be evaluated" -/
  | emptyList
  /-- "eval: Vector must be quoted" -/
  | vectorMustBeQuoted
  /-- "eval: Invalid if form" -/
  | invalidIfForm
  /-- "eval: Invalid begin form" -/
  | invalidBeginForm
  /-- "eval: Dotted list not allowed in begin form" -/
  | dottedBeginForm
  /-- "eval: Dotted list not allowed in function call" -/
  | dottedFunctionCall
  /-- "eval: 'printed' is not callable" -/
  | notCallable (printed : String)
  /-- "eval: Invalid define form" -/
  | invalidDefineForm
  /-- "eval: Invalid set! form" -/
  | invalidSetForm
  /-- "eval: Invalid lambda form" -/
  | invalidLambdaForm
  /-- "Invalid lambda form" (the default case of evalLambda) -/
  | invalidLambdaFormals
  /-- "eval: Invalid quote form" -/
  | invalidQuoteForm
  /-- any other message, raised by a native function -/
  | other (message : String)
  deriving DecidableEq, Repr

/-- Outcome of a computation on the heap: a value and the new store, a thrown
error and the store at the throw, or no outcome within the fuel given. -/
inductive Res (α : Type) where
  | ok (value : α) (s : Store)
  | error (e : Err) (s : Store)
  | outOfFuel
  deriving DecidableEq, Repr

/-- Sequencing: an error or a missing outcome of the first part is the outcome
of the whole. -/
def Res.bind {α β : Type} (r : Res α) (k : α → Store → Res β) : Res β :=
  match r with
  | .ok v s => k v s
  | .error e s => .error e s
  | .outOfFuel => .outOfFuel

/-! ## map<string, Object*> -/

/-- The value stored under `key`, if `count(key)` is not zero. -/
def mapFind : List (String × Obj) → String → Option Obj
  | [], _ => none
  | (k, v) :: m, key => if k = key then some v else mapFind m key

/-- The assignment `m[key] = value`. -/
def mapAssign : List (String × Obj) → String → Obj → List (String × Obj)
  | [], key, value => [(key, value)]
  | (k, v) :: m, key, value =>
    if k = key then (k, value) :: m else (k, v) :: mapAssign m key value

/-! ## Store access -/

/-- The frame at address `f`. -/
def Store.frame (s : Store) (f : Nat) : Frame :=
  s.frames.getD f ⟨[], none⟩

/-- Overwrite the frame at address `f`. -/
def Store.setFrame (s : Store) (f : Nat) (fr : Frame) : Store :=
  { s with frames := s.frames.set f fr }

/-- The field `_car` of the pair `o` points to. -/
def Store.car (s : Store) : Obj → Obj
  | .pair a => (s.pairs.getD a (.null, .null)).1
  | _ => .null

/-- The field `_cdr` of the pair `o` points to. -/
def Store.cdr (s : Store) : Obj → Obj
  | .pair a => (s.pairs.getD a (.null, .null)).2
  | _ => .null

/-- The expression `new Pair(car, cdr)`: the new pointer and the new store. -/
def Store.newPair (s : Store) (car cdr : Obj) : Obj × Store :=
  (.pair s.pairs.length, { s with pairs := s.pairs ++ [(car, cdr)] })

/-! ## class Environment -/

/-- The test at the head of `Environment::define`. -/
def isKeyword (identifier : String) : Bool :=
  identifier == "if" || identifier == "define" || identifier == "defmacro" ||
  identifier == "set!" || identifier == "lambda" || identifier == "quote" ||
  identifier == "begin"

/-- The frame `f` after `_data[identifier] = value`. -/
def Store.assign (s : Store) (f : Nat) (identifier : String) (value : Obj) : Store :=
  s.setFrame f { s.frame f with data := mapAssign (s.frame f).data identifier value }

/-- The method `Environment::define` of the frame at address `f`. -/
def Environment.define (s : Store) (f : Nat) (identifier : String) (value : Obj) : Res Unit :=
  if isKeyword identifier then .error (.constantSymbol identifier) s
  else .ok () (s.assign f identifier value)

/-- The walk of `Environment::set` from the frame at address `f`, following
at most `fuel` links `_outer`. -/
def Environment.setFrom (s : Store) (identifier : String) (value : Obj) : Nat → Nat → Res Unit
  | fuel, f =>
    if (mapFind (s.frame f).data identifier).isSome then .ok () (s.assign f identifier value)
    else match (s.frame f).outer with
      | some o =>
        match fuel with
        | 0 => .outOfFuel
        | k + 1 => Environment.setFrom s identifier value k o
      | none => .error (.unknownVariable identifier) s

/-- The method `Environment::set` of the frame at address `f`.  A frame is
constructed after its `_outer`, so the parent of a frame has a smaller address
and no chain that starts at `f` has more than `f` links. -/
def Environment.set (s : Store) (f : Nat) (identifier : String) (value : Obj) : Res Unit :=
  Environment.setFrom s identifier value f f

/-- The walk of `Environment::get` from the frame at address `f`, following
at most `fuel` links `_outer`. -/
def Environment.getFrom (s : Store) (identifier : String) : Nat → Nat → Res Obj
  | fuel, f =>
    match mapFind (s.frame f).data identifier with
    | some v => .ok v s
    | none =>
      match (s.frame f).outer with
      | some o =>
        match fuel with
        | 0 => .outOfFuel
        | k + 1 => Environment.getFrom s identifier k o
      | none => .error (.unknownVariable identifier) s

/-- The method `Environment::get` of the frame at address `f` (see
`Environment.set` for the number of links). -/
def Environment.get (s : Store) (f : Nat) (identifier : String) : Res Obj :=
  Environment.getFrom s identifier f f

/-- The loops `for (i = 0; i < ...; ++i) ret->define(argumentNames->at(i),
arguments->at(i))`, run over the names to bind; the caller has checked that
there is an argument for each of them. -/
def Environment.defineEach (ret : Nat) : List String → List Obj → Store → Res Unit
  | name :: names, arg :: args, s =>
    (Environment.define s ret name arg).bind fun _ s1 =>
      Environment.defineEach ret names args s1
  | _, _, s => .ok () s

/-- The loop `o = new Pair(arguments->at(i), o)` over the surplus arguments,
given last first. -/
def Environment.consEach : List Obj → Obj → Store → Obj × Store
  | [], o, s => (o, s)
  | arg :: args, o, s => Environment.consEach args (s.newPair arg o).1 (s.newPair arg o).2

/-- The expression `argumentNames->size() - 1`, computed in `size_t` (64
bits): it wraps to `SIZE_MAX` when the vector is empty. -/
def sizeMinusOne (size : Nat) : Nat :=
  if size = 0 then 18446744073709551615 else size - 1

/-- The method `Environment::extendIntoNew` of the frame at address `f`;
the result is the address of the new frame. -/
def Environment.extendIntoNew (s : Store) (f : Nat) (argumentNames : List String)
    (arguments : List Obj) (hasRestParameter : Bool) : Res Nat :=
  let ret := s.frames.length
  let s0 : Store := { s with frames := s.frames ++ [⟨[], some f⟩] }
  if hasRestParameter then
    if arguments.length < sizeMinusOne argumentNames.length then
      .error .invalidParameterCount s0
    else
      (Environment.defineEach ret (argumentNames.take (argumentNames.length - 1)) arguments s0).bind
        fun _ s1 =>
          let o := Environment.consEach (arguments.drop (argumentNames.length - 1)).reverse .null s1
          (Environment.define o.2 ret (argumentNames.getLastD "") o.1).bind fun _ s2 => .ok ret s2
  else
    if arguments.length ≠ argumentNames.length then .error .invalidParameterCount s0
    else
      (Environment.defineEach ret argumentNames arguments s0).bind fun _ s1 => .ok ret s1

/-! ## toString -/

/-- What the program cannot be read for: the function pointers `_f` of the
builtin procedures other than `apply`, looked up by the name they are
registered under, and the text `ss << _value` writes for a double. -/
structure Host where
  native : String → List Obj → Store → Res Obj
  printFlonum : Nat → String

/-- The assignment `ret[ret.length()-1] = c`. -/
def setLast (ret : String) (c : Char) : String :=
  String.mk (ret.data.dropLast ++ [c])

/-- The cast `(char)` of an `int`, as the character with that byte value. -/
def toChar (value : Int) : Char :=
  Char.ofNat (value % 256).toNat

/-- The loop of `Pair::toString` from the cell `i` on, with the text `sb`
written so far; `ts` is `toString` on the elements. -/
def Pair.toStringLoop (ts : Obj → Option String) (s : Store) : Nat → Obj → String → Option String
  | 0, _, _ => none
  | k + 1, i, sb =>
    match i with
    | .pair a =>
      (ts (s.car (.pair a))).bind fun t =>
        Pair.toStringLoop ts s k (s.cdr (.pair a)) (sb ++ t ++ " ")
    | .null => some (setLast sb ')')
    | _ => (ts i).map fun t => sb ++ ". " ++ t ++ ")"

/-- The loop of `Vector::toString` over the elements left, and its last two
statements. -/
def Vector.toStringLoop (ts : Obj → Option String) : List Obj → String → Option String
  | [], sb => some (setLast sb ')')
  | x :: xs, sb => (ts x).bind fun t => Vector.toStringLoop ts xs (sb ++ t ++ " ")

/-- The virtual `toString()`; `none` when the fuel does not suffice (the text
of a cyclic structure is never finished). -/
def Obj.toString (h : Host) (s : Store) : Nat → Obj → Option String
  | 0, _ => none
  | n + 1, o =>
    match o with
    | .tag v => (Obj.toString h s n v).map fun t => "<tag " ++ t ++ ">"
    | .pair a => Pair.toStringLoop (Obj.toString h s n) s n (.pair a) "("
    | .null => some "()"
    | .environment _ => some "<Environment>"
    | .fixnum v => some (Int.repr v)
    | .flonum d => some (h.printFlonum d)
    | .symbol name => some name
    | .string a => some (String.mk ((s.strings.getD a []).map toChar))
    | .boolean b => some (if b then "#t" else "#f")
    | .char c => some (String.mk [toChar c])
    | .eof => some "<EOF>"
    | .builtin name _ => some ("<procedure " ++ name ++ ">")
    | .lambda name _ _ _ _ => some ("<procedure " ++ name ++ ">")
    | .vector a => Vector.toStringLoop (Obj.toString h s n) (s.vectors.getD a []) "#("

/-- A text computed by `toString`, as an outcome on the store `s`. -/
def Res.ofText (t : Option String) (s : Store) : Res String :=
  match t with
  | some x => .ok x s
  | none => .outOfFuel

/-! ## class Interpreter -/

/-- The test `conditionValue->getType() != otBoolean ||
((Boolean*)conditionValue)->getValue()` of the `if` form. -/
def isTrue (conditionValue : Obj) : Bool :=
  conditionValue.getType != .otBoolean ||
    (match conditionValue with
     | .boolean value => value
     | _ => false)

/-- The loop of `evalDefine` that collects the parameter names from the cell
`i` on; the result is `parameterNames` and `hasRestParameter`. -/
def evalDefineParameters (ts : Obj → Option String) (s : Store) :
    Nat → Obj → List String → Res (List String × Bool)
  | 0, _, _ => .outOfFuel
  | k + 1, i, parameterNames =>
    if i.getType = .otNull then .ok (parameterNames, false) s
    else if i.getType ≠ .otPair then
      if i.getType ≠ .otSymbol then .error .invalidDefineForm s
      else (Res.ofText (ts i) s).bind fun t s1 => .ok (parameterNames ++ [t], true) s1
    else
      (Res.ofText (ts (s.car i)) s).bind fun t s1 =>
        evalDefineParameters ts s1 k (s1.cdr i) (parameterNames ++ [t])

/-- The loop of the case `otPair` of `evalLambda`; the result is
`argumentNames` and `hasRestParameter`. -/
def evalLambdaParameters (ts : Obj → Option String) (s : Store) :
    Nat → Obj → List String → Res (List String × Bool)
  | 0, _, _ => .outOfFuel
  | k + 1, i, argumentNames =>
    if i.getType = .otNull then .ok (argumentNames, false) s
    else if i.getType ≠ .otPair then
      if i.getType ≠ .otSymbol then .error .invalidLambdaForm s
      else (Res.ofText (ts i) s).bind fun t s1 => .ok (argumentNames ++ [t], true) s1
    else
      (Res.ofText (ts (s.car i)) s).bind fun t s1 =>
        evalLambdaParameters ts s1 k (s1.cdr i) (argumentNames ++ [t])

/-- The constructor `Lambda(name, body, env, argumentNames, hasRestParameter)`,
which allocates the pair `(begin . body)`. -/
def newLambda (s : Store) (name : String) (body : Obj) (env : Nat) (argumentNames : List String)
    (hasRestParameter : Bool) : Obj × Store :=
  (.lambda name (s.newPair (.symbol "begin") body).1 env argumentNames hasRestParameter,
   (s.newPair (.symbol "begin") body).2)

/-- The method `Interpreter::evalDefine`; `ev` is `evalExpandedForm` and `n`
the fuel of the loops. -/
def evalDefine (h : Host) (n : Nat) (ev : Obj → Nat → Store → Res Obj) (asPair : Obj) (env : Nat)
    (s : Store) : Res Obj :=
  if (s.cdr asPair).getType ≠ .otPair then .error .invalidDefineForm s
  else
    let whatToDefine := s.car (s.cdr asPair)
    let definedAs := s.cdr (s.cdr asPair)
    match whatToDefine with
    | .pair _ =>
      let nameObj := s.car whatToDefine
      if nameObj.getType ≠ .otSymbol then .error .invalidDefineForm s
      else
        (Res.ofText (Obj.toString h s n nameObj) s).bind fun name s =>
          (evalDefineParameters (Obj.toString h s n) s n (s.cdr whatToDefine) []).bind fun ps s =>
            let l := newLambda s name definedAs env ps.1 ps.2
            (Environment.define l.2 env name l.1).bind fun _ s => .ok (.symbol "undefined") s
    | .symbol name =>
      if (definedAs.getType ≠ .otPair || (s.cdr definedAs).getType ≠ .otNull) then
        .error .invalidDefineForm s
      else
        (ev (s.car definedAs) env s).bind fun value s =>
          (Environment.define s env name value).bind fun _ s => .ok (.symbol "undefined") s
    | _ => .error .invalidDefineForm s

/-- The method `Interpreter::evalSet`. -/
def evalSet (ev : Obj → Nat → Store → Res Obj) (asPair : Obj) (env : Nat) (s : Store) : Res Obj :=
  if (s.cdr asPair).getType ≠ .otPair then .error .invalidSetForm s
  else
    let whatToSet := s.car (s.cdr asPair)
    let definedAs := s.cdr (s.cdr asPair)
    match whatToSet with
    | .symbol name =>
      if (definedAs.getType ≠ .otPair || (s.cdr definedAs).getType ≠ .otNull) then
        .error .invalidSetForm s
      else
        (ev (s.car definedAs) env s).bind fun value s =>
          (Environment.set s env name value).bind fun _ s => .ok (.symbol "undefined") s
    | _ => .error .invalidSetForm s

/-- The `switch (parameters->getType())` of `evalLambda` up to the
`return new Lambda(...)` each case ends with: the result is `argumentNames`
and the rest flag handed to the constructor. -/
def evalLambdaFormals (ts : Obj → Option String) (s : Store) (n : Nat) (parameters : Obj) :
    Res (List String × Bool) :=
  match parameters with
  | .symbol p => .ok ([p], true) s
  | .null => .ok ([], false) s
  | .pair _ => evalLambdaParameters ts s n parameters []
  | _ => .error .invalidLambdaFormals s

/-- The method `Interpreter::evalLambda`; `n` is the fuel of `toString` and
of the loop. -/
def evalLambda (h : Host) (n : Nat) (asPair : Obj) (env : Nat) (s : Store) : Res Obj :=
  (Res.ofText (Obj.toString h s n (s.car asPair)) s).bind fun name s =>
    if (s.cdr asPair).getType ≠ .otPair then .error .invalidLambdaForm s
    else
      let parameters := s.car (s.cdr asPair)
      let body := s.cdr (s.cdr asPair)
      (evalLambdaFormals (Obj.toString h s n) s n parameters).bind fun ps s =>
        let l := newLambda s name body env ps.1 ps.2
        .ok l.1 l.2

/-- The method `Interpreter::evalQuote`. -/
def evalQuote (asPair : Obj) (s : Store) : Res Obj :=
  if ((s.cdr asPair).getType ≠ .otPair || (s.cdr (s.cdr asPair)).getType ≠ .otNull) then
    .error .invalidQuoteForm s
  else .ok (s.car (s.cdr asPair)) s

/-- The branch `sym == "if"` of `evalExpandedForm`; the `goto tailCall` is
the last call of `ev`. -/
def evalIf (ev : Obj → Nat → Store → Res Obj) (asPair : Obj) (env : Nat) (s : Store) : Res Obj :=
  if (s.cdr asPair).getType ≠ .otPair then .error .invalidIfForm s
  else
    let condition := s.car (s.cdr asPair)
    let rest := s.cdr (s.cdr asPair)
    if rest.getType ≠ .otPair then .error .invalidIfForm s
    else
      let thenPart := s.car rest
      let rest2 := s.cdr rest
      if rest2.getType ≠ .otPair then .error .invalidIfForm s
      else
        let elsePart := s.car rest2
        if (s.cdr rest2).getType ≠ .otNull then .error .invalidIfForm s
        else
          (ev condition env s).bind fun conditionValue s1 =>
            ev (if isTrue conditionValue then thenPart else elsePart) env s1

/-- The loop of the branch `sym == "begin"` of `evalExpandedForm`, from the
cell `i` on. -/
def evalBegin (ev : Obj → Nat → Store → Res Obj) (env : Nat) : Nat → Obj → Store → Res Obj
  | 0, _, _ => .outOfFuel
  | k + 1, i, s =>
    if i.getType = .otNull then .error .invalidBeginForm s
    else if i.getType ≠ .otPair then .error .dottedBeginForm s
    else if (s.cdr i).getType = .otNull then ev (s.car i) env s
    else (ev (s.car i) env s).bind fun _ s1 => evalBegin ev env k (s1.cdr i) s1

/-- The loop of `evalExpandedForm` that evaluates the operands of a call from
the cell `i` on and appends the values to `parameters`. -/
def evalParameters (ev : Obj → Nat → Store → Res Obj) (env : Nat) :
    Nat → Obj → List Obj → Store → Res (List Obj)
  | 0, _, _, _ => .outOfFuel
  | k + 1, i, parameters, s =>
    if i.getType = .otNull then .ok parameters s
    else if i.getType ≠ .otPair then .error .dottedFunctionCall s
    else
      (ev (s.car i) env s).bind fun value s1 =>
        evalParameters ev env k (s1.cdr i) (parameters ++ [value]) s1

/-- The loop of `apply` that copies the elements of the list `i` to `params`. -/
def applyParams (s : Store) : Nat → Obj → List Obj → Option (List Obj)
  | 0, _, _ => none
  | k + 1, i, params =>
    if i.getType = .otPair then applyParams s k (s.cdr i) (params ++ [s.car i])
    else some params

/-- The virtual `call(parameters)` of the builtin procedure `name` with
`arity` parameters: `assertParameterCount`, then the native function.  The
native function of `sys:apply` is `apply`, which is given here: it calls a
builtin procedure in turn and evaluates the body of a `Lambda` through
`applyHack`, that is `ev`. -/
def call (h : Host) (ev : Obj → Nat → Store → Res Obj) :
    Nat → String → Nat → List Obj → Store → Res Obj
  | 0, _, _, _, _ => .outOfFuel
  | k + 1, name, arity, parameters, s =>
    if arity ≠ parameters.length then
      .error (.builtinParameterCount name arity parameters.length) s
    else
      match name, parameters with
      | "sys:apply", [o, args] =>
        if o.getType ≠ .otProcedure then .error (.invalidArgumentType "apply") s
        else if (args.getType ≠ .otNull && args.getType ≠ .otPair) then
          .error (.invalidArgumentType "apply") s
        else
          match applyParams s k args [] with
          | none => .outOfFuel
          | some params =>
            match o with
            | .builtin name1 arity1 => call h ev k name1 arity1 params s
            | .lambda _ body lenv argumentNames hasRest =>
              (Environment.extendIntoNew s lenv argumentNames params hasRest).bind
                fun expandEnv s1 => ev body expandEnv s1
            | _ => .error (.invalidArgumentType "apply") s
      | _, _ => h.native name parameters s

/-- The call of a procedure at the end of `evalExpandedForm`; the
`goto tailCall` is the call of `ev`. -/
def evalCall (h : Host) (n : Nat) (ev : Obj → Nat → Store → Res Obj) (asPair : Obj) (env : Nat)
    (s : Store) : Res Obj :=
  (ev (s.car asPair) env s).bind fun function s1 =>
    (evalParameters ev env n (s1.cdr asPair) [] s1).bind fun parameters s2 =>
      match function with
      | .builtin name arity => call h ev n name arity parameters s2
      | .lambda _ body lenv argumentNames hasRest =>
        (Environment.extendIntoNew s2 lenv argumentNames parameters hasRest).bind
          fun env1 s3 => ev body env1 s3
      | _ =>
        (Res.ofText (Obj.toString h s2 n function) s2).bind fun printed s3 =>
          .error (.notCallable printed) s3

/-- One pass through the body of `evalExpandedForm` from the label
`tailCall`, with `ev` for the recursive calls and for the jumps back to the
label.  The trace written to `cout` when `print-eval-forms` is not Null is
output only and is left out; the lookup of `print-eval-forms` in `_global`
that guards it does not throw, the constructor having bound that name. -/
def evalStep (h : Host) (n : Nat) (ev : Obj → Nat → Store → Res Obj) (form : Obj) (env : Nat)
    (s : Store) : Res Obj :=
  match form with
  | .null => .error .emptyList s
  | .vector _ => .error .vectorMustBeQuoted s
  | .symbol name => Environment.get s env name
  | .pair a =>
    match s.car (.pair a) with
    | .symbol sym =>
      if sym = "define" then evalDefine h n ev (.pair a) env s
      else if sym = "set!" then evalSet ev (.pair a) env s
      else if sym = "lambda" then evalLambda h n (.pair a) env s
      else if sym = "quote" then evalQuote (.pair a) s
      else if sym = "if" then evalIf ev (.pair a) env s
      else if sym = "begin" then evalBegin ev env n (s.cdr (.pair a)) s
      else evalCall h n ev (.pair a) env s
    | _ => evalCall h n ev (.pair a) env s
  | _ => .ok form s

/-- The method `Interpreter::evalExpandedForm`, with `fuel` bounding the depth
of the recursion plus the number of jumps to `tailCall`. -/
def evalExpandedForm (h : Host) : Nat → Obj → Nat → Store → Res Obj
  | 0 => fun _ _ _ => .outOfFuel
  | n + 1 => evalStep h n (evalExpandedForm h n)

/-! ### The host stack

`evalExpandedForm` calls itself for the parts of a form that are not in tail
position and jumps to its label `tailCall` for those that are.  The definitions
below are the branches of its body once more, with the two kept apart: `rec`
stands for a call of `evalExpandedForm`, which adds a frame to the host stack,
and `tail` for a `goto tailCall`, which does not. -/

/-- The branch `sym == "if"` of `evalExpandedForm`: the condition is evaluated
by a call, the branch chosen by a jump to `tailCall`. -/
def evalIfT (rec tail : Obj → Nat → Store → Res Obj) (asPair : Obj) (env : Nat) (s : Store) :
    Res Obj :=
  if (s.cdr asPair).getType ≠ .otPair then .error .invalidIfForm s
  else
    let condition := s.car (s.cdr asPair)
    let rest := s.cdr (s.cdr asPair)
    if rest.getType ≠ .otPair then .error .invalidIfForm s
    else
      let thenPart := s.car rest
      let rest2 := s.cdr rest
      if rest2.getType ≠ .otPair then .error .invalidIfForm s
      else
        let elsePart := s.car rest2
        if (s.cdr rest2).getType ≠ .otNull then .error .invalidIfForm s
        else
          (rec condition env s).bind fun conditionValue s1 =>
            tail (if isTrue conditionValue then thenPart else elsePart) env s1

/-- The loop of the branch `sym == "begin"` of `evalExpandedForm`: the last
operand is evaluated by a jump to `tailCall`, the ones before it by calls. -/
def evalBeginT (rec tail : Obj → Nat → Store → Res Obj) (env : Nat) :
    Nat → Obj → Store → Res Obj
  | 0, _, _ => .outOfFuel
  | k + 1, i, s =>
    if i.getType = .otNull then .error .invalidBeginForm s
    else if i.getType ≠ .otPair then .error .dottedBeginForm s
    else if (s.cdr i).getType = .otNull then tail (s.car i) env s
    else (rec (s.car i) env s).bind fun _ s1 => evalBeginT rec tail env k (s1.cdr i) s1

/-- The call of a procedure at the end of `evalExpandedForm`: the head and the
operands are evaluated by calls, a builtin procedure is called, and the body
of a `Lambda` is evaluated by a jump to `tailCall`. -/
def evalCallT (h : Host) (n : Nat) (rec tail : Obj → Nat → Store → Res Obj) (asPair : Obj)
    (env : Nat) (s : Store) : Res Obj :=
  (rec (s.car asPair) env s).bind fun function s1 =>
    (evalParameters rec env n (s1.cdr asPair) [] s1).bind fun parameters s2 =>
      match function with
      | .builtin name arity => call h rec n name arity parameters s2
      | .lambda _ body lenv argumentNames hasRest =>
        (Environment.extendIntoNew s2 lenv argumentNames parameters hasRest).bind
          fun env1 s3 => tail body env1 s3
      | _ =>
        (Res.ofText (Obj.toString h s2 n function) s2).bind fun printed s3 =>
          .error (.notCallable printed) s3

/-- One pass through the body of `evalExpandedForm` from the label `tailCall`
(see `evalStep`), with `rec` for the calls of `evalExpandedForm` and `tail` for
the jumps back to the label. -/
def evalStepT (h : Host) (n : Nat) (rec tail : Obj → Nat → Store → Res Obj) (form : Obj)
    (env : Nat) (s : Store) : Res Obj :=
  match form with
  | .null => .error .emptyList s
  | .vector _ => .error .vectorMustBeQuoted s
  | .symbol name => Environment.get s env name
  | .pair a =>
    match s.car (.pair a) with
    | .symbol sym =>
      if sym = "define" then evalDefine h n rec (.pair a) env s
      else if sym = "set!" then evalSet rec (.pair a) env s
      else if sym = "lambda" then evalLambda h n (.pair a) env s
      else if sym = "quote" then evalQuote (.pair a) s
      else if sym = "if" then evalIfT rec tail (.pair a) env s
      else if sym = "begin" then evalBeginT rec tail env n (s.cdr (.pair a)) s
      else evalCallT h n rec tail (.pair a) env s
    | _ => evalCallT h n rec tail (.pair a) env s
  | _ => .ok form s

/-- One activation of `evalExpandedForm`: at most `jumps` passes from the
label `tailCall`, each but the first reached by a `goto`, with `rec` for the
calls it makes. -/
def evalLoop (h : Host) (rec : Obj → Nat → Store → Res Obj) : Nat → Obj → Nat → Store → Res Obj
  | 0 => fun _ _ _ => .outOfFuel
  | k + 1 => evalStepT h k rec (evalLoop h rec k)

/-- The method `Interpreter::evalExpandedForm` run with room for `depth`
activations of itself on the host stack, each of them making at most `jumps`
passes; there is no outcome when either bound is reached. -/
def evalAtDepth (h : Host) : Nat → Nat → Obj → Nat → Store → Res Obj
  | 0, _ => fun _ _ _ => .outOfFuel
  | depth + 1, jumps => evalLoop h (evalAtDepth h depth jumps) jumps

/-! ### Macros

The member `_macros`, a `map<string, Lambda*>`, is an association list from
the names to the `Lambda` objects; the member `_global` is the frame at the
address `Interpreter.global`. -/

/-- The address of the member `_global`, the first frame constructed. -/
def Interpreter.global : Nat := 0

/-- The assignment `((Pair*)o)->_car = value`, also made through a pointer to
the field `_car`. -/
def Store.setCar (s : Store) (o value : Obj) : Store :=
  match o with
  | .pair a => { s with pairs := s.pairs.set a (value, (s.pairs.getD a (.null, .null)).2) }
  | _ => s

/-- What a call `expandMacros(obj)` has done when it returns: `no` when it
returns false; `replaced v` when it returns true after the assignment
`*obj = v`; `inside` when it returns true because a call for an element
returned true, `*obj` being the pointer it was. -/
inductive Expanded where
  | no
  | inside
  | replaced (value : Obj)
  deriving DecidableEq, Repr

/-- The loop `for (i = *obj; i->getType() == otPair; i = i->_cdr)
if (expandMacros(&i->_car)) return true;` of `expandMacros`, from the cell `i`
on: `em` is `expandMacros`, and a replacement it reports is written to the
field `_car` of the cell. -/
def expandElements (em : Obj → Store → Res Expanded) : Nat → Obj → Store → Res Bool
  | 0, _, _ => .outOfFuel
  | k + 1, i, s =>
    if i.getType = .otPair then
      (em (s.car i) s).bind fun r s1 =>
        match r with
        | .no => expandElements em k (s1.cdr i) s1
        | .inside => .ok true s1
        | .replaced v => .ok true (s1.setCar i v)
    else .ok false s

/-- The body of the method `Interpreter::expandMacros` for the value `obj` of
`*obj`; `em` is `expandMacros` for the calls it makes and `n` the fuel of the
loops and of the evaluation.  The table holds nothing but `Lambda` objects,
`handleMacros` storing what `evalLambda` returns; for another object there is
no outcome. -/
def expandStep (h : Host) (macros : List (String × Obj)) (em : Obj → Store → Res Expanded)
    (n : Nat) (obj : Obj) (s : Store) : Res Expanded :=
  if obj.getType ≠ .otPair then .ok .no s
  else if s.car obj = .symbol "quote" then .ok .no s
  else
    (expandElements em n obj s).bind fun found s1 =>
      if found then .ok .inside s1
      else
        match s1.car obj with
        | .symbol sym =>
          match mapFind macros sym with
          | none => .ok .no s1
          | some l =>
            match applyParams s1 n (s1.cdr obj) [] with
            | none => .outOfFuel
            | some params =>
              match l with
              | .lambda _ body lenv argumentNames hasRest =>
                (Environment.extendIntoNew s1 lenv argumentNames params hasRest).bind
                  fun expandEnv s2 =>
                    (evalExpandedForm h n body expandEnv s2).bind fun v s3 =>
                      .ok (.replaced v) s3
              | _ => .outOfFuel
        | _ => .ok .no s1

/-- The method `Interpreter::expandMacros`, with `fuel` bounding the depth of
its recursion, its loops and the evaluation of the body of the macro. -/
def expandMacros (h : Host) (macros : List (String × Obj)) : Nat → Obj → Store → Res Expanded
  | 0 => fun _ _ => .outOfFuel
  | n + 1 => expandStep h macros (expandMacros h macros n) n

/-- The loop `for (;;) if (!expandMacros(obj)) break;` of `handleMacros`: the
result is the value of `*obj` when the loop ends. -/
def expandAll (h : Host) (macros : List (String × Obj)) : Nat → Obj → Store → Res Obj
  | 0, _, _ => .outOfFuel
  | k + 1, obj, s =>
    (expandMacros h macros k obj s).bind fun r s1 =>
      match r with
      | .no => .ok obj s1
      | .inside => expandAll h macros k obj s1
      | .replaced v => expandAll h macros k v s1

/-- The message "Invalid defmacro form: Expected (defmacro name (parameters)
form ...)". -/
def defmacroExpected : Err :=
  .other "Invalid defmacro form: Expected (defmacro name (parameters) form ...)"

/-- The message "Invalid defmacro form: Name must be a symbol". -/
def defmacroName : Err :=
  .other "Invalid defmacro form: Name must be a symbol"

/-- The message "Invalid defmacro form". -/
def defmacroInvalid : Err :=
  .other "Invalid defmacro form"

/-- What `handleMacros(obj)` leaves when it returns: the value of `*obj` and
the table `_macros`.  After the loop the method casts `*obj` to `Pair*` and
reads its field `_car` without a test of the type: when the expansion has left
an object that is not a Pair, `notAPair` tells so, what the program does then
being undefined. -/
inductive Handled where
  | done (form : Obj) (macros : List (String × Obj))
  | notAPair (form : Obj)
  deriving DecidableEq, Repr

/-- The method `Interpreter::handleMacros` for the value `obj` of `*obj`. -/
def handleMacros (h : Host) (n : Nat) (macros : List (String × Obj)) (obj : Obj) (s : Store) :
    Res Handled :=
  if obj.getType ≠ .otPair then .ok (.done obj macros) s
  else
    (expandAll h macros n obj s).bind fun o s1 =>
      match o with
      | .pair a =>
        match s1.car (.pair a) with
        | .symbol sym =>
          if sym ≠ "defmacro" then .ok (.done o macros) s1
          else if (s1.cdr o).getType ≠ .otPair then .error defmacroExpected s1
          else
            match s1.car (s1.cdr o) with
            | .symbol name =>
              if (s1.cdr (s1.cdr o)).getType ≠ .otPair then .error defmacroInvalid s1
              else
                (evalLambda h n (s1.cdr o) Interpreter.global s1).bind fun l s2 =>
                  .ok (.done (.boolean true) (mapAssign macros name l)) s2
            | _ => .error defmacroName s1
        | _ => .ok (.done o macros) s1
      | _ => .ok (.notAPair o) s1

/-- The method `Interpreter::handleMacros` of `minscm.cpp`, the older of the
two files, for the value `obj` of `*obj`: it looks for `defmacro` first, with
the statements `bootstrap.cpp` has, and expands only the other forms whose
head is a Symbol.  `expand` is its loop `for (;;) if (!expandMacros(obj))
break;`, which runs the evaluator of that file. -/
def Minscm.handleMacros (h : Host) (n : Nat) (expand : Obj → Store → Res Obj)
    (macros : List (String × Obj)) (obj : Obj) (s : Store) : Res Handled :=
  if obj.getType ≠ .otPair then .ok (.done obj macros) s
  else
    match s.car obj with
    | .symbol sym =>
      if sym = "defmacro" then
        if (s.cdr obj).getType ≠ .otPair then .error defmacroExpected s
        else
          match s.car (s.cdr obj) with
          | .symbol name =>
            if (s.cdr (s.cdr obj)).getType ≠ .otPair then .error defmacroInvalid s
            else
              (evalLambda h n (s.cdr obj) Interpreter.global s).bind fun l s2 =>
                .ok (.done (.boolean true) (mapAssign macros name l)) s2
          | _ => .error defmacroName s
      else (expand obj s).bind fun o s1 => .ok (.done o macros) s1
    | _ => .ok (.done obj macros) s

/-! ## class Symbol

In the rest of the model a Symbol pointer is written `Obj.symbol name`: the
Symbol object is identified by its name.  The definitions below are the class
itself, with the Symbol objects as records at addresses, which is what makes
that identification right. -/

/-- The Symbol objects constructed so far, each with its `_value`, addressed by
their index, and the static `map<string, Symbol*> cache`, kept as an
association list with unique keys. -/
structure SymbolTable where
  symbols : List String
  cache : List (String × Nat)
  deriving DecidableEq, Repr

/-- The pointer stored in the cache under `key`, if `count(key)` is not zero. -/
def cacheFind : List (String × Nat) → String → Option Nat
  | [], _ => none
  | (k, v) :: m, key => if k = key then some v else cacheFind m key

/-- The assignment `cache[key] = value`. -/
def cacheAssign : List (String × Nat) → String → Nat → List (String × Nat)
  | [], key, value => [(key, value)]
  | (k, v) :: m, key, value =>
    if k = key then (k, value) :: m else (k, v) :: cacheAssign m key value

/-- The static method `Symbol::fromString`: the pointer returned and the
table after the call. -/
def Symbol.fromString (t : SymbolTable) (value : String) : Nat × SymbolTable :=
  let t1 : SymbolTable :=
    if (cacheFind t.cache value).isNone then
      { symbols := t.symbols ++ [value], cache := cacheAssign t.cache value t.symbols.length }
    else t
  ((cacheFind t1.cache value).getD 0, t1)

/-- The `isspace` of the C locale. -/
def isspace (c : Char) : Bool :=
  c.toNat == 32 || (9 ≤ c.toNat && c.toNat ≤ 13)

/-- The `isalpha` of the C locale. -/
def isalpha (c : Char) : Bool :=
  (65 ≤ c.toNat && c.toNat ≤ 90) || (97 ≤ c.toNat && c.toNat ≤ 122)

/-- The test `'0' <= c && c <= '9'`. -/
def isDecimalDigit (c : Char) : Bool :=
  48 ≤ c.toNat && c.toNat ≤ 57

/-- The value of a byte held in a `char` (signed, 8 bits) once converted to
`int`. -/
def signedChar (c : Char) : Int :=
  if c.toNat % 256 < 128 then (c.toNat % 256 : Nat) else ((c.toNat % 256 : Nat) : Int) - 256

/-- The message "Unexpected end of input stream" of `assertNotEof` and `read`. -/
def Reader.unexpectedEnd : Err :=
  .other "Unexpected end of input stream"

/-- The message "Read error: Invalid dotted list". -/
def Reader.invalidDottedList : Err :=
  .other "Read error: Invalid dotted list"

/-- The message "Read error: Dot is invalid inside a vector literal". -/
def Reader.dotInVector : Err :=
  .other "Read error: Dot is invalid inside a vector literal"

/-- The message "Read error: Invalid character name: " followed by a backslash
and the name. -/
def Reader.invalidCharacterName (name : List Char) : Err :=
  .other ("Read error: Invalid character name: " ++ String.mk (Char.ofNat 92 :: name))

/-- The members `dot` and `listEnd` of the reader: the interned symbols `.`
and `)`. -/
def Reader.dot : Obj := .symbol "."

/-- See `Reader.dot`. -/
def Reader.listEnd : Obj := .symbol ")"

/-- The method `skipWhitespace`. -/
def Reader.skipWhitespace (input : List Char) : List Char :=
  input.dropWhile isspace

/-- The method `skipComment`: up to the next newline, which is left. -/
def Reader.skipComment (input : List Char) : List Char :=
  input.dropWhile fun c => c != Char.ofNat 10

/-- The condition `peekChar() != ')' && !isspace(peekChar())` under which the
loops of `readSymbolOrNumber` and `readCharacter` go on reading. -/
def Reader.tokenChar (c : Char) : Bool :=
  c != ')' && !isspace c

/-- The value of the digit `c` in the base `base`, if it is one. -/
def digitValue (base : Nat) (c : Char) : Option Nat :=
  let v :=
    if isDecimalDigit c then c.toNat - 48
    else if 97 ≤ c.toNat && c.toNat ≤ 102 then c.toNat - 87
    else if 65 ≤ c.toNat && c.toNat ≤ 70 then c.toNat - 55
    else base
  if v < base then some v else none

/-- The digits at the head of `chars`, most significant first, as a number. -/
def digitsValue (base : Nat) : List Char → Nat → Nat
  | [], acc => acc
  | c :: cs, acc =>
    match digitValue base c with
    | some v => digitsValue base cs (base * acc + v)
    | none => acc

/-- The extraction `sb >> lValue` of a `long` (64 bits) from a stream that
holds `chars`, in base 10 or, after `sb << hex`, 16: leading white space, a
sign, for base 16 a prefix `0x`, then digits; it fails when there is no digit
and when the number does not fit a `long`. -/
def extractLong (base : Nat) (chars : List Char) : Option Int :=
  let cs := chars.dropWhile isspace
  let negative := cs.head? = some '-'
  let cs := if cs.head? = some '-' || cs.head? = some '+' then cs.tail else cs
  let cs :=
    if base = 16 && cs.head? = some '0' && (cs.tail.head? = some 'x' || cs.tail.head? = some 'X')
        && ((cs.tail.tail.head?.bind (digitValue 16)).isSome) then cs.tail.tail
    else cs
  if ((cs.head?.bind (digitValue base)).isSome) then
    let v : Int := digitsValue base cs 0
    if negative then
      (if v ≤ 9223372036854775808 then some (-v) else none)
    else
      (if v ≤ 9223372036854775807 then some v else none)
  else none

/-- The extraction `sb >> dValue` of a `double` from a stream that holds
`chars`, a token made of decimal digits and at most one period: it succeeds
when there is a digit; `strtod` gives the bits of the double the text stands
for. -/
def extractDouble (strtod : List Char → Nat) (chars : List Char) : Option Nat :=
  if chars.any isDecimalDigit then some (strtod chars) else none

/-- The method `readSymbolOrNumber(init)`.  A failed extraction of a `long`
from a token of digits has read the token to its end, so the extraction of a
`double` that follows finds nothing. -/
def Reader.readSymbolOrNumber (strtod : List Char → Nat) (init : List Char) (input : List Char)
    (s : Store) : Res (Obj × List Char) :=
  if init = [] ∧ input = [] then .error Reader.unexpectedEnd s
  else if init = [] ∧ input.head? = some ')' then .ok (Reader.listEnd, input.tail) s
  else
    let symbol := init ++ input.takeWhile Reader.tokenChar
    let rest := input.dropWhile Reader.tokenChar
    if symbol = ['#', 't'] then .ok (.boolean true, rest) s
    else if symbol = ['#', 'f'] then .ok (.boolean false, rest) s
    else
      let periods := symbol.count '.'
      let digitsAndPeriodsOnly := symbol.all fun c => c == '.' || isDecimalDigit c
      match (if periods = 0 ∧ digitsAndPeriodsOnly = true then extractLong 10 symbol else none) with
      | some lValue => .ok (.fixnum lValue, rest) s
      | none =>
        let left := if periods = 0 ∧ digitsAndPeriodsOnly = true then [] else symbol
        match (if periods < 2 ∧ digitsAndPeriodsOnly = true then extractDouble strtod left
               else none) with
        | some dValue => .ok (.flonum dValue, rest) s
        | none =>
          match (if symbol.take 2 = ['#', 'x'] then extractLong 16 symbol else none) with
          | some lValue => .ok (.fixnum lValue, rest) s
          | none => .ok (.symbol (String.mk symbol), rest) s

/-- The replacement of `c` after a backslash in `readString`. -/
def Reader.unescape (c : Char) : Char :=
  if c = 'n' then Char.ofNat 10
  else if c = 'r' then Char.ofNat 13
  else if c = 't' then Char.ofNat 9
  else c

/-- The loop of `readString` after the opening quote, with the characters `sb`
collected so far, and the `new String(sb)` that ends it. -/
def Reader.readStringLoop : List Char → List Int → Store → Res (Obj × List Char)
  | [], _, s => .error Reader.unexpectedEnd s
  | c :: cs, sb, s =>
    if c = Char.ofNat 34 then
      .ok (.string s.strings.length, cs) { s with strings := s.strings ++ [sb] }
    else if c = Char.ofNat 92 then
      match cs with
      | [] => .error Reader.unexpectedEnd s
      | d :: ds => Reader.readStringLoop ds (sb ++ [signedChar (Reader.unescape d)]) s
    else Reader.readStringLoop cs (sb ++ [signedChar c]) s

/-- The method `readCharacter`, after the two characters of the prefix. -/
def Reader.readCharacter (input : List Char) (s : Store) : Res (Obj × List Char) :=
  match input with
  | [] => .error Reader.unexpectedEnd s
  | c :: cs =>
    if !isalpha c then .ok (.char (signedChar c), cs) s
    else
      let name := c :: cs.takeWhile Reader.tokenChar
      let rest := cs.dropWhile Reader.tokenChar
      if name = "newline".toList then .ok (.char 10, rest) s
      else if name = "cr".toList then .ok (.char 13, rest) s
      else if name = "tab".toList then .ok (.char 9, rest) s
      else if name = "space".toList then .ok (.char 32, rest) s
      else if name.length = 1 then .ok (.char (signedChar c), rest) s
      else .error (Reader.invalidCharacterName name) s

/-- The assignment `((Pair*)o)->_cdr = value`. -/
def Store.setCdr (s : Store) (o value : Obj) : Store :=
  match o with
  | .pair a => { s with pairs := s.pairs.set a ((s.pairs.getD a (.null, .null)).1, value) }
  | _ => s

/-- The end of the body of the loop of `readList`: a new pair for the element
`o` is linked behind `current`; the result is the new `ret`, the new `current`
and the new store. -/
def Reader.appendCell (s : Store) (ret current o : Obj) : Obj × Obj × Store :=
  if current.getType = .otNull then
    ((s.newPair o .null).1, (s.newPair o .null).1, (s.newPair o .null).2)
  else
    (ret, (s.newPair o .null).1, (s.newPair o .null).2.setCdr current (s.newPair o .null).1)

/-- The loop of `readList`, `rd` being `read`. -/
def Reader.readListLoop (rd : Bool → List Char → Store → Res (Obj × List Char)) :
    Nat → Obj → Obj → List Char → Store → Res (Obj × List Char)
  | 0, _, _, _, _ => .outOfFuel
  | k + 1, ret, current, input, s =>
    (rd true input s).bind fun r s1 =>
      if r.1 = Reader.listEnd then .ok (ret, r.2) s1
      else if r.1 = Reader.dot then
        if current.getType = .otNull then .error Reader.invalidDottedList s1
        else
          (rd true r.2 s1).bind fun r2 s2 =>
            (rd true r2.2 (s2.setCdr current r2.1)).bind fun r3 s3 =>
              if r3.1 ≠ Reader.listEnd then .error Reader.invalidDottedList s3
              else .ok (ret, r3.2) s3
      else
        Reader.readListLoop rd k (Reader.appendCell s1 ret current r.1).1
          (Reader.appendCell s1 ret current r.1).2.1 r.2
          (Reader.appendCell s1 ret current r.1).2.2

/-- The loop of `readVector`, with the elements `ret` read so far. -/
def Reader.readVectorLoop (rd : Bool → List Char → Store → Res (Obj × List Char)) :
    Nat → List Obj → List Char → Store → Res (Obj × List Char)
  | 0, _, _, _ => .outOfFuel
  | k + 1, ret, input, s =>
    (rd true input s).bind fun r s1 =>
      if r.1 = Reader.listEnd then
        .ok (.vector s1.vectors.length, r.2) { s1 with vectors := s1.vectors ++ [ret] }
      else if r.1 = Reader.dot then .error Reader.dotInVector s1
      else Reader.readVectorLoop rd k (ret ++ [r.1]) r.2 s1

/-- The method `readSpecial`, the `#` being the head of its input. -/
def Reader.readSpecial (strtod : List Char → Nat)
    (rd : Bool → List Char → Store → Res (Obj × List Char)) (n : Nat) (input : List Char)
    (s : Store) : Res (Obj × List Char) :=
  match input.tail with
  | [] => .error Reader.unexpectedEnd s
  | c :: cs =>
    if c = '(' then Reader.readVectorLoop rd n [] cs s
    else if c ≠ Char.ofNat 92 then Reader.readSymbolOrNumber strtod ['#'] (c :: cs) s
    else Reader.readCharacter cs s

/-- The wrapping `new Pair(Symbol::fromString(name), new Pair(x, Null))` of
the three quote abbreviations. -/
def Reader.wrap (name : String) (r : Obj × List Char) (s : Store) : Res (Obj × List Char) :=
  .ok (((s.newPair r.1 .null).2.newPair (.symbol name) (s.newPair r.1 .null).1).1, r.2)
    ((s.newPair r.1 .null).2.newPair (.symbol name) (s.newPair r.1 .null).1).2

/-- The body of the method `read(throwOnEof)`, `rd` being `read` for the calls
it makes and `n` the fuel of the loops. -/
def Reader.readStep (strtod : List Char → Nat)
    (rd : Bool → List Char → Store → Res (Obj × List Char)) (n : Nat) (throwOnEof : Bool)
    (input : List Char) (s : Store) : Res (Obj × List Char) :=
  match Reader.skipWhitespace input with
  | [] => if throwOnEof then .error Reader.unexpectedEnd s else .ok (.eof, []) s
  | c :: cs =>
    if c = ';' then rd throwOnEof (Reader.skipComment (c :: cs)) s
    else if c = Char.ofNat 39 then (rd true cs s).bind (Reader.wrap "quote")
    else if c = Char.ofNat 96 then (rd true cs s).bind (Reader.wrap "quasiquote")
    else if c = ',' then (rd true cs s).bind (Reader.wrap "unquote")
    else if c = '(' then Reader.readListLoop rd n .null .null cs s
    else if c = Char.ofNat 34 then Reader.readStringLoop cs [] s
    else if c = '#' then Reader.readSpecial strtod rd n (c :: cs) s
    else Reader.readSymbolOrNumber strtod [] (c :: cs) s

/-- The method `Reader::read(throwOnEof)` on the input `input`: the value read
and the input left; `strtod` converts the text of a double and `fuel` bounds
the nesting of the calls. -/
def Reader.read (strtod : List Char → Nat) :
    Nat → Bool → List Char → Store → Res (Obj × List Char)
  | 0 => fun _ _ _ => .outOfFuel
  | n + 1 => Reader.readStep strtod (Reader.read strtod n) n

/-! ### The reader of `minscm.cpp`

The class `Reader` of `minscm.cpp` has the text of that of `bootstrap.cpp`
but for two places: `read` has no case for the backquote and the comma, and
`readSymbolOrNumber` tries the extractions on every token. -/

/-- What is left in the stream after `sb >> lValue` has failed on `chars`: the
extraction has read a sign and the digits that follow it. -/
def Minscm.afterLong (chars : List Char) : List Char :=
  (if chars.head? = some '-' ∨ chars.head? = some '+' then chars.tail
   else chars).dropWhile isDecimalDigit

/-- The extraction `sb >> dValue` of a `double` from a stream that holds
`chars`, which begin with no white space: the characters taken are a sign,
digits, a period, digits and, after a digit, an exponent (the letter `e`, a
sign, digits); the extraction fails when they hold no digit before the
exponent or none in it, and gives what `strtod` makes of them otherwise. -/
def Minscm.extractDouble (strtod : List Char → Nat) (chars : List Char) : Option Nat :=
  let sign := if chars.head? = some '-' ∨ chars.head? = some '+' then chars.take 1 else []
  let r1 := chars.drop sign.length
  let d1 := r1.takeWhile isDecimalDigit
  let r2 := r1.dropWhile isDecimalDigit
  let point := if r2.head? = some '.' then ['.'] else []
  let r3 := r2.drop point.length
  let d2 := r3.takeWhile isDecimalDigit
  let r4 := r3.dropWhile isDecimalDigit
  if d1 = [] ∧ d2 = [] then none
  else
    let e := if r4.head? = some 'e' ∨ r4.head? = some 'E' then r4.take 1 else []
    let r5 := r4.drop e.length
    let esign :=
      if e ≠ [] ∧ (r5.head? = some '-' ∨ r5.head? = some '+') then r5.take 1 else []
    let d3 := if e = [] then [] else (r5.drop esign.length).takeWhile isDecimalDigit
    if e ≠ [] ∧ d3 = [] then none
    else some (strtod (sign ++ d1 ++ point ++ d2 ++ e ++ esign ++ d3))

/-- The method `readSymbolOrNumber(init)` of `minscm.cpp`. -/
def Minscm.Reader.readSymbolOrNumber (strtod : List Char → Nat) (init : List Char)
    (input : List Char) (s : Store) : Res (Obj × List Char) :=
  if init = [] ∧ input = [] then .error Reader.unexpectedEnd s
  else if init = [] ∧ input.head? = some ')' then .ok (Reader.listEnd, input.tail) s
  else
    let symbol := init ++ input.takeWhile Reader.tokenChar
    let rest := input.dropWhile Reader.tokenChar
    if symbol = ['#', 't'] then .ok (.boolean true, rest) s
    else if symbol = ['#', 'f'] then .ok (.boolean false, rest) s
    else
      let hasPeriod := symbol.contains '.'
      match (if hasPeriod = false then extractLong 10 symbol else none) with
      | some lValue => .ok (.fixnum lValue, rest) s
      | none =>
        let left := if hasPeriod = false then Minscm.afterLong symbol else symbol
        match Minscm.extractDouble strtod left with
        | some dValue => .ok (.flonum dValue, rest) s
        | none =>
          match (if symbol.take 2 = ['#', 'x'] then extractLong 16 symbol else none) with
          | some lValue => .ok (.fixnum lValue, rest) s
          | none => .ok (.symbol (String.mk symbol), rest) s

/-- The method `readSpecial` of `minscm.cpp`. -/
def Minscm.Reader.readSpecial (strtod : List Char → Nat)
    (rd : Bool → List Char → Store → Res (Obj × List Char)) (n : Nat) (input : List Char)
    (s : Store) : Res (Obj × List Char) :=
  match input.tail with
  | [] => .error Reader.unexpectedEnd s
  | c :: cs =>
    if c = '(' then Reader.readVectorLoop rd n [] cs s
    else if c ≠ Char.ofNat 92 then Minscm.Reader.readSymbolOrNumber strtod ['#'] (c :: cs) s
    else Reader.readCharacter cs s

/-- The body of the method `read(throwOnEof)` of `minscm.cpp`. -/
def Minscm.Reader.readStep (strtod : List Char → Nat)
    (rd : Bool → List Char → Store → Res (Obj × List Char)) (n : Nat) (throwOnEof : Bool)
    (input : List Char) (s : Store) : Res (Obj × List Char) :=
  match Reader.skipWhitespace input with
  | [] => if throwOnEof then .error Reader.unexpectedEnd s else .ok (.eof, []) s
  | c :: cs =>
    if c = ';' then rd throwOnEof (Reader.skipComment (c :: cs)) s
    else if c = Char.ofNat 39 then (rd true cs s).bind (Reader.wrap "quote")
    else if c = '(' then Reader.readListLoop rd n .null .null cs s
    else if c = Char.ofNat 34 then Reader.readStringLoop cs [] s
    else if c = '#' then Minscm.Reader.readSpecial strtod rd n (c :: cs) s
    else Minscm.Reader.readSymbolOrNumber strtod [] (c :: cs) s

/-- The method `Reader::read(throwOnEof)` of `minscm.cpp`. -/
def Minscm.Reader.read (strtod : List Char → Nat) :
    Nat → Bool → List Char → Store → Res (Obj × List Char)
  | 0 => fun _ _ _ => .outOfFuel
  | n + 1 => Minscm.Reader.readStep strtod (Minscm.Reader.read strtod n) n

/-! ### Native functions on pairs -/

/-- The function `setCar`, the native function of the builtin `set-car!`. -/
def setCar (o newCar : Obj) (s : Store) : Res Obj :=
  if o.getType ≠ .otPair then .error (.invalidArgumentType "set-car!") s
  else .ok (.symbol "undefined") (s.setCar o newCar)

/-- The function `setCdr` of `bootstrap.cpp`, the native function of the
builtin `set-cdr!`. -/
def setCdr (o newCdr : Obj) (s : Store) : Res Obj :=
  if o.getType ≠ .otPair then .error (.invalidArgumentType "set-cdr!") s
  else .ok (.symbol "undefined") (s.setCdr o newCdr)

/-- The function `car`, the native function of the builtin `car`. -/
def car (o : Obj) (s : Store) : Res Obj :=
  if o.getType ≠ .otPair then .error (.invalidArgumentType "car") s
  else .ok (s.car o) s

/-- The function `cdr`, the native function of the builtin `cdr`. -/
def cdr (o : Obj) (s : Store) : Res Obj :=
  if o.getType ≠ .otPair then .error (.invalidArgumentType "cdr") s
  else .ok (s.cdr o) s

/-- The function `setCdr` of `minscm.cpp`: its assignment is
`((Pair*)o)->_car = newCdr`. -/
def Minscm.setCdr (o newCdr : Obj) (s : Store) : Res Obj :=
  if o.getType ≠ .otPair then .error (.invalidArgumentType "set-cdr!") s
  else .ok (.symbol "undefined") (s.setCar o newCdr)

/-- The method `Pair::isDottedList` from the cell `i` on; `none` when the fuel
does not suffice. -/
def Pair.isDottedList (s : Store) : Nat → Obj → Option Bool
  | 0, _ => none
  | k + 1, i =>
    if i.getType = .otPair then Pair.isDottedList s k (s.cdr i)
    else some (decide (i.getType ≠ .otNull))

/-! ### Native functions on integers -/

/-- The conversion of a `long` to `int`, 32 bits wide: the value that differs
from `v` by a multiple of 2^32 and lies in the range of `int`. -/
def toInt (v : Int) : Int :=
  (v + 2147483648) % 4294967296 - 2147483648

/-- The function `getFix`, whose return type is `int`. -/
def getFix (procedure : String) (o : Obj) (s : Store) : Res Int :=
  match o with
  | .fixnum v => .ok (toInt v) s
  | _ => .error (.invalidArgumentType procedure) s

/-- The object `new Fixnum(v)` for the result `v` of an operation on two `int`
values; the operation has no defined result when `v` is not in the range of
`int`. -/
def newFixnumOfInt (v : Int) (s : Store) : Res Obj :=
  if -2147483648 ≤ v ∧ v ≤ 2147483647 then .ok (.fixnum v) s else .outOfFuel

/-- The function `fixPlus`, the native function of the builtin `fix+`. -/
def fixPlus (o1 o2 : Obj) (s : Store) : Res Obj :=
  (getFix "fix+" o1 s).bind fun a s1 =>
    (getFix "fix+" o2 s1).bind fun b s2 => newFixnumOfInt (a + b) s2

/-- The function `fixMinus`, the native function of the builtin `fix-`. -/
def fixMinus (o1 o2 : Obj) (s : Store) : Res Obj :=
  (getFix "fix-" o1 s).bind fun a s1 =>
    (getFix "fix-" o2 s1).bind fun b s2 => newFixnumOfInt (a - b) s2

/-- The function `fixMult`, the native function of the builtin `fix*`. -/
def fixMult (o1 o2 : Obj) (s : Store) : Res Obj :=
  (getFix "fix*" o1 s).bind fun a s1 =>
    (getFix "fix*" o2 s1).bind fun b s2 => newFixnumOfInt (a * b) s2

/-! ## The heap of `memory.h`

`structures.h` gives the records of the heap and `memory.h` declares the
functions on them; the file that defines these functions is not among the
sources, so `gc` is modelled from the specification. -/

/-- The fields behind the header of a record: the positions `car` and `cdr`
of a `struct Pair`, or the `bytes` bytes of a record of another type that
holds no position (`struct Fixnum`, `struct Flonum`, `struct Char`,
`struct Null`, ...). -/
inductive Fields where
  | pair (car cdr : Nat)
  | other (type : Nat) (bytes : Nat)
  deriving DecidableEq, Repr

/-- A record of the heap: the header `struct Object`, with the flags L (live)
and K (keep alive) of `type_and_gc_flags` and the field `gc_target_position`,
and the fields behind it. -/
structure Record where
  live : Bool
  keepAlive : Bool
  gcTargetPosition : Nat
  fields : Fields
  deriving DecidableEq, Repr

/-- The size of a record in bytes: 8 for `struct Object` (the byte of the
flags, aligned, and a position of 32 bits) and 4 for each position of a
`struct Pair`. -/
def Record.size (r : Record) : Nat :=
  match r.fields with
  | .pair _ _ => 16
  | .other _ bytes => 8 + bytes

/-- The record that begins at the position `p` of the heap, the records lying
one behind the other from the position 0 on. -/
def Heap.recordAt : List Record → Nat → Option Record
  | [], _ => none
  | r :: rs, p =>
    if p = 0 then some r
    else if p < r.size then none
    else Heap.recordAt rs (p - r.size)

/-- The positions a record refers to. -/
def Heap.refs (r : Record) : List Nat :=
  match r.fields with
  | .pair car cdr => [car, cdr]
  | .other _ _ => []

/-- The heap with the live flag of the record at the position `p` set. -/
def Heap.setLive : List Record → Nat → List Record
  | [], _ => []
  | r :: rs, p =>
    if p = 0 then { r with live := true } :: rs
    else if p < r.size then r :: rs
    else r :: Heap.setLive rs (p - r.size)

/-- Modelled from the spec: the mark phase, which traverses depth first from
the positions of `stack` and sets the live flag of each record it reaches,
once; a record whose flag is set is not entered again.  `none` when the fuel
does not suffice. -/
def Heap.mark : Nat → List Nat → List Record → Option (List Record)
  | 0, _, _ => none
  | _ + 1, [], heap => some heap
  | fuel + 1, p :: stack, heap =>
    match Heap.recordAt heap p with
    | none => Heap.mark fuel stack heap
    | some r =>
      if r.live then Heap.mark fuel stack heap
      else Heap.mark fuel (Heap.refs r ++ stack) (Heap.setLive heap p)

/-- Modelled from the spec: the positions of the records whose keep-alive flag
is set, which belong to the root set; `p` is the position of the first record
of the list. -/
def Heap.pinned : List Record → Nat → List Nat
  | [], _ => []
  | r :: rs, p => (if r.keepAlive then [p] else []) ++ Heap.pinned rs (p + r.size)

/-- Modelled from the spec: the plan phase, which scans the heap in address
order and gives each live record, as target position, the total `total` of the
bytes of the live records before it. -/
def Heap.plan : List Record → Nat → List Record
  | [], _ => []
  | r :: rs, total =>
    if r.live then { r with gcTargetPosition := total } :: Heap.plan rs (total + r.size)
    else r :: Heap.plan rs total

/-- Modelled from the spec: the target position recorded in the record at the
position `p`. -/
def Heap.forward (heap : List Record) (p : Nat) : Nat :=
  match Heap.recordAt heap p with
  | some r => r.gcTargetPosition
  | none => p

/-- Modelled from the spec: a record as the compact phase leaves it, with
every position in it replaced by the target of the record it refers to and
with the two flags cleared. -/
def Heap.move (fwd : Nat → Nat) (r : Record) : Record :=
  { live := false, keepAlive := false, gcTargetPosition := r.gcTargetPosition,
    fields :=
      match r.fields with
      | .pair car cdr => .pair (fwd car) (fwd cdr)
      | .other type bytes => .other type bytes }

/-- Modelled from the spec: the compact phase, which moves the live records,
in address order, one behind the other from the position 0 on. -/
def Heap.compact (fwd : Nat → Nat) (heap : List Record) : List Record :=
  (heap.filter fun r => r.live).map (Heap.move fwd)

/-- The bytes the records of the heap take: the high-water mark of the
allocation. -/
def Heap.bytes (heap : List Record) : Nat :=
  (heap.map Record.size).sum

/-- Modelled from the spec: `gc()`, for the root set `roots` of the evaluator:
mark from the roots and the records kept alive, plan, compact; the result is
the root set with its positions replaced and the new heap. -/
def Heap.gc (roots : List Nat) (heap : List Record) : Option (List Nat × List Record) :=
  match Heap.mark (3 * heap.length + (roots ++ Heap.pinned heap 0).length + 1)
      (roots ++ Heap.pinned heap 0) heap with
  | none => none
  | some marked =>
    some (roots.map (Heap.forward (Heap.plan marked 0)),
      Heap.compact (Heap.forward (Heap.plan marked 0)) (Heap.plan marked 0))

/-! ## Notions used to state the properties -/

/-- The seven reserved names. -/
def keywords : List String :=
  ["if", "define", "defmacro", "set!", "lambda", "quote", "begin"]

/-- The binding of `name` in the frame at address `f`, if there is one. -/
def Store.lookup (s : Store) (f : Nat) (name : String) : Option Obj :=
  mapFind (s.frame f).data name

/-- The frames from `f` outward, following at most `fuel` links. -/
def Store.chainFrom (s : Store) : Nat → Nat → List Nat
  | fuel, f =>
    f :: (match (s.frame f).outer with
      | some o =>
        match fuel with
        | 0 => []
        | k + 1 => Store.chainFrom s k o
      | none => [])

/-- The chain of frames from `f` outward to the root. -/
def Store.chain (s : Store) (f : Nat) : List Nat :=
  Store.chainFrom s f f

/-- Every frame was constructed after its parent: each link `_outer` goes to a
smaller address. -/
def Store.Ordered (s : Store) : Prop :=
  ∀ f, f < s.frames.length → ((s.frame f).outer.all fun o => decide (o < f)) = true

instance (s : Store) : Decidable s.Ordered := by
  unfold Store.Ordered; infer_instance

/-- The object `o` is, in the store `s`, a proper list of allocated pairs
whose elements are `xs`. -/
def Store.isList (s : Store) : Obj → List Obj → Bool
  | .null, [] => true
  | .pair a, x :: xs =>
    decide (a < s.pairs.length) && decide (s.car (.pair a) = x) &&
      Store.isList s (s.cdr (.pair a)) xs
  | _, _ => false

/-- Reading the cells from `o` on gives the elements `xs` and then Null. -/
def Store.elementsAre (s : Store) : Obj → List Obj → Bool
  | o, [] => decide (o = .null)
  | o, x :: xs =>
    decide (o.getType = .otPair) && decide (s.car o = x) && Store.elementsAre s (s.cdr o) xs

/-- Reading the cells from `o` on gives the elements `xs` and then the object
`tail` (a dotted list when `tail` is not Null). -/
def Store.elementsEndIn (s : Store) : Obj → List Obj → Obj → Bool
  | o, [], tail => decide (o = tail)
  | o, x :: xs, tail =>
    decide (o.getType = .otPair) && decide (s.car o = x) &&
      Store.elementsEndIn s (s.cdr o) xs tail

/-- The input holds only white space and comments (a `;` and what follows it
up to the end of the line); `inComment` tells that a comment is open at the
head of the input. -/
def Reader.blankFrom : Bool → List Char → Bool
  | _, [] => true
  | inComment, c :: cs =>
    if inComment then Reader.blankFrom (c != Char.ofNat 10) cs
    else if c = ';' then Reader.blankFrom true cs
    else isspace c && Reader.blankFrom false cs

/-- The input, taken after an opening double quote, ends before the string is
closed: no double quote occurs in it but behind a backslash. -/
def Reader.stringOpen : List Char → Bool
  | [] => true
  | [c] => c != Char.ofNat 34
  | c :: d :: ds =>
    if c = Char.ofNat 34 then false
    else if c = Char.ofNat 92 then Reader.stringOpen ds
    else Reader.stringOpen (d :: ds)

/-- The state of the loop of `readList` once the elements `xs` have been read
one after the other with `rd`, each in the store left by the one before and by
the cell built for it: the list so far, its last cell, the input left and the
store.  There is none when a read fails or gives another value than the
element expected, or when that value is one of the two delimiters. -/
def Reader.afterElements (rd : Bool → List Char → Store → Res (Obj × List Char)) :
    List Obj → Obj → Obj → List Char → Store → Option (Obj × Obj × List Char × Store)
  | [], ret, current, input, s => some (ret, current, input, s)
  | x :: xs, ret, current, input, s =>
    match rd true input s with
    | .ok r s1 =>
      if r.1 = x ∧ x ≠ Reader.listEnd ∧ x ≠ Reader.dot then
        Reader.afterElements rd xs (Reader.appendCell s1 ret current x).1
          (Reader.appendCell s1 ret current x).2.1 r.2 (Reader.appendCell s1 ret current x).2.2
      else none
    | _ => none

/-- The pointer to the first of the cells at the addresses `cells`, and `tail`
when there is no cell. -/
def cellsHead (cells : List Nat) (tail : Obj) : Obj :=
  match cells with
  | [] => tail
  | a :: _ => .pair a

/-- The pairs at the addresses `cells` are allocated, hold the elements `xs` in
order, each points to the next, and the last one points to `tail`. -/
def Store.cellsAre (s : Store) : List Nat → List Obj → Obj → Prop
  | [], [], _ => True
  | a :: cells, x :: xs, tail =>
    a < s.pairs.length ∧ s.pairs.getD a (.null, .null) = (x, cellsHead cells tail) ∧
      Store.cellsAre s cells xs tail
  | _, _, _ => False

/-- The variables `ret` and `current` of the loop of `readList` after the
elements `xs`: both Null before the first element; afterwards `ret` is the
first and `current` the last of the distinct cells `cells`, which hold `xs`
and end in Null. -/
def Reader.ListSoFar (s : Store) (ret current : Obj) (cells : List Nat) (xs : List Obj) : Prop :=
  (cells = [] ∧ xs = [] ∧ ret = .null ∧ current = .null) ∨
  (∃ init c, cells = init ++ [c] ∧ current = .pair c ∧ ret = cellsHead cells .null ∧
    cells.Nodup ∧ s.cellsAre cells xs .null)

/-- A unit of the body of a string literal, in the words of the
specification: a character that is neither a double quote nor a backslash, or
a backslash together with the character behind it. -/
inductive BodyItem where
  | plain (c : Char)
  | escaped (c : Char)
  deriving DecidableEq, Repr

/-- The characters a unit is written with. -/
def BodyItem.text : BodyItem → List Char
  | .plain c => [c]
  | .escaped c => [Char.ofNat 92, c]

/-- The character a unit stands for, in the words of the specification: a
backslash with `n`, `r` or `t` stands for newline, carriage return or tab, a
backslash with any other character for that character, a plain character for
itself. -/
def BodyItem.value : BodyItem → Char
  | .plain c => c
  | .escaped c =>
    if c = 'n' then Char.ofNat 10
    else if c = 'r' then Char.ofNat 13
    else if c = 't' then Char.ofNat 9
    else c

/-- A plain unit is neither a double quote nor a backslash. -/
def BodyItem.wellFormed : BodyItem → Bool
  | .plain c => c != Char.ofNat 34 && c != Char.ofNat 92
  | .escaped _ => true

/-- The text of a body made of the units `items`. -/
def bodyText : List BodyItem → List Char
  | [] => []
  | i :: is => i.text ++ bodyText is

/-- The table after `Symbol::fromString` has been called for each of `names`
in turn. -/
def SymbolTable.after (t : SymbolTable) : List String → SymbolTable
  | [] => t
  | n :: ns => SymbolTable.after (Symbol.fromString t n).2 ns

/-- The object `e` is an element of the list that begins at `o`: the car of
`o` or of a cell reached from `o` through cdr fields. -/
inductive Store.Element (s : Store) : Obj → Obj → Prop where
  | head (a : Nat) : Store.Element s (.pair a) (s.car (.pair a))
  | tail (a : Nat) (e : Obj) : Store.Element s (s.cdr (.pair a)) e → Store.Element s (.pair a) e

/-- A macro call is left to expand in the form `o`: a Pair whose head is a
Symbol registered in the table occurs as the form itself or as a list element
at any depth, outside the sub-forms whose head is `quote`. -/
inductive MacroCall (macros : List (String × Obj)) (s : Store) : Obj → Prop where
  | call (a : Nat) (sym : String) : s.car (.pair a) = .symbol sym → sym ≠ "quote" →
      (mapFind macros sym).isSome = true → MacroCall macros s (.pair a)
  | within (a : Nat) (e : Obj) : s.car (.pair a) ≠ .symbol "quote" →
      Store.Element s (.pair a) e → MacroCall macros s e → MacroCall macros s (.pair a)

/-- What the specification says of the outcome `r` of handling the form
`(defmacro ...)` at the address `a` in the store `s`, `n` bounding the number
of parameters.  With a Symbol `name`, a parameter list of Symbols and a body:
the table has under `name`, its other entries being left, the closure with
these parameters that captures the global environment and whose body is the
new pair `(begin . body)`; the form is replaced by the true Boolean, which
evaluates to itself; no frame is changed.  With a name that is not a Symbol,
with nothing behind the name, and with nothing behind `defmacro`: an error is
thrown and the store is as it was. -/
def Registers (h : Host) (macros : List (String × Obj)) (n a : Nat) (s : Store)
    (r : Res Handled) : Prop :=
  (∀ (name : String) (names : List String),
    (s.cdr (.pair a)).getType = .otPair → s.car (s.cdr (.pair a)) = .symbol name →
    (s.cdr (s.cdr (.pair a))).getType = .otPair →
    s.elementsEndIn (s.car (s.cdr (s.cdr (.pair a)))) (names.map .symbol) .null = true →
    names.length < n + 1 →
    ∃ l s1, l = .lambda name (.pair s.pairs.length) Interpreter.global names false ∧
      r = .ok (.done (.boolean true) (mapAssign macros name l)) s1 ∧
      mapFind (mapAssign macros name l) name = some l ∧
      (∀ other, other ≠ name →
        mapFind (mapAssign macros name l) other = mapFind macros other) ∧
      s1.car (.pair s.pairs.length) = .symbol "begin" ∧
      s1.cdr (.pair s.pairs.length) = s.cdr (s.cdr (s.cdr (.pair a))) ∧
      s1.frames = s.frames ∧
      ∀ k env, evalExpandedForm h (k + 1) (.boolean true) env s1 = .ok (.boolean true) s1) ∧
  ((s.cdr (.pair a)).getType = .otPair → (s.car (s.cdr (.pair a))).getType ≠ .otSymbol →
    r = .error defmacroName s) ∧
  (∀ name : String, (s.cdr (.pair a)).getType = .otPair →
    s.car (s.cdr (.pair a)) = .symbol name →
    (s.cdr (s.cdr (.pair a))).getType ≠ .otPair →
    r = .error defmacroInvalid s) ∧
  ((s.cdr (.pair a)).getType ≠ .otPair → r = .error defmacroExpected s)

/-- The texts `texts` one after the other, separated by exactly one space. -/
def separated : List String → String
  | [] => ""
  | [t] => t
  | t :: u :: ts => t ++ " " ++ separated (u :: ts)

/-- The texts `texts` one after the other, each followed by one space: what
the loops of `Pair::toString` and `Vector::toString` write. -/
def spaceAfterEach : List String → String
  | [] => ""
  | t :: ts => t ++ " " ++ spaceAfterEach ts

/-- A value as a finite tree: an object that is not a Pair, a Vector or a Tag;
a Pair of two values; a Vector whose elements are those of the proper list
`elements`. -/
inductive Val where
  | atom (o : Obj)
  | cons (head rest : Val)
  | vector (elements : Val)
  deriving DecidableEq, Repr

/-- A bound on the fuel that printing and reading the tree need. -/
def Val.size : Val → Nat
  | .atom _ => 2
  | .cons x d => x.size + d.size + 2
  | .vector e => e.size + 2

mutual
/-- The object `o` has, in the store `s`, the shape and the atoms of the tree
`v`, every pair of it being at an address from `lo` up to `hi` (excluded) and
every vector of it being allocated. -/
def Store.holdsIn (s : Store) (lo hi : Nat) : Val → Obj → Bool
  | .atom x, o =>
    decide (o = x) && decide (o.getType ≠ .otPair) && decide (o.getType ≠ .otVector) &&
      decide (o.getType ≠ .otTag)
  | .cons x d, o =>
    match o with
    | .pair a =>
      decide (lo ≤ a) && decide (a < hi) && Store.holdsIn s lo hi x (s.car (.pair a)) &&
        Store.holdsIn s lo hi d (s.cdr (.pair a))
    | _ => false
  | .vector e, o =>
    match o with
    | .vector a =>
      decide (a < s.vectors.length) && Store.holdsElems s lo hi e (s.vectors.getD a [])
    | _ => false
/-- The objects `os` have, one by one, the shapes of the elements of the
proper list `v`. -/
def Store.holdsElems (s : Store) (lo hi : Nat) : Val → List Obj → Bool
  | .atom x, os => decide (x = .null) && decide (os = [])
  | .cons x d, os =>
    match os with
    | o :: rest => Store.holdsIn s lo hi x o && Store.holdsElems s lo hi d rest
    | [] => false
  | .vector _, _ => false
end

/-- The object `o` has, in the store `s`, the shape and the atoms of the tree
`v`, all its pairs and vectors being allocated: two objects that hold the same
tree, each in its store, are structurally equal. -/
def Store.holds (s : Store) (o : Obj) (v : Val) : Bool :=
  s.holdsIn 0 s.pairs.length v o

/-- The text of the tree `v`: the text `toString` gives for an atom; for a
Pair an opening parenthesis, the text of the head and the rest of the list;
for a Vector a `#` and the text of the list of its elements.  With `inList`
the tree is the rest of a list after an element: the closing parenthesis for
Null, a space and the next element for a Pair, and ` . `, the text and the
closing parenthesis for another tail. -/
def Val.chars (h : Host) : Bool → Val → List Char
  | false, .atom o => ((Obj.toString h ⟨[], [], [], []⟩ 1 o).getD "").data
  | false, .cons x d => '(' :: Val.chars h false x ++ Val.chars h true d
  | false, .vector e => '#' :: Val.chars h false e
  | true, .atom o =>
    if o = .null then [')']
    else ' ' :: '.' :: ' ' :: ((Obj.toString h ⟨[], [], [], []⟩ 1 o).getD "").data ++ [')']
  | true, .cons x d => ' ' :: Val.chars h false x ++ Val.chars h true d
  | true, .vector e => ' ' :: '.' :: ' ' :: '#' :: Val.chars h false e ++ [')']

/-- The name is a token that the reader takes for a Symbol: it is not empty,
holds no white space and no closing parenthesis, does not begin with one of
the characters at which `read` branches, and is not made of digits and at most
one period. -/
def Reader.symbolName (name : List Char) : Bool :=
  name.all Reader.tokenChar &&
    (match name with
     | [] => false
     | c :: _ =>
       !(c == ';' || c == Char.ofNat 39 || c == Char.ofNat 96 || c == ',' || c == '(' ||
         c == Char.ofNat 34 || c == '#')) &&
    (!(name.all fun c => c == '.' || isDecimalDigit c) || decide (2 ≤ name.count '.'))

/-- The text is a token of decimal digits, one of them at least, and exactly
one period. -/
def Reader.floatToken (text : List Char) : Bool :=
  (text.all fun c => c == '.' || isDecimalDigit c) && decide (text.count '.' = 1) &&
    text.any isDecimalDigit

/-- The tree is a proper list: Pairs that end in Null. -/
def Val.proper : Val → Bool
  | .atom o => decide (o = .null)
  | .cons _ d => Val.proper d
  | .vector _ => false

/-- The values for which printing and reading are inverse: trees built from
Integers that are not negative, Floats whose text is a token of digits and one
period that `strtod` converts to the same double, Symbols whose name the
reader takes for a Symbol, Booleans, Null, Pairs, and Vectors with one element
or more. -/
def Val.plain (h : Host) (strtod : List Char → Nat) : Val → Bool
  | .atom o =>
    match o with
    | .fixnum v => decide (0 ≤ v ∧ v ≤ 9223372036854775807)
    | .flonum d =>
      Reader.floatToken (h.printFlonum d).data && decide (strtod (h.printFlonum d).data = d)
    | .symbol name => Reader.symbolName name.data
    | .boolean _ => true
    | .null => true
    | _ => false
  | .cons x d => Val.plain h strtod x && Val.plain h strtod d
  | .vector e =>
    (match e with
     | .cons _ _ => true
     | _ => false) && Val.proper e && Val.plain h strtod e

/-- The input `rest` begins with no character of a token: it is empty or
begins with white space or a closing parenthesis. -/
def Reader.Delimited (rest : List Char) : Prop :=
  rest = [] ∨ ∃ c cs, rest = c :: cs ∧ Reader.tokenChar c = false

/-- The store `s1` has every pair of `s` but the one at `c`, and every vector
of `s`, as they are in `s`. -/
def Store.KeepsBut (s s1 : Store) (c : Nat) : Prop :=
  s.pairs.length ≤ s1.pairs.length ∧
  (∀ a, a < s.pairs.length → a ≠ c →
    s1.pairs.getD a (.null, .null) = s.pairs.getD a (.null, .null)) ∧
  s.vectors.length ≤ s1.vectors.length ∧
  (∀ a, a < s.vectors.length → s1.vectors.getD a [] = s.vectors.getD a [])

/-- The store `s1` has every pair and every vector of `s` as it is in `s`. -/
def Store.Keeps (s s1 : Store) : Prop :=
  s.pairs.length ≤ s1.pairs.length ∧
  (∀ a, a < s.pairs.length → s1.pairs.getD a (.null, .null) = s.pairs.getD a (.null, .null)) ∧
  s.vectors.length ≤ s1.vectors.length ∧
  (∀ a, a < s.vectors.length → s1.vectors.getD a [] = s.vectors.getD a [])

/-- The token is one that the two readers take alike: it is made of digits and
at most one period, or the two stream extractions that `readSymbolOrNumber` of
`minscm.cpp` makes take no number from it: the token has a period or the
extraction of a `long` fails, and the extraction of a `double` from what is
left fails. -/
def Reader.sameToken (symbol : List Char) : Bool :=
  ((symbol.all fun c => c == '.' || isDecimalDigit c) && decide (symbol.count '.' ≤ 1)) ||
    ((symbol.contains '.' || (extractLong 10 symbol).isNone) &&
      (Minscm.extractDouble (fun _ => 0)
        (if symbol.contains '.' = false then Minscm.afterLong symbol else symbol)).isNone)

/-- Where the scan of a text stands: before a datum, in a token, in a comment,
in a string, behind a backslash in a string, behind a `#`, behind `#` and a
backslash. -/
inductive Reader.Mode where
  | start
  | token
  | comment
  | string
  | escape
  | sharp
  | sharpBackslash
  deriving DecidableEq, Repr

/-- The scan of a text, which splits it as `read` does, call after call: white
space, comments, parentheses, quotes, strings and characters are passed over,
and every token that `read` hands to `readSymbolOrNumber` without a `#` before
it has to be one that the two readers take alike. -/
def Reader.scan : Reader.Mode → List Char → Bool
  | _, [] => true
  | .start, c :: cs =>
    if isspace c then Reader.scan .start cs
    else if c = ';' then Reader.scan .comment cs
    else if c = Char.ofNat 39 ∨ c = '(' ∨ c = ')' then Reader.scan .start cs
    else if c = Char.ofNat 34 then Reader.scan .string cs
    else if c = '#' then Reader.scan .sharp cs
    else Reader.sameToken ((c :: cs).takeWhile Reader.tokenChar) && Reader.scan .token cs
  | .token, c :: cs =>
    if Reader.tokenChar c then Reader.scan .token cs else Reader.scan .start cs
  | .comment, c :: cs =>
    if c = Char.ofNat 10 then Reader.scan .start cs else Reader.scan .comment cs
  | .string, c :: cs =>
    if c = Char.ofNat 34 then Reader.scan .start cs
    else if c = Char.ofNat 92 then Reader.scan .escape cs
    else Reader.scan .string cs
  | .escape, _ :: cs => Reader.scan .string cs
  | .sharp, c :: cs =>
    if c = '(' then Reader.scan .start cs
    else if c = Char.ofNat 92 then Reader.scan .sharpBackslash cs
    else if Reader.tokenChar c then Reader.scan .token cs
    else Reader.scan .start cs
  | .sharpBackslash, c :: cs =>
    if isalpha c then Reader.scan .token cs else Reader.scan .start cs

/-- Every token of the text, split as `read` splits it, is one that the two
readers take alike, and the text has neither a backquote nor a comma. -/
def Reader.sameTokens (text : List Char) : Bool :=
  Reader.scan .start text && text.all fun c => !(c == Char.ofNat 96 || c == ',')

/-- Reading the text of the tree `v`, with fuel for its size and before an
input that begins with no character of a token, returns an object that holds
`v` in new pairs, and leaves the input behind the text and a store that keeps
the pairs and vectors there were. -/
def Reader.ReadsTree (h : Host) (strtod : List Char → Nat) (v : Val) : Prop :=
  ∀ (n : Nat) (b : Bool) (rest : List Char) (s : Store), v.size ≤ n → Reader.Delimited rest →
    ∃ o s1, Reader.read strtod n b (v.chars h false ++ rest) s = .ok (o, rest) s1 ∧
      s1.holdsIn s.pairs.length s1.pairs.length v o = true ∧ s.Keeps s1

/-- The loop of `readList`, entered with the last cell `c` of the list so far
and the text of the tree `v` as the rest of the list, returns the list and
leaves `v` in new pairs behind the cell `c`, whose car is as it was. -/
def Reader.ReadsRest (h : Host) (strtod : List Char → Nat) (v : Val) : Prop :=
  ∀ (n k : Nat) (rest : List Char) (s : Store) (ret : Obj) (c : Nat), v.size ≤ n → v.size ≤ k →
    c < s.pairs.length → s.cdr (.pair c) = .null →
    ∃ s1, Reader.readListLoop (Reader.read strtod n) k ret (.pair c) (v.chars h true ++ rest) s
        = .ok (ret, rest) s1 ∧
      s1.holdsIn s.pairs.length s1.pairs.length v (s1.cdr (.pair c)) = true ∧
      s1.car (.pair c) = s.car (.pair c) ∧ s.KeepsBut s1 c

/-- The loop of `readVector`, entered with the elements `acc` read so far and
the text of the proper list `v` as the rest of the elements, returns a new
vector of `acc` and of objects that hold the elements of `v`. -/
def Reader.ReadsElems (h : Host) (strtod : List Char → Nat) (v : Val) : Prop :=
  ∀ (n k : Nat) (rest : List Char) (s : Store) (acc : List Obj), v.size ≤ n → v.size ≤ k →
    ∃ os s1, Reader.readVectorLoop (Reader.read strtod n) k acc (v.chars h true ++ rest) s
        = .ok (.vector s1.vectors.length, rest) { s1 with vectors := s1.vectors ++ [acc ++ os] } ∧
      s1.holdsElems s.pairs.length s1.pairs.length v os = true ∧ s.Keeps s1

/-- Reading the text of the vector whose elements are those of the proper
list `v` returns a new vector of objects that hold them. -/
def Reader.ReadsVector (h : Host) (strtod : List Char → Nat) (v : Val) : Prop :=
  ∀ (n : Nat) (b : Bool) (rest : List Char) (s : Store), v.size + 2 ≤ n →
    ∃ os s1, Reader.read strtod n b ('#' :: v.chars h false ++ rest) s
        = .ok (.vector s1.vectors.length, rest) { s1 with vectors := s1.vectors ++ [os] } ∧
      s1.holdsElems s.pairs.length s1.pairs.length v os = true ∧ s.Keeps s1

/-- The position `p` is reachable from the root set `roots` in the heap: it
is a root, or a record at a reachable position refers to it. -/
inductive Heap.Reach (heap : List Record) (roots : List Nat) : Nat → Prop where
  | root (p : Nat) : p ∈ roots → Heap.Reach heap roots p
  | step (p q : Nat) (r : Record) : Heap.Reach heap roots p → Heap.recordAt heap p = some r →
      q ∈ Heap.refs r → Heap.Reach heap roots q

/-- What the mark phase keeps while it runs: every position a live record
refers to is on the stack, or the record there, if there is one, is live. -/
def Heap.Closed (stack : List Nat) (heap : List Record) : Prop :=
  ∀ q r, Heap.recordAt heap q = some r → r.live = true →
    ∀ x ∈ Heap.refs r, x ∈ stack ∨ ∀ rx, Heap.recordAt heap x = some rx → rx.live = true

/-- The number of the records whose live flag is not set. -/
def Heap.unmarked (heap : List Record) : Nat :=
  heap.countP fun r => !r.live

/-- No frame of the store has a reserved name among the keys of its `_data`. -/
def Store.NoKeywordBound (s : Store) : Prop :=
  ∀ fr ∈ s.frames, ∀ kv ∈ fr.data, isKeyword kv.1 = false

instance (s : Store) : Decidable s.NoKeywordBound := by
  unfold Store.NoKeywordBound; infer_instance

/-- The store a computation leaves behind; `s` when it has no outcome. -/
def Res.store {α : Type} (r : Res α) (s : Store) : Store :=
  match r with
  | .ok _ s1 => s1
  | .error _ s1 => s1
  | .outOfFuel => s

/-- A call of one of the three methods of `Environment` that write. -/
inductive EnvCall where
  | define (f : Nat) (identifier : String) (value : Obj)
  | set (f : Nat) (identifier : String) (value : Obj)
  | extendIntoNew (f : Nat) (argumentNames : List String) (arguments : List Obj)
      (hasRestParameter : Bool)

/-- The store after the call, whether it returned or threw. -/
def EnvCall.run (s : Store) : EnvCall → Store
  | .define f identifier value => (Environment.define s f identifier value).store s
  | .set f identifier value => (Environment.set s f identifier value).store s
  | .extendIntoNew f names args rest => (Environment.extendIntoNew s f names args rest).store s

/-- Every outcome of `r` leaves a store that satisfies `P`. -/
def Res.Leaves {α : Type} (P : Store → Prop) (r : Res α) : Prop :=
  match r with
  | .ok _ s1 => P s1
  | .error _ s1 => P s1
  | .outOfFuel => True

/-! ## Sample inputs -/

/-- A store with a root frame binding `x` and `y` and a child frame binding `x`. -/
def sampleStore : Store :=
  { pairs := [],
    frames := [⟨[("x", .fixnum 1), ("y", .fixnum 2)], none⟩, ⟨[("x", .fixnum 3)], some 0⟩],
    strings := [], vectors := [] }

/-- A store that holds the forms `(quote (if))` at pair 0, `(quote y)` at
pair 3, `(quote)` at pair 5 and `(quote 1 2)` at pair 6, the empty vector, and
one empty root frame. -/
def quoteStore : Store :=
  { pairs := [(.symbol "quote", .pair 1), (.pair 2, .null), (.symbol "if", .null),
              (.symbol "quote", .pair 4), (.symbol "y", .null),
              (.symbol "quote", .null),
              (.symbol "quote", .pair 7), (.fixnum 1, .pair 8), (.fixnum 2, .null)],
    frames := [⟨[], none⟩], strings := [], vectors := [[]] }

/-- A store that holds a pair whose cdr is the pair itself (pair 0, as left by
`(define l (cons 1 2))` and `(set-cdr! l l)`), the form `(l)` at pair 1 and
the form `(5 y)` at pair 2, and a root frame that binds `l` to the cyclic
pair and `y` to 3. -/
def cycleStore : Store :=
  { pairs := [(.fixnum 1, .pair 0), (.symbol "l", .null),
              (.fixnum 5, .pair 3), (.symbol "y", .null)],
    frames := [⟨[("l", .pair 0), ("y", .fixnum 3)], none⟩], strings := [], vectors := [] }

/-- A store that holds the forms `(define x 1)` at pair 0,
`(define (f) (define x 2) x)` at pair 3 and `(f)` at pair 11, and one empty
root frame, the global environment. -/
def shadowStore : Store :=
  { pairs := [(.symbol "define", .pair 1), (.symbol "x", .pair 2), (.fixnum 1, .null),
              (.symbol "define", .pair 4), (.pair 5, .pair 6), (.symbol "f", .null),
              (.pair 8, .pair 7), (.symbol "x", .null),
              (.symbol "define", .pair 9), (.symbol "x", .pair 10), (.fixnum 2, .null),
              (.symbol "f", .null)],
    frames := [⟨[], none⟩], strings := [], vectors := [] }

/-- The store `shadowStore` after its two define forms have been evaluated:
the global frame binds `x` to 1 and `f` to the closure. -/
def shadowCallStore : Store :=
  { pairs := shadowStore.pairs ++ [(.symbol "begin", .pair 6)],
    frames := [⟨[("x", .fixnum 1), ("f", .lambda "f" (.pair 12) 0 [] false)], none⟩],
    strings := [], vectors := [] }

/-- A store with one empty root frame and nothing else. -/
def emptyStore : Store :=
  { pairs := [], frames := [⟨[], none⟩], strings := [], vectors := [] }

/-- A conversion of the text of a double that is good for inputs without a
double: it gives the bits 0 for every text. -/
def noDoubles : List Char → Nat :=
  fun _ => 0

/-- The store after the text `(a (b) c)` has been read in `emptyStore`: the
cells 0, 2 and 3 of the outer list and the cell 1 of the inner one. -/
def listStore : Store :=
  { emptyStore with
    pairs := [(.symbol "a", .pair 2), (.symbol "b", .null), (.pair 1, .pair 3),
      (.symbol "c", .null)] }

/-- The store after the two elements of the text `(a (b) . d)` have been read
in `emptyStore`. -/
def dottedOpenStore : Store :=
  { emptyStore with
    pairs := [(.symbol "a", .pair 2), (.symbol "b", .null), (.pair 1, .null)] }

/-- The store after the text `(a (b) . d)` has been read in `emptyStore`. -/
def dottedStore : Store :=
  { emptyStore with
    pairs := [(.symbol "a", .pair 2), (.symbol "b", .null), (.pair 1, .symbol "d")] }

/-- The cells of the two forms
`(define (loop n) (if (eqNum n 0) (quote done) (loop (dec n))))`, at the
address 0, and `(loop n)` for the number `n`, at the address 18. -/
def loopPairs (n : Nat) : List (Obj × Obj) :=
  [(.symbol "define", .pair 1),
   (.pair 2, .pair 4),
   (.symbol "loop", .pair 3),
   (.symbol "n", .null),
   (.pair 5, .null),
   (.symbol "if", .pair 6),
   (.pair 7, .pair 10),
   (.symbol "eqNum", .pair 8),
   (.symbol "n", .pair 9),
   (.fixnum 0, .null),
   (.pair 11, .pair 13),
   (.symbol "quote", .pair 12),
   (.symbol "done", .null),
   (.pair 14, .null),
   (.symbol "loop", .pair 15),
   (.pair 16, .null),
   (.symbol "dec", .pair 17),
   (.symbol "n", .null),
   (.symbol "loop", .pair 19),
   (.fixnum n, .null)]

/-- The global frame in which `eqNum` and `dec` are builtin procedures of two
and of one parameter. -/
def loopGlobal : Frame :=
  ⟨[("print-eval-forms", .null), ("eqNum", .builtin "eqNum" 2), ("dec", .builtin "dec" 1)], none⟩

/-- The store that holds the two forms of `loopPairs n` and the global frame
`loopGlobal`. -/
def loopStore (n : Nat) : Store :=
  { pairs := loopPairs n, frames := [loopGlobal], strings := [], vectors := [] }

/-- The closure the `define` form of `loopPairs` binds `loop` to. -/
def loopClosure : Obj :=
  .lambda "loop" (.pair 20) 0 ["n"] false

/-- The store `loopStore n` after the `define` form has been evaluated. -/
def loopDefined (n : Nat) : Store :=
  { pairs := loopPairs n ++ [(.symbol "begin", .pair 4)],
    frames := [{ loopGlobal with data := loopGlobal.data ++ [("loop", loopClosure)] }],
    strings := [], vectors := [] }

/-- Modelled from the spec: a host whose native functions `eqNum` and `dec`
are the equality of two integers and the decrement of an integer by one. -/
def loopHost : Host :=
  { native := fun name parameters s =>
      match name, parameters with
      | "eqNum", [.fixnum a, .fixnum b] => .ok (.boolean (decide (a = b))) s
      | "dec", [.fixnum a] => .ok (.fixnum (a - 1)) s
      | _, _ => .error (.invalidArgumentType name) s
    printFlonum := fun _ => "" }

/-- A store that holds the body `(begin (quote (f)))` of a macro `m` without
parameters, at the address 0, the form `(g (m))` at 5 and the form
`(quote (m))` at 8. -/
def macroStore : Store :=
  { pairs := [(.symbol "begin", .pair 1), (.pair 2, .null), (.symbol "quote", .pair 3),
      (.pair 4, .null), (.symbol "f", .null),
      (.symbol "g", .pair 6), (.pair 7, .null), (.symbol "m", .null),
      (.symbol "quote", .pair 9), (.pair 7, .null)],
    frames := [⟨[], none⟩], strings := [], vectors := [] }

/-- The table in which `m` is the macro whose body `macroStore` holds. -/
def macroTable : List (String × Obj) :=
  [("m", .lambda "m" (.pair 0) 0 [] false)]

/-- The store `macroStore` after the form `(g (m))` has been expanded to
`(g (f))`: the cell 6 holds the value of the body and the call of `m` has
been given a frame. -/
def macroExpanded : Store :=
  { macroStore with
    pairs := macroStore.pairs.set 6 (.pair 4, .null),
    frames := [⟨[], none⟩, ⟨[], some 0⟩] }

/-- The store `macroStore` with, at the address 10, the form
`(defmacro foo (m) 1)`, whose parameter list is a call of the macro `m`. -/
def defmacroStore : Store :=
  { macroStore with
    pairs := macroStore.pairs ++
      [(.symbol "defmacro", .pair 11), (.symbol "foo", .pair 12), (.pair 13, .pair 14),
       (.symbol "m", .null), (.fixnum 1, .null)] }

/-- The cells of the form `(defmacro twice (x) (list (quote begin) x x))`, at
the address 0, and of the body `(begin args)` of the closure of
`(define (list . args) args)`, at 11. -/
def twiceSource : List (Obj × Obj) :=
  [(.symbol "defmacro", .pair 1),
   (.symbol "twice", .pair 2),
   (.pair 3, .pair 4),
   (.symbol "x", .null),
   (.pair 5, .null),
   (.symbol "list", .pair 6),
   (.pair 7, .pair 9),
   (.symbol "quote", .pair 8),
   (.symbol "begin", .null),
   (.symbol "x", .pair 10),
   (.symbol "x", .null),
   (.symbol "begin", .pair 12),
   (.symbol "args", .null)]

/-- Modelled from the spec: `list` builds the list of its arguments; it is the
closure of `(define (list . args) args)`, a definition of the library file
`init.scm`, which is not among the sources. -/
def listClosure : Obj :=
  .lambda "list" (.pair 11) 0 ["args"] true

/-- The cells of `twiceSource` and the cell `(begin . body)` that registering
the macro `twice` allocates, at the address 13. -/
def twiceProgram : List (Obj × Obj) :=
  twiceSource ++ [(.symbol "begin", .pair 4)]

/-- The table in which `twice` is registered by the form of `twiceSource`. -/
def twiceTable : List (String × Obj) :=
  [("twice", .lambda "twice" (.pair 13) 0 ["x"] false)]

/-- The global frame in which `list` is bound to `listClosure`, `sideEffect`
to a closure without parameters whose body, at the address 17, is
`(set! count (dec count))`, `count` to 0 and `dec` to a builtin procedure. -/
def twiceGlobal : Frame :=
  ⟨[("print-eval-forms", .null), ("list", listClosure),
    ("sideEffect", .lambda "sideEffect" (.pair 17) 0 [] false),
    ("count", .fixnum 0), ("dec", .builtin "dec" 1)], none⟩

/-- The store that holds the cells of `twiceSource` and the frame
`twiceGlobal`. -/
def twiceSourceStore : Store :=
  { pairs := twiceSource, frames := [twiceGlobal], strings := [], vectors := [] }

/-- The store that holds the cells of `twiceProgram`, the form
`(twice (sideEffect))` at the address 14 and the body of `sideEffect` at 17. -/
def twiceStore : Store :=
  { pairs := twiceProgram ++
      [(.symbol "twice", .pair 15), (.pair 16, .null), (.symbol "sideEffect", .null),
       (.symbol "begin", .pair 18), (.pair 19, .null), (.symbol "set!", .pair 20),
       (.symbol "count", .pair 21), (.pair 22, .null), (.symbol "dec", .pair 23),
       (.symbol "count", .null)],
    frames := [twiceGlobal], strings := [], vectors := [] }

/-- A host whose native functions `set-car!` and `set-cdr!` are `setCar` and
`setCdr`; no other native function is registered. -/
def pairNatives : Host :=
  { native := fun name parameters s =>
      match name, parameters with
      | "set-car!", [o, v] => setCar o v s
      | "set-cdr!", [o, v] => setCdr o v s
      | _, _ => .error (.other "not registered") s
    printFlonum := fun _ => "" }

/-- A store that holds, at the address 0, the body
`(begin (set-cdr! x (quote (b))) x)` of a macro `clobber` with the parameter
`x`, and at 9 the form `(clobber (quote a))`, whose operand `(quote a)` is at
11. -/
def clobberStore : Store :=
  { pairs := [(.symbol "begin", .pair 1), (.pair 2, .pair 8), (.symbol "set-cdr!", .pair 3),
      (.symbol "x", .pair 4), (.pair 5, .null), (.symbol "quote", .pair 6), (.pair 7, .null),
      (.symbol "b", .null), (.symbol "x", .null),
      (.symbol "clobber", .pair 10), (.pair 11, .null), (.symbol "quote", .pair 12),
      (.symbol "a", .null)],
    frames := [⟨[("set-cdr!", .builtin "set-cdr!" 2)], none⟩], strings := [], vectors := [] }

/-- The table in which `clobber` is the macro whose body `clobberStore` holds. -/
def clobberTable : List (String × Obj) :=
  [("clobber", .lambda "clobber" (.pair 0) 0 ["x"] false)]

/-- The store `macroStore` with, at the address 10, the form
`(g (quote (m)))`, whose operand is the form at 8. -/
def quotedStore : Store :=
  { macroStore with pairs := macroStore.pairs ++ [(.symbol "g", .pair 11), (.pair 8, .null)] }

/-- The store `twiceStore` after the form `(twice (sideEffect))` has been
handled: the list `(begin (sideEffect) (sideEffect))` is at the address 26, and
the calls of `twice` and of `list` have been given frames. -/
def twiceExpanded : Store :=
  { twiceStore with
    pairs := twiceStore.pairs ++
      [(.pair 16, .null), (.pair 16, .pair 24), (.symbol "begin", .pair 25)],
    frames := twiceStore.frames ++
      [⟨[("x", .pair 16)], some 0⟩, ⟨[("args", .pair 26)], some 0⟩] }

/-- A store that holds the body `(begin 5)` of a macro `five` without
parameters, at the address 0, and the form `(five)` at 2. -/
def fiveStore : Store :=
  { pairs := [(.symbol "begin", .pair 1), (.fixnum 5, .null), (.symbol "five", .null)],
    frames := [⟨[], none⟩], strings := [], vectors := [] }

/-- The table in which `five` is registered by `(defmacro five () 5)`. -/
def fiveTable : List (String × Obj) :=
  [("five", .lambda "five" (.pair 0) 0 [] false)]

/-- A store that holds the pair `(1 . 2)` at the address 0 and the pair
`(3 . 4)` at 1. -/
def consStore : Store :=
  { pairs := [(.fixnum 1, .fixnum 2), (.fixnum 3, .fixnum 4)],
    frames := [⟨[], none⟩], strings := [], vectors := [] }

/-- A store whose pair 0 has itself as car and Null as cdr (after
`(define l (cons 1 (quote ())))` and `(set-car! l l)`). -/
def carCycleStore : Store :=
  { pairs := [(.pair 0, .null)], frames := [⟨[("l", .pair 0)], none⟩], strings := [],
    vectors := [] }

/-- A store that holds the list `(a (1 . #t) #(2 3))` at the pair 0: its
cells are the pairs 0, 1 and 2, the pair `(1 . #t)` is at 3 and the vector at
the address 0. -/
def roundStore : Store :=
  { pairs := [(.symbol "a", .pair 1), (.pair 3, .pair 2), (.vector 0, .null),
      (.fixnum 1, .boolean true)],
    frames := [⟨[], none⟩], strings := [], vectors := [[.fixnum 2, .fixnum 3]] }

/-- The tree of the list `(a (1 . #t) #(2 3))`. -/
def roundTree : Val :=
  .cons (.atom (.symbol "a"))
    (.cons (.cons (.atom (.fixnum 1)) (.atom (.boolean true)))
      (.cons (.vector (.cons (.atom (.fixnum 2)) (.cons (.atom (.fixnum 3)) (.atom .null))))
        (.atom .null)))

/-- A host that writes the text `1` for the double 1.0, whose bits are
4607182418800017408, as the statement `ss << _value` of `Flonum::toString`
does; no native function is registered. -/
def plainFloats : Host :=
  { native := fun name _ s => .error (.other name) s,
    printFlonum := fun bits => if bits = 4607182418800017408 then "1" else "" }

/-- A heap of three records: at the position 0 a pair `(32 . 32)` to which
nothing refers; at 16 a pair whose car is the pair itself and whose cdr is the
record at 32; at 32 a record of eight bytes without positions. -/
def selfHeap : List Record :=
  [⟨false, false, 0, .pair 32 32⟩, ⟨false, false, 0, .pair 16 32⟩, ⟨false, false, 0, .other 8 0⟩]

/-- A host in which no native function is registered, so that every call of
one throws; the sample evaluations below call no builtin procedure. -/
def noNatives : Host :=
  { native := fun name _ s => .error (.other name) s,
    printFlonum := fun _ => "" }

/-! ## Lemmas on maps and frames -/

theorem isKeyword_iff (name : String) : isKeyword name = true ↔ name ∈ keywords := by
  simp [isKeyword, keywords, or_assoc]

theorem mapFind_mapAssign_same (m : List (String × Obj)) (key : String) (value : Obj) :
    mapFind (mapAssign m key value) key = some value := by
  induction m with
  | nil => simp [mapAssign, mapFind]
  | cons kv m ih =>
    obtain ⟨k, v⟩ := kv
    by_cases hk : k = key
    · simp [mapAssign, mapFind, hk]
    · simp [mapAssign, mapFind, hk, ih]

theorem mapFind_mapAssign_other (m : List (String × Obj)) (key other : String) (value : Obj)
    (hne : other ≠ key) : mapFind (mapAssign m key value) other = mapFind m other := by
  induction m with
  | nil =>
    have : ¬ key = other := fun h => hne h.symm
    simp [mapAssign, mapFind, this]
  | cons kv m ih =>
    obtain ⟨k, v⟩ := kv
    by_cases hk : k = key
    · have : ¬ key = other := fun h => hne h.symm
      simp [mapAssign, mapFind, hk, this]
    · by_cases hko : k = other
      · subst hko
        simp [mapAssign, mapFind, hne]
      · simp [mapAssign, mapFind, hk, hko, ih]

theorem mapAssign_keys (m : List (String × Obj)) (key : String) (value : Obj)
    (kv : String × Obj) (hkv : kv ∈ mapAssign m key value) : kv.1 = key ∨ kv ∈ m := by
  induction m with
  | nil => simp [mapAssign] at hkv; simp [hkv]
  | cons kv0 m ih =>
    obtain ⟨k, v⟩ := kv0
    by_cases hk : k = key
    · simp [mapAssign, hk] at hkv
      rcases hkv with h | h
      · left; simp [h]
      · right; simp [h]
    · simp [mapAssign, hk] at hkv
      rcases hkv with h | h
      · right; simp [h]
      · rcases ih h with h1 | h1
        · left; exact h1
        · right; simp [h1]

theorem frame_setFrame_same (s : Store) (f : Nat) (fr : Frame) (hf : f < s.frames.length) :
    (s.setFrame f fr).frame f = fr := by
  simp [Store.frame, Store.setFrame, List.getD_eq_getElem?_getD, List.getElem?_set, hf]

theorem frame_setFrame_other (s : Store) (f g : Nat) (fr : Frame) (hne : g ≠ f) :
    (s.setFrame f fr).frame g = s.frame g := by
  have : ¬ f = g := fun h => hne h.symm
  simp [Store.frame, Store.setFrame, List.getD_eq_getElem?_getD, List.getElem?_set, this]

theorem frame_assign_other (s : Store) (f g : Nat) (name : String) (value : Obj) (hne : g ≠ f) :
    (s.assign f name value).frame g = s.frame g :=
  frame_setFrame_other s f g _ hne

theorem lookup_assign_same (s : Store) (f : Nat) (name : String) (value : Obj)
    (hf : f < s.frames.length) : (s.assign f name value).lookup f name = some value := by
  simp [Store.lookup, Store.assign, frame_setFrame_same s f _ hf, mapFind_mapAssign_same]

theorem assign_out_of_range (s : Store) (f : Nat) (name : String) (value : Obj)
    (hf : ¬ f < s.frames.length) : s.assign f name value = s := by
  have : s.frames.set f { s.frame f with data := mapAssign (s.frame f).data name value }
      = s.frames := by
    apply List.set_eq_of_length_le; omega
  unfold Store.assign Store.setFrame
  rw [this]

theorem lookup_assign_other (s : Store) (f : Nat) (name other : String) (value : Obj)
    (hne : other ≠ name) : (s.assign f name value).lookup f other = s.lookup f other := by
  by_cases hf : f < s.frames.length
  · simp [Store.lookup, Store.assign, frame_setFrame_same s f _ hf,
      mapFind_mapAssign_other _ _ _ _ hne]
  · rw [assign_out_of_range s f name value hf]

theorem outer_assign (s : Store) (f g : Nat) (name : String) (value : Obj) :
    ((s.assign f name value).frame g).outer = (s.frame g).outer := by
  by_cases hg : g = f
  · subst hg
    by_cases hf : g < s.frames.length
    · simp [Store.assign, frame_setFrame_same s g _ hf]
    · rw [assign_out_of_range s g name value hf]
  · rw [frame_assign_other s f g name value hg]

theorem length_assign (s : Store) (f : Nat) (name : String) (value : Obj) :
    (s.assign f name value).frames.length = s.frames.length := by
  simp [Store.assign, Store.setFrame]

/-! ## C1: Environment.define -/

/-- C1. `define(frame, name, value)`: for a name that is not one of the seven
reserved names the call returns, the binding of `name` in the frame is `value`
afterwards, every other binding of the frame, its parent link and every other
frame (so every outer frame), as well as the pairs, strings and vectors, are
as before; for each of the seven reserved names the call throws the
constant-symbol error and the store is unchanged. -/
theorem define_installs_or_rejects (s : Store) (f : Nat) (name : String) (value : Obj)
    (hf : f < s.frames.length) :
    (name ∉ keywords →
      ∃ s1, Environment.define s f name value = .ok () s1 ∧
        s1.lookup f name = some value ∧
        (∀ other, other ≠ name → s1.lookup f other = s.lookup f other) ∧
        (s1.frame f).outer = (s.frame f).outer ∧
        (∀ g, g ≠ f → s1.frame g = s.frame g) ∧
        s1.frames.length = s.frames.length ∧
        s1.pairs = s.pairs ∧ s1.strings = s.strings ∧ s1.vectors = s.vectors) ∧
    (name ∈ keywords →
      Environment.define s f name value = .error (.constantSymbol name) s) := by
  constructor
  · intro hk
    have hk1 : isKeyword name = false := by
      cases hb : isKeyword name
      · rfl
      · exact absurd ((isKeyword_iff name).1 hb) hk
    refine ⟨s.assign f name value, by simp [Environment.define, hk1],
      lookup_assign_same s f name value hf,
      fun other hne => lookup_assign_other s f name other value hne,
      outer_assign s f f name value,
      fun g hne => frame_assign_other s f g name value hne,
      length_assign s f name value, rfl, rfl, rfl⟩
  · intro hk
    have hk1 : isKeyword name = true := (isKeyword_iff name).2 hk
    simp [Environment.define, hk1]

theorem define_installs_or_rejects_witness :
    (∃ s1, Environment.define sampleStore 1 "z" (.fixnum 7) = .ok () s1 ∧
        s1.lookup 1 "z" = some (.fixnum 7) ∧
        (∀ other, other ≠ "z" → s1.lookup 1 other = sampleStore.lookup 1 other) ∧
        (s1.frame 1).outer = (sampleStore.frame 1).outer ∧
        (∀ g, g ≠ 1 → s1.frame g = sampleStore.frame g) ∧
        s1.frames.length = sampleStore.frames.length ∧
        s1.pairs = sampleStore.pairs ∧ s1.strings = sampleStore.strings ∧
        s1.vectors = sampleStore.vectors) ∧
    Environment.define sampleStore 1 "quote" (.fixnum 7)
      = .error (.constantSymbol "quote") sampleStore :=
  ⟨(define_installs_or_rejects sampleStore 1 "z" (.fixnum 7) (by decide)).1 (by decide),
   (define_installs_or_rejects sampleStore 1 "quote" (.fixnum 7) (by decide)).2 (by decide)⟩

/-! ## C2, C3: Environment.set and Environment.get -/

theorem Store.Ordered.outer_lt {s : Store} (hs : s.Ordered) {f o : Nat}
    (hf : f < s.frames.length) (ho : (s.frame f).outer = some o) : o < f := by
  have h := hs f hf
  rw [ho] at h
  simpa using h

theorem chainFrom_le (s : Store) (hs : s.Ordered) (k f : Nat) (hf : f < s.frames.length) :
    ∀ g ∈ s.chainFrom k f, g ≤ f := by
  induction k generalizing f with
  | zero =>
    intro g hg
    unfold Store.chainFrom at hg
    cases ho : (s.frame f).outer with
    | none => simp [ho] at hg; omega
    | some o => simp [ho] at hg; omega
  | succ k ih =>
    intro g hg
    unfold Store.chainFrom at hg
    cases ho : (s.frame f).outer with
    | none => simp [ho] at hg; omega
    | some o =>
      have hlt := hs.outer_lt hf ho
      simp [ho] at hg
      rcases hg with h | h
      · omega
      · have := ih o (by omega) g h
        omega

/-- The nearest frame of the chain that binds `name`. -/
theorem setFrom_eq (s : Store) (hs : s.Ordered) (name : String) (value : Obj) (k f : Nat)
    (hk : f ≤ k) (hf : f < s.frames.length) :
    Environment.setFrom s name value k f =
      match (s.chainFrom k f).find? (fun g => (s.lookup g name).isSome) with
      | some g => .ok () (s.assign g name value)
      | none => .error (.unknownVariable name) s := by
  induction k generalizing f with
  | zero =>
    unfold Environment.setFrom Store.chainFrom
    cases hb : mapFind (s.frame f).data name with
    | some v => simp [Store.lookup, hb]
    | none =>
      cases ho : (s.frame f).outer with
      | none => simp [Store.lookup, hb]
      | some o => have := hs.outer_lt hf ho; omega
  | succ k ih =>
    unfold Environment.setFrom Store.chainFrom
    cases hb : mapFind (s.frame f).data name with
    | some v => simp [Store.lookup, hb]
    | none =>
      cases ho : (s.frame f).outer with
      | none => simp [Store.lookup, hb]
      | some o =>
        have hlt := hs.outer_lt hf ho
        have := ih o (by omega) (by omega)
        simp [Store.lookup, hb, this]

theorem getFrom_eq (s : Store) (hs : s.Ordered) (name : String) (k f : Nat)
    (hk : f ≤ k) (hf : f < s.frames.length) :
    Environment.getFrom s name k f =
      match (s.chainFrom k f).find? (fun g => (s.lookup g name).isSome) with
      | some g => .ok ((s.lookup g name).getD .null) s
      | none => .error (.unknownVariable name) s := by
  induction k generalizing f with
  | zero =>
    unfold Environment.getFrom Store.chainFrom
    cases hb : mapFind (s.frame f).data name with
    | some v => simp [Store.lookup, hb]
    | none =>
      cases ho : (s.frame f).outer with
      | none => simp [Store.lookup, hb]
      | some o => have := hs.outer_lt hf ho; omega
  | succ k ih =>
    unfold Environment.getFrom Store.chainFrom
    cases hb : mapFind (s.frame f).data name with
    | some v => simp [Store.lookup, hb]
    | none =>
      cases ho : (s.frame f).outer with
      | none => simp [Store.lookup, hb]
      | some o =>
        have hlt := hs.outer_lt hf ho
        have := ih o (by omega) (by omega)
        simp [Store.lookup, hb, this]

theorem find_nearest (l pre post : List Nat) (g : Nat) (p : Nat → Bool)
    (hl : l = pre ++ g :: post) (hpre : ∀ x ∈ pre, p x = false) (hg : p g = true) :
    l.find? p = some g := by
  subst hl
  induction pre with
  | nil => simp [hg]
  | cons x pre ih =>
    have hx : p x = false := hpre x (by simp)
    have h1 := ih (fun y hy => hpre y (by simp [hy]))
    rw [List.cons_append, List.find?_cons, hx]
    exact h1

/-- C2. `set(frame, name, value)` in a store whose frames were constructed
after their parents: when the chain from `frame` outward reads
`pre ++ g :: post`, no frame of `pre` binds `name` and `g` binds it, the call
returns, `name` is bound to `value` in `g` afterwards, and every other binding
of `g`, every parent link, every other frame (the farther frames that bind
`name` among them), the pairs, strings and vectors are as before; when no
frame of the chain binds `name`, the call throws the unknown-variable error
and the store is unchanged. -/
theorem set_updates_nearest (s : Store) (f : Nat) (name : String) (value : Obj)
    (hs : s.Ordered) (hf : f < s.frames.length) :
    (∀ pre g post, s.chain f = pre ++ g :: post →
      (∀ g1 ∈ pre, s.lookup g1 name = none) → (s.lookup g name).isSome = true →
      ∃ s1, Environment.set s f name value = .ok () s1 ∧
        s1.lookup g name = some value ∧
        (∀ other, other ≠ name → s1.lookup g other = s.lookup g other) ∧
        (∀ g1, g1 ≠ g → s1.frame g1 = s.frame g1) ∧
        (∀ g1, (s1.frame g1).outer = (s.frame g1).outer) ∧
        s1.frames.length = s.frames.length ∧
        s1.pairs = s.pairs ∧ s1.strings = s.strings ∧ s1.vectors = s.vectors) ∧
    ((∀ g ∈ s.chain f, s.lookup g name = none) →
      Environment.set s f name value = .error (.unknownVariable name) s) := by
  have heq := setFrom_eq s hs name value f f (le_refl f) hf
  constructor
  · intro pre g post hchain hpre hg
    have hfind : (s.chainFrom f f).find? (fun g => (s.lookup g name).isSome) = some g :=
      find_nearest _ pre post g _ hchain (fun x hx => by simp [hpre x hx]) hg
    have hgle : g ≤ f := chainFrom_le s hs f f hf g (by
      show g ∈ s.chain f
      rw [hchain]; simp)
    refine ⟨s.assign g name value, ?_, lookup_assign_same s g name value (by omega),
      fun other hne => lookup_assign_other s g name other value hne,
      fun g1 hne => frame_assign_other s g g1 name value hne,
      fun g1 => outer_assign s g g1 name value,
      length_assign s g name value, rfl, rfl, rfl⟩
    unfold Environment.set
    rw [heq, hfind]
  · intro hnone
    have hfind : (s.chainFrom f f).find? (fun g => (s.lookup g name).isSome) = none := by
      rw [List.find?_eq_none]
      intro g hg
      simp [hnone g hg]
    unfold Environment.set
    rw [heq, hfind]

theorem set_updates_nearest_witness :
    (∃ s1, Environment.set sampleStore 1 "y" (.fixnum 9) = .ok () s1 ∧
        s1.lookup 0 "y" = some (.fixnum 9) ∧
        (∀ other, other ≠ "y" → s1.lookup 0 other = sampleStore.lookup 0 other) ∧
        (∀ g1, g1 ≠ 0 → s1.frame g1 = sampleStore.frame g1) ∧
        (∀ g1, (s1.frame g1).outer = (sampleStore.frame g1).outer) ∧
        s1.frames.length = sampleStore.frames.length ∧
        s1.pairs = sampleStore.pairs ∧ s1.strings = sampleStore.strings ∧
        s1.vectors = sampleStore.vectors) ∧
    Environment.set sampleStore 1 "w" (.fixnum 9) = .error (.unknownVariable "w") sampleStore :=
  ⟨(set_updates_nearest sampleStore 1 "y" (.fixnum 9) (by decide) (by decide)).1 [1] 0 []
      (by decide) (by decide) (by decide),
   (set_updates_nearest sampleStore 1 "w" (.fixnum 9) (by decide) (by decide)).2 (by decide)⟩

/-- C3. `get(frame, name)` in a store whose frames were constructed after
their parents: when the chain from `frame` outward reads `pre ++ g :: post`,
no frame of `pre` binds `name` and `g` binds it to `v`, the call returns `v`;
the call throws the unknown-variable error exactly when no frame of the chain
binds `name`; in each case the store is the one of before; and the evaluation
of the Symbol form `name` in the environment `frame` is this call. -/
theorem get_reads_nearest (h : Host) (n : Nat) (s : Store) (f : Nat) (name : String)
    (hs : s.Ordered) (hf : f < s.frames.length) :
    (∀ pre g post v, s.chain f = pre ++ g :: post →
      (∀ g1 ∈ pre, s.lookup g1 name = none) → s.lookup g name = some v →
      Environment.get s f name = .ok v s) ∧
    (Environment.get s f name = .error (.unknownVariable name) s ↔
      ∀ g ∈ s.chain f, s.lookup g name = none) ∧
    (∀ e s1, Environment.get s f name = .error e s1 → e = .unknownVariable name) ∧
    (Environment.get s f name).store s = s ∧
    evalExpandedForm h (n + 1) (.symbol name) f s = Environment.get s f name := by
  have heq := getFrom_eq s hs name f f (le_refl f) hf
  refine ⟨?_, ?_, ?_, ?_, rfl⟩
  · intro pre g post v hchain hpre hg
    have hfind : (s.chainFrom f f).find? (fun g => (s.lookup g name).isSome) = some g :=
      find_nearest _ pre post g _ hchain (fun x hx => by simp [hpre x hx]) (by simp [hg])
    unfold Environment.get
    rw [heq, hfind]
    simp [hg]
  · unfold Environment.get
    rw [heq]
    constructor
    · intro hres
      cases hfind : (s.chainFrom f f).find? (fun g => (s.lookup g name).isSome) with
      | some g => rw [hfind] at hres; simp at hres
      | none =>
        rw [List.find?_eq_none] at hfind
        intro g hg
        have := hfind g hg
        simpa using this
    · intro hnone
      have hfind : (s.chainFrom f f).find? (fun g => (s.lookup g name).isSome) = none := by
        rw [List.find?_eq_none]
        intro g hg
        simp [hnone g (by exact hg)]
      rw [hfind]
  · intro e s1
    unfold Environment.get
    rw [heq]
    cases hfind : (s.chainFrom f f).find? (fun g => (s.lookup g name).isSome) with
    | some g => simp
    | none =>
      simp
      intro he _
      exact he.symm
  · unfold Environment.get
    rw [heq]
    cases hfind : (s.chainFrom f f).find? (fun g => (s.lookup g name).isSome) with
    | some g => simp [Res.store]
    | none => simp [Res.store]

theorem get_reads_nearest_witness :
    Environment.get sampleStore 1 "x" = .ok (.fixnum 3) sampleStore ∧
    Environment.get sampleStore 1 "y" = .ok (.fixnum 2) sampleStore ∧
    (Environment.get sampleStore 1 "w" = .error (.unknownVariable "w") sampleStore ↔
      ∀ g ∈ sampleStore.chain 1, sampleStore.lookup g "w" = none) ∧
    evalExpandedForm noNatives 1 (.symbol "y") 1 sampleStore
      = Environment.get sampleStore 1 "y" :=
  ⟨(get_reads_nearest noNatives 0 sampleStore 1 "x" (by decide) (by decide)).1 [] 1 [0]
      (.fixnum 3) (by decide) (by decide) (by decide),
   (get_reads_nearest noNatives 0 sampleStore 1 "y" (by decide) (by decide)).1 [1] 0 []
      (.fixnum 2) (by decide) (by decide) (by decide),
   (get_reads_nearest noNatives 0 sampleStore 1 "w" (by decide) (by decide)).2.1,
   (get_reads_nearest noNatives 0 sampleStore 1 "y" (by decide) (by decide)).2.2.2.2⟩

/-! ## C4, C5: Environment.extendIntoNew -/

theorem mem_of_getElem?_later (n : String) (ns : List String)
    (h : ∀ j, 0 < j → (n :: ns)[j]? ≠ some n) : n ∉ ns := by
  intro hmem
  obtain ⟨j, hj⟩ := List.mem_iff_getElem?.1 hmem
  exact h (j + 1) (by omega) (by simpa using hj)

/-- What the loop of `define` calls leaves in the frame `ret`. -/
theorem defineEach_ok (ret : Nat) (names : List String) :
    ∀ (args : List Obj) (s : Store), (∀ n ∈ names, isKeyword n = false) →
      ret < s.frames.length → names.length ≤ args.length →
      ∃ s1, Environment.defineEach ret names args s = .ok () s1 ∧
        s1.frames.length = s.frames.length ∧
        (∀ g, g ≠ ret → s1.frame g = s.frame g) ∧
        (s1.frame ret).outer = (s.frame ret).outer ∧
        s1.pairs = s.pairs ∧ s1.strings = s.strings ∧ s1.vectors = s.vectors ∧
        (∀ (i : Nat) (name : String), names[i]? = some name → (∀ j, i < j → names[j]? ≠ some name) →
          s1.lookup ret name = args[i]?) ∧
        (∀ name, name ∉ names → s1.lookup ret name = s.lookup ret name) := by
  induction names with
  | nil =>
    intro args s _ _ _
    exact ⟨s, by simp [Environment.defineEach], rfl, fun _ _ => rfl, rfl, rfl, rfl, rfl,
      by simp, fun _ _ => rfl⟩
  | cons n ns ih =>
    intro args s hkw hret hlen
    cases args with
    | nil => simp at hlen
    | cons a as =>
      have hn : isKeyword n = false := hkw n (by simp)
      have hlenA : ret < (s.assign ret n a).frames.length := by
        rw [length_assign]; exact hret
      obtain ⟨s1, hrun, hl, hother, houter, hp, hst, hv, hidx, hrest⟩ :=
        ih as (s.assign ret n a) (fun m hm => hkw m (by simp [hm])) hlenA
          (by simpa using hlen)
      refine ⟨s1, ?_, ?_, ?_, ?_, ?_, ?_, ?_, ?_, ?_⟩
      · simp [Environment.defineEach, Environment.define, hn, Res.bind, hrun]
      · rw [hl, length_assign]
      · intro g hg
        rw [hother g hg, frame_assign_other s ret g n a hg]
      · rw [houter, outer_assign]
      · rw [hp]; rfl
      · rw [hst]; rfl
      · rw [hv]; rfl
      · intro i name hi hlater
        cases i with
        | zero =>
          simp at hi
          subst hi
          have hnot : n ∉ ns := mem_of_getElem?_later n ns hlater
          rw [hrest n hnot, lookup_assign_same s ret n a hret]
          simp
        | succ i =>
          simp at hi
          have := hidx i name hi (fun j hj => by
            have := hlater (j + 1) (by omega)
            simpa using this)
          simpa using this
      · intro name hname
        have h1 : name ∉ ns := fun hm => hname (by simp [hm])
        have h2 : name ≠ n := fun he => hname (by simp [he])
        rw [hrest name h1, lookup_assign_other s ret n name a h2]

theorem defineEach_error (ret : Nat) (names : List String) :
    ∀ (args : List Obj) (s : Store) (e : Err) (s1 : Store),
      Environment.defineEach ret names args s = .error e s1 → ∃ n, e = .constantSymbol n := by
  induction names with
  | nil => intro args s e s1 h; simp [Environment.defineEach] at h
  | cons n ns ih =>
    intro args s e s1 h
    cases args with
    | nil => simp [Environment.defineEach] at h
    | cons a as =>
      cases hn : isKeyword n with
      | true =>
        simp [Environment.defineEach, Environment.define, hn, Res.bind] at h
        exact ⟨n, h.1.symm⟩
      | false =>
        simp [Environment.defineEach, Environment.define, hn, Res.bind] at h
        exact ih as _ e s1 h

/-- The store right after `new Environment(this)`. -/
theorem frame_append_old (s : Store) (fr : Frame) (g : Nat) (hg : g < s.frames.length) :
    ({ s with frames := s.frames ++ [fr] } : Store).frame g = s.frame g := by
  simp [Store.frame, List.getD_eq_getElem?_getD, List.getElem?_append_left hg]

theorem frame_append_new (s : Store) (fr : Frame) :
    ({ s with frames := s.frames ++ [fr] } : Store).frame s.frames.length = fr := by
  simp [Store.frame, List.getD_eq_getElem?_getD]

/-- C4 (as amended). `extendIntoNew` with `hasRest = false`: the call throws
the parameter-count error exactly when the numbers of formal names and of
actual values differ; when they agree and no formal name is reserved it
returns the address of a new frame whose parent is the receiver, in which
every formal name is bound to the actual value at the position of its last
occurrence among the formals (the i-th formal to the i-th actual whenever the
name does not occur again after position i) and no other name is bound, the
frames that existed before being unchanged. -/
theorem extendIntoNew_fixed (s : Store) (f : Nat) (names : List String) (args : List Obj) :
    ((∃ s1, Environment.extendIntoNew s f names args false = .error .invalidParameterCount s1)
      ↔ args.length ≠ names.length) ∧
    (args.length = names.length → (∀ n ∈ names, isKeyword n = false) →
      ∃ s1, Environment.extendIntoNew s f names args false = .ok s.frames.length s1 ∧
        (s1.frame s.frames.length).outer = some f ∧
        (∀ (i : Nat) (name : String), names[i]? = some name → (∀ j, i < j → names[j]? ≠ some name) →
          s1.lookup s.frames.length name = args[i]?) ∧
        (∀ name, name ∉ names → s1.lookup s.frames.length name = none) ∧
        (∀ g, g < s.frames.length → s1.frame g = s.frame g) ∧
        s1.frames.length = s.frames.length + 1 ∧
        s1.pairs = s.pairs ∧ s1.strings = s.strings ∧ s1.vectors = s.vectors) := by
  constructor
  · constructor
    · rintro ⟨s1, h⟩
      intro hlen
      simp only [Environment.extendIntoNew, hlen, ne_eq, not_true_eq_false, if_false,
        Bool.false_eq_true] at h
      cases hd : Environment.defineEach s.frames.length names args
          { s with frames := s.frames ++ [⟨[], some f⟩] } with
      | ok v s2 => rw [hd] at h; simp [Res.bind] at h
      | error e s2 =>
        rw [hd] at h
        obtain ⟨n, hn⟩ := defineEach_error _ _ _ _ _ _ hd
        simp [Res.bind, hn] at h
      | outOfFuel => rw [hd] at h; simp [Res.bind] at h
    · intro hlen
      exact ⟨{ s with frames := s.frames ++ [⟨[], some f⟩] },
        by simp [Environment.extendIntoNew, hlen]⟩
  · intro hlen hkw
    obtain ⟨s1, hrun, hl, hother, houter, hp, hst, hv, hidx, hrest⟩ :=
      defineEach_ok s.frames.length names args
        { s with frames := s.frames ++ [⟨[], some f⟩] } hkw (by simp) (by omega)
    refine ⟨s1, ?_, ?_, hidx, ?_, ?_, ?_, ?_, ?_, ?_⟩
    · simp [Environment.extendIntoNew, hlen, hrun, Res.bind]
    · rw [houter, frame_append_new]
    · intro name hname
      rw [hrest name hname]
      simp [Store.lookup, frame_append_new, mapFind]
    · intro g hg
      rw [hother g (by omega), frame_append_old s _ g hg]
    · rw [hl]; simp
    · rw [hp]
    · rw [hst]
    · rw [hv]

theorem extendIntoNew_fixed_witness :
    ((∃ s1, Environment.extendIntoNew sampleStore 0 ["a", "b"] [.fixnum 5] false
        = .error .invalidParameterCount s1) ↔ [Obj.fixnum 5].length ≠ ["a", "b"].length) ∧
    (∃ s1, Environment.extendIntoNew sampleStore 0 ["a", "b"] [.fixnum 5, .fixnum 6] false
        = .ok sampleStore.frames.length s1 ∧
        (s1.frame sampleStore.frames.length).outer = some 0 ∧
        (∀ (i : Nat) (name : String), ["a", "b"][i]? = some name → (∀ j, i < j → ["a", "b"][j]? ≠ some name) →
          s1.lookup sampleStore.frames.length name = [Obj.fixnum 5, Obj.fixnum 6][i]?) ∧
        (∀ name, name ∉ ["a", "b"] → s1.lookup sampleStore.frames.length name = none) ∧
        (∀ g, g < sampleStore.frames.length → s1.frame g = sampleStore.frame g) ∧
        s1.frames.length = sampleStore.frames.length + 1 ∧
        s1.pairs = sampleStore.pairs ∧ s1.strings = sampleStore.strings ∧
        s1.vectors = sampleStore.vectors) :=
  ⟨(extendIntoNew_fixed sampleStore 0 ["a", "b"] [.fixnum 5]).1,
   (extendIntoNew_fixed sampleStore 0 ["a", "b"] [.fixnum 5, .fixnum 6]).2 (by decide)
     (by decide)⟩

/-- C4 (as stated) fails: with the formals `(a a)` and the actuals 1 and 2 the
lengths agree and no formal is reserved, yet in the new frame the first formal
`a` is bound to 2, not to the first actual 1. -/
theorem extendIntoNew_fixed_duplicate_formal :
    ∃ s1, Environment.extendIntoNew sampleStore 0 ["a", "a"] [.fixnum 1, .fixnum 2] false
        = .ok 2 s1 ∧
      s1.lookup 2 "a" = some (.fixnum 2) ∧ s1.lookup 2 "a" ≠ some (.fixnum 1) :=
  ⟨(Environment.extendIntoNew sampleStore 0 ["a", "a"] [.fixnum 1, .fixnum 2] false).store
      sampleStore, by decide, by decide, by decide⟩

theorem car_append (s : Store) (more : List (Obj × Obj)) (a : Nat) (ha : a < s.pairs.length) :
    ({ s with pairs := s.pairs ++ more } : Store).car (.pair a) = s.car (.pair a) := by
  simp [Store.car, List.getD_eq_getElem?_getD, List.getElem?_append_left ha]

theorem cdr_append (s : Store) (more : List (Obj × Obj)) (a : Nat) (ha : a < s.pairs.length) :
    ({ s with pairs := s.pairs ++ more } : Store).cdr (.pair a) = s.cdr (.pair a) := by
  simp [Store.cdr, List.getD_eq_getElem?_getD, List.getElem?_append_left ha]

/-- A list stays the list it is when pairs are allocated. -/
theorem isList_append (s : Store) (more : List (Obj × Obj)) (xs : List Obj) :
    ∀ o, s.isList o xs = true → ({ s with pairs := s.pairs ++ more } : Store).isList o xs = true := by
  induction xs with
  | nil =>
    intro o h
    cases o <;> simp_all [Store.isList]
  | cons x xs ih =>
    intro o h
    cases o with
    | pair a =>
      simp only [Store.isList, Bool.and_eq_true, decide_eq_true_eq] at h
      obtain ⟨⟨ha, hcar⟩, htl⟩ := h
      simp only [Store.isList, Bool.and_eq_true, decide_eq_true_eq]
      refine ⟨⟨?_, ?_⟩, ?_⟩
      · simp; omega
      · rw [car_append s more a ha]; exact hcar
      · rw [cdr_append s more a ha]; exact ih _ htl
    | _ => simp [Store.isList] at h

/-- The pairs built for the rest parameter form the list of the surplus
arguments in their order. -/
theorem consEach_spec (extras : List Obj) :
    ∀ (o : Obj) (s : Store) (acc : List Obj), s.isList o acc = true →
      (Environment.consEach extras o s).2.isList (Environment.consEach extras o s).1
          (extras.reverse ++ acc) = true ∧
        (Environment.consEach extras o s).2.frames = s.frames ∧
        (Environment.consEach extras o s).2.strings = s.strings ∧
        (Environment.consEach extras o s).2.vectors = s.vectors := by
  induction extras with
  | nil => intro o s acc h; simpa [Environment.consEach] using h
  | cons x xs ih =>
    intro o s acc h
    have hnew : (s.newPair x o).2.isList (s.newPair x o).1 (x :: acc) = true := by
      have h1 := isList_append s [(x, o)] acc o h
      simp only [Store.newPair, Store.isList, Bool.and_eq_true, decide_eq_true_eq]
      refine ⟨⟨by simp, by simp [Store.car, List.getD_eq_getElem?_getD]⟩, ?_⟩
      simpa [Store.cdr, List.getD_eq_getElem?_getD] using h1
    obtain ⟨h1, h2, h3, h4⟩ := ih (s.newPair x o).1 (s.newPair x o).2 (x :: acc) hnew
    refine ⟨?_, ?_, ?_, ?_⟩
    · simpa [Environment.consEach] using h1
    · simpa [Environment.consEach, Store.newPair] using h2
    · simpa [Environment.consEach, Store.newPair] using h3
    · simpa [Environment.consEach, Store.newPair] using h4

theorem isList_setFrame (s : Store) (f : Nat) (fr : Frame) (xs : List Obj) :
    ∀ o, (s.setFrame f fr).isList o xs = s.isList o xs := by
  induction xs with
  | nil => intro o; cases o <;> simp [Store.isList]
  | cons x xs ih =>
    intro o
    cases o with
    | pair a =>
      simp only [Store.isList]
      rw [show (s.setFrame f fr).cdr (.pair a) = s.cdr (.pair a) from rfl, ih]
      rfl
    | _ => simp [Store.isList]

theorem size_sub_one (n : Nat) (h1 : 1 ≤ n) : sizeMinusOne n = n - 1 := by
  have : ¬ n = 0 := by omega
  simp [sizeMinusOne, this]

theorem lookup_of_frames_eq (s1 s2 : Store) (h : s2.frames = s1.frames) (g : Nat)
    (name : String) : s2.lookup g name = s1.lookup g name := by
  simp [Store.lookup, Store.frame, h]

theorem frame_of_frames_eq (s1 s2 : Store) (h : s2.frames = s1.frames) (g : Nat) :
    s2.frame g = s1.frame g := by
  simp [Store.frame, h]

theorem getLastD_getElem? (names : List String) (hn : 1 ≤ names.length) :
    names[names.length - 1]? = some (names.getLastD "") := by
  rw [List.getLastD_eq_getLast?, List.getLast?_eq_getElem?]
  have : names.length - 1 < names.length := by omega
  simp [List.getElem?_eq_getElem this]

/-- C5 (as amended). `extendIntoNew` with `hasRest = true` and `n >= 1` formal
names: the call throws the parameter-count error exactly when fewer than
`n - 1` actual values are given; otherwise, when no formal name is reserved,
it returns the address of a new frame whose parent is the receiver, in which
the last formal is bound to a proper list of freshly allocated pairs holding
the actuals from position `n - 1` on in their order (Null when exactly `n - 1`
actuals are given), and each of the first `n - 1` formals whose name does not
occur again later among the formals is bound to the actual at its position;
the frames that existed before are unchanged. -/
theorem extendIntoNew_rest (s : Store) (f : Nat) (names : List String) (args : List Obj)
    (hn : 1 ≤ names.length) :
    ((∃ s1, Environment.extendIntoNew s f names args true = .error .invalidParameterCount s1)
      ↔ args.length < names.length - 1) ∧
    (names.length - 1 ≤ args.length → (∀ n ∈ names, isKeyword n = false) →
      ∃ s1 o, Environment.extendIntoNew s f names args true = .ok s.frames.length s1 ∧
        (s1.frame s.frames.length).outer = some f ∧
        s1.lookup s.frames.length (names.getLastD "") = some o ∧
        s1.isList o (args.drop (names.length - 1)) = true ∧
        (args.length = names.length - 1 → o = .null) ∧
        (∀ (i : Nat) (name : String), i < names.length - 1 → names[i]? = some name →
          (∀ j, i < j → names[j]? ≠ some name) → s1.lookup s.frames.length name = args[i]?) ∧
        (∀ g, g < s.frames.length → s1.frame g = s.frame g) ∧
        s1.frames.length = s.frames.length + 1) := by
  have hmod := size_sub_one names.length hn
  constructor
  · constructor
    · rintro ⟨s1, h⟩
      by_contra hlen
      have hlen1 : ¬ args.length < sizeMinusOne names.length := by rw [hmod]; exact hlen
      simp only [Environment.extendIntoNew, hlen1, if_true, if_false] at h
      cases hd : Environment.defineEach s.frames.length (names.take (names.length - 1)) args
          { s with frames := s.frames ++ [⟨[], some f⟩] } with
      | ok v s2 =>
        rw [hd] at h
        cases hk : isKeyword (names.getLastD "") <;>
          simp only [Res.bind, Environment.define, hk, if_true, if_false,
            Bool.false_eq_true] at h <;> simp at h
      | error e s2 =>
        rw [hd] at h
        obtain ⟨n, hn⟩ := defineEach_error _ _ _ _ _ _ hd
        simp [Res.bind, hn] at h
      | outOfFuel => rw [hd] at h; simp [Res.bind] at h
    · intro hlen
      have hlen1 : args.length < sizeMinusOne names.length := by rw [hmod]; exact hlen
      exact ⟨{ s with frames := s.frames ++ [⟨[], some f⟩] },
        by simp only [Environment.extendIntoNew, hlen1, if_true]⟩
  · intro hlen hkw
    have hlen1 : ¬ args.length < sizeMinusOne names.length := by rw [hmod]; omega
    have hlast := getLastD_getElem? names hn
    have hlastmem : names.getLastD "" ∈ names := List.mem_iff_getElem?.2 ⟨_, hlast⟩
    have hlastkw : isKeyword (names.getLastD "") = false := hkw _ hlastmem
    obtain ⟨s1, hrun, hl, hother, houter, hp, hst, hv, hidx, hrest⟩ :=
      defineEach_ok s.frames.length (names.take (names.length - 1)) args
        { s with frames := s.frames ++ [⟨[], some f⟩] }
        (fun m hm => hkw m (List.mem_of_mem_take hm)) (by simp)
        (by rw [List.length_take]; omega)
    obtain ⟨c1, c2, c3, c4⟩ :=
      consEach_spec (args.drop (names.length - 1)).reverse .null s1 []
        (by simp [Store.isList])
    simp only [List.reverse_reverse, List.append_nil] at c1
    generalize hcons : Environment.consEach (args.drop (names.length - 1)).reverse .null s1 = c
      at c1 c2 c3 c4
    have hnew : s.frames.length < c.2.frames.length := by
      rw [c2, hl]; simp
    refine ⟨c.2.assign s.frames.length (names.getLastD "") c.1, c.1, ?_, ?_, ?_, ?_, ?_, ?_, ?_,
      ?_⟩
    · simp only [Environment.extendIntoNew, hlen1, if_true, if_false, hrun, Res.bind, hcons,
        Environment.define, hlastkw, Bool.false_eq_true]
    · rw [outer_assign, frame_of_frames_eq s1 c.2 c2, houter, frame_append_new]
    · exact lookup_assign_same _ _ _ _ hnew
    · unfold Store.assign
      rw [isList_setFrame]
      exact c1
    · intro hexact
      have hnil : args.drop (names.length - 1) = [] := by
        apply List.drop_eq_nil_of_le; omega
      rw [hnil] at c1
      cases hc : c.1 <;> simp [hc, Store.isList] at c1
      rfl
    · intro i name hi hname hlater
      have hne : name ≠ names.getLastD "" := by
        intro he
        exact hlater (names.length - 1) hi (by rw [hlast, he])
      rw [lookup_assign_other _ _ _ _ _ hne, lookup_of_frames_eq s1 c.2 c2]
      apply hidx i name
      · rw [List.getElem?_take_of_lt hi]; exact hname
      · intro j hj hjn
        by_cases hjlt : j < names.length - 1
        · rw [List.getElem?_take_of_lt hjlt] at hjn
          exact hlater j hj hjn
        · have : (names.take (names.length - 1))[j]? = none := by
            apply List.getElem?_eq_none
            rw [List.length_take]; omega
          rw [this] at hjn
          simp at hjn
    · intro g hg
      rw [frame_assign_other _ _ _ _ _ (by omega), frame_of_frames_eq s1 c.2 c2,
        hother g (by omega), frame_append_old s _ g hg]
    · rw [length_assign, c2, hl]; simp

theorem extendIntoNew_rest_witness :
    ∃ s1 o, Environment.extendIntoNew sampleStore 0 ["a", "b", "rest"]
        [.fixnum 5, .fixnum 6, .fixnum 7, .fixnum 8] true = .ok 2 s1 ∧
      s1.lookup 2 "rest" = some o ∧ s1.isList o [.fixnum 7, .fixnum 8] = true ∧
      s1.lookup 2 "a" = some (.fixnum 5) ∧ s1.lookup 2 "b" = some (.fixnum 6) := by
  obtain ⟨s1, o, h1, _, h3, h4, _, h6, _⟩ :=
    (extendIntoNew_rest sampleStore 0 ["a", "b", "rest"]
      [.fixnum 5, .fixnum 6, .fixnum 7, .fixnum 8] (by decide)).2
      (by decide) (by decide)
  refine ⟨s1, o, h1, h3, h4, h6 0 "a" (by decide) (by decide) ?_,
    h6 1 "b" (by decide) (by decide) ?_⟩
  · intro j hj
    match j, hj with
    | 1, _ => decide
    | 2, _ => decide
    | j + 3, _ => simp
  · intro j hj
    match j, hj with
    | 2, _ => decide
    | j + 3, _ => simp

/-- C5 (as stated) fails.  With the formals `(if . r)` and one actual, not
fewer than `n - 1` actuals are given, yet the call throws (the constant-symbol
error) and binds nothing.  With the formals `(a . a)` and the actual 1 the
call returns, but the first formal `a` is bound to the rest list (Null), not
to the first actual. -/
theorem extendIntoNew_rest_reserved_or_duplicate :
    Environment.extendIntoNew sampleStore 0 ["if", "r"] [.fixnum 1] true
      = .error (.constantSymbol "if")
          { sampleStore with frames := sampleStore.frames ++ [⟨[], some 0⟩] } ∧
    (∃ s1, Environment.extendIntoNew sampleStore 0 ["a", "a"] [.fixnum 1] true = .ok 2 s1 ∧
      s1.lookup 2 "a" = some .null ∧ s1.lookup 2 "a" ≠ some (.fixnum 1)) :=
  ⟨by decide,
   (Environment.extendIntoNew sampleStore 0 ["a", "a"] [.fixnum 1] true).store sampleStore,
   by decide, by decide, by decide⟩

/-! ## C6: the reserved names are never bound -/

theorem mem_frame_data (s : Store) (f : Nat) (kv : String × Obj)
    (h : kv ∈ (s.frame f).data) : ∃ fr ∈ s.frames, kv ∈ fr.data := by
  unfold Store.frame at h
  rw [List.getD_eq_getElem?_getD] at h
  cases hget : s.frames[f]? with
  | none => rw [hget] at h; simp at h
  | some fr =>
    rw [hget] at h
    exact ⟨fr, List.getElem?_mem hget, by simpa using h⟩

theorem mapFind_mem (m : List (String × Obj)) (name : String) (v : Obj)
    (h : mapFind m name = some v) : (name, v) ∈ m := by
  induction m with
  | nil => simp [mapFind] at h
  | cons kv m ih =>
    obtain ⟨k, w⟩ := kv
    by_cases hk : k = name
    · simp [mapFind, hk] at h
      simp [hk, h]
    · simp [mapFind, hk] at h
      simp [ih h]

theorem noKeywordBound_assign (s : Store) (f : Nat) (name : String) (value : Obj)
    (hs : s.NoKeywordBound) (hname : isKeyword name = false) :
    (s.assign f name value).NoKeywordBound := by
  intro fr hfr kv hkv
  simp only [Store.assign, Store.setFrame] at hfr
  rcases List.mem_or_eq_of_mem_set hfr with h | h
  · exact hs fr h kv hkv
  · subst h
    rcases mapAssign_keys _ _ _ kv hkv with h1 | h1
    · rw [h1]; exact hname
    · obtain ⟨fr1, hfr1, hkv1⟩ := mem_frame_data s f kv h1
      exact hs fr1 hfr1 kv hkv1

theorem define_leaves (s : Store) (f : Nat) (name : String) (value : Obj)
    (hs : s.NoKeywordBound) : Res.Leaves Store.NoKeywordBound (Environment.define s f name value) := by
  unfold Environment.define
  cases hk : isKeyword name with
  | true => simpa [Res.Leaves] using hs
  | false => simpa [Res.Leaves] using noKeywordBound_assign s f name value hs hk

theorem setFrom_leaves (s : Store) (name : String) (value : Obj) (hs : s.NoKeywordBound)
    (k : Nat) : ∀ f, Res.Leaves Store.NoKeywordBound (Environment.setFrom s name value k f) := by
  induction k with
  | zero =>
    intro f
    unfold Environment.setFrom
    cases hb : mapFind (s.frame f).data name with
    | some v =>
      obtain ⟨fr, hfr, hkv⟩ := mem_frame_data s f _ (mapFind_mem _ _ _ hb)
      simpa [Res.Leaves] using noKeywordBound_assign s f name value hs (hs fr hfr _ hkv)
    | none =>
      cases ho : (s.frame f).outer with
      | none => simpa [Res.Leaves] using hs
      | some o => simp [Res.Leaves]
  | succ k ih =>
    intro f
    unfold Environment.setFrom
    cases hb : mapFind (s.frame f).data name with
    | some v =>
      obtain ⟨fr, hfr, hkv⟩ := mem_frame_data s f _ (mapFind_mem _ _ _ hb)
      simpa [Res.Leaves] using noKeywordBound_assign s f name value hs (hs fr hfr _ hkv)
    | none =>
      cases ho : (s.frame f).outer with
      | none => simpa [Res.Leaves] using hs
      | some o => simpa using ih o

theorem defineEach_leaves (ret : Nat) (names : List String) :
    ∀ (args : List Obj) (s : Store), s.NoKeywordBound →
      Res.Leaves Store.NoKeywordBound (Environment.defineEach ret names args s) := by
  induction names with
  | nil => intro args s hs; simpa [Environment.defineEach, Res.Leaves] using hs
  | cons n ns ih =>
    intro args s hs
    cases args with
    | nil => simpa [Environment.defineEach, Res.Leaves] using hs
    | cons a as =>
      have hd := define_leaves s ret n a hs
      cases hr : Environment.define s ret n a with
      | ok v s1 =>
        rw [hr] at hd
        simpa [Environment.defineEach, hr, Res.bind] using ih as s1 hd
      | error e s1 =>
        rw [hr] at hd
        simpa [Environment.defineEach, hr, Res.bind] using hd
      | outOfFuel => simp [Environment.defineEach, hr, Res.bind, Res.Leaves]

theorem noKeywordBound_of_frames_eq (s1 s2 : Store) (h : s2.frames = s1.frames)
    (hs : s1.NoKeywordBound) : s2.NoKeywordBound := by
  unfold Store.NoKeywordBound
  rw [h]
  exact hs

theorem leaves_ite {α : Type} (P : Store → Prop) (c : Prop) [Decidable c] (a b : Res α)
    (ha : Res.Leaves P a) (hb : Res.Leaves P b) : Res.Leaves P (if c then a else b) := by
  split
  · exact ha
  · exact hb

theorem extendIntoNew_leaves (s : Store) (f : Nat) (names : List String) (args : List Obj)
    (rest : Bool) (hs : s.NoKeywordBound) :
    Res.Leaves Store.NoKeywordBound (Environment.extendIntoNew s f names args rest) := by
  have hs0 : ({ s with frames := s.frames ++ [⟨[], some f⟩] } : Store).NoKeywordBound := by
    intro fr hfr kv hkv
    simp only [List.mem_append, List.mem_singleton] at hfr
    rcases hfr with h | h
    · exact hs fr h kv hkv
    · subst h; simp at hkv
  unfold Environment.extendIntoNew
  cases rest with
  | false =>
    simp only [Bool.false_eq_true, if_false]
    split
    · simpa [Res.Leaves] using hs0
    · have hd := defineEach_leaves s.frames.length names args _ hs0
      cases hr : Environment.defineEach s.frames.length names args
          { s with frames := s.frames ++ [⟨[], some f⟩] } with
      | ok v s1 => rw [hr] at hd; simpa [Res.bind, Res.Leaves] using hd
      | error e s1 => rw [hr] at hd; simpa [Res.bind, Res.Leaves] using hd
      | outOfFuel => simp [Res.bind, Res.Leaves]
  | true =>
    simp only [if_true]
    apply leaves_ite
    · simpa [Res.Leaves] using hs0
    · have hd := defineEach_leaves s.frames.length (names.take (names.length - 1)) args _ hs0
      cases hr : Environment.defineEach s.frames.length (names.take (names.length - 1)) args
          { s with frames := s.frames ++ [⟨[], some f⟩] } with
      | ok v s1 =>
        rw [hr] at hd
        obtain ⟨_, c2, _, _⟩ :=
          consEach_spec (args.drop (names.length - 1)).reverse .null s1 []
            (by simp [Store.isList])
        have hc := noKeywordBound_of_frames_eq s1 _ c2 hd
        have hl := define_leaves _ s.frames.length (names.getLastD "")
          (Environment.consEach (args.drop (names.length - 1)).reverse .null s1).1 hc
        simp only [Res.bind]
        cases hr2 : Environment.define
            (Environment.consEach (args.drop (names.length - 1)).reverse .null s1).2
            s.frames.length (names.getLastD "")
            (Environment.consEach (args.drop (names.length - 1)).reverse .null s1).1 with
        | ok v s2 => rw [hr2] at hl; simpa [Res.Leaves] using hl
        | error e s2 => rw [hr2] at hl; simpa [Res.Leaves] using hl
        | outOfFuel => simp [Res.Leaves]
      | error e s1 => rw [hr] at hd; simpa [Res.bind, Res.Leaves] using hd
      | outOfFuel => simp [Res.bind, Res.Leaves]

theorem store_of_leaves {α : Type} (P : Store → Prop) (r : Res α) (s : Store)
    (hr : Res.Leaves P r) (hs : P s) : P (r.store s) := by
  cases r with
  | ok v s1 => simpa [Res.store, Res.Leaves] using hr
  | error e s1 => simpa [Res.store, Res.Leaves] using hr
  | outOfFuel => simpa [Res.store] using hs

theorem run_noKeywordBound (s : Store) (c : EnvCall) (hs : s.NoKeywordBound) :
    (EnvCall.run s c).NoKeywordBound := by
  cases c with
  | define f name value =>
    exact store_of_leaves _ _ _ (define_leaves s f name value hs) hs
  | set f name value =>
    exact store_of_leaves _ _ _ (setFrom_leaves s name value hs f f) hs
  | extendIntoNew f names args rest =>
    exact store_of_leaves _ _ _ (extendIntoNew_leaves s f names args rest hs) hs

theorem lookup_none_of_noKeywordBound (s : Store) (hs : s.NoKeywordBound) (f : Nat)
    (name : String) (hname : name ∈ keywords) : s.lookup f name = none := by
  cases hl : s.lookup f name with
  | none => rfl
  | some v =>
    exfalso
    obtain ⟨fr, hfr, hkv⟩ := mem_frame_data s f _ (mapFind_mem _ _ _ hl)
    have h1 := hs fr hfr _ hkv
    have h2 := (isKeyword_iff name).2 hname
    simp [h2] at h1

/-- C6. Starting from a store in which no frame has a reserved name among its
keys, after any sequence of calls of `define`, `set` and `extendIntoNew`, each
on any frame and with any arguments, whether the call returned or threw, no
frame of the store has a reserved name among its keys, so that the lookup of
each of the seven names in each frame finds no binding. -/
theorem reserved_names_never_bound (calls : List EnvCall) (s : Store)
    (hs : s.NoKeywordBound) :
    (calls.foldl EnvCall.run s).NoKeywordBound ∧
    ∀ f name, name ∈ keywords → (calls.foldl EnvCall.run s).lookup f name = none := by
  have key : (calls.foldl EnvCall.run s).NoKeywordBound := by
    induction calls generalizing s with
    | nil => simpa using hs
    | cons c cs ih => exact ih (EnvCall.run s c) (run_noKeywordBound s c hs)
  exact ⟨key, fun f name hname => lookup_none_of_noKeywordBound _ key f name hname⟩

theorem reserved_names_never_bound_witness :
    sampleStore.NoKeywordBound ∧
    (List.foldl EnvCall.run sampleStore
      [.define 1 "if" (.fixnum 1), .set 1 "quote" (.fixnum 2), .define 0 "z" (.fixnum 3),
       .extendIntoNew 1 ["lambda", "u"] [.fixnum 4, .fixnum 5] false,
       .extendIntoNew 1 ["u", "begin"] [.fixnum 4, .fixnum 5] true]).NoKeywordBound :=
  ⟨by decide, (reserved_names_never_bound _ sampleStore (by decide)).1⟩

/-! ## The order of the frames is kept

The hypothesis `Store.Ordered` of C2 and C3 holds in the store of the
constructor (one root frame) and is kept by every call that writes. -/

theorem ordered_assign (s : Store) (f : Nat) (name : String) (value : Obj) (hs : s.Ordered) :
    (s.assign f name value).Ordered := by
  intro g hg
  rw [outer_assign]
  exact hs g (by rwa [length_assign] at hg)

theorem ordered_define (s : Store) (f : Nat) (name : String) (value : Obj) (hs : s.Ordered) :
    Res.Leaves Store.Ordered (Environment.define s f name value) := by
  unfold Environment.define
  exact leaves_ite _ _ _ _ hs (ordered_assign s f name value hs)

theorem ordered_setFrom (s : Store) (name : String) (value : Obj) (hs : s.Ordered) (k : Nat) :
    ∀ f, Res.Leaves Store.Ordered (Environment.setFrom s name value k f) := by
  induction k with
  | zero =>
    intro f
    unfold Environment.setFrom
    apply leaves_ite
    · exact ordered_assign s f name value hs
    · cases (s.frame f).outer with
      | none => exact hs
      | some o => exact True.intro
  | succ k ih =>
    intro f
    unfold Environment.setFrom
    apply leaves_ite
    · exact ordered_assign s f name value hs
    · cases (s.frame f).outer with
      | none => exact hs
      | some o => exact ih o

theorem ordered_defineEach (ret : Nat) (names : List String) :
    ∀ (args : List Obj) (s : Store), s.Ordered →
      Res.Leaves Store.Ordered (Environment.defineEach ret names args s) := by
  induction names with
  | nil => intro args s hs; simpa [Environment.defineEach, Res.Leaves] using hs
  | cons n ns ih =>
    intro args s hs
    cases args with
    | nil => simpa [Environment.defineEach, Res.Leaves] using hs
    | cons a as =>
      have hd := ordered_define s ret n a hs
      cases hr : Environment.define s ret n a with
      | ok v s1 =>
        rw [hr] at hd
        simpa [Environment.defineEach, hr, Res.bind] using ih as s1 hd
      | error e s1 =>
        rw [hr] at hd
        simpa [Environment.defineEach, hr, Res.bind] using hd
      | outOfFuel => simp [Environment.defineEach, hr, Res.bind, Res.Leaves]

theorem ordered_of_frames_eq (s1 s2 : Store) (h : s2.frames = s1.frames) (hs : s1.Ordered) :
    s2.Ordered := by
  intro g hg
  rw [frame_of_frames_eq s1 s2 h]
  exact hs g (by rwa [h] at hg)

theorem leaves_bind {α β : Type} (P : Store → Prop) (r : Res α) (k : α → Store → Res β)
    (hr : Res.Leaves P r) (hk : ∀ v s1, P s1 → Res.Leaves P (k v s1)) :
    Res.Leaves P (r.bind k) := by
  cases r with
  | ok v s1 => exact hk v s1 hr
  | error e s1 => exact hr
  | outOfFuel => exact True.intro

/-- The store of every outcome of `extendIntoNew` on an existing frame is
ordered when the store of before is. -/
theorem ordered_extendIntoNew (s : Store) (f : Nat) (names : List String) (args : List Obj)
    (rest : Bool) (hs : s.Ordered) (hf : f < s.frames.length) :
    Res.Leaves Store.Ordered (Environment.extendIntoNew s f names args rest) := by
  have hs0 : ({ s with frames := s.frames ++ [⟨[], some f⟩] } : Store).Ordered := by
    intro g hg
    by_cases hg1 : g < s.frames.length
    · rw [frame_append_old s _ g hg1]
      exact hs g hg1
    · have hg2 : g = s.frames.length := by
        simp at hg
        omega
      subst hg2
      rw [frame_append_new]
      simpa using hf
  unfold Environment.extendIntoNew
  cases rest with
  | false =>
    simp only [Bool.false_eq_true, if_false]
    apply leaves_ite
    · exact hs0
    · apply leaves_bind _ _ _ (ordered_defineEach _ _ _ _ hs0)
      intro v s1 h1
      exact h1
  | true =>
    simp only [if_true]
    apply leaves_ite
    · exact hs0
    · apply leaves_bind _ _ _ (ordered_defineEach _ _ _ _ hs0)
      intro v s1 h1
      obtain ⟨_, c2, _, _⟩ :=
        consEach_spec (args.drop (names.length - 1)).reverse .null s1 []
          (by simp [Store.isList])
      apply leaves_bind _ _ _ (ordered_define _ _ _ _ (ordered_of_frames_eq s1 _ c2 h1))
      intro v2 s2 h2
      exact h2

/-! ## C7: the `if` form -/

theorem evalExpandedForm_define (h : Host) (n : Nat) (s : Store) (env a : Nat)
    (hcar : s.car (.pair a) = .symbol "define") :
    evalExpandedForm h (n + 1) (.pair a) env s
      = evalDefine h n (evalExpandedForm h n) (.pair a) env s := by
  simp [evalExpandedForm, evalStep, hcar]

theorem lambdaParameters_store (ts : Obj → Option String) (s : Store) (k : Nat) :
    ∀ (i : Obj) (acc : List String) (r : List String × Bool) (s1 : Store),
      evalLambdaParameters ts s k i acc = .ok r s1 → s1 = s := by
  induction k with
  | zero => intro i acc r s1 hl; simp [evalLambdaParameters] at hl
  | succ k ih =>
    intro i acc r s1 hl
    unfold evalLambdaParameters at hl
    by_cases h1 : i.getType = .otNull
    · simp [h1] at hl
      exact hl.2.symm
    · by_cases h2 : i.getType = .otPair
      · simp only [h1, h2, if_false, ne_eq, not_true_eq_false] at hl
        cases ht : ts (s.car i) with
        | none => simp [ht, Res.ofText, Res.bind] at hl
        | some x =>
          simp only [ht, Res.ofText, Res.bind] at hl
          exact ih _ _ _ _ hl
      · by_cases h3 : i.getType = .otSymbol
        · simp only [h1, h2, h3, if_false, ne_eq, not_true_eq_false, not_false_eq_true,
            if_true] at hl
          cases ht : ts i with
          | none => simp [ht, Res.ofText, Res.bind] at hl
          | some x =>
            simp [ht, Res.ofText, Res.bind] at hl
            exact hl.2.symm
        · simp [h1, h2, h3] at hl

theorem lambdaFormals_store (ts : Obj → Option String) (s : Store) (n : Nat) (formals : Obj)
    (r : List String × Bool) (s1 : Store)
    (hl : evalLambdaFormals ts s n formals = .ok r s1) : s1 = s := by
  cases formals with
  | pair q => exact lambdaParameters_store ts s n _ _ _ _ hl
  | symbol p => simp [evalLambdaFormals] at hl; exact hl.2.symm
  | null => simp [evalLambdaFormals] at hl; exact hl.2.symm
  | _ => simp [evalLambdaFormals] at hl

/-- The loop over the formals of a `lambda` collects the names of a list of
Symbols, and its tail Symbol when the list is dotted. -/
theorem lambdaParameters_symbols (h : Host) (s : Store) (m : Nat) (tail : Obj)
    (names : List String) :
    ∀ (i : Obj) (acc : List String) (k : Nat),
      s.elementsEndIn i (names.map .symbol) tail = true → names.length < k →
      (tail = .null →
        evalLambdaParameters (Obj.toString h s (m + 1)) s k i acc = .ok (acc ++ names, false) s) ∧
      (∀ t, tail = .symbol t →
        evalLambdaParameters (Obj.toString h s (m + 1)) s k i acc
          = .ok (acc ++ names ++ [t], true) s) := by
  induction names with
  | nil =>
    intro i acc k hel hk
    cases k with
    | zero => simp at hk
    | succ k =>
      simp only [List.map_nil, Store.elementsEndIn, decide_eq_true_eq] at hel
      subst hel
      constructor
      · intro ht
        subst ht
        simp [evalLambdaParameters, Obj.getType]
      · intro t ht
        subst ht
        simp [evalLambdaParameters, Obj.getType, Obj.toString, Res.ofText, Res.bind]
  | cons x xs ih =>
    intro i acc k hel hk
    cases k with
    | zero => simp at hk
    | succ k =>
      simp only [List.map_cons, Store.elementsEndIn, Bool.and_eq_true, decide_eq_true_eq] at hel
      obtain ⟨⟨hp, hcar⟩, hrest⟩ := hel
      have hnn : ¬ i.getType = .otNull := by rw [hp]; decide
      have hts : Obj.toString h s (m + 1) (.symbol x) = some x := rfl
      have hrec := ih (s.cdr i) (acc ++ [x]) k hrest (by simpa using hk)
      constructor
      · intro ht
        unfold evalLambdaParameters
        simp only [hnn, hp, if_false, ne_eq, not_true_eq_false, hcar, hts, Res.ofText, Res.bind]
        rw [hrec.1 ht]
        simp
      · intro t ht
        unfold evalLambdaParameters
        simp only [hnn, hp, if_false, ne_eq, not_true_eq_false, hcar, hts, Res.ofText, Res.bind]
        rw [hrec.2 t ht]
        simp

theorem toStringLoop_cycle (ts : Obj → Option String) :
    ∀ (k : Nat) (sb : String), Pair.toStringLoop ts cycleStore k (.pair 0) sb = none := by
  intro k
  induction k with
  | zero => intro sb; rfl
  | succ k ih =>
    intro sb
    have hcdr : cycleStore.cdr (.pair 0) = .pair 0 := rfl
    simp only [Pair.toStringLoop, hcdr]
    cases hts : ts (cycleStore.car (.pair 0)) with
    | none => rfl
    | some x => simp only [Option.bind, ih]

theorem leaves_define_of (P : Store → Prop) (f : Nat)
    (hassign : ∀ t name v, P t → P (t.assign f name v)) (s : Store) (name : String) (v : Obj)
    (hs : P s) : Res.Leaves P (Environment.define s f name v) := by
  unfold Environment.define
  apply leaves_ite
  · exact hs
  · exact hassign s name v hs

theorem leaves_defineEach_of (P : Store → Prop) (f : Nat)
    (hassign : ∀ t name v, P t → P (t.assign f name v)) (names : List String) :
    ∀ (args : List Obj) (s : Store), P s →
      Res.Leaves P (Environment.defineEach f names args s) := by
  induction names with
  | nil => intro args s hs; simpa [Environment.defineEach, Res.Leaves] using hs
  | cons n ns ih =>
    intro args s hs
    cases args with
    | nil => simpa [Environment.defineEach, Res.Leaves] using hs
    | cons a as =>
      unfold Environment.defineEach
      apply leaves_bind _ _ _ (leaves_define_of P f hassign s n a hs)
      intro v s1 h1
      exact ih as s1 h1

theorem leaves_extendIntoNew_of (P : Store → Prop) (s : Store) (f : Nat) (names : List String)
    (args : List Obj) (rest : Bool)
    (hassign : ∀ t name v, P t → P (t.assign s.frames.length name v))
    (hframes : ∀ t1 t2 : Store, t2.frames = t1.frames → P t1 → P t2)
    (h0 : P { s with frames := s.frames ++ [⟨[], some f⟩] }) :
    Res.Leaves P (Environment.extendIntoNew s f names args rest) := by
  unfold Environment.extendIntoNew
  cases rest with
  | false =>
    simp only [Bool.false_eq_true, if_false]
    apply leaves_ite
    · exact h0
    · apply leaves_bind _ _ _ (leaves_defineEach_of P _ hassign _ _ _ h0)
      intro v s1 h1
      exact h1
  | true =>
    simp only [if_true]
    apply leaves_ite
    · exact h0
    · apply leaves_bind _ _ _ (leaves_defineEach_of P _ hassign _ _ _ h0)
      intro v s1 h1
      obtain ⟨_, c2, _, _⟩ :=
        consEach_spec (args.drop (names.length - 1)).reverse .null s1 []
          (by simp [Store.isList])
      apply leaves_bind _ _ _ (leaves_define_of P _ hassign _ _ _ (hframes s1 _ c2 h1))
      intro v2 s2 h2
      exact h2

theorem extendIntoNew_result (s : Store) (f : Nat) (names : List String) (args : List Obj)
    (rest : Bool) (e : Nat) (s1 : Store)
    (hcall : Environment.extendIntoNew s f names args rest = .ok e s1) :
    e = s.frames.length := by
  unfold Environment.extendIntoNew at hcall
  cases rest with
  | false =>
    simp only [Bool.false_eq_true, if_false] at hcall
    split at hcall
    · simp at hcall
    · cases hd : Environment.defineEach s.frames.length names args
          { s with frames := s.frames ++ [⟨[], some f⟩] } with
      | ok v s2 => rw [hd] at hcall; simp [Res.bind] at hcall; exact hcall.1.symm
      | error err s2 => rw [hd] at hcall; simp [Res.bind] at hcall
      | outOfFuel => rw [hd] at hcall; simp [Res.bind] at hcall
  | true =>
    simp only [if_true] at hcall
    split at hcall
    · simp at hcall
    · cases hd : Environment.defineEach s.frames.length (names.take (names.length - 1)) args
          { s with frames := s.frames ++ [⟨[], some f⟩] } with
      | ok v s2 =>
        rw [hd] at hcall
        simp only [Res.bind] at hcall
        split at hcall
        · simp at hcall; exact hcall.1.symm
        · simp at hcall
        · simp at hcall
      | error err s2 => rw [hd] at hcall; simp [Res.bind] at hcall
      | outOfFuel => rw [hd] at hcall; simp [Res.bind] at hcall

/-- C13. Evaluating in the global environment (frame 0) the forms
`(define x 1)`, `(define (f) (define x 2) x)` and `(f)` one after the other
returns 2 for the call, and a lookup of `x` in the global environment
afterwards still yields 1. In general the frame `extendIntoNew` creates for a
call is a new frame, different from the captured environment and from the
global frame, which leaves the existing frames as they are; and a define form
with the Symbol target `name` evaluated in that frame `e` changes no frame
other than `e`, whatever its outcome, and when `name` is not reserved binds
`name` in `e`, the captured environment and the global frame being as the
evaluation of the defining expression left them. -/
theorem define_in_call_shadows (h : Host) (n : Nat) :
    ((evalExpandedForm h 6 (.pair 0) 0 shadowStore).bind fun _ s1 =>
        (evalExpandedForm h 6 (.pair 3) 0 s1).bind fun _ s2 =>
          (evalExpandedForm h 6 (.pair 11) 0 s2).bind fun r s3 =>
            (Environment.get s3 0 "x").bind fun x s4 => .ok (r, x, s4.lookup 1 "x") s4)
      = .ok (.fixnum 2, .fixnum 1, some (.fixnum 2))
          { pairs := shadowStore.pairs ++ [(.symbol "begin", .pair 6)],
            frames := [⟨[("x", .fixnum 1), ("f", .lambda "f" (.pair 12) 0 [] false)], none⟩,
                       ⟨[("x", .fixnum 2)], some 0⟩],
            strings := [], vectors := [] } ∧
    ∀ (s : Store) (lenv : Nat) (names : List String) (args : List Obj) (rest : Bool) (e : Nat)
      (s1 : Store), Environment.extendIntoNew s lenv names args rest = .ok e s1 →
      lenv < s.frames.length →
      (e = s.frames.length ∧ e ≠ lenv ∧ e ≠ 0 ∧ (s1.frame e).outer = some lenv ∧
        ∀ g, g < s.frames.length → s1.frame g = s.frame g) ∧
      ∀ (t : Store) (a : Nat) (name : String) (expr v : Obj) (t1 : Store),
        t.car (.pair a) = .symbol "define" → (t.cdr (.pair a)).getType = .otPair →
        t.car (t.cdr (.pair a)) = .symbol name →
        t.elementsAre (t.cdr (t.cdr (.pair a))) [expr] = true →
        evalExpandedForm h n expr e t = .ok v t1 →
        Res.Leaves (fun t2 => ∀ g, g ≠ e → t2.frame g = t1.frame g)
          (evalExpandedForm h (n + 1) (.pair a) e t) ∧
        (isKeyword name = false → e < t1.frames.length →
          ∃ t2, evalExpandedForm h (n + 1) (.pair a) e t = .ok (.symbol "undefined") t2 ∧
            t2.lookup e name = some v ∧ t2.frame lenv = t1.frame lenv ∧
            t2.frame 0 = t1.frame 0) := by
  constructor
  · rfl
  · intro s lenv names args rest e s1 hcall hlenv
    have he := extendIntoNew_result s lenv names args rest e s1 hcall
    have hleaves := leaves_extendIntoNew_of
      (fun t => (t.frame s.frames.length).outer = some lenv ∧
        ∀ g, g < s.frames.length → t.frame g = s.frame g) s lenv names args rest
      (by
        intro t name v ht
        refine ⟨by rw [outer_assign]; exact ht.1, fun g hg => ?_⟩
        rw [frame_assign_other _ _ _ _ _ (by omega)]
        exact ht.2 g hg)
      (by
        intro t1 t2 hfr ht
        refine ⟨by rw [frame_of_frames_eq t1 t2 hfr]; exact ht.1, fun g hg => ?_⟩
        rw [frame_of_frames_eq t1 t2 hfr]
        exact ht.2 g hg)
      ⟨by rw [frame_append_new], fun g hg => frame_append_old s _ g hg⟩
    rw [hcall] at hleaves
    simp only [Res.Leaves] at hleaves
    have hne1 : e ≠ lenv := by omega
    have hne0 : e ≠ 0 := by omega
    refine ⟨⟨he, hne1, hne0, by rw [he]; exact hleaves.1, hleaves.2⟩, ?_⟩
    intro t a name expr v t1 hcar hcdr hname hexpr hev
    rw [evalExpandedForm_define h n t e a hcar]
    simp only [Store.elementsAre, Bool.and_eq_true, decide_eq_true_eq] at hexpr
    obtain ⟨⟨h1, hc⟩, h2⟩ := hexpr
    have h2t : (t.cdr (t.cdr (t.cdr (.pair a)))).getType = .otNull := by rw [h2]; rfl
    have hres : evalDefine h n (evalExpandedForm h n) (.pair a) e t
        = (Environment.define t1 e name v).bind fun _ s => .ok (.symbol "undefined") s := by
      simp [evalDefine, hcdr, hname, h1, h2t, hc, hev, Res.bind]
    rw [hres]
    cases hk : isKeyword name with
    | true =>
      refine ⟨?_, fun hf => absurd hf (by simp)⟩
      simp [Environment.define, hk, Res.bind, Res.Leaves]
    | false =>
      refine ⟨?_, fun _ hlt => ⟨t1.assign e name v, ?_, lookup_assign_same t1 e name v hlt,
        frame_assign_other t1 e lenv name v (Ne.symm hne1),
        frame_assign_other t1 e 0 name v (Ne.symm hne0)⟩⟩
      · simp only [Environment.define, hk, Res.bind, Res.Leaves, Bool.false_eq_true, if_false]
        intro g hg
        exact frame_assign_other t1 e g name v hg
      · simp [Environment.define, hk, Res.bind]

theorem define_in_call_shadows_witness :
    ∃ t2, evalExpandedForm noNatives 3 (.pair 8) 1
        { shadowCallStore with frames := shadowCallStore.frames ++ [⟨[], some 0⟩] }
        = .ok (.symbol "undefined") t2 ∧
      t2.lookup 1 "x" = some (.fixnum 2) ∧
      t2.frame 0 = shadowCallStore.frame 0 ∧
      t2.lookup 0 "x" = some (.fixnum 1) := by
  obtain ⟨t2, h1, h2, _, h4⟩ :=
    (((define_in_call_shadows noNatives 2).2 shadowCallStore 0 [] [] false 1
      { shadowCallStore with frames := shadowCallStore.frames ++ [⟨[], some 0⟩] }
      (by decide) (by decide)).2
      { shadowCallStore with frames := shadowCallStore.frames ++ [⟨[], some 0⟩] }
      8 "x" (.fixnum 2) (.fixnum 2)
      { shadowCallStore with frames := shadowCallStore.frames ++ [⟨[], some 0⟩] }
      (by decide) (by decide) (by decide) (by decide) (by decide)).2 (by decide) (by decide)
  refine ⟨t2, h1, h2, ?_, ?_⟩
  · rw [h4]; rfl
  · unfold Store.lookup
    rw [h4]; rfl

/-! ## The reader: tokens -/

/-- A token is read up to the first character that ends it. -/
theorem token_split (p : Char → Bool) (tok rest : List Char) (htok : ∀ c ∈ tok, p c = true)
    (hrest : rest = [] ∨ ∃ c cs, rest = c :: cs ∧ p c = false) :
    (tok ++ rest).takeWhile p = tok ∧ (tok ++ rest).dropWhile p = rest := by
  induction tok with
  | nil =>
    rcases hrest with h | ⟨c, cs, h, hc⟩
    · subst h; simp
    · subst h; simp [List.takeWhile, List.dropWhile, hc]
  | cons x xs ih =>
    have hx : p x = true := htok x (by simp)
    have := ih (fun c hc => htok c (by simp [hc]))
    simp [List.takeWhile, List.dropWhile, hx, this.1, this.2]

/-! ## C19: hexadecimal tokens -/

/-- C19 (what the code does). A token that begins with `#x`, whatever follows
(hexadecimal digits in particular), is read as the Symbol of that name and
never as an Integer: the extraction of the number starts at the `#` of the
token and fails. -/
theorem hex_token_reads_as_symbol (strtod : List Char → Nat) (n : Nat) (b : Bool)
    (digits rest : List Char) (s : Store)
    (hdigits : ∀ c ∈ digits, Reader.tokenChar c = true)
    (hrest : rest = [] ∨ ∃ c cs, rest = c :: cs ∧ Reader.tokenChar c = false) :
    Reader.read strtod (n + 1) b ('#' :: 'x' :: digits ++ rest) s
      = .ok (.symbol (String.mk ('#' :: 'x' :: digits)), rest) s := by
  have hsplit := token_split Reader.tokenChar ('x' :: digits) rest
    (by
      intro c hc
      simp only [List.mem_cons] at hc
      rcases hc with h | h
      · subst h; decide
      · exact hdigits c h) hrest
  simp only [List.cons_append] at hsplit
  have hws : Reader.skipWhitespace ('#' :: 'x' :: (digits ++ rest)) = '#' :: 'x' :: (digits ++ rest) := by
    have : isspace '#' = false := by decide
    simp [Reader.skipWhitespace, List.dropWhile, this]
  have h1 : ('#' : Char) ≠ ';' := by decide
  have h2 : ('#' : Char) ≠ Char.ofNat 39 := by decide
  have h3 : ('#' : Char) ≠ Char.ofNat 96 := by decide
  have h4 : ('#' : Char) ≠ ',' := by decide
  have h5 : ('#' : Char) ≠ '(' := by decide
  have h6 : ('#' : Char) ≠ Char.ofNat 34 := by decide
  have h7 : ('x' : Char) ≠ '(' := by decide
  have h8 : ('x' : Char) ≠ Char.ofNat 92 := by decide
  have hstep : Reader.read strtod (n + 1) b ('#' :: 'x' :: digits ++ rest) s
      = Reader.readSymbolOrNumber strtod ['#'] ('x' :: (digits ++ rest)) s := by
    simp only [Reader.read, Reader.readStep, List.cons_append, hws, h1, h2, h3, h4, h5, h6,
      if_false, if_true, Reader.readSpecial, List.tail_cons, h7, h8, ne_eq, not_false_eq_true]
  rw [hstep]
  have hx : ('x' : Char) ≠ 't' := by decide
  have hxf : ('x' : Char) ≠ 'f' := by decide
  have hall : (('#' :: 'x' :: digits).all fun c => c == '.' || isDecimalDigit c) = false := by
    have : ((('#' : Char) == '.') || isDecimalDigit '#') = false := by decide
    rw [List.all_cons, this]
    rfl
  have hhex : extractLong 16 ('#' :: 'x' :: digits) = none := by
    have hsp : isspace '#' = false := by decide
    have hd : digitValue 16 '#' = none := by decide
    have hm : (('#' : Char) = '-') = False := by simp
    have hp : (('#' : Char) = '+') = False := by simp
    have hz : (('#' : Char) = '0') = False := by simp
    simp [extractLong, List.dropWhile, hsp, hd]
  simp only [Reader.readSymbolOrNumber, hsplit.1, hsplit.2, List.singleton_append]
  simp [hall, hhex, hx, hxf]

theorem hex_token_reads_as_symbol_witness :
    Reader.read noDoubles 1 true "#x1F".toList emptyStore = .ok (.symbol "#x1F", []) emptyStore ∧
    Reader.read noDoubles 1 true "#x1F)".toList emptyStore
      = .ok (.symbol "#x1F", [')']) emptyStore :=
  ⟨hex_token_reads_as_symbol noDoubles 0 true ['1', 'F'] [] emptyStore (by decide)
      (Or.inl rfl),
   hex_token_reads_as_symbol noDoubles 0 true ['1', 'F'] [')'] emptyStore (by decide)
      (Or.inr ⟨')', [], rfl, by decide⟩)⟩

/-! ## C18: integer tokens -/

theorem digit_bounds (c : Char) (h : isDecimalDigit c = true) : 48 ≤ c.toNat ∧ c.toNat ≤ 57 := by
  simpa [isDecimalDigit] using h

theorem digit_ne (c k : Char) (h : isDecimalDigit c = true) (hk : isDecimalDigit k = false) :
    c ≠ k := by
  intro heq
  subst heq
  rw [h] at hk
  exact Bool.noConfusion hk

theorem digit_not_space (c : Char) (h : isDecimalDigit c = true) : isspace c = false := by
  have hb := digit_bounds c h
  have h1 : ¬ c.toNat = 32 := by omega
  have h3 : ¬ c.toNat ≤ 13 := by omega
  simp [isspace, h1, h3]

theorem digit_tokenChar (c : Char) (h : isDecimalDigit c = true) : Reader.tokenChar c = true := by
  have h1 : c ≠ ')' := digit_ne c ')' h (by decide)
  simp [Reader.tokenChar, h1, digit_not_space c h]

theorem digitValue_digit (c : Char) (h : isDecimalDigit c = true) :
    digitValue 10 c = some (c.toNat - 48) := by
  have hb := digit_bounds c h
  have : c.toNat - 48 < 10 := by omega
  simp [digitValue, h, this]

/-- The number read from a run of decimal digits is the number they denote. -/
theorem digitsValue_ofDigits (digits : List Char) (hd : ∀ c ∈ digits, isDecimalDigit c = true) :
    ∀ acc, digitsValue 10 digits acc
      = Nat.ofDigits 10 ((digits.map fun c => c.toNat - 48).reverse) + 10 ^ digits.length * acc := by
  induction digits with
  | nil => intro acc; simp [digitsValue]
  | cons c cs ih =>
    intro acc
    have hc := digitValue_digit c (hd c (by simp))
    have hrec := ih (fun x hx => hd x (by simp [hx])) (10 * acc + (c.toNat - 48))
    simp only [digitsValue, hc, hrec, List.map_cons, List.reverse_cons, Nat.ofDigits_append,
      List.length_reverse, List.length_map, Nat.ofDigits_singleton, List.length_cons]
    ring

theorem digits_all (digits : List Char) (hd : ∀ c ∈ digits, isDecimalDigit c = true) :
    (digits.all fun c => c == '.' || isDecimalDigit c) = true := by
  rw [List.all_eq_true]
  intro c hc
  simp [hd c hc]

theorem digits_no_period (digits : List Char) (hd : ∀ c ∈ digits, isDecimalDigit c = true) :
    digits.count '.' = 0 := by
  rw [List.count_eq_zero]
  intro hmem
  have := hd '.' hmem
  exact absurd this (by decide)

/-- The extraction of a `long` from a run of decimal digits. -/
theorem extractLong_digits (c : Char) (cs : List Char)
    (hd : ∀ x ∈ c :: cs, isDecimalDigit x = true) :
    extractLong 10 (c :: cs)
      = if ((digitsValue 10 (c :: cs) 0 : Nat) : Int) ≤ 9223372036854775807
        then some ((digitsValue 10 (c :: cs) 0 : Nat) : Int) else none := by
  have hc := hd c (by simp)
  have hsp := digit_not_space c hc
  have hm : c ≠ '-' := digit_ne c '-' hc (by decide)
  have hp : c ≠ '+' := digit_ne c '+' hc (by decide)
  have hv := digitValue_digit c hc
  simp [extractLong, List.dropWhile, hsp, hm, hp, hv]

/-- The steps of `read` on an input that begins with a decimal digit. -/
theorem read_digit_head (strtod : List Char → Nat) (n : Nat) (b : Bool) (c : Char)
    (cs : List Char) (s : Store) (hc : isDecimalDigit c = true) :
    Reader.read strtod (n + 1) b (c :: cs) s
      = Reader.readSymbolOrNumber strtod [] (c :: cs) s := by
  have hsp := digit_not_space c hc
  have h1 : c ≠ ';' := digit_ne c ';' hc (by decide)
  have h2 : c ≠ Char.ofNat 39 := digit_ne c _ hc (by decide)
  have h3 : c ≠ Char.ofNat 96 := digit_ne c _ hc (by decide)
  have h4 : c ≠ ',' := digit_ne c ',' hc (by decide)
  have h5 : c ≠ '(' := digit_ne c '(' hc (by decide)
  have h6 : c ≠ Char.ofNat 34 := digit_ne c _ hc (by decide)
  have h7 : c ≠ '#' := digit_ne c '#' hc (by decide)
  have hws : Reader.skipWhitespace (c :: cs) = c :: cs := by
    simp [Reader.skipWhitespace, List.dropWhile, hsp]
  simp only [Reader.read, Reader.readStep, hws, h1, h2, h3, h4, h5, h6, h7, if_false]

/-- C18 (as amended). A token that consists of one or more decimal digits,
followed by the end of the input, white space or `)`: when the number it
denotes in base 10 is at most 9223372036854775807, the largest `long`, the
reader returns the Integer with that value, not a Float and not a Symbol, and
the input left starts after the token; when the number is larger, the reader
returns the Symbol whose name is the token. -/
theorem integer_token_reads (strtod : List Char → Nat) (n : Nat) (b : Bool)
    (digits rest : List Char) (s : Store) (hne : digits ≠ [])
    (hd : ∀ c ∈ digits, isDecimalDigit c = true)
    (hrest : rest = [] ∨ ∃ c cs, rest = c :: cs ∧ Reader.tokenChar c = false) :
    (Nat.ofDigits 10 ((digits.map fun c => c.toNat - 48).reverse) ≤ 9223372036854775807 →
      Reader.read strtod (n + 1) b (digits ++ rest) s
        = .ok (.fixnum ((Nat.ofDigits 10 ((digits.map fun c => c.toNat - 48).reverse) : Nat) : Int),
            rest) s) ∧
    (9223372036854775807 < Nat.ofDigits 10 ((digits.map fun c => c.toNat - 48).reverse) →
      Reader.read strtod (n + 1) b (digits ++ rest) s
        = .ok (.symbol (String.mk digits), rest) s) := by
  obtain ⟨c, cs, hcs⟩ := List.exists_cons_of_ne_nil hne
  subst hcs
  have hc := hd c (by simp)
  have hsplit := token_split Reader.tokenChar (c :: cs) rest
    (fun x hx => digit_tokenChar x (hd x hx)) hrest
  have hval := digitsValue_ofDigits (c :: cs) hd 0
  simp only [Nat.mul_zero, Nat.add_zero] at hval
  have hext := extractLong_digits c cs hd
  rw [hval] at hext
  have hall := digits_all (c :: cs) hd
  have hper := digits_no_period (c :: cs) hd
  have hparen : c ≠ ')' := digit_ne c ')' hc (by decide)
  have hhash : c ≠ '#' := digit_ne c '#' hc (by decide)
  have hread := read_digit_head strtod n b c (cs ++ rest) s hc
  rw [List.cons_append, hread]
  rw [List.cons_append] at hsplit
  constructor
  · intro hle
    have hle2 : ((Nat.ofDigits 10 ((List.map (fun c => c.toNat - 48) (c :: cs)).reverse) : Nat) : Int)
        ≤ 9223372036854775807 := by exact_mod_cast hle
    rw [if_pos hle2] at hext
    simp [Reader.readSymbolOrNumber, hsplit.1, hsplit.2, hparen, hhash, hall, hper, hext]
  · intro hgt
    have hgt2 : ¬ ((Nat.ofDigits 10 ((List.map (fun c => c.toNat - 48) (c :: cs)).reverse) : Nat) : Int)
        ≤ 9223372036854775807 := by
      intro hle
      have : Nat.ofDigits 10 ((List.map (fun c => c.toNat - 48) (c :: cs)).reverse)
          ≤ 9223372036854775807 := by exact_mod_cast hle
      omega
    rw [if_neg hgt2] at hext
    simp [Reader.readSymbolOrNumber, hsplit.1, hsplit.2, hparen, hhash, hall, hper, hext,
      extractDouble]

theorem integer_token_reads_witness :
    Reader.read noDoubles 1 true "123".toList emptyStore = .ok (.fixnum 123, []) emptyStore ∧
    Reader.read noDoubles 1 false "007)".toList emptyStore
      = .ok (.fixnum 7, [')']) emptyStore := by
  have h1 := (integer_token_reads noDoubles 0 true "123".toList [] emptyStore (by decide)
    (by decide) (Or.inl rfl)).1 (by decide)
  have h2 := (integer_token_reads noDoubles 0 false "007".toList [')'] emptyStore (by decide)
    (by decide) (Or.inr ⟨')', [], rfl, by decide⟩)).1 (by decide)
  have e1 : Nat.ofDigits 10 (("123".toList.map fun c => c.toNat - 48).reverse) = 123 := by decide
  have e2 : Nat.ofDigits 10 (("007".toList.map fun c => c.toNat - 48).reverse) = 7 := by decide
  rw [e1] at h1
  rw [e2] at h2
  exact ⟨h1, h2⟩

/-- C18 (as stated) fails: the token 9223372036854775808 consists of decimal
digits only, yet the reader returns the Symbol of that name, not an Integer:
the number does not fit a `long` and its extraction fails. -/
theorem integer_token_too_large_reads_as_symbol :
    Reader.read noDoubles 1 true "9223372036854775808".toList emptyStore
      = .ok (.symbol "9223372036854775808", []) emptyStore := by
  decide

/-! ## C17: the end of the input -/

theorem blank_skipWhitespace (input : List Char) (hb : Reader.blankFrom false input = true) :
    Reader.skipWhitespace input = [] ∨
      ∃ cs, Reader.skipWhitespace input = ';' :: cs ∧ Reader.blankFrom true cs = true ∧
        cs.length < input.length := by
  induction input with
  | nil => left; rfl
  | cons c cs ih =>
    by_cases hc : c = ';'
    · subst hc
      right
      have hsp : isspace ';' = false := by decide
      refine ⟨cs, by simp [Reader.skipWhitespace, List.dropWhile, hsp], ?_, by simp⟩
      simpa [Reader.blankFrom] using hb
    · simp only [Reader.blankFrom, Bool.false_eq_true, if_false, hc, Bool.and_eq_true] at hb
      obtain ⟨hsp, hrest⟩ := hb
      rcases ih hrest with h | ⟨ds, h1, h2, h3⟩
      · left
        simpa [Reader.skipWhitespace, List.dropWhile, hsp] using h
      · right
        refine ⟨ds, ?_, h2, by simp; omega⟩
        simpa [Reader.skipWhitespace, List.dropWhile, hsp] using h1

theorem blank_skipComment (cs : List Char) (hb : Reader.blankFrom true cs = true) :
    Reader.blankFrom false (cs.dropWhile fun c => c != Char.ofNat 10) = true := by
  induction cs with
  | nil => rfl
  | cons c cs ih =>
    by_cases hc : c = Char.ofNat 10
    · subst hc
      have h1 : isspace (Char.ofNat 10) = true := by decide
      have h2 : Char.ofNat 10 ≠ ';' := by decide
      simp only [Reader.blankFrom, if_true, bne_self_eq_false] at hb
      simp [List.dropWhile, Reader.blankFrom, h1, h2, hb]
    · have hne : (c != Char.ofNat 10) = true := by simp [hc]
      simp only [Reader.blankFrom, if_true, hne] at hb
      simpa [List.dropWhile, hne] using ih hb

/-- On an input of white space and comments `read` returns the end-of-input
value, or throws when asked to. -/
theorem read_blank (strtod : List Char → Nat) (s : Store) :
    ∀ (k : Nat) (input : List Char), input.length < k → Reader.blankFrom false input = true →
      Reader.read strtod k false input s = .ok (.eof, []) s ∧
      Reader.read strtod k true input s = .error Reader.unexpectedEnd s := by
  intro k
  induction k with
  | zero => intro input hlen; simp at hlen
  | succ k ih =>
    intro input hlen hb
    rcases blank_skipWhitespace input hb with h | ⟨cs, h1, h2, h3⟩
    · simp [Reader.read, Reader.readStep, h]
    · have hsc : Reader.skipComment (';' :: cs) = cs.dropWhile fun c => c != Char.ofNat 10 := by
        have : ((';' : Char) != Char.ofNat 10) = true := by decide
        simp [Reader.skipComment, List.dropWhile, this]
      have hrec := ih (cs.dropWhile fun c => c != Char.ofNat 10)
        (by have := (List.dropWhile_sublist (fun c => c != Char.ofNat 10) (l := cs)).length_le; omega)
        (blank_skipComment cs h2)
      simp only [Reader.read, Reader.readStep, h1, if_true, hsc]
      exact hrec

theorem readStringLoop_open :
    ∀ (k : Nat) (body : List Char) (sb : List Int) (s : Store), body.length < k →
      Reader.stringOpen body = true →
      Reader.readStringLoop body sb s = .error Reader.unexpectedEnd s := by
  intro k
  induction k with
  | zero => intro body sb s hlen; simp at hlen
  | succ k ih =>
    intro body sb s hlen h
    match body, hlen, h with
    | [], _, _ => rfl
    | [c], _, h =>
      have hc1 : c ≠ Char.ofNat 34 := by simpa [Reader.stringOpen] using h
      by_cases hc2 : c = Char.ofNat 92
      · rw [Reader.readStringLoop, if_neg hc1, if_pos hc2]
      · rw [Reader.readStringLoop, if_neg hc1, if_neg hc2]
        rfl
    | c :: d :: ds, hlen, h =>
      by_cases hc1 : c = Char.ofNat 34
      · rw [Reader.stringOpen, if_pos hc1] at h
        exact absurd h (by decide)
      · by_cases hc2 : c = Char.ofNat 92
        · rw [Reader.stringOpen, if_neg hc1, if_pos hc2] at h
          rw [Reader.readStringLoop, if_neg hc1, if_pos hc2]
          exact ih ds _ s (by simp at hlen; omega) h
        · rw [Reader.stringOpen, if_neg hc1, if_neg hc2] at h
          rw [Reader.readStringLoop, if_neg hc1, if_neg hc2]
          exact ih (d :: ds) _ s (by simp at hlen ⊢; omega) h

/-- C17: on an input `input` that holds only white space and comments, possibly
nothing, `read(false)` returns the end-of-input value and leaves the store as it
was, and `read(true)` throws "Unexpected end of input stream".  When such an
input follows an opening parenthesis or one of the three quote characters,
`read` throws that error whatever `throwOnEof` is; so does the loop of
`readList` after any number of elements; so does `read` at an opening double
quote that no double quote closes; and an error thrown while reading a nested
form leaves the forms around it as an error. -/
theorem read_end_of_input (strtod : List Char → Nat) (k : Nat) (input : List Char) (s : Store)
    (hlen : input.length < k) (hb : Reader.blankFrom false input = true) :
    Reader.read strtod k false input s = .ok (.eof, []) s ∧
    Reader.read strtod k true input s = .error Reader.unexpectedEnd s ∧
    (∀ b : Bool,
      Reader.read strtod (k + 1) b ('(' :: input) s = .error Reader.unexpectedEnd s ∧
      Reader.read strtod (k + 1) b (Char.ofNat 39 :: input) s = .error Reader.unexpectedEnd s ∧
      Reader.read strtod (k + 1) b (Char.ofNat 96 :: input) s = .error Reader.unexpectedEnd s ∧
      Reader.read strtod (k + 1) b (',' :: input) s = .error Reader.unexpectedEnd s) ∧
    (∀ (j : Nat) (ret cur : Obj),
      Reader.readListLoop (Reader.read strtod k) (j + 1) ret cur input s
        = .error Reader.unexpectedEnd s) ∧
    (∀ (b : Bool) (body : List Char), Reader.stringOpen body = true →
      Reader.read strtod (k + 1) b (Char.ofNat 34 :: body) s = .error Reader.unexpectedEnd s) ∧
    (∀ (b : Bool) (rest : List Char) (e : Err) (s1 : Store),
      Reader.read strtod k true rest s = .error e s1 →
      Reader.read strtod (k + 1) b ('(' :: rest) s = .error e s1 ∧
      Reader.read strtod (k + 1) b (Char.ofNat 39 :: rest) s = .error e s1 ∧
      Reader.read strtod (k + 1) b (Char.ofNat 96 :: rest) s = .error e s1 ∧
      Reader.read strtod (k + 1) b (',' :: rest) s = .error e s1 ∧
      ∀ (j : Nat) (ret cur : Obj),
        Reader.readListLoop (Reader.read strtod k) (j + 1) ret cur rest s = .error e s1) := by
  obtain ⟨h1, h2⟩ := read_blank strtod s k input hlen hb
  have hk : ∃ m, k = m + 1 := ⟨k - 1, by omega⟩
  obtain ⟨m, rfl⟩ := hk
  have hnest : ∀ (b : Bool) (rest : List Char) (e : Err) (s1 : Store),
      Reader.read strtod (m + 1) true rest s = .error e s1 →
      Reader.read strtod (m + 1 + 1) b ('(' :: rest) s = .error e s1 ∧
      Reader.read strtod (m + 1 + 1) b (Char.ofNat 39 :: rest) s = .error e s1 ∧
      Reader.read strtod (m + 1 + 1) b (Char.ofNat 96 :: rest) s = .error e s1 ∧
      Reader.read strtod (m + 1 + 1) b (',' :: rest) s = .error e s1 ∧
      ∀ (j : Nat) (ret cur : Obj),
        Reader.readListLoop (Reader.read strtod (m + 1)) (j + 1) ret cur rest s
          = .error e s1 := by
    intro b rest e s1 he
    have hl : ∀ (j : Nat) (ret cur : Obj),
        Reader.readListLoop (Reader.read strtod (m + 1)) (j + 1) ret cur rest s
          = .error e s1 := by
      intro j ret cur
      rw [Reader.readListLoop, he]
      rfl
    have p1 : Reader.skipWhitespace ('(' :: rest) = '(' :: rest := by
      have : isspace '(' = false := by decide
      simp [Reader.skipWhitespace, List.dropWhile, this]
    have p2 : Reader.skipWhitespace (Char.ofNat 39 :: rest) = Char.ofNat 39 :: rest := by
      have : isspace (Char.ofNat 39) = false := by decide
      simp [Reader.skipWhitespace, List.dropWhile, this]
    have p3 : Reader.skipWhitespace (Char.ofNat 96 :: rest) = Char.ofNat 96 :: rest := by
      have : isspace (Char.ofNat 96) = false := by decide
      simp [Reader.skipWhitespace, List.dropWhile, this]
    have p4 : Reader.skipWhitespace (',' :: rest) = ',' :: rest := by
      have : isspace ',' = false := by decide
      simp [Reader.skipWhitespace, List.dropWhile, this]
    refine ⟨?_, ?_, ?_, ?_, hl⟩
    · have := hl m .null .null
      rw [Reader.read, Reader.readStep, p1]
      simpa using this
    · rw [Reader.read, Reader.readStep, p2]
      simp [he, Res.bind]
    · rw [Reader.read, Reader.readStep, p3]
      simp [he, Res.bind]
    · rw [Reader.read, Reader.readStep, p4]
      simp [he, Res.bind]
  refine ⟨h1, h2, ?_, ?_, ?_, hnest⟩
  · intro b
    obtain ⟨a1, a2, a3, a4, _⟩ := hnest b input _ s h2
    exact ⟨a1, a2, a3, a4⟩
  · exact (hnest true input _ s h2).2.2.2.2
  · intro b body hbody
    have p : Reader.skipWhitespace (Char.ofNat 34 :: body) = Char.ofNat 34 :: body := by
      have : isspace (Char.ofNat 34) = false := by decide
      simp [Reader.skipWhitespace, List.dropWhile, this]
    rw [Reader.read, Reader.readStep, p]
    simpa using readStringLoop_open (body.length + 1) body [] s (by omega) hbody

theorem read_end_of_input_witness :
    Reader.read noDoubles 9 false [' ', ';', 'a', ')', Char.ofNat 10, ';', 'b', ' '] emptyStore
      = .ok (.eof, []) emptyStore ∧
    Reader.read noDoubles 9 true [' ', ';', 'a', ')', Char.ofNat 10, ';', 'b', ' '] emptyStore
      = .error Reader.unexpectedEnd emptyStore ∧
    Reader.read noDoubles 10 false
        ('(' :: [' ', ';', 'a', ')', Char.ofNat 10, ';', 'b', ' ']) emptyStore
      = .error Reader.unexpectedEnd emptyStore ∧
    Reader.read noDoubles 10 false [Char.ofNat 34, 'a', Char.ofNat 92, Char.ofNat 34] emptyStore
      = .error Reader.unexpectedEnd emptyStore := by
  have h := read_end_of_input noDoubles 9 [' ', ';', 'a', ')', Char.ofNat 10, ';', 'b', ' ']
    emptyStore (by decide) (by decide)
  exact ⟨h.1, h.2.1, (h.2.2.1 false).1, h.2.2.2.2.1 false _ (by decide)⟩

/-! ## C20: list literals -/

theorem prefix_set {α : Type} (base l : List α) (c : Nat) (v : α) (hp : base <+: l)
    (hc : base.length ≤ c) : base <+: l.set c v := by
  obtain ⟨t, rfl⟩ := hp
  rw [List.set_append_right _ _ hc]
  exact List.prefix_append _ _

theorem prefix_setCdr (base : List (Obj × Obj)) (s : Store) (cur value : Obj)
    (hp : base <+: s.pairs)
    (hcur : cur = .null ∨ ∃ c, cur = .pair c ∧ base.length ≤ c) :
    base <+: (s.setCdr cur value).pairs := by
  rcases hcur with h | ⟨c, h, hc⟩
  · subst h; exact hp
  · subst h; exact prefix_set base _ c _ hp hc

theorem readSymbolOrNumber_store (strtod : List Char → Nat) (init input : List Char)
    (s s1 : Store) (r : Obj × List Char)
    (h : Reader.readSymbolOrNumber strtod init input s = .ok r s1) : s1 = s := by
  revert h
  unfold Reader.readSymbolOrNumber
  dsimp only
  repeat' split
  all_goals intro h
  all_goals first | (cases h; rfl) | (exact absurd h (by simp))

theorem readCharacter_store (input : List Char) (s s1 : Store) (r : Obj × List Char)
    (h : Reader.readCharacter input s = .ok r s1) : s1 = s := by
  revert h
  unfold Reader.readCharacter
  dsimp only
  repeat' split
  all_goals intro h
  all_goals first | (cases h; rfl) | (exact absurd h (by simp))

theorem readStringLoop_pairs :
    ∀ (k : Nat) (body : List Char) (sb : List Int) (s s1 : Store) (r : Obj × List Char),
      body.length < k → Reader.readStringLoop body sb s = .ok r s1 → s1.pairs = s.pairs := by
  intro k
  induction k with
  | zero => intro body sb s s1 r hlen; simp at hlen
  | succ k ih =>
    intro body sb s s1 r hlen h
    match body, hlen, h with
    | [], _, h => cases h
    | [c], _, h =>
      by_cases hc1 : c = Char.ofNat 34
      · rw [Reader.readStringLoop, if_pos hc1] at h
        cases h; rfl
      · by_cases hc2 : c = Char.ofNat 92
        · rw [Reader.readStringLoop, if_neg hc1, if_pos hc2] at h
          cases h
        · rw [Reader.readStringLoop, if_neg hc1, if_neg hc2, Reader.readStringLoop] at h
          cases h
    | c :: d :: ds, hlen, h =>
      by_cases hc1 : c = Char.ofNat 34
      · rw [Reader.readStringLoop, if_pos hc1] at h
        cases h; rfl
      · by_cases hc2 : c = Char.ofNat 92
        · rw [Reader.readStringLoop, if_neg hc1, if_pos hc2] at h
          exact ih ds _ s s1 r (by simp at hlen; omega) h
        · rw [Reader.readStringLoop, if_neg hc1, if_neg hc2] at h
          exact ih (d :: ds) _ s s1 r (by simp at hlen ⊢; omega) h

theorem appendCell_keeps (base : List (Obj × Obj)) (s : Store) (ret cur o : Obj)
    (hp : base <+: s.pairs)
    (hcur : cur = .null ∨ ∃ c, cur = .pair c ∧ base.length ≤ c) :
    base <+: (Reader.appendCell s ret cur o).2.2.pairs ∧
      ∃ c, (Reader.appendCell s ret cur o).2.1 = .pair c ∧ base.length ≤ c := by
  have hlen := hp.length_le
  have hnew : base <+: (s.newPair o .null).2.pairs :=
    hp.trans (List.prefix_append _ _)
  rcases hcur with h | ⟨c, h, hc⟩
  · subst h
    exact ⟨by simpa [Reader.appendCell, Obj.getType] using hnew,
      ⟨s.pairs.length, by simp [Reader.appendCell, Obj.getType, Store.newPair], hlen⟩⟩
  · subst h
    refine ⟨?_, ⟨s.pairs.length, by simp [Reader.appendCell, Obj.getType, Store.newPair], hlen⟩⟩
    have := prefix_setCdr base (s.newPair o .null).2 (.pair c) (s.newPair o .null).1 hnew
      (Or.inr ⟨c, rfl, hc⟩)
    simpa [Reader.appendCell, Obj.getType] using this

/-- The loop of `readList` leaves the pairs that were there before the list
was opened as they are. -/
theorem readListLoop_keeps (rd : Bool → List Char → Store → Res (Obj × List Char))
    (hrd : ∀ b inp s r s1, rd b inp s = .ok r s1 → s.pairs <+: s1.pairs)
    (base : List (Obj × Obj)) :
    ∀ (k : Nat) (ret cur : Obj) (inp : List Char) (s : Store) (r : Obj × List Char) (s1 : Store),
      base <+: s.pairs → (cur = .null ∨ ∃ c, cur = .pair c ∧ base.length ≤ c) →
      Reader.readListLoop rd k ret cur inp s = .ok r s1 → base <+: s1.pairs := by
  intro k
  induction k with
  | zero => intro ret cur inp s r s1 _ _ h; cases h
  | succ k ih =>
    intro ret cur inp s r s1 hp hcur h
    rw [Reader.readListLoop] at h
    cases hr : rd true inp s with
    | outOfFuel => rw [hr] at h; cases h
    | error e s2 => rw [hr] at h; cases h
    | ok r1 s2 =>
      rw [hr] at h
      simp only [Res.bind] at h
      have hp2 : base <+: s2.pairs := hp.trans (hrd _ _ _ _ _ hr)
      by_cases h1 : r1.1 = Reader.listEnd
      · rw [if_pos h1] at h
        cases h; exact hp2
      · rw [if_neg h1] at h
        by_cases h2 : r1.1 = Reader.dot
        · rw [if_pos h2] at h
          by_cases h3 : cur.getType = .otNull
          · rw [if_pos h3] at h; cases h
          · rw [if_neg h3] at h
            cases hr2 : rd true r1.2 s2 with
            | outOfFuel => rw [hr2] at h; cases h
            | error e s3 => rw [hr2] at h; cases h
            | ok r2 s3 =>
              rw [hr2] at h
              simp only [Res.bind] at h
              have hp3 : base <+: (s3.setCdr cur r2.1).pairs :=
                prefix_setCdr base s3 cur r2.1 (hp2.trans (hrd _ _ _ _ _ hr2)) hcur
              cases hr3 : rd true r2.2 (s3.setCdr cur r2.1) with
              | outOfFuel => rw [hr3] at h; cases h
              | error e s4 => rw [hr3] at h; cases h
              | ok r3 s4 =>
                rw [hr3] at h
                simp only [Res.bind] at h
                have hp4 : base <+: s4.pairs := hp3.trans (hrd _ _ _ _ _ hr3)
                by_cases h4 : r3.1 ≠ Reader.listEnd
                · rw [if_pos h4] at h; cases h
                · rw [if_neg h4] at h; cases h; exact hp4
        · rw [if_neg h2] at h
          obtain ⟨q1, q2⟩ := appendCell_keeps base s2 ret cur r1.1 hp2 hcur
          exact ih _ _ _ _ r s1 q1 (Or.inr q2) h

theorem readVectorLoop_keeps (rd : Bool → List Char → Store → Res (Obj × List Char))
    (hrd : ∀ b inp s r s1, rd b inp s = .ok r s1 → s.pairs <+: s1.pairs)
    (base : List (Obj × Obj)) :
    ∀ (k : Nat) (ret : List Obj) (inp : List Char) (s : Store) (r : Obj × List Char)
      (s1 : Store), base <+: s.pairs →
      Reader.readVectorLoop rd k ret inp s = .ok r s1 → base <+: s1.pairs := by
  intro k
  induction k with
  | zero => intro ret inp s r s1 _ h; cases h
  | succ k ih =>
    intro ret inp s r s1 hp h
    rw [Reader.readVectorLoop] at h
    cases hr : rd true inp s with
    | outOfFuel => rw [hr] at h; cases h
    | error e s2 => rw [hr] at h; cases h
    | ok r1 s2 =>
      rw [hr] at h
      simp only [Res.bind] at h
      have hp2 : base <+: s2.pairs := hp.trans (hrd _ _ _ _ _ hr)
      by_cases h1 : r1.1 = Reader.listEnd
      · rw [if_pos h1] at h
        cases h; exact hp2
      · rw [if_neg h1] at h
        by_cases h2 : r1.1 = Reader.dot
        · rw [if_pos h2] at h; cases h
        · rw [if_neg h2] at h
          exact ih _ _ _ r s1 hp2 h

theorem wrap_keeps (name : String) (r r1 : Obj × List Char) (s s1 : Store)
    (h : Reader.wrap name r s = .ok r1 s1) : s.pairs <+: s1.pairs := by
  unfold Reader.wrap at h
  cases h
  simp [Store.newPair, List.append_assoc]

theorem bind_wrap_keeps (name : String) (res : Res (Obj × List Char)) (s : Store)
    (hres : ∀ r s1, res = .ok r s1 → s.pairs <+: s1.pairs) (r1 : Obj × List Char) (s2 : Store)
    (h : res.bind (Reader.wrap name) = .ok r1 s2) : s.pairs <+: s2.pairs := by
  cases res with
  | outOfFuel => cases h
  | error e s1 => cases h
  | ok r s1 => exact (hres r s1 rfl).trans (wrap_keeps name r r1 s1 s2 h)

/-- Reading allocates: the pairs of the store `read` starts in are, unchanged,
the first pairs of the store it returns. -/
theorem read_keeps_pairs (strtod : List Char → Nat) :
    ∀ (n : Nat) (b : Bool) (inp : List Char) (s : Store) (r : Obj × List Char) (s1 : Store),
      Reader.read strtod n b inp s = .ok r s1 → s.pairs <+: s1.pairs := by
  intro n
  induction n with
  | zero => intro b inp s r s1 h; cases h
  | succ n ih =>
    intro b inp s r s1 h
    rw [Reader.read, Reader.readStep] at h
    split at h
    · split at h
      · cases h
      · cases h; exact List.prefix_refl _
    · rename_i c cs _
      split at h
      · exact ih _ _ _ _ _ h
      split at h
      · exact bind_wrap_keeps _ _ s (fun r s1 hr => ih _ _ _ _ _ hr) _ _ h
      split at h
      · exact bind_wrap_keeps _ _ s (fun r s1 hr => ih _ _ _ _ _ hr) _ _ h
      split at h
      · exact bind_wrap_keeps _ _ s (fun r s1 hr => ih _ _ _ _ _ hr) _ _ h
      split at h
      · exact readListLoop_keeps _ ih s.pairs n _ _ _ _ _ _ (List.prefix_refl _) (Or.inl rfl) h
      split at h
      · rw [readStringLoop_pairs (cs.length + 1) cs [] s s1 r (by omega) h]
      split at h
      · unfold Reader.readSpecial at h
        split at h
        · cases h
        · split at h
          · exact readVectorLoop_keeps _ ih s.pairs n _ _ _ _ _ (List.prefix_refl _) h
          · split at h
            · rw [readSymbolOrNumber_store _ _ _ _ _ _ h]
            · rw [readCharacter_store _ _ _ _ h]
      · rw [readSymbolOrNumber_store _ _ _ _ _ _ h]

theorem cellsHead_append (cells : List Nat) (n : Nat) (t1 t2 : Obj) :
    cellsHead (cells ++ [n]) t1 = cellsHead cells (.pair n) ∧
      cellsHead (cells ++ [n]) t1 = cellsHead (cells ++ [n]) t2 := by
  cases cells <;> simp [cellsHead]

theorem cellsAre_lt (s : Store) :
    ∀ (cells : List Nat) (xs : List Obj) (tail : Obj), s.cellsAre cells xs tail →
      ∀ a ∈ cells, a < s.pairs.length := by
  intro cells
  induction cells with
  | nil => intro xs tail _ a ha; simp at ha
  | cons c cells ih =>
    intro xs tail h a ha
    cases xs with
    | nil => simp [Store.cellsAre] at h
    | cons x xs =>
      simp only [Store.cellsAre] at h
      rcases List.mem_cons.1 ha with rfl | ha
      · exact h.1
      · exact ih xs tail h.2.2 a ha

theorem cellsAre_length (s : Store) :
    ∀ (cells : List Nat) (xs : List Obj) (tail : Obj), s.cellsAre cells xs tail →
      cells.length = xs.length := by
  intro cells
  induction cells with
  | nil => intro xs tail h; cases xs <;> simp_all [Store.cellsAre]
  | cons c cells ih =>
    intro xs tail h
    cases xs with
    | nil => simp [Store.cellsAre] at h
    | cons x xs =>
      simp only [Store.cellsAre] at h
      simp [ih xs tail h.2.2]

theorem cellsAre_mono (s s1 : Store) (hp : s.pairs <+: s1.pairs) :
    ∀ (cells : List Nat) (xs : List Obj) (tail : Obj), s.cellsAre cells xs tail →
      s1.cellsAre cells xs tail := by
  intro cells
  induction cells with
  | nil => intro xs tail h; cases xs <;> simp_all [Store.cellsAre]
  | cons c cells ih =>
    intro xs tail h
    cases xs with
    | nil => simp [Store.cellsAre] at h
    | cons x xs =>
      simp only [Store.cellsAre] at h ⊢
      obtain ⟨t, ht⟩ := hp
      refine ⟨by rw [← ht]; simp; omega, ?_, ih xs tail h.2.2⟩
      rw [← ht, ← h.2.1]
      simp [List.getD_eq_getElem?_getD, List.getElem?_append_left h.1]

theorem cellsAre_elementsEndIn (s : Store) :
    ∀ (cells : List Nat) (xs : List Obj) (tail : Obj), s.cellsAre cells xs tail →
      s.elementsEndIn (cellsHead cells tail) xs tail = true := by
  intro cells
  induction cells with
  | nil => intro xs tail h; cases xs <;> simp_all [Store.cellsAre, Store.elementsEndIn, cellsHead]
  | cons c cells ih =>
    intro xs tail h
    cases xs with
    | nil => simp [Store.cellsAre] at h
    | cons x xs =>
      simp only [Store.cellsAre] at h
      have hcar : s.car (.pair c) = x := by
        show (s.pairs.getD c (.null, .null)).1 = x
        rw [h.2.1]
      have hcdr : s.cdr (.pair c) = cellsHead cells tail := by
        show (s.pairs.getD c (.null, .null)).2 = _
        rw [h.2.1]
      have htype : (Obj.pair c).getType = .otPair := rfl
      rw [show cellsHead (c :: cells) tail = .pair c from rfl]
      simp only [Store.elementsEndIn, hcar, hcdr, htype, ih xs tail h.2.2,
        decide_True, Bool.and_self]

theorem cellsAre_isList (s : Store) :
    ∀ (cells : List Nat) (xs : List Obj), s.cellsAre cells xs .null →
      s.isList (cellsHead cells .null) xs = true := by
  intro cells
  induction cells with
  | nil => intro xs h; cases xs <;> simp_all [Store.cellsAre, Store.isList, cellsHead]
  | cons c cells ih =>
    intro xs h
    cases xs with
    | nil => simp [Store.cellsAre] at h
    | cons x xs =>
      simp only [Store.cellsAre] at h
      have hcar : s.car (.pair c) = x := by
        show (s.pairs.getD c (.null, .null)).1 = x
        rw [h.2.1]
      have hcdr : s.cdr (.pair c) = cellsHead cells .null := by
        show (s.pairs.getD c (.null, .null)).2 = _
        rw [h.2.1]
      rw [show cellsHead (c :: cells) .null = .pair c from rfl]
      simp only [Store.isList, hcar, hcdr, h.1, ih xs h.2.2,
        decide_True, Bool.and_self]

theorem cellsAre_retail (s : Store) (tail2 : Obj) (c : Nat) :
    ∀ (cells : List Nat) (xs : List Obj) (tail : Obj), s.cellsAre (cells ++ [c]) xs tail →
      (cells ++ [c]).Nodup → (s.setCdr (.pair c) tail2).cellsAre (cells ++ [c]) xs tail2 := by
  intro cells
  induction cells with
  | nil =>
    intro xs tail h _
    match xs, h with
    | [], h => simp [Store.cellsAre] at h
    | [x], h =>
      simp only [List.nil_append, Store.cellsAre] at h ⊢
      refine ⟨by simpa [Store.setCdr] using h.1, ?_, trivial⟩
      show (s.pairs.set c ((s.pairs.getD c (.null, .null)).1, tail2)).getD c (.null, .null)
        = (x, tail2)
      rw [h.2.1]
      simp [List.getD_eq_getElem?_getD, List.getElem?_set, h.1]
    | x :: y :: xs, h => simp [Store.cellsAre] at h
  | cons a cells ih =>
    intro xs tail h hnd
    match xs, h with
    | [], h => simp [Store.cellsAre] at h
    | x :: xs, h =>
      simp only [List.cons_append, Store.cellsAre, List.append_eq] at h ⊢
      have hne : c ≠ a := by
        intro hca
        have := (List.nodup_cons.1 hnd).1
        exact this (by simp [hca])
      refine ⟨by simpa [Store.setCdr] using h.1, ?_,
        ih xs tail h.2.2 (List.nodup_cons.1 hnd).2⟩
      rw [(cellsHead_append cells c tail2 tail).2, ← h.2.1]
      simp [Store.setCdr, List.getD_eq_getElem?_getD, List.getElem?_set, hne]

theorem cellsAre_snoc (s : Store) (n : Nat) (x : Obj) (hn : n < s.pairs.length)
    (hcell : s.pairs.getD n (.null, .null) = (x, .null)) :
    ∀ (cells : List Nat) (xs : List Obj), s.cellsAre cells xs (.pair n) →
      s.cellsAre (cells ++ [n]) (xs ++ [x]) .null := by
  intro cells
  induction cells with
  | nil =>
    intro xs h
    match xs, h with
    | [], _ => exact ⟨hn, by simpa [cellsHead] using hcell, trivial⟩
    | x :: xs, h => simp [Store.cellsAre] at h
  | cons a cells ih =>
    intro xs h
    match xs, h with
    | [], h => simp [Store.cellsAre] at h
    | y :: xs, h =>
      simp only [List.cons_append, Store.cellsAre, List.append_eq] at h ⊢
      exact ⟨h.1, by rw [(cellsHead_append cells n .null .null).1]; exact h.2.1, ih xs h.2.2⟩

theorem listSoFar_mono (s s1 : Store) (hp : s.pairs <+: s1.pairs) (ret cur : Obj)
    (cells : List Nat) (xs : List Obj) (h : Reader.ListSoFar s ret cur cells xs) :
    Reader.ListSoFar s1 ret cur cells xs := by
  rcases h with h | ⟨init, c, h1, h2, h3, h4, h5⟩
  · exact Or.inl h
  · exact Or.inr ⟨init, c, h1, h2, h3, h4, cellsAre_mono s s1 hp cells xs .null h5⟩

/-- One turn of the loop of `readList` links the new cell behind the list so
far. -/
theorem appendCell_listSoFar (s : Store) (ret cur x : Obj) (cells : List Nat) (xs : List Obj)
    (h : Reader.ListSoFar s ret cur cells xs) :
    Reader.ListSoFar (Reader.appendCell s ret cur x).2.2 (Reader.appendCell s ret cur x).1
      (Reader.appendCell s ret cur x).2.1 (cells ++ [s.pairs.length]) (xs ++ [x]) := by
  have hcellNew : (s.newPair x .null).2.pairs.getD s.pairs.length (.null, .null) = (x, .null) := by
    simp [Store.newPair, List.getD_eq_getElem?_getD]
  have hltNew : s.pairs.length < (s.newPair x .null).2.pairs.length := by
    simp [Store.newPair]
  rcases h with ⟨h1, h2, h3, h4⟩ | ⟨init, c, h1, h2, h3, h4, h5⟩
  · subst h1 h2 h3 h4
    refine Or.inr ⟨[], s.pairs.length, rfl, ?_, ?_, by simp, ?_⟩
    · simp [Reader.appendCell, Obj.getType, Store.newPair]
    · simp [Reader.appendCell, Obj.getType, Store.newPair, cellsHead]
    · have : (Reader.appendCell s .null .null x).2.2 = (s.newPair x .null).2 := by
        simp [Reader.appendCell, Obj.getType]
      rw [this]
      exact ⟨hltNew, by simpa [cellsHead] using hcellNew, trivial⟩
  · subst h2 h3
    have hlt := cellsAre_lt s cells xs .null h5
    have hc : c < s.pairs.length := hlt c (by simp [h1])
    have hstore : (Reader.appendCell s (cellsHead cells .null) (.pair c) x).2.2
        = (s.newPair x .null).2.setCdr (.pair c) (.pair s.pairs.length) := by
      simp [Reader.appendCell, Obj.getType, Store.newPair]
    refine Or.inr ⟨cells, s.pairs.length, rfl, ?_, ?_, ?_, ?_⟩
    · simp [Reader.appendCell, Obj.getType, Store.newPair]
    · have : (Reader.appendCell s (cellsHead cells .null) (.pair c) x).1
          = cellsHead cells .null := by
        simp [Reader.appendCell, Obj.getType]
      rw [this, h1]
      simp [(cellsHead_append init c .null .null).1, List.append_assoc,
        (cellsHead_append (init ++ [c]) s.pairs.length .null .null).1]
      cases init <;> simp [cellsHead]
    · rw [List.nodup_append]
      refine ⟨h4, by simp, ?_⟩
      intro a ha hb
      have := hlt a ha
      simp at hb
      omega
    · rw [hstore]
      have hmono : (s.newPair x .null).2.cellsAre cells xs .null :=
        cellsAre_mono s _ (List.prefix_append _ _) cells xs .null h5
      have hre := cellsAre_retail (s.newPair x .null).2 (.pair s.pairs.length) c init xs .null
        (h1 ▸ hmono) (h1 ▸ h4)
      rw [← h1] at hre
      refine cellsAre_snoc _ s.pairs.length x (by simpa [Store.setCdr] using hltNew) ?_ cells xs hre
      have hne : c ≠ s.pairs.length := by omega
      simp [Store.setCdr, Store.newPair, List.getD_eq_getElem?_getD, List.getElem?_set, hne]

theorem afterElements_listSoFar (rd : Bool → List Char → Store → Res (Obj × List Char))
    (hrd : ∀ b inp s r s1, rd b inp s = .ok r s1 → s.pairs <+: s1.pairs) :
    ∀ (xs : List Obj) (ret cur : Obj) (inp : List Char) (s : Store) (xs0 : List Obj)
      (cells : List Nat) (ret1 cur1 : Obj) (inp1 : List Char) (s1 : Store),
      Reader.afterElements rd xs ret cur inp s = some (ret1, cur1, inp1, s1) →
      Reader.ListSoFar s ret cur cells xs0 →
      ∃ cells1, Reader.ListSoFar s1 ret1 cur1 cells1 (xs0 ++ xs) := by
  intro xs
  induction xs with
  | nil =>
    intro ret cur inp s xs0 cells ret1 cur1 inp1 s1 h hinv
    simp only [Reader.afterElements, Option.some.injEq, Prod.mk.injEq] at h
    obtain ⟨rfl, rfl, rfl, rfl⟩ := h
    exact ⟨cells, by simpa using hinv⟩
  | cons x xs ih =>
    intro ret cur inp s xs0 cells ret1 cur1 inp1 s1 h hinv
    rw [Reader.afterElements] at h
    cases hr : rd true inp s with
    | outOfFuel => rw [hr] at h; cases h
    | error e s2 => rw [hr] at h; cases h
    | ok r s2 =>
      rw [hr] at h
      simp only at h
      split at h
      · have hinv2 := listSoFar_mono s s2 (hrd _ _ _ _ _ hr) ret cur cells xs0 hinv
        obtain ⟨cells1, h1⟩ := ih _ _ _ _ (xs0 ++ [x]) _ ret1 cur1 inp1 s1 h
          (appendCell_listSoFar s2 ret cur x cells xs0 hinv2)
        exact ⟨cells1, by simpa using h1⟩
      · cases h

/-- The loop of `readList` goes through the elements and is then in the state
`afterElements` gives. -/
theorem afterElements_loop (rd : Bool → List Char → Store → Res (Obj × List Char)) :
    ∀ (xs : List Obj) (ret cur : Obj) (inp : List Char) (s : Store)
      (ret1 cur1 : Obj) (inp1 : List Char) (s1 : Store) (j : Nat),
      Reader.afterElements rd xs ret cur inp s = some (ret1, cur1, inp1, s1) →
      Reader.readListLoop rd (xs.length + j) ret cur inp s
        = Reader.readListLoop rd j ret1 cur1 inp1 s1 := by
  intro xs
  induction xs with
  | nil =>
    intro ret cur inp s ret1 cur1 inp1 s1 j h
    simp only [Reader.afterElements, Option.some.injEq, Prod.mk.injEq] at h
    obtain ⟨rfl, rfl, rfl, rfl⟩ := h
    simp
  | cons x xs ih =>
    intro ret cur inp s ret1 cur1 inp1 s1 j h
    rw [Reader.afterElements] at h
    have hlen : (x :: xs).length + j = (xs.length + j) + 1 := by simp; omega
    rw [hlen, Reader.readListLoop]
    cases hr : rd true inp s with
    | outOfFuel => rw [hr] at h; cases h
    | error e s2 => rw [hr] at h; cases h
    | ok r s2 =>
      rw [hr] at h
      simp only at h
      split at h
      · rename_i hx
        obtain ⟨hx1, hx2, hx3⟩ := hx
        simp only [Res.bind, hx1, hx2, hx3, if_false]
        exact ih _ _ _ _ ret1 cur1 inp1 s1 j h
      · cases h

theorem read_open_paren (strtod : List Char → Nat) (k : Nat) (b : Bool) (inp : List Char)
    (s : Store) :
    Reader.read strtod (k + 1) b ('(' :: inp) s
      = Reader.readListLoop (Reader.read strtod k) k .null .null inp s := by
  have p : Reader.skipWhitespace ('(' :: inp) = '(' :: inp := by
    have : isspace '(' = false := by decide
    simp [Reader.skipWhitespace, List.dropWhile, this]
  rw [Reader.read, Reader.readStep, p]
  simp

/-- C20: when, after an opening parenthesis, the elements `xs` are read one
after the other (none of them being one of the delimiters `)` and `.`), then:
if the next thing read is the closing parenthesis, `read` returns a pointer
`ret` that is, in the store returned, the proper list of `xs` in that order
(Null for no element); if, after at least one element, the next thing read is
the dot, then a value `t`, then the closing parenthesis, `read` returns the
chain of the cells holding `xs` in order whose last cdr is `t`. -/
theorem list_literal_reads (strtod : List Char → Nat) (k : Nat) (b : Bool) (inp : List Char)
    (s : Store) (xs : List Obj) (ret cur : Obj) (inp1 : List Char) (s1 : Store)
    (hfuel : xs.length < k)
    (hels : Reader.afterElements (Reader.read strtod k) xs .null .null inp s
      = some (ret, cur, inp1, s1)) :
    (∀ (rest : List Char) (s2 : Store),
      Reader.read strtod k true inp1 s1 = .ok (Reader.listEnd, rest) s2 →
      Reader.read strtod (k + 1) b ('(' :: inp) s = .ok (ret, rest) s2 ∧
        s2.isList ret xs = true ∧ (xs = [] → ret = .null)) ∧
    (∀ (inp2 : List Char) (s2 : Store) (t : Obj) (inp3 : List Char) (s3 : Store)
        (rest : List Char) (s4 : Store),
      xs ≠ [] →
      Reader.read strtod k true inp1 s1 = .ok (Reader.dot, inp2) s2 →
      Reader.read strtod k true inp2 s2 = .ok (t, inp3) s3 →
      Reader.read strtod k true inp3 (s3.setCdr cur t) = .ok (Reader.listEnd, rest) s4 →
      Reader.read strtod (k + 1) b ('(' :: inp) s = .ok (ret, rest) s4 ∧
        s4.elementsEndIn ret xs t = true) := by
  obtain ⟨j, hk⟩ : ∃ j, k = xs.length + (j + 1) := ⟨k - xs.length - 1, by omega⟩
  have hloop := afterElements_loop (Reader.read strtod k) xs .null .null inp s ret cur inp1 s1
    (j + 1) hels
  obtain ⟨cells, hinv⟩ := afterElements_listSoFar (Reader.read strtod k)
    (read_keeps_pairs strtod k) xs .null .null inp s [] [] ret cur inp1 s1 hels
    (Or.inl ⟨rfl, rfl, rfl, rfl⟩)
  rw [List.nil_append] at hinv
  have hread : Reader.read strtod (k + 1) b ('(' :: inp) s
      = Reader.readListLoop (Reader.read strtod k) (j + 1) ret cur inp1 s1 := by
    rw [read_open_paren, ← hloop, ← hk]
  refine ⟨?_, ?_⟩
  · intro rest s2 hend
    refine ⟨?_, ?_, ?_⟩
    · rw [hread, Reader.readListLoop, hend]
      simp [Res.bind]
    · rcases listSoFar_mono s1 s2 (read_keeps_pairs strtod k _ _ _ _ _ hend) ret cur cells xs hinv
        with ⟨_, h2, h3, _⟩ | ⟨init, c, _, _, h3, _, h5⟩
      · subst h2 h3; rfl
      · rw [h3]; exact cellsAre_isList s2 cells xs h5
    · intro hxs
      rcases hinv with ⟨_, _, h3, _⟩ | ⟨init, c, h1, _, _, _, h5⟩
      · exact h3
      · have := cellsAre_length s1 cells xs .null h5
        rw [h1, hxs] at this
        simp at this
  · intro inp2 s2 t inp3 s3 rest s4 hne hdot ht hclose
    rcases hinv with ⟨_, h2, _, _⟩ | ⟨init, c, h1, h2, h3, h4, h5⟩
    · exact absurd h2 hne
    · subst h2
      have hd1 : Reader.dot ≠ Reader.listEnd := by decide
      have hty : (Obj.pair c).getType ≠ .otNull := by simp [Obj.getType]
      refine ⟨?_, ?_⟩
      · rw [hread, Reader.readListLoop, hdot]
        simp only [Res.bind, hd1, if_false, if_true, hty, ht, hclose, ne_eq, not_true_eq_false]
      · have m2 := cellsAre_mono s1 s2 (read_keeps_pairs strtod k _ _ _ _ _ hdot) cells xs .null h5
        have m3 := cellsAre_mono s2 s3 (read_keeps_pairs strtod k _ _ _ _ _ ht) cells xs .null m2
        have m4 := cellsAre_retail s3 t c init xs .null (h1 ▸ m3) (h1 ▸ h4)
        rw [← h1] at m4
        have m5 := cellsAre_mono _ s4 (read_keeps_pairs strtod k _ _ _ _ _ hclose) cells xs t m4
        have := cellsAre_elementsEndIn s4 cells xs t m5
        rw [h3, h1, (cellsHead_append init c .null t).2, ← h1]
        exact this

theorem list_literal_reads_witness :
    (Reader.read noDoubles 6 false ('(' :: "a (b) c)".toList) emptyStore
        = .ok (.pair 0, []) listStore ∧
      listStore.isList (.pair 0) [.symbol "a", .pair 1, .symbol "c"] = true) ∧
    (Reader.read noDoubles 6 true ('(' :: "a (b) . d)".toList) emptyStore
        = .ok (.pair 0, []) dottedStore ∧
      dottedStore.elementsEndIn (.pair 0) [.symbol "a", .pair 1] (.symbol "d") = true) := by
  have h1 := (list_literal_reads noDoubles 5 false "a (b) c)".toList emptyStore
    [.symbol "a", .pair 1, .symbol "c"] (.pair 0) (.pair 3) [')'] listStore (by decide)
    (by decide)).1 [] listStore (by decide)
  have h2 := (list_literal_reads noDoubles 5 true "a (b) . d)".toList emptyStore
    [.symbol "a", .pair 1] (.pair 0) (.pair 2) " . d)".toList dottedOpenStore (by decide)
    (by decide)).2 " d)".toList dottedOpenStore (.symbol "d") [')'] dottedOpenStore []
    dottedStore (by decide) (by decide) (by decide) (by decide)
  exact ⟨⟨h1.1, h1.2.1⟩, h2⟩

/-! ## C16: tail calls -/

/-- With the same function for the calls and for the jumps, the branches that
tell them apart are the branches of `evalStep`. -/
theorem evalStepT_same (h : Host) (n : Nat) (ev : Obj → Nat → Store → Res Obj) :
    evalStepT h n ev ev = evalStep h n ev := by
  have hif : evalIfT ev ev = evalIf ev := rfl
  have hcall : evalCallT h n ev ev = evalCall h n ev := rfl
  have hbegin : ∀ env k i s, evalBeginT ev ev env k i s = evalBegin ev env k i s := by
    intro env k
    induction k with
    | zero => intro i s; rfl
    | succ k ih =>
      intro i s
      simp only [evalBeginT, evalBegin, ih]
  funext form env s
  unfold evalStepT evalStep
  simp only [hif, hcall, hbegin]

theorem evalLoop_define (h : Host) (rec : Obj → Nat → Store → Res Obj) (k a env : Nat)
    (s : Store) (hcar : s.car (.pair a) = .symbol "define") :
    evalLoop h rec (k + 1) (.pair a) env s = evalDefine h k rec (.pair a) env s := by
  simp [evalLoop, evalStepT, hcar]

theorem evalLoop_quote (h : Host) (rec : Obj → Nat → Store → Res Obj) (k a env : Nat)
    (s : Store) (hcar : s.car (.pair a) = .symbol "quote") :
    evalLoop h rec (k + 1) (.pair a) env s = evalQuote (.pair a) s := by
  simp [evalLoop, evalStepT, hcar]

theorem evalLoop_if (h : Host) (rec : Obj → Nat → Store → Res Obj) (k a env : Nat)
    (s : Store) (hcar : s.car (.pair a) = .symbol "if") :
    evalLoop h rec (k + 1) (.pair a) env s
      = evalIfT rec (evalLoop h rec k) (.pair a) env s := by
  simp [evalLoop, evalStepT, hcar]

theorem evalLoop_begin (h : Host) (rec : Obj → Nat → Store → Res Obj) (k a env : Nat)
    (s : Store) (hcar : s.car (.pair a) = .symbol "begin") :
    evalLoop h rec (k + 1) (.pair a) env s
      = evalBeginT rec (evalLoop h rec k) env k (s.cdr (.pair a)) s := by
  simp [evalLoop, evalStepT, hcar]

theorem evalLoop_call (h : Host) (rec : Obj → Nat → Store → Res Obj) (k a env : Nat)
    (s : Store) (sym : String) (hcar : s.car (.pair a) = .symbol sym)
    (hsym : isKeyword sym = false) :
    evalLoop h rec (k + 1) (.pair a) env s
      = evalCallT h k rec (evalLoop h rec k) (.pair a) env s := by
  simp only [isKeyword, Bool.or_eq_false_iff, beq_eq_false_iff_ne, ne_eq] at hsym
  obtain ⟨⟨⟨⟨⟨⟨h1, h2⟩, _⟩, h4⟩, h5⟩, h6⟩, h7⟩ := hsym
  simp [evalLoop, evalStepT, hcar, h1, h2, h4, h5, h6, h7]

theorem evalAtDepth_symbol (h : Host) (d k : Nat) (name : String) (env : Nat) (s : Store) :
    evalAtDepth h (d + 1) (k + 1) (.symbol name) env s = Environment.get s env name := rfl

theorem evalAtDepth_fixnum (h : Host) (d k : Nat) (v : Int) (env : Nat) (s : Store) :
    evalAtDepth h (d + 1) (k + 1) (.fixnum v) env s = .ok (.fixnum v) s := rfl

theorem get_local (s : Store) (e : Nat) (name : String) (v : Obj)
    (hfe : s.frame e = ⟨[(name, v)], some 0⟩) :
    Environment.get s e name = .ok v s := by
  rw [Environment.get, Environment.getFrom, hfe]
  simp [mapFind]

theorem get_through (s : Store) (e : Nat) (name other : String) (v w : Obj) (he : 1 ≤ e)
    (hfe : s.frame e = ⟨[(other, w)], some 0⟩) (hne : other ≠ name)
    (hg : mapFind (s.frame 0).data name = some v) :
    Environment.get s e name = .ok v s := by
  obtain ⟨e1, rfl⟩ : ∃ e1, e = e1 + 1 := ⟨e - 1, by omega⟩
  rw [Environment.get, Environment.getFrom, hfe]
  simp only [mapFind, hne, if_false]
  rw [Environment.getFrom, hg]

/-- The frame a call of `loop` with the argument `v` is given. -/
theorem extendIntoNew_loop (s : Store) (v : Obj) (hlen : 0 < s.frames.length) :
    ∃ s1, Environment.extendIntoNew s 0 ["n"] [v] false = .ok s.frames.length s1 ∧
      s1.pairs = s.pairs ∧ s1.frame 0 = s.frame 0 ∧
      s1.frame s.frames.length = ⟨[("n", v)], some 0⟩ ∧
      s1.frames.length = s.frames.length + 1 := by
  refine ⟨({ s with frames := s.frames ++ [⟨[], some 0⟩] } : Store).assign s.frames.length "n" v,
    ?_, rfl, ?_, ?_, ?_⟩
  · simp [Environment.extendIntoNew, Environment.defineEach, Environment.define, isKeyword,
      Res.bind]
  · rw [frame_assign_other _ _ _ _ _ (by omega)]
    exact frame_append_old s _ 0 hlen
  · simp [Store.assign, Store.setFrame, Store.frame, mapAssign, List.getD_eq_getElem?_getD]
  · simp [Store.assign, Store.setFrame]

theorem car_of_pairs (s s0 : Store) (hP : s.pairs = s0.pairs) (o : Obj) : s.car o = s0.car o := by
  cases o <;> simp [Store.car, hP]

theorem cdr_of_pairs (s s0 : Store) (hP : s.pairs = s0.pairs) (o : Obj) : s.cdr o = s0.cdr o := by
  cases o <;> simp [Store.cdr, hP]

theorem call_native (h : Host) (ev : Obj → Nat → Store → Res Obj) (k : Nat) (name : String)
    (parameters : List Obj) (s : Store) (hne : name ≠ "sys:apply") :
    call h ev (k + 1) name parameters.length parameters s = h.native name parameters s := by
  unfold call
  simp only [ne_eq, not_true_eq_false, if_false]
  split
  · exact absurd rfl hne
  · rfl

/-- The condition `(eqNum n 0)` of the loop, evaluated by a call of
`evalExpandedForm` in a frame that binds `n` to `m`. -/
theorem loop_condition (h : Host)
    (heq : ∀ (a b : Int) (s : Store),
      h.native "eqNum" [.fixnum a, .fixnum b] s = .ok (.boolean (decide (a = b))) s)
    (N K e : Nat) (m : Int) (s : Store)
    (hP : s.pairs = (loopDefined N).pairs) (hG : s.frame 0 = (loopDefined N).frame 0)
    (he : 1 ≤ e) (hfe : s.frame e = ⟨[("n", .fixnum m)], some 0⟩) :
    evalAtDepth h 2 (K + 4) (.pair 7) e s = .ok (.boolean (decide (m = 0))) s := by
  have hcar := car_of_pairs s (loopDefined N) hP
  have hcdr := cdr_of_pairs s (loopDefined N) hP
  have c7 : s.car (.pair 7) = .symbol "eqNum" := (hcar _).trans rfl
  have d7 : s.cdr (.pair 7) = .pair 8 := (hcdr _).trans rfl
  have c8 : s.car (.pair 8) = .symbol "n" := (hcar _).trans rfl
  have d8 : s.cdr (.pair 8) = .pair 9 := (hcdr _).trans rfl
  have c9 : s.car (.pair 9) = .fixnum 0 := (hcar _).trans rfl
  have d9 : s.cdr (.pair 9) = .null := (hcdr _).trans rfl
  have r1 : evalAtDepth h 1 (K + 4) (.symbol "eqNum") e s = .ok (.builtin "eqNum" 2) s :=
    get_through s e "eqNum" "n" _ _ he hfe (by decide) (by rw [hG]; rfl)
  have r2 : evalAtDepth h 1 (K + 4) (.symbol "n") e s = .ok (.fixnum m) s :=
    get_local s e "n" _ hfe
  have r3 : evalAtDepth h 1 (K + 4) (.fixnum 0) e s = .ok (.fixnum 0) s := rfl
  have hp : (Obj.pair 8).getType = .otPair := rfl
  have hp9 : (Obj.pair 9).getType = .otPair := rfl
  have hn : Obj.null.getType = .otNull := rfl
  show evalLoop h (evalAtDepth h 1 (K + 4)) (K + 3 + 1) (.pair 7) e s = _
  rw [evalLoop_call h _ _ 7 e s "eqNum" c7 rfl]
  unfold evalCallT
  rw [c7, r1]
  simp only [Res.bind, d7]
  rw [evalParameters]
  simp only [hp, c8, r2, Res.bind, d8, ne_eq, not_true_eq_false, if_false, reduceCtorEq]
  rw [evalParameters]
  simp only [hp9, c9, r3, Res.bind, d9, ne_eq, not_true_eq_false, if_false, reduceCtorEq]
  rw [evalParameters]
  simp only [hn, if_true, List.nil_append, List.cons_append]
  exact (call_native h _ (K + 2) "eqNum" [.fixnum m, .fixnum 0] s (by decide)).trans (heq m 0 s)

/-- The operand `(dec n)` of the self call, evaluated by a call of
`evalExpandedForm` in a frame that binds `n` to `m`. -/
theorem loop_operand (h : Host)
    (hdec : ∀ (a : Int) (s : Store), h.native "dec" [.fixnum a] s = .ok (.fixnum (a - 1)) s)
    (N K e : Nat) (m : Int) (s : Store)
    (hP : s.pairs = (loopDefined N).pairs) (hG : s.frame 0 = (loopDefined N).frame 0)
    (he : 1 ≤ e) (hfe : s.frame e = ⟨[("n", .fixnum m)], some 0⟩) :
    evalAtDepth h 2 (K + 4) (.pair 16) e s = .ok (.fixnum (m - 1)) s := by
  have hcar := car_of_pairs s (loopDefined N) hP
  have hcdr := cdr_of_pairs s (loopDefined N) hP
  have c16 : s.car (.pair 16) = .symbol "dec" := (hcar _).trans rfl
  have d16 : s.cdr (.pair 16) = .pair 17 := (hcdr _).trans rfl
  have c17 : s.car (.pair 17) = .symbol "n" := (hcar _).trans rfl
  have d17 : s.cdr (.pair 17) = .null := (hcdr _).trans rfl
  have r1 : evalAtDepth h 1 (K + 4) (.symbol "dec") e s = .ok (.builtin "dec" 1) s :=
    get_through s e "dec" "n" _ _ he hfe (by decide) (by rw [hG]; rfl)
  have r2 : evalAtDepth h 1 (K + 4) (.symbol "n") e s = .ok (.fixnum m) s :=
    get_local s e "n" _ hfe
  have hp : (Obj.pair 17).getType = .otPair := rfl
  have hn : Obj.null.getType = .otNull := rfl
  show evalLoop h (evalAtDepth h 1 (K + 4)) (K + 3 + 1) (.pair 16) e s = _
  rw [evalLoop_call h _ _ 16 e s "dec" c16 rfl]
  unfold evalCallT
  rw [c16, r1]
  simp only [Res.bind, d16]
  rw [evalParameters]
  simp only [hp, c17, r2, Res.bind, d17, ne_eq, not_true_eq_false, if_false, reduceCtorEq]
  rw [evalParameters]
  simp only [hn, if_true, List.nil_append]
  exact (call_native h _ (K + 2) "dec" [.fixnum m] s (by decide)).trans (hdec m s)

/-- The cells of the body of `loop`, read in a store that holds them. -/
theorem loop_cells (N : Nat) (s : Store) (hP : s.pairs = (loopDefined N).pairs) :
    (s.car (.pair 20) = .symbol "begin" ∧ s.cdr (.pair 20) = .pair 4) ∧
    (s.car (.pair 4) = .pair 5 ∧ s.cdr (.pair 4) = .null) ∧
    (s.car (.pair 5) = .symbol "if" ∧ s.cdr (.pair 5) = .pair 6) ∧
    (s.car (.pair 6) = .pair 7 ∧ s.cdr (.pair 6) = .pair 10) ∧
    (s.car (.pair 10) = .pair 11 ∧ s.cdr (.pair 10) = .pair 13) ∧
    (s.car (.pair 13) = .pair 14 ∧ s.cdr (.pair 13) = .null) ∧
    (s.car (.pair 11) = .symbol "quote" ∧ s.cdr (.pair 11) = .pair 12) ∧
    (s.car (.pair 12) = .symbol "done" ∧ s.cdr (.pair 12) = .null) ∧
    (s.car (.pair 14) = .symbol "loop" ∧ s.cdr (.pair 14) = .pair 15) ∧
    (s.car (.pair 15) = .pair 16 ∧ s.cdr (.pair 15) = .null) := by
  have hcar := car_of_pairs s (loopDefined N) hP
  have hcdr := cdr_of_pairs s (loopDefined N) hP
  exact ⟨⟨(hcar _).trans rfl, (hcdr _).trans rfl⟩,
    ⟨(hcar _).trans rfl, (hcdr _).trans rfl⟩,
    ⟨(hcar _).trans rfl, (hcdr _).trans rfl⟩,
    ⟨(hcar _).trans rfl, (hcdr _).trans rfl⟩,
    ⟨(hcar _).trans rfl, (hcdr _).trans rfl⟩,
    ⟨(hcar _).trans rfl, (hcdr _).trans rfl⟩,
    ⟨(hcar _).trans rfl, (hcdr _).trans rfl⟩,
    ⟨(hcar _).trans rfl, (hcdr _).trans rfl⟩,
    ⟨(hcar _).trans rfl, (hcdr _).trans rfl⟩,
    ⟨(hcar _).trans rfl, (hcdr _).trans rfl⟩⟩

/-- The body of `loop` in a frame that binds `n` to `m`: `3 * m + 3` passes of
one activation of `evalExpandedForm` give `done`, the calls it makes needing
two more activations whatever `m` is. -/
theorem loop_body_runs (h : Host)
    (heq : ∀ (a b : Int) (s : Store),
      h.native "eqNum" [.fixnum a, .fixnum b] s = .ok (.boolean (decide (a = b))) s)
    (hdec : ∀ (a : Int) (s : Store), h.native "dec" [.fixnum a] s = .ok (.fixnum (a - 1)) s)
    (N K : Nat) :
    ∀ (m k e : Nat) (s : Store), 3 * m + 3 ≤ k →
      s.pairs = (loopDefined N).pairs → s.frame 0 = (loopDefined N).frame 0 →
      1 ≤ e → e < s.frames.length → s.frame e = ⟨[("n", .fixnum m)], some 0⟩ →
      ∃ s1, evalLoop h (evalAtDepth h 2 (K + 4)) k (.pair 20) e s = .ok (.symbol "done") s1 := by
  intro m
  induction m with
  | zero =>
    intro k e s hk hP hG he hlt hfe
    obtain ⟨k3, rfl⟩ : ∃ k3, k = k3 + 1 + 1 + 1 := ⟨k - 3, by omega⟩
    obtain ⟨⟨c20, d20⟩, ⟨c4, d4⟩, ⟨c5, d5⟩, ⟨c6, d6⟩, ⟨c10, d10⟩, ⟨c13, d13⟩, ⟨c11, d11⟩, ⟨c12, d12⟩, ⟨c14, d14⟩, ⟨c15, d15⟩⟩ := loop_cells N s hP
    have hcond := loop_condition h heq N K e (0 : Nat) s hP hG he hfe
    have hp : ∀ a, (Obj.pair a).getType = .otPair := fun _ => rfl
    have hn : Obj.null.getType = .otNull := rfl
    refine ⟨s, ?_⟩
    rw [evalLoop_begin h _ _ 20 e s c20, d20, evalBeginT]
    simp only [d4, c4, hp, hn, ne_eq, not_true_eq_false, if_false, if_true, reduceCtorEq]
    rw [evalLoop_if h _ _ 5 e s c5]
    unfold evalIfT
    simp only [d5, d6, d10, d13, c6, c10, c13, hp, hn, ne_eq, not_true_eq_false, if_false,
      hcond, Res.bind]
    simp only [Nat.cast_zero, decide_True, isTrue, Obj.getType, bne_self_eq_false,
      Bool.false_or, if_true]
    rw [evalLoop_quote h _ _ 11 e s c11]
    unfold evalQuote
    simp [d11, d12, c12, hp, hn]
  | succ m ih =>
    intro k e s hk hP hG he hlt hfe
    obtain ⟨k5, rfl⟩ : ∃ k5, k = k5 + 1 + 1 + 1 + 1 + 1 := ⟨k - 5, by omega⟩
    obtain ⟨⟨c20, d20⟩, ⟨c4, d4⟩, ⟨c5, d5⟩, ⟨c6, d6⟩, ⟨c10, d10⟩, ⟨c13, d13⟩, ⟨c11, d11⟩, ⟨c12, d12⟩, ⟨c14, d14⟩, ⟨c15, d15⟩⟩ := loop_cells N s hP
    have hcond := loop_condition h heq N K e ((m + 1 : Nat) : Int) s hP hG he hfe
    have hop := loop_operand h hdec N K e ((m + 1 : Nat) : Int) s hP hG he hfe
    have hm : (((m + 1 : Nat) : Int) - 1) = (m : Int) := by push_cast; ring
    have hz : decide ((((m + 1 : Nat) : Int)) = 0) = false := by
      simp only [decide_eq_false_iff_not]; omega
    rw [hm] at hop
    rw [hz] at hcond
    have hfun : evalAtDepth h 2 (K + 4) (.symbol "loop") e s = .ok loopClosure s :=
      get_through s e "loop" "n" _ _ he hfe (by decide) (by rw [hG]; rfl)
    have hp : ∀ a, (Obj.pair a).getType = .otPair := fun _ => rfl
    have hn : Obj.null.getType = .otNull := rfl
    obtain ⟨s1, hext, hP1, hG1, hfe1, hlen1⟩ := extendIntoNew_loop s (.fixnum m) (by omega)
    obtain ⟨s2, hrun⟩ := ih (k5 + 1 + 1) s.frames.length s1 (by omega) (hP1.trans hP)
      (hG1.trans hG) (by omega) (by omega) hfe1
    refine ⟨s2, ?_⟩
    rw [evalLoop_begin h _ _ 20 e s c20, d20, evalBeginT]
    simp only [d4, c4, hp, hn, ne_eq, not_true_eq_false, if_false, if_true, reduceCtorEq]
    rw [evalLoop_if h _ _ 5 e s c5]
    unfold evalIfT
    simp only [d5, d6, d10, d13, c6, c10, c13, hp, hn, ne_eq, not_true_eq_false, if_false,
      hcond, Res.bind]
    simp only [isTrue, Obj.getType, bne_self_eq_false, Bool.false_or, Bool.false_eq_true,
      if_false]
    rw [evalLoop_call h _ _ 14 e s "loop" c14 rfl]
    unfold evalCallT
    rw [c14, hfun]
    simp only [Res.bind, d14]
    rw [evalParameters]
    simp only [c15, d15, hp, hn, hop, Res.bind, ne_eq, not_true_eq_false, if_false, reduceCtorEq]
    rw [evalParameters]
    simp only [hn, if_true, List.nil_append, loopClosure, hext, Res.bind]
    exact hrun

/-- The `define` form of the loop program binds `loop` to its closure. -/
theorem loop_define_runs (h : Host) (rec : Obj → Nat → Store → Res Obj) (n k : Nat) :
    evalLoop h rec (k + 4) (.pair 0) 0 (loopStore n)
      = .ok (.symbol "undefined") (loopDefined n) := rfl

/-- C16: in a store that holds the forms
`(define (loop n) (if (eqNum n 0) (quote done) (loop (dec n))))` and `(loop n)`,
`eqNum` and `dec` being builtin procedures whose native functions are the
equality of integers and the decrement by one, for every `n ≥ 0` the `define`
form and then the form `(loop n)` evaluate, the second to the symbol `done`,
with no more than three activations of `evalExpandedForm` on the host stack at
any time, whatever `n` is: the self call is a jump to `tailCall`, and only the
number of these jumps grows with `n`. -/
theorem tail_call_in_loop (h : Host)
    (heq : ∀ (a b : Int) (s : Store),
      h.native "eqNum" [.fixnum a, .fixnum b] s = .ok (.boolean (decide (a = b))) s)
    (hdec : ∀ (a : Int) (s : Store), h.native "dec" [.fixnum a] s = .ok (.fixnum (a - 1)) s)
    (n : Nat) :
    ∃ (jumps : Nat) (s1 s2 : Store),
      evalAtDepth h 3 jumps (.pair 0) 0 (loopStore n) = .ok (.symbol "undefined") s1 ∧
      evalAtDepth h 3 jumps (.pair 18) 0 s1 = .ok (.symbol "done") s2 := by
  have hlen : 0 < (loopDefined n).frames.length := Nat.zero_lt_one
  obtain ⟨s1, hext, hP1, hG1, hfe1, hlen1⟩ :=
    extendIntoNew_loop (loopDefined n) (.fixnum n) hlen
  obtain ⟨s2, hrun⟩ := loop_body_runs h heq hdec n (3 * n) n (3 * n + 3)
    (loopDefined n).frames.length s1 (le_refl _) hP1 hG1 (le_refl 1)
    (by rw [hlen1]; exact Nat.lt_succ_self _) hfe1
  refine ⟨3 * n + 4, loopDefined n, s2, loop_define_runs h _ n (3 * n), ?_⟩
  have c18 : (loopDefined n).car (.pair 18) = .symbol "loop" := rfl
  have hfun : evalAtDepth h 2 (3 * n + 4) (.symbol "loop") 0 (loopDefined n)
      = .ok loopClosure (loopDefined n) := rfl
  have harg : evalAtDepth h 2 (3 * n + 4) (.fixnum n) 0 (loopDefined n)
      = .ok (.fixnum n) (loopDefined n) := rfl
  have d18 : (loopDefined n).cdr (.pair 18) = .pair 19 := rfl
  have c19 : (loopDefined n).car (.pair 19) = .fixnum n := rfl
  have d19 : (loopDefined n).cdr (.pair 19) = .null := rfl
  have hp : ∀ a, (Obj.pair a).getType = .otPair := fun _ => rfl
  have hn : Obj.null.getType = .otNull := rfl
  show evalLoop h (evalAtDepth h 2 (3 * n + 4)) (3 * n + 3 + 1) (.pair 18) 0 (loopDefined n) = _
  rw [evalLoop_call h _ _ 18 0 _ "loop" c18 rfl]
  unfold evalCallT
  rw [c18, hfun]
  simp only [Res.bind, d18]
  rw [show 3 * n + 3 = 3 * n + 1 + 1 + 1 from rfl, evalParameters]
  simp only [c19, d19, hp, hn, harg, Res.bind, ne_eq, not_true_eq_false, if_false, reduceCtorEq]
  rw [evalParameters]
  simp only [hn, if_true, List.nil_append, loopClosure, hext, Res.bind]
  exact hrun

theorem tail_call_in_loop_witness :
    ∃ (jumps : Nat) (s1 s2 : Store),
      evalAtDepth loopHost 3 jumps (.pair 0) 0 (loopStore 1000000)
        = .ok (.symbol "undefined") s1 ∧
      evalAtDepth loopHost 3 jumps (.pair 18) 0 s1 = .ok (.symbol "done") s2 :=
  tail_call_in_loop loopHost (fun _ _ _ => rfl) (fun _ _ => rfl) 1000000

/-! ## C21: malformed dotted lists -/

theorem read_sharp_paren (strtod : List Char → Nat) (k : Nat) (b : Bool) (inp : List Char)
    (s : Store) :
    Reader.read strtod (k + 1) b ('#' :: '(' :: inp) s
      = Reader.readVectorLoop (Reader.read strtod k) k [] inp s := by
  have p : Reader.skipWhitespace ('#' :: '(' :: inp) = '#' :: '(' :: inp := by
    have : isspace '#' = false := by decide
    simp [Reader.skipWhitespace, List.dropWhile, this]
  rw [Reader.read, Reader.readStep, p]
  simp [Reader.readSpecial]

/-- C21: a list whose first element reads as the dot is rejected with "Invalid
dotted list"; so is a list in which, after at least one element, the dot and
the form behind it, the next thing read is not the closing parenthesis (and
when that read fails, its error is the error of the list); and a dot read
where an element of a vector is expected is rejected with "Dot is invalid
inside a vector literal", at the first position and at any later one. -/
theorem malformed_dotted_lists_fail (strtod : List Char → Nat) (k : Nat) (s : Store) :
    (∀ (b : Bool) (inp inp1 : List Char) (s1 : Store),
      Reader.read strtod k true inp s = .ok (Reader.dot, inp1) s1 →
      Reader.read strtod (k + 1) b ('(' :: inp) s = .error Reader.invalidDottedList s1) ∧
    (∀ (b : Bool) (xs : List Obj) (ret cur : Obj) (inp inp1 inp2 inp3 : List Char)
        (s1 s2 s3 : Store) (t : Obj),
      xs.length < k → xs ≠ [] →
      Reader.afterElements (Reader.read strtod k) xs .null .null inp s
        = some (ret, cur, inp1, s1) →
      Reader.read strtod k true inp1 s1 = .ok (Reader.dot, inp2) s2 →
      Reader.read strtod k true inp2 s2 = .ok (t, inp3) s3 →
      (∀ (x : Obj) (rest : List Char) (s4 : Store),
        Reader.read strtod k true inp3 (s3.setCdr cur t) = .ok (x, rest) s4 →
        x ≠ Reader.listEnd →
        Reader.read strtod (k + 1) b ('(' :: inp) s = .error Reader.invalidDottedList s4) ∧
      (∀ (e : Err) (s4 : Store),
        Reader.read strtod k true inp3 (s3.setCdr cur t) = .error e s4 →
        Reader.read strtod (k + 1) b ('(' :: inp) s = .error e s4)) ∧
    (∀ (b : Bool) (inp inp1 : List Char) (s1 : Store),
      Reader.read strtod k true inp s = .ok (Reader.dot, inp1) s1 →
      Reader.read strtod (k + 1) b ('#' :: '(' :: inp) s = .error Reader.dotInVector s1) ∧
    (∀ (j : Nat) (ret : List Obj) (inp inp1 : List Char) (s0 s1 : Store),
      Reader.read strtod k true inp s0 = .ok (Reader.dot, inp1) s1 →
      Reader.readVectorLoop (Reader.read strtod k) (j + 1) ret inp s0
        = .error Reader.dotInVector s1) := by
  have hd1 : Reader.dot ≠ Reader.listEnd := by decide
  have hvec : ∀ (j : Nat) (ret : List Obj) (inp inp1 : List Char) (s0 s1 : Store),
      Reader.read strtod k true inp s0 = .ok (Reader.dot, inp1) s1 →
      Reader.readVectorLoop (Reader.read strtod k) (j + 1) ret inp s0
        = .error Reader.dotInVector s1 := by
    intro j ret inp inp1 s0 s1 h
    rw [Reader.readVectorLoop, h]
    simp [Res.bind, hd1]
  have hk : ∀ (inp inp1 : List Char) (s0 s1 : Store) (x : Obj),
      Reader.read strtod k true inp s0 = .ok (x, inp1) s1 → ∃ m, k = m + 1 := by
    intro inp inp1 s0 s1 x h
    cases k with
    | zero => cases h
    | succ m => exact ⟨m, rfl⟩
  refine ⟨?_, ?_, ?_, hvec⟩
  · intro b inp inp1 s1 h
    obtain ⟨m, rfl⟩ := hk _ _ _ _ _ h
    rw [read_open_paren, Reader.readListLoop, h]
    simp [Res.bind, hd1, Obj.getType]
  · intro b xs ret cur inp inp1 inp2 inp3 s1 s2 s3 t hfuel hne hels hdot ht
    obtain ⟨j, hj⟩ : ∃ j, k = xs.length + (j + 1) := ⟨k - xs.length - 1, by omega⟩
    have hloop := afterElements_loop (Reader.read strtod k) xs .null .null inp s ret cur inp1 s1
      (j + 1) hels
    obtain ⟨cells, hinv⟩ := afterElements_listSoFar (Reader.read strtod k)
      (read_keeps_pairs strtod k) xs .null .null inp s [] [] ret cur inp1 s1 hels
      (Or.inl ⟨rfl, rfl, rfl, rfl⟩)
    rw [List.nil_append] at hinv
    have hread : Reader.read strtod (k + 1) b ('(' :: inp) s
        = Reader.readListLoop (Reader.read strtod k) (j + 1) ret cur inp1 s1 := by
      rw [read_open_paren, ← hloop, ← hj]
    have hty : cur.getType ≠ .otNull := by
      rcases hinv with ⟨_, h2, _, _⟩ | ⟨init, c, _, h2, _, _, _⟩
      · exact absurd h2 hne
      · subst h2; simp [Obj.getType]
    refine ⟨?_, ?_⟩
    · intro x rest s4 hx hxne
      rw [hread, Reader.readListLoop, hdot]
      simp only [Res.bind, hd1, if_false, if_true, hty, ht, hx, ne_eq, hxne, not_false_eq_true]
    · intro e s4 he
      rw [hread, Reader.readListLoop, hdot]
      simp only [Res.bind, hd1, if_false, if_true, hty, ht, he]
  · intro b inp inp1 s1 h
    obtain ⟨m, rfl⟩ := hk _ _ _ _ _ h
    rw [read_sharp_paren]
    exact hvec m [] inp inp1 s s1 h

theorem malformed_dotted_lists_fail_witness :
    Reader.read noDoubles 6 false "( . x)".toList emptyStore
      = .error Reader.invalidDottedList emptyStore ∧
    Reader.read noDoubles 6 false ('(' :: "a . b c)".toList) emptyStore
      = .error Reader.invalidDottedList
          { emptyStore with pairs := [(.symbol "a", .symbol "b")] } ∧
    Reader.read noDoubles 6 false "#( . b)".toList emptyStore
      = .error Reader.dotInVector emptyStore := by
  have h := malformed_dotted_lists_fail noDoubles 5 emptyStore
  refine ⟨h.1 false " . x)".toList " x)".toList emptyStore (by decide), ?_,
    h.2.2.1 false " . b)".toList " b)".toList emptyStore (by decide)⟩
  exact (h.2.1 false [.symbol "a"] (.pair 0) (.pair 0) "a . b c)".toList " . b c)".toList
    " b c)".toList " c)".toList { emptyStore with pairs := [(.symbol "a", .null)] }
    { emptyStore with pairs := [(.symbol "a", .null)] }
    { emptyStore with pairs := [(.symbol "a", .null)] } (.symbol "b") (by decide) (by decide)
    (by decide) (by decide) (by decide)).1 (.symbol "c") [')']
    { emptyStore with pairs := [(.symbol "a", .symbol "b")] } (by decide) (by decide)

/-! ## C22: the value read for a closing parenthesis -/

/-- C22 (what the code does). The value `read` gives for a closing parenthesis,
the Symbol `)`, is returned to the caller of `read` on the text `)`, is the
operand of the quote form read from the text that is a quote character and
`)`, and is the tail of the pair read from `(a . ))`. -/
theorem closing_parenthesis_value_escapes :
    Reader.read noDoubles 2 false [')'] emptyStore = .ok (Reader.listEnd, []) emptyStore ∧
    Reader.read noDoubles 3 false [Char.ofNat 39, ')'] emptyStore
      = .ok (.pair 1, [])
          { emptyStore with pairs := [(Reader.listEnd, .null), (.symbol "quote", .pair 0)] } ∧
    Reader.read noDoubles 6 false "(a . ))".toList emptyStore
      = .ok (.pair 0, []) { emptyStore with pairs := [(.symbol "a", Reader.listEnd)] } := by
  decide

/-! ## C23: the quote abbreviations -/

theorem read_wrap (strtod : List Char → Nat) (k : Nat) (b : Bool) (q : Char) (name : String)
    (inp rest : List Char) (x : Obj) (s s1 : Store)
    (hq : (q = Char.ofNat 39 ∧ name = "quote") ∨ (q = Char.ofNat 96 ∧ name = "quasiquote") ∨
      (q = ',' ∧ name = "unquote"))
    (h : Reader.read strtod k true inp s = .ok (x, rest) s1) :
    Reader.read strtod (k + 1) b (q :: inp) s
      = .ok (.pair (s1.pairs.length + 1), rest)
          { s1 with pairs := s1.pairs ++ [(x, .null), (.symbol name, .pair s1.pairs.length)] } := by
  have hres : Reader.wrap name (x, rest) s1
      = .ok (.pair (s1.pairs.length + 1), rest)
          { s1 with pairs := s1.pairs ++ [(x, .null), (.symbol name, .pair s1.pairs.length)] } := by
    simp [Reader.wrap, Store.newPair, List.append_assoc]
  rcases hq with ⟨rfl, rfl⟩ | ⟨rfl, rfl⟩ | ⟨rfl, rfl⟩
  · have p : Reader.skipWhitespace (Char.ofNat 39 :: inp) = Char.ofNat 39 :: inp := by
      have : isspace (Char.ofNat 39) = false := by decide
      simp [Reader.skipWhitespace, List.dropWhile, this]
    rw [Reader.read, Reader.readStep, p]
    simp [h, Res.bind, hres]
  · have p : Reader.skipWhitespace (Char.ofNat 96 :: inp) = Char.ofNat 96 :: inp := by
      have : isspace (Char.ofNat 96) = false := by decide
      simp [Reader.skipWhitespace, List.dropWhile, this]
    rw [Reader.read, Reader.readStep, p]
    simp [h, Res.bind, hres]
  · have p : Reader.skipWhitespace (',' :: inp) = ',' :: inp := by
      have : isspace ',' = false := by decide
      simp [Reader.skipWhitespace, List.dropWhile, this]
    rw [Reader.read, Reader.readStep, p]
    simp [h, Res.bind, hres]

theorem isList_two (s : Store) (a x : Obj) :
    ({ s with pairs := s.pairs ++ [(x, .null), (a, .pair s.pairs.length)] } : Store).isList
      (.pair (s.pairs.length + 1)) [a, x] = true := by
  have h0 : (s.pairs ++ [(x, Obj.null), (a, Obj.pair s.pairs.length)]).getD s.pairs.length
      (.null, .null) = (x, .null) := by
    rw [List.getD_eq_getElem?_getD, List.getElem?_append_right (le_refl _)]
    simp
  have h1 : (s.pairs ++ [(x, Obj.null), (a, Obj.pair s.pairs.length)]).getD (s.pairs.length + 1)
      (.null, .null) = (a, .pair s.pairs.length) := by
    rw [List.getD_eq_getElem?_getD, List.getElem?_append_right (by omega)]
    simp
  simp only [Store.isList, Store.car, Store.cdr, h0, h1, List.length_append, List.length_cons,
    List.length_nil]
  simp

/-- C23: when the text `inp` reads as the value `x`, the text that is a quote
character followed by `inp` reads as the proper list of the two elements
`quote` and `x`, a backquote followed by `inp` as the list of `quasiquote` and
`x`, and a comma followed by `inp` as the list of `unquote` and `x`; the head
is the Symbol of that name, and what is left of the input is what the read of
`x` left. -/
theorem quote_abbreviations (strtod : List Char → Nat) (k : Nat) (b : Bool)
    (inp rest : List Char) (x : Obj) (s s1 : Store)
    (h : Reader.read strtod k true inp s = .ok (x, rest) s1) :
    (∃ o s2, Reader.read strtod (k + 1) b (Char.ofNat 39 :: inp) s = .ok (o, rest) s2 ∧
      s2.isList o [.symbol "quote", x] = true ∧ s1.pairs <+: s2.pairs) ∧
    (∃ o s2, Reader.read strtod (k + 1) b (Char.ofNat 96 :: inp) s = .ok (o, rest) s2 ∧
      s2.isList o [.symbol "quasiquote", x] = true ∧ s1.pairs <+: s2.pairs) ∧
    (∃ o s2, Reader.read strtod (k + 1) b (',' :: inp) s = .ok (o, rest) s2 ∧
      s2.isList o [.symbol "unquote", x] = true ∧ s1.pairs <+: s2.pairs) :=
  ⟨⟨_, _, read_wrap strtod k b _ "quote" inp rest x s s1 (Or.inl ⟨rfl, rfl⟩) h,
      isList_two s1 _ x, List.prefix_append _ _⟩,
    ⟨_, _, read_wrap strtod k b _ "quasiquote" inp rest x s s1 (Or.inr (Or.inl ⟨rfl, rfl⟩)) h,
      isList_two s1 _ x, List.prefix_append _ _⟩,
    ⟨_, _, read_wrap strtod k b _ "unquote" inp rest x s s1 (Or.inr (Or.inr ⟨rfl, rfl⟩)) h,
      isList_two s1 _ x, List.prefix_append _ _⟩⟩

theorem quote_abbreviations_witness :
    (∃ o s2, Reader.read noDoubles 6 false (Char.ofNat 39 :: "(a b) c".toList) emptyStore
        = .ok (o, " c".toList) s2 ∧
      s2.isList o [.symbol "quote", .pair 0] = true ∧
      ({ emptyStore with pairs := [(.symbol "a", .pair 1), (.symbol "b", .null)] } : Store).pairs
        <+: s2.pairs) ∧
    (∃ o s2, Reader.read noDoubles 2 true (',' :: "x".toList) emptyStore = .ok (o, []) s2 ∧
      s2.isList o [.symbol "unquote", .symbol "x"] = true ∧ emptyStore.pairs <+: s2.pairs) :=
  ⟨(quote_abbreviations noDoubles 5 false "(a b) c".toList " c".toList (.pair 0) emptyStore
      { emptyStore with pairs := [(.symbol "a", .pair 1), (.symbol "b", .null)] }
      (by decide)).1,
    (quote_abbreviations noDoubles 1 true "x".toList [] (.symbol "x") emptyStore emptyStore
      (by decide)).2.2⟩

/-! ## C24: string literals -/

theorem readStringLoop_plain (c : Char) (cs : List Char) (sb : List Int) (s : Store)
    (h1 : c ≠ Char.ofNat 34) (h2 : c ≠ Char.ofNat 92) :
    Reader.readStringLoop (c :: cs) sb s = Reader.readStringLoop cs (sb ++ [signedChar c]) s := by
  cases cs <;> conv_lhs => rw [Reader.readStringLoop, if_neg h1, if_neg h2]

theorem readStringLoop_escaped (d : Char) (ds : List Char) (sb : List Int) (s : Store) :
    Reader.readStringLoop (Char.ofNat 92 :: d :: ds) sb s
      = Reader.readStringLoop ds (sb ++ [signedChar (Reader.unescape d)]) s := by
  conv_lhs => rw [Reader.readStringLoop, if_neg (by decide), if_pos rfl]

theorem readStringLoop_close (cs : List Char) (sb : List Int) (s : Store) :
    Reader.readStringLoop (Char.ofNat 34 :: cs) sb s
      = .ok (.string s.strings.length, cs) { s with strings := s.strings ++ [sb] } := by
  cases cs <;> conv_lhs => rw [Reader.readStringLoop, if_pos rfl]

theorem readStringLoop_item (i : BodyItem) (hi : i.wellFormed = true) (cs : List Char)
    (sb : List Int) (s : Store) :
    Reader.readStringLoop (i.text ++ cs) sb s
      = Reader.readStringLoop cs (sb ++ [signedChar i.value]) s := by
  cases i with
  | plain c =>
    simp only [BodyItem.wellFormed, Bool.and_eq_true, bne_iff_ne, ne_eq] at hi
    exact readStringLoop_plain c cs sb s hi.1 hi.2
  | escaped d => exact readStringLoop_escaped d cs sb s

theorem readStringLoop_body (items : List BodyItem) (hw : ∀ i ∈ items, i.wellFormed = true)
    (tail : List Char) :
    ∀ (sb : List Int) (s : Store),
      Reader.readStringLoop (bodyText items ++ tail) sb s
        = Reader.readStringLoop tail (sb ++ items.map fun i => signedChar i.value) s := by
  induction items with
  | nil => intro sb s; simp [bodyText]
  | cons i is ih =>
    intro sb s
    rw [bodyText, List.append_assoc, readStringLoop_item i (hw i (by simp)),
      ih (fun x hx => hw x (by simp [hx]))]
    simp

theorem read_string_open (strtod : List Char → Nat) (k : Nat) (b : Bool) (cs : List Char)
    (s : Store) :
    Reader.read strtod (k + 1) b (Char.ofNat 34 :: cs) s = Reader.readStringLoop cs [] s := by
  have p : Reader.skipWhitespace (Char.ofNat 34 :: cs) = Char.ofNat 34 :: cs := by
    have : isspace (Char.ofNat 34) = false := by decide
    simp [Reader.skipWhitespace, List.dropWhile, this]
  rw [Reader.read, Reader.readStep, p]
  simp

/-- C24: a double quote, a body made of units (a character other than a double
quote and a backslash, or a backslash and any character) and a closing double
quote read as a new String that holds, in order, the characters the units
stand for: newline, carriage return and tab for a backslash with `n`, `r` and
`t`, the character itself for a backslash with another character (a double
quote or a backslash included, which does not end the string), and each plain
character; the input left is what follows the closing double quote.  When the
input ends after the body, or after a backslash behind it, the read throws
"Unexpected end of input stream". -/
theorem string_literal_reads (strtod : List Char → Nat) (k : Nat) (b : Bool)
    (items : List BodyItem) (rest : List Char) (s : Store)
    (hw : ∀ i ∈ items, i.wellFormed = true) :
    Reader.read strtod (k + 1) b (Char.ofNat 34 :: (bodyText items ++ Char.ofNat 34 :: rest)) s
      = .ok (.string s.strings.length, rest)
          { s with strings := s.strings ++ [items.map fun i => signedChar i.value] } ∧
    Reader.read strtod (k + 1) b (Char.ofNat 34 :: bodyText items) s
      = .error Reader.unexpectedEnd s ∧
    Reader.read strtod (k + 1) b (Char.ofNat 34 :: (bodyText items ++ [Char.ofNat 92])) s
      = .error Reader.unexpectedEnd s := by
  refine ⟨?_, ?_, ?_⟩
  · rw [read_string_open, readStringLoop_body items hw, readStringLoop_close]
    simp
  · have := readStringLoop_body items hw [] [] s
    rw [List.append_nil] at this
    rw [read_string_open, this]
    rfl
  · rw [read_string_open, readStringLoop_body items hw]
    rfl

theorem string_literal_reads_witness :
    Reader.read noDoubles 1 false
        [Char.ofNat 34, 'a', Char.ofNat 92, 'n', Char.ofNat 92, Char.ofNat 34, Char.ofNat 92,
          Char.ofNat 92, Char.ofNat 92, 'x', Char.ofNat 34, ')'] emptyStore
      = .ok (.string 0, [')']) { emptyStore with strings := [[97, 10, 34, 92, 120]] } ∧
    Reader.read noDoubles 1 false [Char.ofNat 34, 'a', Char.ofNat 92, 'n'] emptyStore
      = .error Reader.unexpectedEnd emptyStore := by
  have h := string_literal_reads noDoubles 0 false
    [.plain 'a', .escaped 'n', .escaped (Char.ofNat 34), .escaped (Char.ofNat 92), .escaped 'x']
    [')'] emptyStore (by decide)
  have h2 := string_literal_reads noDoubles 0 false [.plain 'a', .escaped 'n'] [] emptyStore
    (by decide)
  exact ⟨h.1, h2.2.1⟩

/-! ## C25: character literals -/

theorem read_sharp_backslash (strtod : List Char → Nat) (k : Nat) (b : Bool) (inp : List Char)
    (s : Store) :
    Reader.read strtod (k + 1) b ('#' :: Char.ofNat 92 :: inp) s = Reader.readCharacter inp s := by
  have p : Reader.skipWhitespace ('#' :: Char.ofNat 92 :: inp) = '#' :: Char.ofNat 92 :: inp := by
    have : isspace '#' = false := by decide
    simp [Reader.skipWhitespace, List.dropWhile, this]
  have h1 : (Char.ofNat 92 : Char) ≠ '(' := by decide
  rw [Reader.read, Reader.readStep, p]
  simp [Reader.readSpecial, h1]

/-- The name `readCharacter` collects when the input begins with the letter
`c`, and the case it takes. -/
theorem readCharacter_run (c : Char) (cs rest : List Char) (s : Store)
    (hc : isalpha c = true) (hcs : ∀ x ∈ cs, Reader.tokenChar x = true)
    (hrest : rest = [] ∨ ∃ d ds, rest = d :: ds ∧ Reader.tokenChar d = false) :
    Reader.readCharacter (c :: cs ++ rest) s =
      if c :: cs = "newline".toList then .ok (.char 10, rest) s
      else if c :: cs = "cr".toList then .ok (.char 13, rest) s
      else if c :: cs = "tab".toList then .ok (.char 9, rest) s
      else if c :: cs = "space".toList then .ok (.char 32, rest) s
      else if (c :: cs).length = 1 then .ok (.char (signedChar c), rest) s
      else .error (Reader.invalidCharacterName (c :: cs)) s := by
  obtain ⟨h1, h2⟩ := token_split Reader.tokenChar cs rest hcs hrest
  simp only [Reader.readCharacter, List.cons_append, hc, Bool.not_true, Bool.false_eq_true,
    if_false, h1, h2]

theorem signedChar_letter (c : Char) (hc : isalpha c = true) : signedChar c = (c.toNat : Int) := by
  have h : c.toNat < 128 := by
    simp only [isalpha, Bool.or_eq_true, Bool.and_eq_true, decide_eq_true_eq] at hc
    omega
  have h2 : c.toNat % 256 = c.toNat := Nat.mod_eq_of_lt (by omega)
  simp [signedChar, h2, h]

/-- C25: after the prefix `#` and backslash, the names `newline`, `cr`, `tab`
and `space`, followed by a delimiter (white space, a closing parenthesis or the
end of the input), read as the Characters 10, 13, 9 and 32; a single letter
followed by a delimiter reads as the Character of that letter; a character that
is not a letter reads as that Character, whatever follows; and every other run
of two or more characters that begins with a letter throws "Invalid character
name".  The delimiter and what follows it are left in the input. -/
theorem character_literal_reads (strtod : List Char → Nat) (k : Nat) (b : Bool)
    (rest : List Char) (s : Store)
    (hrest : rest = [] ∨ ∃ d ds, rest = d :: ds ∧ Reader.tokenChar d = false) :
    Reader.read strtod (k + 1) b ('#' :: Char.ofNat 92 :: ("newline".toList ++ rest)) s
      = .ok (.char 10, rest) s ∧
    Reader.read strtod (k + 1) b ('#' :: Char.ofNat 92 :: ("cr".toList ++ rest)) s
      = .ok (.char 13, rest) s ∧
    Reader.read strtod (k + 1) b ('#' :: Char.ofNat 92 :: ("tab".toList ++ rest)) s
      = .ok (.char 9, rest) s ∧
    Reader.read strtod (k + 1) b ('#' :: Char.ofNat 92 :: ("space".toList ++ rest)) s
      = .ok (.char 32, rest) s ∧
    (∀ c : Char, isalpha c = true →
      Reader.read strtod (k + 1) b ('#' :: Char.ofNat 92 :: c :: rest) s
        = .ok (.char (c.toNat : Int), rest) s) ∧
    (∀ (c : Char) (after : List Char), isalpha c = false →
      Reader.read strtod (k + 1) b ('#' :: Char.ofNat 92 :: c :: after) s
        = .ok (.char (signedChar c), after) s) ∧
    (∀ (c : Char) (cs : List Char), isalpha c = true → cs ≠ [] →
      (∀ x ∈ cs, Reader.tokenChar x = true) →
      c :: cs ≠ "newline".toList → c :: cs ≠ "cr".toList → c :: cs ≠ "tab".toList →
      c :: cs ≠ "space".toList →
      Reader.read strtod (k + 1) b ('#' :: Char.ofNat 92 :: (c :: cs ++ rest)) s
        = .error (Reader.invalidCharacterName (c :: cs)) s) := by
  refine ⟨?_, ?_, ?_, ?_, ?_, ?_, ?_⟩
  · rw [read_sharp_backslash]
    exact (readCharacter_run 'n' "ewline".toList rest s (by decide) (by decide) hrest).trans
      (by simp)
  · rw [read_sharp_backslash]
    exact (readCharacter_run 'c' "r".toList rest s (by decide) (by decide) hrest).trans
      (by simp)
  · rw [read_sharp_backslash]
    exact (readCharacter_run 't' "ab".toList rest s (by decide) (by decide) hrest).trans
      (by simp)
  · rw [read_sharp_backslash]
    exact (readCharacter_run 's' "pace".toList rest s (by decide) (by decide) hrest).trans
      (by simp)
  · intro c hc
    rw [read_sharp_backslash]
    have := readCharacter_run c [] rest s hc (by simp) hrest
    rw [show [c] ++ rest = c :: rest from rfl] at this
    rw [this, signedChar_letter c hc]
    have e1 : [c] ≠ "newline".toList := by simp
    have e2 : [c] ≠ "cr".toList := by simp
    have e3 : [c] ≠ "tab".toList := by simp
    have e4 : [c] ≠ "space".toList := by simp
    simp only [e1, e2, e3, e4, if_false, List.length_singleton, if_true]
  · intro c after hc
    rw [read_sharp_backslash]
    simp [Reader.readCharacter, hc]
  · intro c cs hc hne hcs n1 n2 n3 n4
    rw [read_sharp_backslash, readCharacter_run c cs rest s hc hcs hrest]
    have hl : (c :: cs).length ≠ 1 := by
      cases cs with
      | nil => exact absurd rfl hne
      | cons x xs => simp
    simp only [n1, n2, n3, n4, hl, if_false]

theorem character_literal_reads_witness :
    Reader.read noDoubles 1 false ('#' :: Char.ofNat 92 :: "space)".toList) emptyStore
      = .ok (.char 32, [')']) emptyStore ∧
    Reader.read noDoubles 1 false ('#' :: Char.ofNat 92 :: "a)".toList) emptyStore
      = .ok (.char 97, [')']) emptyStore ∧
    Reader.read noDoubles 1 false ('#' :: Char.ofNat 92 :: "(a".toList) emptyStore
      = .ok (.char 40, ['a']) emptyStore ∧
    Reader.read noDoubles 1 false ('#' :: Char.ofNat 92 :: "nul)".toList) emptyStore
      = .error (Reader.invalidCharacterName "nul".toList) emptyStore := by
  have h := character_literal_reads noDoubles 0 false [')'] emptyStore
    (Or.inr ⟨')', [], rfl, by decide⟩)
  exact ⟨h.2.2.2.1, h.2.2.2.2.1 'a' (by decide), h.2.2.2.2.2.1 '(' ['a'] (by decide),
    h.2.2.2.2.2.2 'n' ['u', 'l'] (by decide) (by decide) (by decide) (by decide) (by decide)
      (by decide) (by decide)⟩

/-! ## C26: interning -/

theorem bind_eq_ok {α β : Type} (r : Res α) (f : α → Store → Res β) (v : β) (s1 : Store)
    (h : r.bind f = .ok v s1) : ∃ x s0, r = .ok x s0 ∧ f x s0 = .ok v s1 := by
  cases r with
  | ok x s0 => exact ⟨x, s0, rfl, h⟩
  | error e s0 => cases h
  | outOfFuel => cases h

/-- When the loop over the elements finds nothing to replace, the store is
the one it began with and no element holds a macro call. -/
theorem expandElements_false (macros : List (String × Obj)) (em : Obj → Store → Res Expanded)
    (hem : ∀ o s s1, em o s = .ok .no s1 → s1 = s ∧ ¬ MacroCall macros s o) :
    ∀ (k : Nat) (i : Obj) (s s1 : Store), expandElements em k i s = .ok false s1 →
      s1 = s ∧ ∀ e, Store.Element s i e → ¬ MacroCall macros s e := by
  intro k
  induction k with
  | zero => intro i s s1 h; cases h
  | succ k ih =>
    intro i s s1 h
    rw [expandElements] at h
    by_cases hp : i.getType = .otPair
    · rw [if_pos hp] at h
      obtain ⟨r, s0, hr, hrest⟩ := bind_eq_ok _ _ _ _ h
      cases r with
      | no =>
        obtain ⟨rfl, hno⟩ := hem _ _ _ hr
        obtain ⟨rfl, hall⟩ := ih _ _ _ hrest
        refine ⟨rfl, ?_⟩
        intro e he
        cases he with
        | head a => exact hno
        | tail a e he1 => exact hall e he1
      | inside => cases hrest
      | replaced v => cases hrest
    · rw [if_neg hp] at h
      cases h
      refine ⟨rfl, ?_⟩
      intro e he
      cases he <;> simp [Obj.getType] at hp

/-- A scan that returns false has changed nothing and has found no macro call
in the form. -/
theorem expandMacros_no (h : Host) (macros : List (String × Obj)) :
    ∀ (n : Nat) (obj : Obj) (s s1 : Store), expandMacros h macros n obj s = .ok .no s1 →
      s1 = s ∧ ¬ MacroCall macros s obj := by
  intro n
  induction n with
  | zero => intro obj s s1 hs; cases hs
  | succ n ih =>
    intro obj s s1 hs
    rw [expandMacros, expandStep] at hs
    by_cases hp : obj.getType ≠ .otPair
    · rw [if_pos hp] at hs
      cases hs
      refine ⟨rfl, ?_⟩
      intro hc
      cases hc <;> simp [Obj.getType] at hp
    · rw [if_neg hp] at hs
      by_cases hq : s.car obj = .symbol "quote"
      · rw [if_pos hq] at hs
        cases hs
        refine ⟨rfl, ?_⟩
        intro hc
        cases hc with
        | call a sym h1 h2 h3 =>
          rw [hq] at h1
          exact h2 (Obj.symbol.inj h1).symm
        | within a e h1 h2 h3 => exact h1 hq
      · rw [if_neg hq] at hs
        obtain ⟨found, s0, hfound, hrest⟩ := bind_eq_ok _ _ _ _ hs
        cases found with
        | true => cases hrest
        | false =>
          obtain ⟨rfl, hall⟩ := expandElements_false macros _ ih n obj s s0 hfound
          simp only [Bool.false_eq_true, if_false] at hrest
          have key : s1 = s0 ∧ ∀ sym, s0.car obj = .symbol sym → mapFind macros sym = none := by
            cases hcar : s0.car obj with
            | symbol sym =>
              rw [hcar] at hrest
              dsimp only at hrest
              cases hfind : mapFind macros sym with
              | none =>
                rw [hfind] at hrest
                cases hrest
                exact ⟨rfl, fun sym2 h2 => by rw [← Obj.symbol.inj h2]; exact hfind⟩
              | some l =>
                rw [hfind] at hrest
                exfalso
                dsimp only at hrest
                cases hparams : applyParams s0 n (s0.cdr obj) [] with
                | none => rw [hparams] at hrest; cases hrest
                | some params =>
                  rw [hparams] at hrest
                  dsimp only at hrest
                  cases l with
                  | lambda nm body lenv names rest =>
                    dsimp only at hrest
                    obtain ⟨e1, s2, _, h2⟩ := bind_eq_ok _ _ _ _ hrest
                    obtain ⟨v, s3, _, h3⟩ := bind_eq_ok _ _ _ _ h2
                    cases h3
                  | _ => cases hrest
            | _ =>
              rw [hcar] at hrest
              cases hrest
              exact ⟨rfl, fun sym2 h2 => by cases h2⟩
          refine ⟨key.1, ?_⟩
          intro hc
          cases hc with
          | call a sym h1 h2 h3 =>
            rw [key.2 sym h1] at h3
            cases h3
          | within a e h1 h2 h3 => exact hall e h2 h3

theorem expandAll_fixpoint (h : Host) (macros : List (String × Obj)) :
    ∀ (n : Nat) (obj : Obj) (s : Store) (o : Obj) (s1 : Store),
      expandAll h macros n obj s = .ok o s1 →
      ¬ MacroCall macros s1 o ∧ ∃ k, expandMacros h macros k o s1 = .ok .no s1 := by
  intro n
  induction n with
  | zero => intro obj s o s1 hs; cases hs
  | succ n ih =>
    intro obj s o s1 hs
    rw [expandAll] at hs
    obtain ⟨r, s0, hr, hrest⟩ := bind_eq_ok _ _ _ _ hs
    cases r with
    | no =>
      cases hrest
      obtain ⟨rfl, hno⟩ := expandMacros_no h macros n _ _ _ hr
      exact ⟨hno, n, hr⟩
    | inside => exact ih _ _ _ _ hrest
    | replaced v => exact ih _ _ _ _ hrest

/-- C28: when the loop of `handleMacros` that repeats the expansion scan ends,
the form it leaves holds no macro call (no Pair whose head is a Symbol of the
macro table, as the form itself or as a list element at any depth, outside the
sub-forms whose head is `quote`), and one more scan of it returns false and
changes nothing; the same holds for the form `handleMacros` hands to the
evaluator, with the table it leaves. -/
theorem expansion_reaches_fixpoint (h : Host) (macros : List (String × Obj)) (n : Nat)
    (obj : Obj) (s : Store) :
    (∀ (o : Obj) (s1 : Store), expandAll h macros n obj s = .ok o s1 →
      ¬ MacroCall macros s1 o ∧ ∃ k, expandMacros h macros k o s1 = .ok .no s1) ∧
    (∀ (form : Obj) (macros1 : List (String × Obj)) (s1 : Store),
      handleMacros h n macros obj s = .ok (.done form macros1) s1 →
      ¬ MacroCall macros1 s1 form ∧ ∃ k, expandMacros h macros1 k form s1 = .ok .no s1) := by
  refine ⟨expandAll_fixpoint h macros n obj s, ?_⟩
  intro form macros1 s1 hh
  have hatom : ∀ (o : Obj) (m : List (String × Obj)) (s0 : Store), o.getType ≠ .otPair →
      ¬ MacroCall m s0 o ∧ ∃ k, expandMacros h m k o s0 = .ok .no s0 := by
    intro o m s0 ho
    refine ⟨?_, 1, by simp [expandMacros, expandStep, ho]⟩
    intro hc
    cases hc <;> simp [Obj.getType] at ho
  unfold handleMacros at hh
  by_cases hp : obj.getType ≠ .otPair
  · rw [if_pos hp] at hh
    cases hh
    exact hatom _ _ _ hp
  · rw [if_neg hp] at hh
    obtain ⟨o, s0, ho, hrest⟩ := bind_eq_ok _ _ _ _ hh
    have hfix := expandAll_fixpoint h macros n obj s o s0 ho
    cases o with
    | pair a =>
      dsimp only at hrest
      cases hcar : s0.car (.pair a) with
      | symbol sym =>
        rw [hcar] at hrest
        dsimp only at hrest
        by_cases hsym : sym ≠ "defmacro"
        · rw [if_pos hsym] at hrest
          cases hrest
          exact hfix
        · rw [if_neg hsym] at hrest
          by_cases h1 : (s0.cdr (.pair a)).getType ≠ .otPair
          · rw [if_pos h1] at hrest; cases hrest
          · rw [if_neg h1] at hrest
            cases hname : s0.car (s0.cdr (.pair a)) with
            | symbol name =>
              rw [hname] at hrest
              dsimp only at hrest
              by_cases h2 : (s0.cdr (s0.cdr (.pair a))).getType ≠ .otPair
              · rw [if_pos h2] at hrest; cases hrest
              · rw [if_neg h2] at hrest
                obtain ⟨l, s2, _, h3⟩ := bind_eq_ok _ _ _ _ hrest
                cases h3
                exact hatom _ _ _ (by simp [Obj.getType])
            | _ =>
              rw [hname] at hrest
              cases hrest
      | _ =>
        rw [hcar] at hrest
        cases hrest
        exact hfix
    | _ => cases hrest

theorem expansion_reaches_fixpoint_witness :
    handleMacros noNatives 9 macroTable (.pair 5) macroStore
      = .ok (.done (.pair 5) macroTable) macroExpanded ∧
    MacroCall macroTable macroStore (.pair 5) ∧
    ¬ MacroCall macroTable macroExpanded (.pair 5) := by
  have hrun : handleMacros noNatives 9 macroTable (.pair 5) macroStore
      = .ok (.done (.pair 5) macroTable) macroExpanded := by decide
  refine ⟨hrun, ?_,
    ((expansion_reaches_fixpoint noNatives macroTable 9 (.pair 5) macroStore).2 _ _ _ hrun).1⟩
  exact MacroCall.within 5 (.pair 7) (by decide)
    (Store.Element.tail 5 _ (Store.Element.head 6))
    (MacroCall.call 7 "m" rfl (by decide) rfl)

/-! ## C27: the registration of a macro -/

/-- The closure `evalLambda` builds from a pair whose head is the Symbol
`name` and whose formals are a proper list of Symbols. -/
theorem evalLambda_symbols (h : Host) (m : Nat) (s : Store) (asPair : Obj) (env : Nat)
    (name : String) (names : List String)
    (hcar : s.car asPair = .symbol name) (hcdr : (s.cdr asPair).getType = .otPair)
    (hformals : s.elementsEndIn (s.car (s.cdr asPair)) (names.map .symbol) .null = true)
    (hfuel : names.length < m + 1) :
    evalLambda h (m + 1) asPair env s
      = .ok (.lambda name (.pair s.pairs.length) env names false)
          (s.newPair (.symbol "begin") (s.cdr (s.cdr asPair))).2 := by
  have hts : Obj.toString h s (m + 1) (.symbol name) = some name := rfl
  have hcdr2 : ¬ (s.cdr asPair).getType ≠ .otPair := by simp [hcdr]
  unfold evalLambda
  simp only [hcar, hts, Res.ofText, Res.bind, hcdr2, if_false]
  have hf : evalLambdaFormals (Obj.toString h s (m + 1)) s (m + 1) (s.car (s.cdr asPair))
      = .ok (names, false) s := by
    cases names with
    | nil =>
      simp only [List.map_nil, Store.elementsEndIn, decide_eq_true_eq] at hformals
      rw [hformals]
      rfl
    | cons x xs =>
      have hp : (s.car (s.cdr asPair)).getType = .otPair := by
        simp only [List.map_cons, Store.elementsEndIn, Bool.and_eq_true, decide_eq_true_eq]
          at hformals
        exact hformals.1.1
      have := (lambdaParameters_symbols h s m .null (x :: xs) (s.car (s.cdr asPair)) []
        (m + 1) hformals hfuel).1 rfl
      cases hobj : s.car (s.cdr asPair) with
      | pair a =>
        rw [hobj] at this
        simpa [evalLambdaFormals] using this
      | _ => rw [hobj] at hp; simp [Obj.getType] at hp
  rw [hf]
  simp [newLambda, Store.newPair]

theorem expandAll_of_no (h : Host) (macros : List (String × Obj)) (n : Nat) (obj : Obj)
    (s : Store) (hscan : expandMacros h macros n obj s = .ok .no s) :
    expandAll h macros (n + 1) obj s = .ok obj s := by
  rw [expandAll, hscan]
  rfl

/-- The statements of `handleMacros` behind the test for `defmacro` do what
the specification says. -/
theorem registers_of_tail (h : Host) (macros : List (String × Obj)) (n a : Nat) (s : Store)
    (r : Res Handled)
    (hr : r =
      if (s.cdr (.pair a)).getType ≠ .otPair then .error defmacroExpected s
      else
        match s.car (s.cdr (.pair a)) with
        | .symbol name =>
          if (s.cdr (s.cdr (.pair a))).getType ≠ .otPair then .error defmacroInvalid s
          else
            (evalLambda h (n + 1) (s.cdr (.pair a)) Interpreter.global s).bind fun l s2 =>
              .ok (.done (.boolean true) (mapAssign macros name l)) s2
        | _ => .error defmacroName s) :
    Registers h macros n a s r := by
  refine ⟨?_, ?_, ?_, ?_⟩
  · intro name names h1 h2 h3 h4 h5
    have hl := evalLambda_symbols h n s (s.cdr (.pair a)) Interpreter.global name names h2 h3 h4 h5
    refine ⟨.lambda name (.pair s.pairs.length) Interpreter.global names false,
      (s.newPair (.symbol "begin") (s.cdr (s.cdr (s.cdr (.pair a))))).2, rfl, ?_,
      mapFind_mapAssign_same _ _ _,
      fun other ho => mapFind_mapAssign_other _ _ _ _ ho, ?_, ?_, rfl, fun _ _ => rfl⟩
    · rw [hr]
      simp only [h1, h2, h3, ne_eq, not_true_eq_false, if_false, hl, Res.bind]
    · simp [Store.newPair, Store.car, List.getD_eq_getElem?_getD]
    · simp [Store.newPair, Store.cdr, List.getD_eq_getElem?_getD]
  · intro h1 h2
    rw [hr]
    simp only [h1, ne_eq, not_true_eq_false, if_false]
    cases hobj : s.car (s.cdr (.pair a)) <;> first | rfl | (rw [hobj] at h2; simp [Obj.getType] at h2)
  · intro name h1 h2 h3
    rw [hr]
    simp only [h1, h2, ne_eq, not_true_eq_false, if_false, h3, not_false_eq_true, if_true]
  · intro h1
    rw [hr]
    simp only [h1, ne_eq, not_false_eq_true, if_true]

/-- C27 (as amended). Handling a form whose head is `defmacro`: `handleMacros`
of `minscm.cpp` does what the specification says (`Registers`) for every such
form; `handleMacros` of `bootstrap.cpp`, which expands the macro calls of the
form first, those of the parameter list and of the body included, does so
when the expansion scan finds no macro call to replace in the form. -/
theorem defmacro_registers (h : Host) (macros : List (String × Obj)) (n a : Nat) (s : Store)
    (hcar : s.car (.pair a) = .symbol "defmacro") :
    (∀ expand : Obj → Store → Res Obj,
      Registers h macros n a s (Minscm.handleMacros h (n + 1) expand macros (.pair a) s)) ∧
    (expandMacros h macros n (.pair a) s = .ok .no s →
      Registers h macros n a s (handleMacros h (n + 1) macros (.pair a) s)) := by
  have hp : ¬ (Obj.pair a).getType ≠ .otPair := by simp [Obj.getType]
  refine ⟨?_, ?_⟩
  · intro expand
    apply registers_of_tail
    unfold Minscm.handleMacros
    simp only [hp, if_false, hcar, if_true]
  · intro hscan
    have hall := expandAll_of_no h macros n (.pair a) s hscan
    apply registers_of_tail
    unfold handleMacros
    simp only [hp, if_false, hall, Res.bind, hcar]
    simp

theorem defmacro_registers_witness :
    ∃ l s1, l = .lambda "twice" (.pair 13) 0 ["x"] false ∧
      handleMacros noNatives 9 [] (.pair 0) twiceSourceStore
        = .ok (.done (.boolean true) (mapAssign [] "twice" l)) s1 ∧
      s1.car (.pair 13) = .symbol "begin" ∧ s1.cdr (.pair 13) = .pair 4 ∧
      s1.frames = twiceSourceStore.frames := by
  obtain ⟨l, s1, hl, hrun, _, _, h1, h2, h3, _⟩ :=
    ((defmacro_registers noNatives [] 8 0 twiceSourceStore (by decide)).2 (by decide)).1
      "twice" ["x"] (by decide) (by decide) (by decide) (by decide) (by decide)
  exact ⟨l, s1, hl, hrun, h1, h2, h3⟩

/-- C27, as stated, fails: the parameter list of the form
`(defmacro foo (m) 1)` is a call of the registered macro `m`, which is expanded
first; the closure recorded under `foo` has the parameter `f` of the
expansion `(f)`, not the parameter `m` of the form. -/
theorem defmacro_parameter_list_expanded_first :
    defmacroStore.car (.pair 10) = .symbol "defmacro" ∧
    defmacroStore.car (defmacroStore.cdr (.pair 10)) = .symbol "foo" ∧
    defmacroStore.elementsAre (defmacroStore.car (.pair 12)) [.symbol "m"] = true ∧
    handleMacros noNatives 9 macroTable (.pair 10) defmacroStore
      = .ok (.done (.boolean true)
          (macroTable ++ [("foo", .lambda "foo" (.pair 15) 0 ["f"] false)]))
          { defmacroStore with
            pairs := defmacroStore.pairs.set 12 (.pair 4, .pair 14) ++
              [(.symbol "begin", .pair 14)],
            frames := [⟨[], none⟩, ⟨[], some 0⟩] } := by
  decide

/-! ## C29: quoted data -/

/-- When no element holds a macro call, the loop over the elements replaces
nothing. -/
theorem expandElements_plain (macros : List (String × Obj)) (em : Obj → Store → Res Expanded)
    (hem : ∀ o s, ¬ MacroCall macros s o → em o s = .ok .no s ∨ em o s = .outOfFuel) :
    ∀ (k : Nat) (i : Obj) (s : Store), (∀ e, Store.Element s i e → ¬ MacroCall macros s e) →
      expandElements em k i s = .ok false s ∨ expandElements em k i s = .outOfFuel := by
  intro k
  induction k with
  | zero => intro i s _; exact Or.inr rfl
  | succ k ih =>
    intro i s hall
    rw [expandElements]
    cases i with
    | pair c =>
      have hp : (Obj.pair c).getType = .otPair := rfl
      rw [if_pos hp]
      rcases hem (s.car (.pair c)) s (hall _ (Store.Element.head c)) with h1 | h1
      · rw [h1]
        simp only [Res.bind]
        exact ih _ s fun e he => hall e (Store.Element.tail c e he)
      · rw [h1]
        exact Or.inr rfl
    | _ => left; simp [Obj.getType]

/-- A scan of a form that holds no macro call replaces nothing and changes
nothing. -/
theorem expandMacros_plain (h : Host) (macros : List (String × Obj)) :
    ∀ (n : Nat) (obj : Obj) (s : Store), ¬ MacroCall macros s obj →
      expandMacros h macros n obj s = .ok .no s ∨ expandMacros h macros n obj s = .outOfFuel := by
  intro n
  induction n with
  | zero => intro obj s _; exact Or.inr rfl
  | succ n ih =>
    intro obj s hno
    rw [expandMacros, expandStep]
    cases obj with
    | pair a =>
      have hp : ¬ (Obj.pair a).getType ≠ .otPair := by simp [Obj.getType]
      rw [if_neg hp]
      by_cases hq : s.car (.pair a) = .symbol "quote"
      · rw [if_pos hq]; exact Or.inl rfl
      · rw [if_neg hq]
        have hall : ∀ e, Store.Element s (.pair a) e → ¬ MacroCall macros s e :=
          fun e he hc => hno (MacroCall.within a e hq he hc)
        rcases expandElements_plain macros _ ih n (.pair a) s hall with h1 | h1
        · rw [h1]
          simp only [Res.bind, Bool.false_eq_true, if_false]
          cases hcar : s.car (.pair a) with
          | symbol sym =>
            dsimp only
            cases hfind : mapFind macros sym with
            | none => exact Or.inl rfl
            | some l =>
              exfalso
              refine hno (MacroCall.call a sym hcar ?_ (by rw [hfind]; rfl))
              intro hsym
              rw [hsym] at hcar
              exact hq hcar
          | _ => exact Or.inl rfl
        · rw [h1]
          exact Or.inr rfl
    | _ => left; simp [Obj.getType]

/-- C29 (as amended). A form whose head is the Symbol `quote` is passed over
by the expansion scan, which replaces nothing in it and changes nothing,
whatever the form holds and whatever the table holds; `handleMacros` leaves
it as it is.  In the scan of a larger form an element that is such a form is
passed over in the same way, the scan going on with the next element in the
same store.  And when a form holds no macro call outside its sub-forms whose
head is `quote`, a scan of it replaces nothing and changes nothing, and the
loop of `handleMacros` ends with the same form in the same store, the lists
inside the `quote` sub-forms whose head is a registered name being left as
they are. -/
theorem quoted_forms_are_passed_over (h : Host) (macros : List (String × Obj)) :
    (∀ (n a : Nat) (s : Store), s.car (.pair a) = .symbol "quote" →
      expandMacros h macros (n + 1) (.pair a) s = .ok .no s ∧
      handleMacros h (n + 2) macros (.pair a) s = .ok (.done (.pair a) macros) s) ∧
    (∀ (n k c q : Nat) (s : Store), s.car (.pair c) = .pair q →
      s.car (.pair q) = .symbol "quote" →
      expandElements (expandMacros h macros (n + 1)) (k + 1) (.pair c) s
        = expandElements (expandMacros h macros (n + 1)) k (s.cdr (.pair c)) s) ∧
    (∀ (n : Nat) (obj : Obj) (s : Store), ¬ MacroCall macros s obj →
      (expandMacros h macros n obj s = .ok .no s ∨ expandMacros h macros n obj s = .outOfFuel) ∧
      (expandAll h macros n obj s = .ok obj s ∨ expandAll h macros n obj s = .outOfFuel)) := by
  have hq : ∀ (n a : Nat) (s : Store), s.car (.pair a) = .symbol "quote" →
      expandMacros h macros (n + 1) (.pair a) s = .ok .no s := by
    intro n a s hcar
    simp [expandMacros, expandStep, Obj.getType, hcar]
  refine ⟨?_, ?_, ?_⟩
  · intro n a s hcar
    refine ⟨hq n a s hcar, ?_⟩
    have hall := expandAll_of_no h macros (n + 1) (.pair a) s (hq n a s hcar)
    unfold handleMacros
    simp [Obj.getType, hall, Res.bind, hcar]
  · intro n k c q s hc hcar
    rw [expandElements]
    simp [Obj.getType, hc, hq n q s hcar, Res.bind]
  · intro n obj s hno
    refine ⟨expandMacros_plain h macros n obj s hno, ?_⟩
    cases n with
    | zero => exact Or.inr rfl
    | succ n =>
      rw [expandAll]
      rcases expandMacros_plain h macros n obj s hno with h1 | h1
      · rw [h1]; exact Or.inl rfl
      · rw [h1]; exact Or.inr rfl

theorem quoted_forms_are_passed_over_witness :
    handleMacros noNatives 9 macroTable (.pair 8) macroStore
      = .ok (.done (.pair 8) macroTable) macroStore ∧
    MacroCall macroTable macroStore (.pair 7) ∧
    expandAll noNatives macroTable 9 (.pair 10) quotedStore = .ok (.pair 10) quotedStore := by
  have h := quoted_forms_are_passed_over noNatives macroTable
  refine ⟨(h.1 7 8 macroStore rfl).2, MacroCall.call 7 "m" rfl (by decide) rfl, ?_⟩
  have hno : ¬ MacroCall macroTable quotedStore (.pair 10) := by
    intro hc
    have h2 := (expandMacros_no noNatives macroTable 9 (.pair 10) quotedStore quotedStore
      (by decide)).2
    exact h2 hc
  rcases (h.2.2 9 (.pair 10) quotedStore hno).2 with h1 | h1
  · exact h1
  · exact absurd h1 (by decide)

/-- C29, as stated, fails: the operand `(quote a)` of the form
`(clobber (quote a))` is handed to the body of the macro `clobber`, which sets
its cdr; after the expansion the sub-form is `(quote b)`. -/
theorem quoted_operand_changed_by_macro_body :
    clobberStore.car (clobberStore.cdr (.pair 9)) = .pair 11 ∧
    clobberStore.car (.pair 11) = .symbol "quote" ∧
    clobberStore.cdr (.pair 11) = .pair 12 ∧
    handleMacros pairNatives 9 clobberTable (.pair 9) clobberStore
      = .ok (.done (.pair 11) clobberTable)
          { clobberStore with
            pairs := clobberStore.pairs.set 11 (.symbol "quote", .pair 7),
            frames := clobberStore.frames ++ [⟨[("x", .pair 11)], some 0⟩] } := by
  decide

/-! ## C30: the use of a macro -/

theorem evalExpandedForm_begin (h : Host) (n : Nat) (s : Store) (env a : Nat)
    (hcar : s.car (.pair a) = .symbol "begin") :
    evalExpandedForm h (n + 1) (.pair a) env s
      = evalBegin (evalExpandedForm h n) env n (s.cdr (.pair a)) s := by
  simp [evalExpandedForm, evalStep, hcar]

theorem evalExpandedForm_quote (h : Host) (n : Nat) (s : Store) (env a : Nat)
    (hcar : s.car (.pair a) = .symbol "quote") :
    evalExpandedForm h (n + 1) (.pair a) env s = evalQuote (.pair a) s := by
  simp [evalExpandedForm, evalStep, hcar]

theorem evalExpandedForm_call (h : Host) (n : Nat) (s : Store) (env a : Nat) (sym : String)
    (hcar : s.car (.pair a) = .symbol sym) (hsym : isKeyword sym = false) :
    evalExpandedForm h (n + 1) (.pair a) env s
      = evalCall h n (evalExpandedForm h n) (.pair a) env s := by
  simp only [isKeyword, Bool.or_eq_false_iff, beq_eq_false_iff_ne, ne_eq] at hsym
  obtain ⟨⟨⟨⟨⟨⟨h1, h2⟩, _⟩, h4⟩, h5⟩, h6⟩, h7⟩ := hsym
  simp [evalExpandedForm, evalStep, hcar, h1, h2, h4, h5, h6, h7]

theorem evalExpandedForm_symbol (h : Host) (n : Nat) (s : Store) (env : Nat) (name : String) :
    evalExpandedForm h (n + 1) (.symbol name) env s = Environment.get s env name := rfl

/-- The frame a call of a closure of the global environment with one
parameter is given. -/
theorem extendIntoNew_one (s : Store) (name : String) (v : Obj) (hk : isKeyword name = false)
    (hlen : 0 < s.frames.length) :
    ∃ s1, Environment.extendIntoNew s 0 [name] [v] false = .ok s.frames.length s1 ∧
      s1.pairs = s.pairs ∧ s1.frame 0 = s.frame 0 ∧
      s1.frame s.frames.length = ⟨[(name, v)], some 0⟩ ∧
      s1.frames.length = s.frames.length + 1 := by
  refine ⟨({ s with frames := s.frames ++ [⟨[], some 0⟩] } : Store).assign s.frames.length name v,
    ?_, rfl, ?_, ?_, ?_⟩
  · simp [Environment.extendIntoNew, Environment.defineEach, Environment.define, hk, Res.bind]
  · rw [frame_assign_other _ _ _ _ _ (by omega)]
    exact frame_append_old s _ 0 hlen
  · simp [Store.assign, Store.setFrame, Store.frame, mapAssign, List.getD_eq_getElem?_getD]
  · simp [Store.assign, Store.setFrame]

/-- The frame and the list a call of a closure of the global environment whose
only parameter is a rest parameter is given for three arguments. -/
theorem extendIntoNew_rest_three (s : Store) (name : String) (x1 x2 x3 : Obj)
    (hk : isKeyword name = false) (hlen : 0 < s.frames.length) :
    ∃ s1, Environment.extendIntoNew s 0 [name] [x1, x2, x3] true = .ok s.frames.length s1 ∧
      s1.pairs = s.pairs ++ [(x3, .null), (x2, .pair s.pairs.length),
        (x1, .pair (s.pairs.length + 1))] ∧
      s1.frame 0 = s.frame 0 ∧
      s1.frame s.frames.length = ⟨[(name, .pair (s.pairs.length + 2))], some 0⟩ ∧
      s1.frames.length = s.frames.length + 1 := by
  refine ⟨({ s with
      frames := s.frames ++ [⟨[], some 0⟩],
      pairs := s.pairs ++ [(x3, .null), (x2, .pair s.pairs.length),
        (x1, .pair (s.pairs.length + 1))] } : Store).assign s.frames.length name
      (.pair (s.pairs.length + 2)), ?_, rfl, ?_, ?_, ?_⟩
  · simp [Environment.extendIntoNew, sizeMinusOne, Environment.defineEach, Environment.define,
      Environment.consEach, Store.newPair, hk, Res.bind, List.append_assoc]
  · rw [frame_assign_other _ _ _ _ _ (by omega)]
    simp [Store.frame, List.getD_eq_getElem?_getD, List.getElem?_append_left hlen]
  · simp [Store.assign, Store.setFrame, Store.frame, mapAssign, List.getD_eq_getElem?_getD]
  · simp [Store.assign, Store.setFrame]

theorem car_of_prefix (s : Store) (cells more : List (Obj × Obj)) (hP : s.pairs = cells ++ more)
    (a : Nat) (ha : a < cells.length) :
    s.car (.pair a) = (cells.getD a (.null, .null)).1 ∧
      s.cdr (.pair a) = (cells.getD a (.null, .null)).2 := by
  simp [Store.car, Store.cdr, hP, List.getD_eq_getElem?_getD, List.getElem?_append_left ha]

/-- The cells of the bodies of `twice` and of `list`, read in a store that
holds them. -/
theorem twice_cells (s : Store) (more : List (Obj × Obj)) (hP : s.pairs = twiceProgram ++ more) :
    (s.car (.pair 13) = .symbol "begin" ∧ s.cdr (.pair 13) = .pair 4) ∧
    (s.car (.pair 4) = .pair 5 ∧ s.cdr (.pair 4) = .null) ∧
    (s.car (.pair 5) = .symbol "list" ∧ s.cdr (.pair 5) = .pair 6) ∧
    (s.car (.pair 6) = .pair 7 ∧ s.cdr (.pair 6) = .pair 9) ∧
    (s.car (.pair 7) = .symbol "quote" ∧ s.cdr (.pair 7) = .pair 8) ∧
    (s.car (.pair 8) = .symbol "begin" ∧ s.cdr (.pair 8) = .null) ∧
    (s.car (.pair 9) = .symbol "x" ∧ s.cdr (.pair 9) = .pair 10) ∧
    (s.car (.pair 10) = .symbol "x" ∧ s.cdr (.pair 10) = .null) ∧
    (s.car (.pair 11) = .symbol "begin" ∧ s.cdr (.pair 11) = .pair 12) ∧
    (s.car (.pair 12) = .symbol "args" ∧ s.cdr (.pair 12) = .null) := by
  have hc := car_of_prefix s twiceProgram more hP
  exact ⟨⟨(hc 13 (by decide)).1.trans rfl, (hc 13 (by decide)).2.trans rfl⟩,
    ⟨(hc 4 (by decide)).1.trans rfl, (hc 4 (by decide)).2.trans rfl⟩,
    ⟨(hc 5 (by decide)).1.trans rfl, (hc 5 (by decide)).2.trans rfl⟩,
    ⟨(hc 6 (by decide)).1.trans rfl, (hc 6 (by decide)).2.trans rfl⟩,
    ⟨(hc 7 (by decide)).1.trans rfl, (hc 7 (by decide)).2.trans rfl⟩,
    ⟨(hc 8 (by decide)).1.trans rfl, (hc 8 (by decide)).2.trans rfl⟩,
    ⟨(hc 9 (by decide)).1.trans rfl, (hc 9 (by decide)).2.trans rfl⟩,
    ⟨(hc 10 (by decide)).1.trans rfl, (hc 10 (by decide)).2.trans rfl⟩,
    ⟨(hc 11 (by decide)).1.trans rfl, (hc 11 (by decide)).2.trans rfl⟩,
    ⟨(hc 12 (by decide)).1.trans rfl, (hc 12 (by decide)).2.trans rfl⟩⟩

/-- The body of `twice` in a frame that binds `x` to the form `E`: its value is
a new list of `begin`, `E` and `E`, made of three cells behind the pairs the
store had; `E` is not evaluated. -/
theorem twice_body_runs (h : Host) (j e : Nat) (E : Obj) (s : Store) (more : List (Obj × Obj))
    (hP : s.pairs = twiceProgram ++ more)
    (hlist : mapFind (s.frame 0).data "list" = some listClosure)
    (he : 1 ≤ e) (hlt : e < s.frames.length) (hfe : s.frame e = ⟨[("x", E)], some 0⟩) :
    ∃ s1, evalExpandedForm h (j + 8) (.pair 13) e s = .ok (.pair (s.pairs.length + 2)) s1 ∧
      s1.pairs = s.pairs ++ [(E, .null), (E, .pair s.pairs.length),
        (.symbol "begin", .pair (s.pairs.length + 1))] := by
  obtain ⟨⟨c13, d13⟩, ⟨c4, d4⟩, ⟨c5, d5⟩, ⟨c6, d6⟩, ⟨c7, d7⟩, ⟨c8, d8⟩, ⟨c9, d9⟩, ⟨c10, d10⟩, ⟨c11, d11⟩, ⟨c12, d12⟩⟩ := twice_cells s more hP
  have hp : ∀ a, (Obj.pair a).getType = .otPair := fun _ => rfl
  have hn : Obj.null.getType = .otNull := rfl
  obtain ⟨s1, hext, hP1, hG1, hfe1, hlen1⟩ :=
    extendIntoNew_rest_three s "args" (.symbol "begin") E E (by decide) (by omega)
  have hP1m : s1.pairs = twiceProgram ++ (more ++ [(E, .null), (E, .pair s.pairs.length),
      (.symbol "begin", .pair (s.pairs.length + 1))]) := by
    rw [hP1, hP, List.append_assoc]
  obtain ⟨_, _, _, _, _, _, _, _, ⟨b11, e11⟩, ⟨b12, e12⟩⟩ := twice_cells s1 _ hP1m
  have hx : ∀ m, evalExpandedForm h (m + 1) (.symbol "x") e s = .ok E s :=
    fun m => get_local s e "x" E hfe
  have hl : ∀ m, evalExpandedForm h (m + 1) (.symbol "list") e s = .ok listClosure s :=
    fun m => get_through s e "list" "x" _ _ he hfe (by decide) hlist
  have hq : evalExpandedForm h (j + 5 + 1) (.pair 7) e s = .ok (.symbol "begin") s := by
    rw [evalExpandedForm_quote h _ s e 7 c7]
    simp [evalQuote, d7, d8, c8, hp, hn]
  have hargs : evalExpandedForm h (j + 4 + 1) (.symbol "args") s.frames.length s1
      = .ok (.pair (s.pairs.length + 2)) s1 :=
    get_local s1 _ "args" _ hfe1
  refine ⟨s1, ?_, hP1⟩
  rw [show j + 8 = j + 7 + 1 from rfl, evalExpandedForm_begin h _ s e 13 c13, d13,
    show j + 7 = j + 6 + 1 from rfl, evalBegin]
  simp only [d4, c4, hp, hn, ne_eq, not_true_eq_false, if_false, if_true, reduceCtorEq]
  rw [evalExpandedForm_call h _ s e 5 "list" c5 rfl]
  unfold evalCall
  rw [c5, hl]
  simp only [Res.bind, d5]
  rw [evalParameters]
  simp only [c6, d6, hp, hn, hq, Res.bind, ne_eq, not_true_eq_false, if_false, reduceCtorEq]
  rw [evalParameters]
  simp only [c9, d9, hp, hn, hx, Res.bind, ne_eq, not_true_eq_false, if_false, reduceCtorEq]
  rw [evalParameters]
  simp only [c10, d10, hp, hn, hx, Res.bind, ne_eq, not_true_eq_false, if_false, reduceCtorEq]
  rw [evalParameters]
  simp only [hn, if_true, List.nil_append, List.cons_append, listClosure, hext, Res.bind]
  rw [evalExpandedForm_begin h _ s1 _ 11 b11, e11, evalBegin]
  simp only [e12, b12, hp, hn, ne_eq, not_true_eq_false, if_false, if_true, reduceCtorEq]
  exact hargs

theorem three_new_cells (s s1 : Store) (p0 p1 p2 : Obj × Obj)
    (hP : s1.pairs = s.pairs ++ [p0, p1, p2]) :
    (s1.car (.pair s.pairs.length) = p0.1 ∧ s1.cdr (.pair s.pairs.length) = p0.2) ∧
    (s1.car (.pair (s.pairs.length + 1)) = p1.1 ∧ s1.cdr (.pair (s.pairs.length + 1)) = p1.2) ∧
    (s1.car (.pair (s.pairs.length + 2)) = p2.1 ∧ s1.cdr (.pair (s.pairs.length + 2)) = p2.2) := by
  have h0 : s1.pairs.getD s.pairs.length (.null, .null) = p0 := by
    rw [hP, List.getD_eq_getElem?_getD, List.getElem?_append_right (le_refl _)]
    simp
  have h1 : s1.pairs.getD (s.pairs.length + 1) (.null, .null) = p1 := by
    rw [hP, List.getD_eq_getElem?_getD, List.getElem?_append_right (by omega)]
    simp
  have h2 : s1.pairs.getD (s.pairs.length + 2) (.null, .null) = p2 := by
    rw [hP, List.getD_eq_getElem?_getD, List.getElem?_append_right (by omega)]
    simp
  refine ⟨⟨?_, ?_⟩, ⟨?_, ?_⟩, ⟨?_, ?_⟩⟩ <;> simp only [Store.car, Store.cdr, h0, h1, h2]

theorem expandMacros_atom (h : Host) (macros : List (String × Obj)) (n : Nat) (o : Obj)
    (s : Store) (ho : o.getType ≠ .otPair) : expandMacros h macros (n + 1) o s = .ok .no s := by
  simp [expandMacros, expandStep, ho]

/-- The scan of the call `(twice E)`: the operand holding no macro call, the
call is replaced by the value of the body of `twice`. -/
theorem twice_call_replaced (h : Host) (k f g : Nat) (E : Obj) (s : Store)
    (more : List (Obj × Obj))
    (hP : s.pairs = twiceProgram ++ more)
    (hlist : mapFind (s.frame 0).data "list" = some listClosure)
    (hframes : 0 < s.frames.length)
    (hF : s.car (.pair f) = .symbol "twice") (hFd : s.cdr (.pair f) = .pair g)
    (hg : s.car (.pair g) = E) (hgd : s.cdr (.pair g) = .null)
    (hE : expandMacros h twiceTable (k + 8) E s = .ok .no s) :
    ∃ s1, expandMacros h twiceTable (k + 8 + 1) (.pair f) s
        = .ok (.replaced (.pair (s.pairs.length + 2))) s1 ∧
      s1.pairs = s.pairs ++ [(E, .null), (E, .pair s.pairs.length),
        (.symbol "begin", .pair (s.pairs.length + 1))] := by
  have hp : ∀ a, (Obj.pair a).getType = .otPair := fun _ => rfl
  have hn : Obj.null.getType = .otNull := rfl
  obtain ⟨sA, hext, hPA, hGA, hfeA, hlenA⟩ := extendIntoNew_one s "x" E (by decide) hframes
  obtain ⟨s1, hrun, hP1⟩ := twice_body_runs h k s.frames.length E sA more (hPA.trans hP)
    (by rw [hGA]; exact hlist) (by omega) (by omega) hfeA
  rw [hPA] at hrun hP1
  refine ⟨s1, ?_, hP1⟩
  have hsym : expandMacros h twiceTable (k + 8) (.symbol "twice") s = .ok .no s :=
    expandMacros_atom h twiceTable (k + 7) _ s (by simp [Obj.getType])
  have hels : expandElements (expandMacros h twiceTable (k + 8)) (k + 8) (.pair f) s
      = .ok false s := by
    rw [show k + 8 = k + 7 + 1 from rfl, expandElements]
    simp only [hp, if_true, hF, hsym, Res.bind, hFd]
    rw [show k + 7 = k + 6 + 1 from rfl, expandElements]
    simp only [hp, if_true, hg, hE, Res.bind, hgd]
    rw [show k + 6 = k + 5 + 1 from rfl, expandElements]
    simp [hn]
  have hparams : applyParams s (k + 8) (s.cdr (.pair f)) [] = some [E] := by
    rw [hFd, show k + 8 = k + 6 + 1 + 1 from rfl, applyParams]
    simp only [hp, if_true, hgd, hg, List.nil_append]
    rw [applyParams]
    simp [hn]
  have hq : s.car (.pair f) ≠ .symbol "quote" := by rw [hF]; decide
  have hfind : mapFind twiceTable "twice" = some (.lambda "twice" (.pair 13) 0 ["x"] false) := rfl
  rw [expandMacros, expandStep]
  have hq2 : Obj.symbol "twice" ≠ Obj.symbol "quote" := by decide
  simp only [hp, ne_eq, not_true_eq_false, if_false, hq, hels, Res.bind, Bool.false_eq_true, hF,
    hfind, hparams, hext, hrun]
  rw [if_neg hq2]

/-- The scan of the form `(begin E E)` the body of `twice` has built: no
element holding a macro call, the scan reports none. -/
theorem twice_expansion_plain (h : Host) (k L : Nat) (E : Obj) (s1 : Store)
    (h0 : s1.car (.pair L) = E ∧ s1.cdr (.pair L) = .null)
    (h1 : s1.car (.pair (L + 1)) = E ∧ s1.cdr (.pair (L + 1)) = .pair L)
    (h2 : s1.car (.pair (L + 2)) = .symbol "begin" ∧ s1.cdr (.pair (L + 2)) = .pair (L + 1))
    (hE : expandMacros h twiceTable (k + 7) E s1 = .ok .no s1) :
    expandMacros h twiceTable (k + 7 + 1) (.pair (L + 2)) s1 = .ok .no s1 := by
  have hp : ∀ a, (Obj.pair a).getType = .otPair := fun _ => rfl
  have hn : Obj.null.getType = .otNull := rfl
  have hsym : expandMacros h twiceTable (k + 7) (.symbol "begin") s1 = .ok .no s1 :=
    expandMacros_atom h twiceTable (k + 6) _ s1 (by simp [Obj.getType])
  have hels : expandElements (expandMacros h twiceTable (k + 7)) (k + 7) (.pair (L + 2)) s1
      = .ok false s1 := by
    rw [show k + 7 = k + 6 + 1 from rfl, expandElements]
    simp only [hp, if_true, h2.1, hsym, Res.bind, h2.2]
    rw [show k + 6 = k + 5 + 1 from rfl, expandElements]
    simp only [hp, if_true, h1.1, hE, Res.bind, h1.2]
    rw [show k + 5 = k + 4 + 1 from rfl, expandElements]
    simp only [hp, if_true, h0.1, hE, Res.bind, h0.2]
    rw [show k + 4 = k + 3 + 1 from rfl, expandElements]
    simp [hn]
  have hq : s1.car (.pair (L + 2)) ≠ .symbol "quote" := by rw [h2.1]; decide
  have hfind : mapFind twiceTable "begin" = none := rfl
  rw [expandMacros, expandStep]
  simp only [hp, ne_eq, not_true_eq_false, if_false, hq, hels, Res.bind, Bool.false_eq_true,
    h2.1, hfind, ite_self]

/-- A `begin` of two operands evaluates the first and then the second, when
the first leaves the rest of the operand list reading `(E2)`. -/
theorem evalBegin_two (ev : Obj → Nat → Store → Res Obj) (env n i : Nat) (E2 : Obj) (s : Store)
    (hcdr : (s.cdr (.pair i)).getType ≠ .otNull)
    (hkeep : ∀ v s2, ev (s.car (.pair i)) env s = .ok v s2 →
      s2.elementsAre (s2.cdr (.pair i)) [E2] = true) :
    evalBegin ev env (n + 2) (.pair i) s
      = (ev (s.car (.pair i)) env s).bind fun _ s2 => ev E2 env s2 := by
  have hp : ∀ a, (Obj.pair a).getType = .otPair := fun _ => rfl
  rw [show n + 2 = n + 1 + 1 from rfl, evalBegin]
  rw [if_neg (by rw [hp]; decide), if_neg (by rw [hp]; decide), if_neg hcdr]
  cases hr : ev (s.car (.pair i)) env s with
  | ok v s2 =>
    have hk := hkeep v s2 hr
    simp only [Store.elementsAre, Bool.and_eq_true, decide_eq_true_eq] at hk
    obtain ⟨⟨hty, hc⟩, hd⟩ := hk
    simp only [Res.bind]
    rw [evalBegin, if_neg (by rw [hty]; decide), if_neg (by rw [hty]; decide),
      if_pos (by rw [hd]; rfl), hc]
  | error e s2 => rfl
  | outOfFuel => rfl

/-- The scan of the form `(sideEffect)` of `twiceStore`, in a store that keeps
the cells of `twiceStore`: it reports no macro call. -/
theorem sideEffect_call_plain (h : Host) (j : Nat) (s1 : Store) (hj : 3 ≤ j)
    (hpre : twiceStore.pairs <+: s1.pairs) :
    expandMacros h twiceTable j (.pair 16) s1 = .ok .no s1 := by
  obtain ⟨more, hmore⟩ := hpre
  obtain ⟨i, rfl⟩ : ∃ i, j = i + 1 + 1 + 1 := ⟨j - 3, by omega⟩
  have hc := car_of_prefix s1 twiceStore.pairs more hmore.symm 16 (by decide)
  have hcar : s1.car (.pair 16) = .symbol "sideEffect" := hc.1.trans rfl
  have hcdr : s1.cdr (.pair 16) = .null := hc.2.trans rfl
  have hp : ∀ a, (Obj.pair a).getType = .otPair := fun _ => rfl
  have hn : Obj.null.getType = .otNull := rfl
  have hsym : expandMacros h twiceTable (i + 1 + 1) (.symbol "sideEffect") s1 = .ok .no s1 :=
    expandMacros_atom h twiceTable (i + 1) _ s1 (by simp [Obj.getType])
  have hels : expandElements (expandMacros h twiceTable (i + 1 + 1)) (i + 1 + 1) (.pair 16) s1
      = .ok false s1 := by
    rw [expandElements]
    simp only [hp, if_true, hcar, hsym, Res.bind, hcdr]
    rw [expandElements]
    simp [hn]
  have hq : s1.car (.pair 16) ≠ .symbol "quote" := by rw [hcar]; decide
  have hfind : mapFind twiceTable "sideEffect" = none := rfl
  rw [expandMacros, expandStep]
  simp only [hp, ne_eq, not_true_eq_false, if_false, hq, hels, Res.bind, Bool.false_eq_true,
    hcar, hfind, ite_self]

/-- C30: with `twice` registered by
`(defmacro twice (x) (list (quote begin) x x))` and `list` building the list
of its arguments, handling the form `(twice E)`, whose operand `E` holds no
macro call, replaces it by a new list `(begin E E)` that holds the object `E`
itself, unevaluated, twice; and evaluating that list evaluates `E` and then
`E` again, the first evaluation leaving the rest of the operand list as the
expansion made it. -/
theorem twice_expands_to_begin (h : Host) (k f g : Nat) (E : Obj) (s : Store)
    (more : List (Obj × Obj))
    (hP : s.pairs = twiceProgram ++ more)
    (hlist : mapFind (s.frame 0).data "list" = some listClosure)
    (hframes : 0 < s.frames.length)
    (hF : s.car (.pair f) = .symbol "twice") (hFd : s.cdr (.pair f) = .pair g)
    (hg : s.car (.pair g) = E) (hgd : s.cdr (.pair g) = .null)
    (hE : ∀ (j : Nat) (s1 : Store), k ≤ j → s.pairs <+: s1.pairs →
      expandMacros h twiceTable j E s1 = .ok .no s1) :
    ∃ s1, handleMacros h (k + 10) twiceTable (.pair f) s
        = .ok (.done (.pair (s.pairs.length + 2)) twiceTable) s1 ∧
      s1.isList (.pair (s.pairs.length + 2)) [.symbol "begin", E, E] = true ∧
      s1.pairs = s.pairs ++ [(E, .null), (E, .pair s.pairs.length),
        (.symbol "begin", .pair (s.pairs.length + 1))] ∧
      ∀ (n env : Nat),
        (∀ v s2, evalExpandedForm h (n + 2) E env s1 = .ok v s2 →
          s2.elementsAre (s2.cdr (.pair (s.pairs.length + 1))) [E] = true) →
        evalExpandedForm h (n + 3) (.pair (s.pairs.length + 2)) env s1
          = (evalExpandedForm h (n + 2) E env s1).bind fun _ s2 =>
              evalExpandedForm h (n + 2) E env s2 := by
  have hp : ∀ a, (Obj.pair a).getType = .otPair := fun _ => rfl
  obtain ⟨s1, hrep, hP1⟩ := twice_call_replaced h k f g E s more hP hlist hframes hF hFd hg hgd
    (hE (k + 8) s (by omega) (List.prefix_refl _))
  obtain ⟨c0, c1, c2⟩ := three_new_cells s s1 _ _ _ hP1
  have hpre : s.pairs <+: s1.pairs := ⟨_, hP1.symm⟩
  have hno : expandMacros h twiceTable (k + 8) (.pair (s.pairs.length + 2)) s1 = .ok .no s1 :=
    twice_expansion_plain h k s.pairs.length E s1 c0 c1 c2 (hE (k + 7) s1 (by omega) hpre)
  have hlen : s1.pairs.length = s.pairs.length + 3 := by rw [hP1]; simp
  refine ⟨s1, ?_, ?_, hP1, ?_⟩
  · have hall : expandAll h twiceTable (k + 8 + 1 + 1) (.pair f) s
        = .ok (.pair (s.pairs.length + 2)) s1 := by
      rw [expandAll, hrep]
      simp only [Res.bind]
      rw [expandAll, hno]
      rfl
    rw [handleMacros, if_neg (by rw [hp]; decide),
      show expandAll h twiceTable (k + 10) (.pair f) s = _ from hall]
    simp only [Res.bind, c2.1]
    rw [if_pos (by decide)]
  · simp [Store.isList, c0.1, c0.2, c1.1, c1.2, c2.1, c2.2, hlen]
  · intro n env hkeep
    have e := evalExpandedForm_begin h (n + 2) s1 env (s.pairs.length + 2) c2.1
    rw [show evalExpandedForm h (n + 3) (.pair (s.pairs.length + 2)) env s1 = _ from e, c2.2]
    have e2 := evalBegin_two (evalExpandedForm h (n + 2)) env n (s.pairs.length + 1) E s1
      (by rw [c1.2]; simp [Obj.getType]) (by rw [c1.1]; exact hkeep)
    rw [e2, c1.1]

/-- The form `(twice (sideEffect))` of `twiceStore`, in which `sideEffect`
decrements `count`, is replaced by `(begin (sideEffect) (sideEffect))`, the
store being then `twiceExpanded`; evaluating `(sideEffect)` once there leaves
`count`, 0 before, at -1, and evaluating the expansion leaves it at -2. -/
theorem twice_expands_to_begin_witness :
    (∃ s1, handleMacros loopHost 13 twiceTable (.pair 14) twiceStore
        = .ok (.done (.pair 26) twiceTable) s1 ∧
      s1.isList (.pair 26) [.symbol "begin", .pair 16, .pair 16] = true ∧
      s1.pairs = twiceStore.pairs ++ [(.pair 16, .null), (.pair 16, .pair 24),
        (.symbol "begin", .pair 25)] ∧
      ∀ (n env : Nat),
        (∀ v s2, evalExpandedForm loopHost (n + 2) (.pair 16) env s1 = .ok v s2 →
          s2.elementsAre (s2.cdr (.pair 25)) [.pair 16] = true) →
        evalExpandedForm loopHost (n + 3) (.pair 26) env s1
          = (evalExpandedForm loopHost (n + 2) (.pair 16) env s1).bind fun _ s2 =>
              evalExpandedForm loopHost (n + 2) (.pair 16) env s2) ∧
    handleMacros loopHost 13 twiceTable (.pair 14) twiceStore
      = .ok (.done (.pair 26) twiceTable) twiceExpanded ∧
    mapFind (twiceExpanded.frame 0).data "count" = some (.fixnum 0) ∧
    mapFind (((evalExpandedForm loopHost 6 (.pair 16) 0 twiceExpanded).store
      twiceExpanded).frame 0).data "count" = some (.fixnum (-1)) ∧
    mapFind (((evalExpandedForm loopHost 7 (.pair 26) 0 twiceExpanded).store
      twiceExpanded).frame 0).data "count" = some (.fixnum (-2)) :=
  ⟨twice_expands_to_begin loopHost 3 14 15 (.pair 16) twiceStore _ rfl (by decide) (by decide)
      (by decide) (by decide) (by decide) (by decide)
      (fun j s1 hj hpre => sideEffect_call_plain loopHost j s1 hj hpre),
    by decide, by decide, by decide, by decide⟩

/-! ## C35: `set-car!` and `set-cdr!` -/

theorem getD_set_same {α : Type} (l : List α) (a : Nat) (x d : α) (ha : a < l.length) :
    (l.set a x).getD a d = x := by
  simp [List.getD_eq_getElem?_getD, List.getElem?_set, ha]

theorem getD_set_other {α : Type} (l : List α) (a b : Nat) (x d : α) (hab : b ≠ a) :
    (l.set a x).getD b d = l.getD b d := by
  simp [List.getD_eq_getElem?_getD, List.getElem?_set, Ne.symm hab]

/-- C35: for a pair `p` of the store and a value `v`, `set-car!` makes `car`
of `p` return `v` and leaves what `cdr` returns, `set-cdr!` makes `cdr` of `p`
return `v` and leaves what `car` returns; both return the Symbol `undefined`,
leave every other pair as it was and change nothing else in the store; for a
first argument that is not a Pair both throw the type error in the store
unchanged. -/
theorem set_car_and_set_cdr (a : Nat) (v : Obj) (s : Store) (ha : a < s.pairs.length) :
    (∃ s1, setCar (.pair a) v s = .ok (.symbol "undefined") s1 ∧
      car (.pair a) s1 = .ok v s1 ∧ cdr (.pair a) s1 = .ok (s.cdr (.pair a)) s1 ∧
      (∀ b, b ≠ a → s1.pairs.getD b (.null, .null) = s.pairs.getD b (.null, .null)) ∧
      s1.pairs.length = s.pairs.length ∧
      s1.frames = s.frames ∧ s1.strings = s.strings ∧ s1.vectors = s.vectors) ∧
    (∃ s1, setCdr (.pair a) v s = .ok (.symbol "undefined") s1 ∧
      cdr (.pair a) s1 = .ok v s1 ∧ car (.pair a) s1 = .ok (s.car (.pair a)) s1 ∧
      (∀ b, b ≠ a → s1.pairs.getD b (.null, .null) = s.pairs.getD b (.null, .null)) ∧
      s1.pairs.length = s.pairs.length ∧
      s1.frames = s.frames ∧ s1.strings = s.strings ∧ s1.vectors = s.vectors) ∧
    (∀ o : Obj, o.getType ≠ .otPair →
      setCar o v s = .error (.invalidArgumentType "set-car!") s ∧
      setCdr o v s = .error (.invalidArgumentType "set-cdr!") s) := by
  have hp : (Obj.pair a).getType = .otPair := rfl
  refine ⟨⟨s.setCar (.pair a) v, ?_, ?_, ?_, ?_, ?_, rfl, rfl, rfl⟩,
    ⟨s.setCdr (.pair a) v, ?_, ?_, ?_, ?_, ?_, rfl, rfl, rfl⟩, ?_⟩
  · simp [setCar, hp]
  · simp only [car, hp, ne_eq, not_true_eq_false, if_false, Store.car, Store.setCar]
    rw [getD_set_same _ _ _ _ ha]
  · simp only [cdr, hp, ne_eq, not_true_eq_false, if_false, Store.cdr, Store.setCar]
    rw [getD_set_same _ _ _ _ ha]
  · intro b hb
    simp only [Store.setCar]
    rw [getD_set_other _ _ _ _ _ hb]
  · simp [Store.setCar]
  · simp [setCdr, hp]
  · simp only [cdr, hp, ne_eq, not_true_eq_false, if_false, Store.cdr, Store.setCdr]
    rw [getD_set_same _ _ _ _ ha]
  · simp only [car, hp, ne_eq, not_true_eq_false, if_false, Store.car, Store.setCdr]
    rw [getD_set_same _ _ _ _ ha]
  · intro b hb
    simp only [Store.setCdr]
    rw [getD_set_other _ _ _ _ _ hb]
  · simp [Store.setCdr]
  · intro o ho
    simp [setCar, setCdr, ho]

/-- On the pair `(1 . 2)` of `consStore`: after `set-car!` with 7 the pair is
`(7 . 2)`, after `set-cdr!` with 7 it is `(1 . 7)`, and the pair `(3 . 4)` is
as it was. -/
theorem set_car_and_set_cdr_witness :
    (∃ s1, setCar (.pair 0) (.fixnum 7) consStore = .ok (.symbol "undefined") s1 ∧
      car (.pair 0) s1 = .ok (.fixnum 7) s1 ∧ cdr (.pair 0) s1 = .ok (.fixnum 2) s1 ∧
      s1.pairs.getD 1 (.null, .null) = (.fixnum 3, .fixnum 4)) ∧
    (∃ s1, setCdr (.pair 0) (.fixnum 7) consStore = .ok (.symbol "undefined") s1 ∧
      cdr (.pair 0) s1 = .ok (.fixnum 7) s1 ∧ car (.pair 0) s1 = .ok (.fixnum 1) s1 ∧
      s1.pairs.getD 1 (.null, .null) = (.fixnum 3, .fixnum 4)) ∧
    setCar (.fixnum 1) (.fixnum 7) consStore
      = .error (.invalidArgumentType "set-car!") consStore := by
  obtain ⟨⟨s1, h1, h2, h3, h4, _⟩, ⟨s2, k1, k2, k3, k4, _⟩, h5⟩ :=
    set_car_and_set_cdr 0 (.fixnum 7) consStore (by decide)
  exact ⟨⟨s1, h1, h2, h3, (h4 1 (by decide)).trans rfl⟩,
    ⟨s2, k1, k2, k3, (k4 1 (by decide)).trans rfl⟩, (h5 (.fixnum 1) (by decide)).1⟩

/-! ## C39: the two variants of `set-cdr!` -/

/-- C39 fails on `minscm.cpp`: on the pair `(1 . 2)` and the value 7, `setCdr`
of `bootstrap.cpp` leaves the pair `(1 . 7)` and `setCdr` of `minscm.cpp`
leaves the pair `(7 . 2)`, its assignment being to the field `_car`; both
return the Symbol `undefined`. -/
theorem minscm_set_cdr_writes_car :
    setCdr (.pair 0) (.fixnum 7) consStore
      = .ok (.symbol "undefined")
          { consStore with pairs := [(.fixnum 1, .fixnum 7), (.fixnum 3, .fixnum 4)] } ∧
    Minscm.setCdr (.pair 0) (.fixnum 7) consStore
      = .ok (.symbol "undefined")
          { consStore with pairs := [(.fixnum 7, .fixnum 2), (.fixnum 3, .fixnum 4)] } ∧
    Minscm.setCdr (.pair 0) (.fixnum 7) consStore = setCar (.pair 0) (.fixnum 7) consStore := by
  decide

/-! ## C37: an expansion that is not a Pair -/

/-- C37 fails: with `five` registered by `(defmacro five () 5)`, the expansion
of the form `(five)` leaves the Integer 5, and `handleMacros` then reads the
field `_car` of that object as if it were a Pair; `handleMacros` of
`minscm.cpp` returns after the same expansion without reading anything. -/
theorem expansion_to_atom_read_as_pair :
    expandAll noNatives fiveTable 5 (.pair 2) fiveStore
      = .ok (.fixnum 5) { fiveStore with frames := fiveStore.frames ++ [⟨[], some 0⟩] } ∧
    handleMacros noNatives 5 fiveTable (.pair 2) fiveStore
      = .ok (.notAPair (.fixnum 5))
          { fiveStore with frames := fiveStore.frames ++ [⟨[], some 0⟩] } ∧
    Minscm.handleMacros noNatives 5 (expandAll noNatives fiveTable 5) fiveTable (.pair 2)
        fiveStore
      = .ok (.done (.fixnum 5) fiveTable)
          { fiveStore with frames := fiveStore.frames ++ [⟨[], some 0⟩] } := by
  decide

/-! ## C40: the arithmetic of `fix+`, `fix-` and `fix*` -/

/-- C40 fails: `getFix` returns an `int`, so that the Integer 2147483648, which
a `long` holds, is taken as -2147483648: `fix+` of it and 0 returns
-2147483648, `fix-` of it and 0 the same, and `fix*` of 4294967296 and 1
returns 0, though the three exact results fit a `long`; and the sum of
2147483647 and 1, computed in `int`, has no defined result. -/
theorem fix_arithmetic_truncates_to_int :
    fixPlus (.fixnum 2147483648) (.fixnum 0) emptyStore
      = .ok (.fixnum (-2147483648)) emptyStore ∧
    fixMinus (.fixnum 2147483648) (.fixnum 0) emptyStore
      = .ok (.fixnum (-2147483648)) emptyStore ∧
    fixMult (.fixnum 4294967296) (.fixnum 1) emptyStore = .ok (.fixnum 0) emptyStore ∧
    fixPlus (.fixnum 2147483647) (.fixnum 1) emptyStore = .outOfFuel ∧
    fixPlus (.fixnum 2) (.fixnum 3) emptyStore = .ok (.fixnum 5) emptyStore ∧
    fixPlus (.symbol "a") (.fixnum 3) emptyStore
      = .error (.invalidArgumentType "fix+") emptyStore := by
  decide

/-! ## C33: the text of a Vector -/

/-- C33 fails on the empty Vector: its text is `#)`, the last character of
`#(` being replaced by the closing parenthesis; the text of a Vector of the
elements 1 and 2 is `#(1 2)`. -/
theorem empty_vector_prints_without_parenthesis :
    Obj.toString noNatives quoteStore 1 (.vector 0) = some "#)" ∧
    Obj.toString noNatives { quoteStore with vectors := [[.fixnum 1, .fixnum 2]] } 2 (.vector 0)
      = some "#(1 2)" := by
  decide

/-! ## C32: the text of a Pair -/

theorem setLast_space (sb : String) : setLast (sb ++ " ") ')' = sb ++ ")" := by
  apply String.ext
  simp [setLast, String.data_append]

theorem spaceAfterEach_separated (t : String) (ts : List String) :
    spaceAfterEach (t :: ts) = separated (t :: ts) ++ " " := by
  induction ts generalizing t with
  | nil => simp [spaceAfterEach, separated]
  | cons u us ih =>
    rw [spaceAfterEach, ih u, separated]
    simp [String.append_assoc]

/-- The loop of `Pair::toString` over the cells that hold `xs` and end in
`tail`. -/
theorem toStringLoop_elements (ts : Obj → Option String) (s : Store) (tail : Obj)
    (htail : tail.getType ≠ .otPair) :
    ∀ (xs : List Obj) (texts : List String) (i : Obj) (sb : String) (k : Nat),
      s.elementsEndIn i xs tail = true →
      List.Forall₂ (fun x t => ts x = some t) xs texts →
      xs.length < k →
      Pair.toStringLoop ts s k i sb
        = if tail = .null then some (setLast (sb ++ spaceAfterEach texts) ')')
          else (ts tail).map fun t => sb ++ spaceAfterEach texts ++ ". " ++ t ++ ")" := by
  intro xs
  induction xs with
  | nil =>
    intro texts i sb k hshape htexts hk
    cases htexts
    obtain ⟨k, rfl⟩ : ∃ j, k = j + 1 := ⟨k - 1, by simp at hk; omega⟩
    simp only [Store.elementsEndIn, decide_eq_true_eq] at hshape
    subst hshape
    cases i <;> simp [Obj.getType] at htail <;>
      simp [Pair.toStringLoop, spaceAfterEach]
  | cons x xs ih =>
    intro texts i sb k hshape htexts hk
    cases htexts with
    | cons hx hrest =>
      rename_i t texts
      obtain ⟨k, rfl⟩ : ∃ j, k = j + 1 := ⟨k - 1, by simp at hk; omega⟩
      simp only [Store.elementsEndIn, Bool.and_eq_true, decide_eq_true_eq] at hshape
      obtain ⟨⟨hty, hcar⟩, hcdr⟩ := hshape
      cases i <;> simp [Obj.getType] at hty
      rename_i a
      have hrec := ih texts (s.cdr (.pair a)) (sb ++ t ++ " ") k hcdr hrest
        (by simp at hk; omega)
      simp only [Pair.toStringLoop, hcar, hx, Option.bind, spaceAfterEach]
      rw [hrec]
      simp only [String.append_assoc]

/-- C32: the text of a pair whose cells hold the elements `xs`, one or more,
the texts of which are `texts`: when the cells end in Null, a parenthesis, the
texts separated by exactly one space, and a parenthesis; when they end in an
object `tail` that is neither Null nor a Pair, the same with a space, a
period, a space and the text of `tail` before the closing parenthesis; and the
text of Null is `()`. -/
theorem pairs_print_as_lists (h : Host) (s : Store) (n a : Nat) (xs : List Obj)
    (texts : List String) (tail : Obj)
    (hshape : s.elementsEndIn (.pair a) xs tail = true)
    (htail : tail.getType ≠ .otPair)
    (htexts : List.Forall₂ (fun x t => Obj.toString h s n x = some t) xs texts)
    (hlen : xs.length < n) :
    (tail = .null →
      Obj.toString h s (n + 1) (.pair a) = some ("(" ++ separated texts ++ ")")) ∧
    (tail ≠ .null → ∀ t, Obj.toString h s n tail = some t →
      Obj.toString h s (n + 1) (.pair a)
        = some ("(" ++ separated texts ++ " . " ++ t ++ ")")) ∧
    Obj.toString h s (n + 1) .null = some "()" := by
  have hloop := toStringLoop_elements (Obj.toString h s n) s tail htail xs texts (.pair a) "(" n
    hshape htexts hlen
  have hstep : Obj.toString h s (n + 1) (.pair a)
      = Pair.toStringLoop (Obj.toString h s n) s n (.pair a) "(" := rfl
  have hne : ∃ t rest, texts = t :: rest := by
    cases htexts with
    | nil =>
      simp only [Store.elementsEndIn, decide_eq_true_eq] at hshape
      subst hshape
      exact absurd rfl htail
    | cons _ _ => exact ⟨_, _, rfl⟩
  obtain ⟨t0, rest, rfl⟩ := hne
  rw [spaceAfterEach_separated] at hloop
  refine ⟨?_, ?_, rfl⟩
  · intro hnull
    rw [hstep, hloop, if_pos hnull, ← String.append_assoc, setLast_space]
  · intro hnull t ht
    rw [hstep, hloop, if_neg hnull, ht]
    simp [String.append_assoc]

/-- The list `(quote 1 2)` at the pair 6 of `quoteStore` and the dotted pair
`(1 . 2)` of `consStore`. -/
theorem pairs_print_as_lists_witness :
    Obj.toString noNatives quoteStore 5 (.pair 6) = some "(quote 1 2)" ∧
    Obj.toString noNatives consStore 3 (.pair 0) = some "(1 . 2)" :=
  ⟨(pairs_print_as_lists noNatives quoteStore 4 6 [.symbol "quote", .fixnum 1, .fixnum 2]
      ["quote", "1", "2"] .null (by decide) (by decide)
      (.cons rfl (.cons rfl (.cons rfl .nil))) (by decide)).1 rfl,
   (pairs_print_as_lists noNatives consStore 2 0 [.fixnum 1] ["1"] (.fixnum 2) (by decide)
      (by decide) (.cons rfl .nil) (by decide)).2.1 (by decide) "2" rfl⟩

/-! ## C34: printing and cycles -/

theorem isDottedList_elements (s : Store) (tail : Obj) (htail : tail.getType ≠ .otPair) :
    ∀ (xs : List Obj) (i : Obj) (k : Nat), s.elementsEndIn i xs tail = true → xs.length < k →
      Pair.isDottedList s k i = some (decide (tail.getType ≠ .otNull)) := by
  intro xs
  induction xs with
  | nil =>
    intro i k hshape hk
    obtain ⟨k, rfl⟩ : ∃ j, k = j + 1 := ⟨k - 1, by simp at hk; omega⟩
    simp only [Store.elementsEndIn, decide_eq_true_eq] at hshape
    subst hshape
    simp [Pair.isDottedList, htail]
  | cons x xs ih =>
    intro i k hshape hk
    obtain ⟨k, rfl⟩ : ∃ j, k = j + 1 := ⟨k - 1, by simp at hk; omega⟩
    simp only [Store.elementsEndIn, Bool.and_eq_true, decide_eq_true_eq] at hshape
    obtain ⟨⟨hty, _⟩, hcdr⟩ := hshape
    rw [Pair.isDottedList, if_pos hty]
    exact ih (s.cdr i) k hcdr (by simp at hk; omega)

theorem texts_of_isSome (ts : Obj → Option String) :
    ∀ xs : List Obj, (∀ x ∈ xs, (ts x).isSome = true) →
      List.Forall₂ (fun x t => ts x = some t) xs (xs.map fun x => (ts x).getD "") := by
  intro xs
  induction xs with
  | nil => intro _; exact .nil
  | cons x xs ih =>
    intro hall
    refine .cons ?_ (ih fun y hy => hall y (by simp [hy]))
    have := hall x (by simp)
    cases hx : ts x with
    | none => rw [hx] at this; cases this
    | some t => simp [hx]

theorem toString_car_cycle (h : Host) :
    ∀ n, Obj.toString h carCycleStore n (.pair 0) = none := by
  intro n
  induction n with
  | zero => rfl
  | succ n ih =>
    have hstep : Obj.toString h carCycleStore (n + 1) (.pair 0)
        = Pair.toStringLoop (Obj.toString h carCycleStore n) carCycleStore n (.pair 0) "(" := rfl
    rw [hstep]
    cases n with
    | zero => rfl
    | succ m =>
      have hcar : carCycleStore.car (.pair 0) = .pair 0 := rfl
      simp only [Pair.toStringLoop, hcar, ih, Option.bind]

theorem isDottedList_cycle : ∀ n, Pair.isDottedList cycleStore n (.pair 0) = none := by
  intro n
  induction n with
  | zero => rfl
  | succ n ih =>
    have hcdr : cycleStore.cdr (.pair 0) = .pair 0 := rfl
    have hp : (Obj.pair 0).getType = .otPair := rfl
    rw [Pair.isDottedList, if_pos hp, hcdr, ih]

/-- C34 (as amended). For a pair whose cells hold finitely many elements and
end in an object that is not a Pair: `isDottedList` returns, with the answer
whether that object is not Null, and `toString` returns a text whenever it
returns one for every element and for that object. -/
theorem printing_terminates_on_finite_lists (h : Host) (s : Store) (n a : Nat) (xs : List Obj)
    (tail : Obj)
    (hshape : s.elementsEndIn (.pair a) xs tail = true)
    (htail : tail.getType ≠ .otPair) :
    (∀ k, xs.length < k →
      Pair.isDottedList s k (.pair a) = some (decide (tail.getType ≠ .otNull))) ∧
    ((∀ x ∈ xs, (Obj.toString h s n x).isSome = true) →
      (tail ≠ .null → (Obj.toString h s n tail).isSome = true) → xs.length < n →
      (Obj.toString h s (n + 1) (.pair a)).isSome = true) := by
  refine ⟨fun k hk => isDottedList_elements s tail htail xs (.pair a) k hshape hk, ?_⟩
  intro hall htext hlen
  have hloop := toStringLoop_elements (Obj.toString h s n) s tail htail xs _ (.pair a) "(" n
    hshape (texts_of_isSome _ xs hall) hlen
  have hstep : Obj.toString h s (n + 1) (.pair a)
      = Pair.toStringLoop (Obj.toString h s n) s n (.pair a) "(" := rfl
  rw [hstep, hloop]
  by_cases hnull : tail = .null
  · rw [if_pos hnull]; rfl
  · rw [if_neg hnull]
    have := htext hnull
    cases ht : Obj.toString h s n tail with
    | none => rw [ht] at this; cases this
    | some t => rfl

/-- The list `(quote 1 2)` at the pair 6 of `quoteStore` is printed and is
found to be a proper list. -/
theorem printing_terminates_on_finite_lists_witness :
    Pair.isDottedList quoteStore 4 (.pair 6) = some false ∧
    (Obj.toString noNatives quoteStore 5 (.pair 6)).isSome = true :=
  ⟨(printing_terminates_on_finite_lists noNatives quoteStore 4 6
      [.symbol "quote", .fixnum 1, .fixnum 2] .null (by decide) (by decide)).1 4 (by decide),
   (printing_terminates_on_finite_lists noNatives quoteStore 4 6
      [.symbol "quote", .fixnum 1, .fixnum 2] .null (by decide) (by decide)).2 (by decide)
      (by decide) (by decide)⟩

/-- C34 (as stated) fails: on the pair of `cycleStore`, whose cdr is the pair
itself, neither `toString` nor `isDottedList` returns, whatever the fuel; on
the pair of `carCycleStore`, whose car is the pair itself, `toString` does not
return, while `isDottedList`, which follows the cdr fields only, does. -/
theorem printing_loops_on_cycles :
    cycleStore.cdr (.pair 0) = .pair 0 ∧
    (∀ n, Obj.toString noNatives cycleStore n (.pair 0) = none) ∧
    (∀ n, Pair.isDottedList cycleStore n (.pair 0) = none) ∧
    carCycleStore.car (.pair 0) = .pair 0 ∧
    (∀ n, Obj.toString noNatives carCycleStore n (.pair 0) = none) ∧
    Pair.isDottedList carCycleStore 2 (.pair 0) = some false := by
  refine ⟨rfl, ?_, isDottedList_cycle, rfl, toString_car_cycle noNatives, rfl⟩
  intro n
  cases n with
  | zero => rfl
  | succ m => exact toStringLoop_cycle _ m "("

/-! ## C38: the two readers -/

theorem digitValue_not_digit (c : Char) (h : isDecimalDigit c = false) :
    digitValue 10 c = none := by
  simp only [digitValue, h, Bool.false_eq_true, if_false]
  by_cases h1 : (97 ≤ c.toNat && c.toNat ≤ 102) = true
  · rw [if_pos h1]
    simp only [Bool.and_eq_true, decide_eq_true_eq] at h1
    rw [if_neg (by omega)]
  · rw [if_neg h1]
    by_cases h2 : (65 ≤ c.toNat && c.toNat ≤ 70) = true
    · rw [if_pos h2]
      simp only [Bool.and_eq_true, decide_eq_true_eq] at h2
      rw [if_neg (by omega)]
    · rw [if_neg h2, if_neg (by omega)]

theorem takeWhile_nil_of_none (p : Char → Bool) (l : List Char) (h : ∀ c ∈ l, p c = false) :
    l.takeWhile p = [] := by
  cases l with
  | nil => rfl
  | cons c cs => simp [List.takeWhile, h c (by simp)]

theorem takeWhile_all (p : Char → Bool) (l : List Char) (h : ∀ c ∈ l, p c = true) :
    l.takeWhile p = l ∧ l.dropWhile p = [] := by
  have := token_split p l [] h (Or.inl rfl)
  simpa using this

theorem dropWhile_isspace_self (chars : List Char) (hsp : ∀ c ∈ chars, isspace c = false) :
    chars.dropWhile isspace = chars := by
  cases chars with
  | nil => rfl
  | cons c cs => simp [List.dropWhile, hsp c (by simp)]

/-- The extraction of a `long` fails on characters that begin, after a sign,
with no digit. -/
theorem extractLong_none (chars : List Char) (hsp : ∀ c ∈ chars, isspace c = false)
    (h : ∀ c, (if chars.head? = some '-' ∨ chars.head? = some '+' then chars.tail
      else chars).head? = some c → isDecimalDigit c = false) :
    extractLong 10 chars = none := by
  have hd := dropWhile_isspace_self chars hsp
  have hnone : ((if chars.head? = some '-' ∨ chars.head? = some '+' then chars.tail
      else chars).head?.bind fun a => digitValue 10 a) = none := by
    cases hh : (if chars.head? = some '-' ∨ chars.head? = some '+' then chars.tail
      else chars).head? with
    | none => rfl
    | some c => exact digitValue_not_digit c (h c hh)
  simp only [extractLong, hd]
  simp only [Bool.or_eq_true, decide_eq_true_eq, Bool.and_eq_true, beq_iff_eq,
    Nat.reduceEqDiff, false_and, if_false]
  rw [hnone]
  rfl

theorem extractLong_none_of_no_digit (chars : List Char)
    (hsp : ∀ c ∈ chars, isspace c = false) (hnd : ∀ c ∈ chars, isDecimalDigit c = false) :
    extractLong 10 chars = none := by
  apply extractLong_none chars hsp
  intro c hc
  apply hnd
  split at hc
  · exact List.mem_of_mem_tail (List.mem_of_mem_head? hc)
  · exact List.mem_of_mem_head? hc

theorem extractDouble_none_of_no_digit (strtod : List Char → Nat) (chars : List Char)
    (hnd : ∀ c ∈ chars, isDecimalDigit c = false) :
    Minscm.extractDouble strtod chars = none := by
  have h1 : ∀ k, ((chars.drop k).takeWhile isDecimalDigit) = [] := fun k =>
    takeWhile_nil_of_none _ _ fun c hc => hnd c (List.mem_of_mem_drop hc)
  have h2 : ∀ k m, ((((chars.drop k).dropWhile isDecimalDigit).drop m).takeWhile
      isDecimalDigit) = [] := fun k m =>
    takeWhile_nil_of_none _ _ fun c hc =>
      hnd c (List.mem_of_mem_drop ((List.dropWhile_sublist _).mem (List.mem_of_mem_drop hc)))
  simp only [Minscm.extractDouble, h1, h2, and_self, if_true]

theorem afterLong_no_digit (chars : List Char) (hnd : ∀ c ∈ chars, isDecimalDigit c = false) :
    ∀ c ∈ Minscm.afterLong chars, isDecimalDigit c = false := by
  intro c hc
  apply hnd
  have hc1 := (List.dropWhile_sublist _).mem hc
  split at hc1
  · exact List.mem_of_mem_tail hc1
  · exact hc1

theorem digits_of_all (l : List Char)
    (hall : (l.all fun c => c == '.' || isDecimalDigit c) = true) (hcount : l.count '.' = 0) :
    ∀ c ∈ l, isDecimalDigit c = true := by
  intro c hc
  have h1 := List.all_eq_true.mp hall c hc
  have h2 : c ≠ '.' := by
    intro heq
    subst heq
    exact absurd hc (List.count_eq_zero.mp hcount)
  simpa [h2] using h1

/-- A token of digits and exactly one period: the digits before the period,
the period, and the digits behind it. -/
theorem digits_period_digits :
    ∀ l : List Char, (l.all fun c => c == '.' || isDecimalDigit c) = true → l.count '.' = 1 →
      ∃ ds1 ds2, l = ds1 ++ '.' :: ds2 ∧ (∀ c ∈ ds1, isDecimalDigit c = true) ∧
        (∀ c ∈ ds2, isDecimalDigit c = true) := by
  intro l
  induction l with
  | nil => intro _ h; simp at h
  | cons c cs ih =>
    intro hall hcount
    rw [List.all_cons, Bool.and_eq_true] at hall
    by_cases hc : c = '.'
    · subst hc
      rw [List.count_cons_self] at hcount
      exact ⟨[], cs, rfl, by simp, digits_of_all cs hall.2 (by omega)⟩
    · rw [List.count_cons_of_ne (Ne.symm hc)] at hcount
      obtain ⟨ds1, ds2, hl, h1, h2⟩ := ih hall.2 hcount
      have hd : isDecimalDigit c = true := by simpa [hc] using hall.1
      refine ⟨c :: ds1, ds2, by rw [hl]; rfl, ?_, h2⟩
      intro x hx
      simp only [List.mem_cons] at hx
      rcases hx with h | h
      · subst h; exact hd
      · exact h1 x h

theorem period_not_digit : isDecimalDigit '.' = false := by decide

/-- On a token of digits and one period the two extractions of a `double`
agree. -/
theorem extractDouble_digits_period (strtod : List Char → Nat) (ds1 ds2 : List Char)
    (h1 : ∀ c ∈ ds1, isDecimalDigit c = true) (h2 : ∀ c ∈ ds2, isDecimalDigit c = true) :
    Minscm.extractDouble strtod (ds1 ++ '.' :: ds2) = extractDouble strtod (ds1 ++ '.' :: ds2) := by
  have hsign : ¬ ((ds1 ++ '.' :: ds2).head? = some '-' ∨ (ds1 ++ '.' :: ds2).head? = some '+') := by
    cases ds1 with
    | nil => simp
    | cons c cs =>
      have hc := h1 c (by simp)
      have := digit_ne c '-' hc (by decide)
      have := digit_ne c '+' hc (by decide)
      simp [*]
  have hs1 := token_split isDecimalDigit ds1 ('.' :: ds2) h1
    (Or.inr ⟨'.', ds2, rfl, period_not_digit⟩)
  have hs2 := takeWhile_all isDecimalDigit ds2 h2
  have hany : (ds1 ++ '.' :: ds2).any isDecimalDigit = true ↔ ¬ (ds1 = [] ∧ ds2 = []) := by
    constructor
    · intro h hn
      rw [hn.1, hn.2] at h
      simp [period_not_digit] at h
    · intro hn
      rw [List.any_eq_true]
      cases ds1 with
      | cons c cs => exact ⟨c, by simp, h1 c (by simp)⟩
      | nil =>
        cases ds2 with
        | nil => exact absurd ⟨rfl, rfl⟩ hn
        | cons c cs => exact ⟨c, by simp, h2 c (by simp)⟩
  simp only [Minscm.extractDouble, if_neg hsign, List.length_nil, List.drop_zero, hs1.1, hs1.2,
    List.head?_cons, if_true, List.length_singleton, List.drop_succ_cons, hs2.1, hs2.2,
    List.head?_nil, extractDouble]
  by_cases hn : ds1 = [] ∧ ds2 = []
  · simp [hn, period_not_digit]
  · have : (ds1 ++ '.' :: ds2).any isDecimalDigit = true := hany.mpr hn
    simp [hn, this]

theorem extractDouble_none_of_head (strtod : List Char → Nat) (c : Char) (cs : List Char)
    (hd : isDecimalDigit c = false) (hm : c ≠ '-') (hp : c ≠ '+') (hq : c ≠ '.') :
    Minscm.extractDouble strtod (c :: cs) = none := by
  simp [Minscm.extractDouble, hd, hm, hp, hq, List.takeWhile, List.dropWhile]

theorem afterLong_of_head (c : Char) (cs : List Char)
    (hd : isDecimalDigit c = false) (hm : c ≠ '-') (hp : c ≠ '+') :
    Minscm.afterLong (c :: cs) = c :: cs := by
  simp [Minscm.afterLong, hd, hm, hp, List.dropWhile]

theorem afterLong_digits (l : List Char) (h : ∀ c ∈ l, isDecimalDigit c = true) :
    Minscm.afterLong l = [] := by
  cases l with
  | nil => rfl
  | cons c cs =>
    have hc := h c (by simp)
    have h1 := digit_ne c '-' hc (by decide)
    have h2 := digit_ne c '+' hc (by decide)
    have := (takeWhile_all isDecimalDigit (c :: cs) h).2
    simp only [Minscm.afterLong, List.head?_cons, Option.some.injEq, h1, h2, or_self, if_false]
    exact this

theorem contains_period (l : List Char) : l.contains '.' = false ↔ l.count '.' = 0 := by
  rw [List.count_eq_zero]
  simp

theorem ite_none_isNone (c1 c2 : Prop) [Decidable c1] [Decidable c2] (x y : Nat)
    (h : (if c1 then none else if c2 then none else some x : Option Nat).isNone = true) :
    (if c1 then none else if c2 then none else some y : Option Nat) = none := by
  by_cases h1 : c1
  · rw [if_pos h1]
  · rw [if_neg h1] at h ⊢
    by_cases h2 : c2
    · rw [if_pos h2]
    · rw [if_neg h2] at h
      cases h

/-- Whether the extraction of a `double` of `minscm.cpp` fails does not depend
on the conversion of the text. -/
theorem extractDouble_isNone (f g : List Char → Nat) (l : List Char)
    (h : (Minscm.extractDouble f l).isNone = true) : Minscm.extractDouble g l = none := by
  unfold Minscm.extractDouble at h ⊢
  exact ite_none_isNone _ _ _ _ h

/-- From a token without a digit, and from a token that begins with a
character that is neither a digit, nor a sign, nor a period, the extractions
of `minscm.cpp` take no number. -/
theorem takes_no_number (strtod : List Char → Nat) (symbol : List Char)
    (hsp : ∀ c ∈ symbol, isspace c = false)
    (hshape : symbol.any isDecimalDigit = false ∨
      ∃ c cs, symbol = c :: cs ∧ (isDecimalDigit c || c == '+' || c == '-' || c == '.') = false) :
    extractLong 10 symbol = none ∧
    Minscm.extractDouble strtod
        (if symbol.contains '.' = false then Minscm.afterLong symbol else symbol) = none := by
  rcases hshape with hnd | ⟨c, cs, hsym, hhead2⟩
  · -- no digit
    have hnd2 : ∀ c ∈ symbol, isDecimalDigit c = false := by
      intro c hc
      by_contra hcon
      have : symbol.any isDecimalDigit = true :=
        List.any_eq_true.mpr ⟨c, hc, by simpa using hcon⟩
      rw [this] at hnd
      cases hnd
    refine ⟨extractLong_none_of_no_digit symbol hsp hnd2, ?_⟩
    split
    · exact extractDouble_none_of_no_digit strtod _ (afterLong_no_digit symbol hnd2)
    · exact extractDouble_none_of_no_digit strtod _ hnd2
  · -- a head that is neither a digit, a sign nor a period
    subst hsym
    simp only [Bool.or_eq_false_iff, beq_eq_false_iff_ne, ne_eq] at hhead2
    obtain ⟨⟨⟨hd, hp⟩, hm⟩, hq⟩ := hhead2
    constructor
    · apply extractLong_none (c :: cs) hsp
      intro x hx
      simp only [List.head?_cons, Option.some.injEq, hm, hp, or_self, if_false] at hx
      cases hx
      exact hd
    · rw [afterLong_of_head c cs hd hm hp, ite_self]
      exact extractDouble_none_of_head strtod c cs hd hm hp hq

/-- A token without a digit, and a token that begins with a character that is
neither a digit, nor a sign, nor a period, is one that the two readers take
alike. -/
theorem sameToken_of_shape (symbol : List Char) (hsp : ∀ c ∈ symbol, isspace c = false)
    (hshape : symbol.any isDecimalDigit = false ∨
      ∃ c cs, symbol = c :: cs ∧ (isDecimalDigit c || c == '+' || c == '-' || c == '.') = false) :
    Reader.sameToken symbol = true := by
  obtain ⟨h1, h2⟩ := takes_no_number (fun _ => 0) symbol hsp hshape
  simp only [Reader.sameToken, h1, h2, Option.isNone_none, Bool.or_true, Bool.and_self]

/-- On a token that the two readers take alike, the tests and extractions of
the two methods `readSymbolOrNumber` have the same outcomes. -/
theorem number_agree (strtod : List Char → Nat) (symbol : List Char)
    (hsame : Reader.sameToken symbol = true) :
    (if symbol.contains '.' = false then extractLong 10 symbol else none)
      = (if symbol.count '.' = 0 ∧ (symbol.all fun c => c == '.' || isDecimalDigit c) = true
          then extractLong 10 symbol else none) ∧
    Minscm.extractDouble strtod
        (if symbol.contains '.' = false then Minscm.afterLong symbol else symbol)
      = (if symbol.count '.' < 2 ∧ (symbol.all fun c => c == '.' || isDecimalDigit c) = true
          then extractDouble strtod
            (if symbol.count '.' = 0 ∧ (symbol.all fun c => c == '.' || isDecimalDigit c) = true
              then [] else symbol)
          else none) := by
  by_cases hA : (symbol.all fun c => c == '.' || isDecimalDigit c) = true ∧ symbol.count '.' ≤ 1
  · -- digits and at most one period
    obtain ⟨hall, hcount⟩ := hA
    by_cases h0 : symbol.count '.' = 0
    · have hc := (contains_period symbol).mpr h0
      have hdig := digits_of_all symbol hall h0
      rw [if_pos hc, if_pos hc, if_pos ⟨h0, hall⟩, if_pos ⟨by omega, hall⟩, if_pos ⟨h0, hall⟩,
        afterLong_digits symbol hdig]
      exact ⟨rfl, by simp [Minscm.extractDouble, extractDouble]⟩
    · have h1 : symbol.count '.' = 1 := by omega
      have hc : ¬ symbol.contains '.' = false := fun h => h0 ((contains_period symbol).mp h)
      obtain ⟨ds1, ds2, hl, hd1, hd2⟩ := digits_period_digits symbol hall h1
      rw [if_neg hc, if_neg hc, if_neg (fun h => h0 h.1), if_pos ⟨by omega, hall⟩,
        if_neg (fun h => h0 h.1), hl]
      exact ⟨rfl, extractDouble_digits_period strtod ds1 ds2 hd1 hd2⟩
  · -- a token from which `minscm.cpp` takes no number
    have hfail : (symbol.contains '.' = true ∨ extractLong 10 symbol = none) ∧
        (Minscm.extractDouble (fun _ => 0)
          (if symbol.contains '.' = false then Minscm.afterLong symbol else symbol)).isNone
            = true := by
      simp only [Reader.sameToken, Bool.or_eq_true, Bool.and_eq_true, decide_eq_true_eq,
        Option.isNone_iff_eq_none] at hsame
      rcases hsame with h | h
      · exact absurd h hA
      · exact ⟨h.1, by rw [Option.isNone_iff_eq_none]; exact h.2⟩
    have hg1 : ¬ (symbol.count '.' = 0 ∧
        (symbol.all fun c => c == '.' || isDecimalDigit c) = true) :=
      fun h => hA ⟨h.2, by omega⟩
    have hg2 : ¬ (symbol.count '.' < 2 ∧
        (symbol.all fun c => c == '.' || isDecimalDigit c) = true) :=
      fun h => hA ⟨h.2, by omega⟩
    rw [if_neg hg1, if_neg hg2, extractDouble_isNone _ strtod _ hfail.2]
    refine ⟨?_, rfl⟩
    by_cases hc : symbol.contains '.' = false
    · rw [if_pos hc]
      rcases hfail.1 with h | h
      · rw [hc] at h; cases h
      · exact h
    · rw [if_neg hc]

theorem tokenChar_not_space (c : Char) (h : Reader.tokenChar c = true) : isspace c = false := by
  simp only [Reader.tokenChar, Bool.and_eq_true, Bool.not_eq_true'] at h
  exact h.2

/-- The two methods `readSymbolOrNumber` agree on a token that the two readers
take alike. -/
theorem token_agree (strtod : List Char → Nat) (init input : List Char) (s : Store)
    (hsame : Reader.sameToken (init ++ input.takeWhile Reader.tokenChar) = true) :
    Minscm.Reader.readSymbolOrNumber strtod init input s
      = Reader.readSymbolOrNumber strtod init input s := by
  obtain ⟨f1, f2⟩ := number_agree strtod _ hsame
  simp only [Minscm.Reader.readSymbolOrNumber, Reader.readSymbolOrNumber]
  rw [f1, f2]

/-! ### What `read` leaves of the input -/

theorem readSymbolOrNumber_rest (strtod : List Char → Nat) (init input : List Char)
    (s s1 : Store) (r : Obj × List Char)
    (h : Reader.readSymbolOrNumber strtod init input s = .ok r s1) : r.2 <:+ input := by
  revert h
  unfold Reader.readSymbolOrNumber
  dsimp only
  repeat' split
  all_goals intro h
  all_goals first
    | (cases h; exact List.tail_suffix _)
    | (cases h; exact List.dropWhile_suffix _)
    | (exact absurd h (by simp))

theorem readCharacter_rest (input : List Char) (s s1 : Store) (r : Obj × List Char)
    (h : Reader.readCharacter input s = .ok r s1) : r.2 <:+ input := by
  revert h
  unfold Reader.readCharacter
  dsimp only
  repeat' split
  all_goals intro h
  all_goals first
    | (cases h; exact List.suffix_cons _ _)
    | (cases h; exact (List.dropWhile_suffix _).trans (List.suffix_cons _ _))
    | (exact absurd h (by simp))

theorem readStringLoop_rest :
    ∀ (k : Nat) (body : List Char) (sb : List Int) (s s1 : Store) (r : Obj × List Char),
      body.length < k → Reader.readStringLoop body sb s = .ok r s1 → r.2 <:+ body := by
  intro k
  induction k with
  | zero => intro body sb s s1 r hlen; simp at hlen
  | succ k ih =>
    intro body sb s s1 r hlen h
    match body, hlen, h with
    | [], _, h => cases h
    | [c], _, h =>
      by_cases hc1 : c = Char.ofNat 34
      · rw [Reader.readStringLoop, if_pos hc1] at h
        cases h; exact List.suffix_cons _ _
      · by_cases hc2 : c = Char.ofNat 92
        · rw [Reader.readStringLoop, if_neg hc1, if_pos hc2] at h
          cases h
        · rw [Reader.readStringLoop, if_neg hc1, if_neg hc2, Reader.readStringLoop] at h
          cases h
    | c :: d :: ds, hlen, h =>
      by_cases hc1 : c = Char.ofNat 34
      · rw [Reader.readStringLoop, if_pos hc1] at h
        cases h; exact List.suffix_cons _ _
      · by_cases hc2 : c = Char.ofNat 92
        · rw [Reader.readStringLoop, if_neg hc1, if_pos hc2] at h
          exact (ih ds _ s s1 r (by simp at hlen; omega) h).trans
            ((List.suffix_cons _ _).trans (List.suffix_cons _ _))
        · rw [Reader.readStringLoop, if_neg hc1, if_neg hc2] at h
          exact (ih (d :: ds) _ s s1 r (by simp at hlen ⊢; omega) h).trans (List.suffix_cons _ _)

theorem readListLoop_rest (rd : Bool → List Char → Store → Res (Obj × List Char))
    (hrd : ∀ b inp s r s1, rd b inp s = .ok r s1 → r.2 <:+ inp) :
    ∀ (k : Nat) (ret cur : Obj) (inp : List Char) (s : Store) (r : Obj × List Char) (s1 : Store),
      Reader.readListLoop rd k ret cur inp s = .ok r s1 → r.2 <:+ inp := by
  intro k
  induction k with
  | zero => intro ret cur inp s r s1 h; cases h
  | succ k ih =>
    intro ret cur inp s r s1 h
    rw [Reader.readListLoop] at h
    cases hr : rd true inp s with
    | outOfFuel => rw [hr] at h; cases h
    | error e s2 => rw [hr] at h; cases h
    | ok r1 s2 =>
      rw [hr] at h
      simp only [Res.bind] at h
      have hp2 := hrd _ _ _ _ _ hr
      by_cases h1 : r1.1 = Reader.listEnd
      · rw [if_pos h1] at h
        cases h; exact hp2
      · rw [if_neg h1] at h
        by_cases h2 : r1.1 = Reader.dot
        · rw [if_pos h2] at h
          by_cases h3 : cur.getType = .otNull
          · rw [if_pos h3] at h; cases h
          · rw [if_neg h3] at h
            cases hr2 : rd true r1.2 s2 with
            | outOfFuel => rw [hr2] at h; cases h
            | error e s3 => rw [hr2] at h; cases h
            | ok r2 s3 =>
              rw [hr2] at h
              simp only [Res.bind] at h
              cases hr3 : rd true r2.2 (s3.setCdr cur r2.1) with
              | outOfFuel => rw [hr3] at h; cases h
              | error e s4 => rw [hr3] at h; cases h
              | ok r3 s4 =>
                rw [hr3] at h
                simp only [Res.bind] at h
                by_cases h4 : r3.1 ≠ Reader.listEnd
                · rw [if_pos h4] at h; cases h
                · rw [if_neg h4] at h; cases h
                  exact ((hrd _ _ _ _ _ hr3).trans (hrd _ _ _ _ _ hr2)).trans hp2
        · rw [if_neg h2] at h
          exact (ih _ _ _ _ r s1 h).trans hp2

theorem readVectorLoop_rest (rd : Bool → List Char → Store → Res (Obj × List Char))
    (hrd : ∀ b inp s r s1, rd b inp s = .ok r s1 → r.2 <:+ inp) :
    ∀ (k : Nat) (ret : List Obj) (inp : List Char) (s : Store) (r : Obj × List Char)
      (s1 : Store), Reader.readVectorLoop rd k ret inp s = .ok r s1 → r.2 <:+ inp := by
  intro k
  induction k with
  | zero => intro ret inp s r s1 h; cases h
  | succ k ih =>
    intro ret inp s r s1 h
    rw [Reader.readVectorLoop] at h
    cases hr : rd true inp s with
    | outOfFuel => rw [hr] at h; cases h
    | error e s2 => rw [hr] at h; cases h
    | ok r1 s2 =>
      rw [hr] at h
      simp only [Res.bind] at h
      have hp2 := hrd _ _ _ _ _ hr
      by_cases h1 : r1.1 = Reader.listEnd
      · rw [if_pos h1] at h
        cases h; exact hp2
      · rw [if_neg h1] at h
        by_cases h2 : r1.1 = Reader.dot
        · rw [if_pos h2] at h; cases h
        · rw [if_neg h2] at h
          exact (ih _ _ _ r s1 h).trans hp2

theorem bind_wrap_rest (name : String) (res : Res (Obj × List Char)) (inp : List Char)
    (hres : ∀ r s1, res = .ok r s1 → r.2 <:+ inp) (r1 : Obj × List Char) (s2 : Store)
    (h : res.bind (Reader.wrap name) = .ok r1 s2) : r1.2 <:+ inp := by
  cases res with
  | outOfFuel => cases h
  | error e s1 => cases h
  | ok r s1 =>
    have := hres r s1 rfl
    simp only [Res.bind, Reader.wrap] at h
    cases h
    exact this

/-- The input `read` leaves is an end of the input it was given. -/
theorem read_rest_suffix (strtod : List Char → Nat) :
    ∀ (n : Nat) (b : Bool) (inp : List Char) (s : Store) (r : Obj × List Char) (s1 : Store),
      Reader.read strtod n b inp s = .ok r s1 → r.2 <:+ inp := by
  intro n
  induction n with
  | zero => intro b inp s r s1 h; cases h
  | succ n ih =>
    intro b inp s r s1 h
    rw [Reader.read, Reader.readStep] at h
    have hws : Reader.skipWhitespace inp <:+ inp := List.dropWhile_suffix _
    split at h
    · split at h
      · cases h
      · cases h; exact List.nil_suffix
    · rename_i c cs heq
      rw [heq] at hws
      have hcs : cs <:+ inp := (List.suffix_cons c cs).trans hws
      split at h
      · exact ((ih _ _ _ _ _ h).trans (List.dropWhile_suffix _)).trans hws
      split at h
      · exact bind_wrap_rest _ _ inp (fun r s1 hr => (ih _ _ _ _ _ hr).trans hcs) _ _ h
      split at h
      · exact bind_wrap_rest _ _ inp (fun r s1 hr => (ih _ _ _ _ _ hr).trans hcs) _ _ h
      split at h
      · exact bind_wrap_rest _ _ inp (fun r s1 hr => (ih _ _ _ _ _ hr).trans hcs) _ _ h
      split at h
      · exact (readListLoop_rest _ ih n _ _ _ _ _ _ h).trans hcs
      split at h
      · exact (readStringLoop_rest (cs.length + 1) cs [] s s1 r (by omega) h).trans hcs
      split at h
      · unfold Reader.readSpecial at h
        split at h
        · cases h
        · rename_i d ds heq2
          have hds : ds <:+ inp := by
            have : (c :: cs).tail = d :: ds := heq2
            simp only [List.tail_cons] at this
            rw [this] at hcs
            exact (List.suffix_cons d ds).trans hcs
          have hdds : d :: ds <:+ inp := by
            have : (c :: cs).tail = d :: ds := heq2
            simp only [List.tail_cons] at this
            rw [this] at hcs
            exact hcs
          split at h
          · exact (readVectorLoop_rest _ ih n _ _ _ _ _ h).trans hds
          · split at h
            · exact (readSymbolOrNumber_rest _ _ _ _ _ _ h).trans hdds
            · exact (readCharacter_rest _ _ _ _ h).trans hds
      · exact (readSymbolOrNumber_rest _ _ _ _ _ _ h).trans hws

/-! ### The scan and what `read` leaves -/

theorem scan_token_cons (c : Char) (cs : List Char) :
    Reader.scan .token (c :: cs)
      = if Reader.tokenChar c then Reader.scan .token cs else Reader.scan .start cs := rfl

theorem scan_comment_cons (c : Char) (cs : List Char) :
    Reader.scan .comment (c :: cs)
      = if c = Char.ofNat 10 then Reader.scan .start cs else Reader.scan .comment cs := rfl

theorem scan_string_cons (c : Char) (cs : List Char) :
    Reader.scan .string (c :: cs)
      = if c = Char.ofNat 34 then Reader.scan .start cs
        else if c = Char.ofNat 92 then Reader.scan .escape cs
        else Reader.scan .string cs := rfl

theorem scan_escape_cons (c : Char) (cs : List Char) :
    Reader.scan .escape (c :: cs) = Reader.scan .string cs := rfl

theorem scan_sharp_cons (c : Char) (cs : List Char) :
    Reader.scan .sharp (c :: cs)
      = if c = '(' then Reader.scan .start cs
        else if c = Char.ofNat 92 then Reader.scan .sharpBackslash cs
        else if Reader.tokenChar c then Reader.scan .token cs
        else Reader.scan .start cs := rfl

theorem scan_sharpBackslash_cons (c : Char) (cs : List Char) :
    Reader.scan .sharpBackslash (c :: cs)
      = if isalpha c then Reader.scan .token cs else Reader.scan .start cs := rfl

theorem scan_start_space (c : Char) (cs : List Char) (h : isspace c = true) :
    Reader.scan .start (c :: cs) = Reader.scan .start cs := by
  rw [Reader.scan, if_pos h]

theorem scan_start_semicolon (cs : List Char) :
    Reader.scan .start (';' :: cs) = Reader.scan .comment cs := by
  rw [Reader.scan, if_neg (by decide), if_pos rfl]

theorem scan_start_simple (c : Char) (cs : List Char)
    (h : c = Char.ofNat 39 ∨ c = '(' ∨ c = ')') :
    Reader.scan .start (c :: cs) = Reader.scan .start cs := by
  have hsp : ¬ isspace c = true := by
    rcases h with h | h | h <;> subst h <;> decide
  have hsemi : ¬ c = ';' := by
    rcases h with h | h | h <;> subst h <;> decide
  rw [Reader.scan, if_neg hsp, if_neg hsemi, if_pos h]

theorem scan_start_string (cs : List Char) :
    Reader.scan .start (Char.ofNat 34 :: cs) = Reader.scan .string cs := by
  rw [Reader.scan, if_neg (by decide), if_neg (by decide), if_neg (by decide), if_pos rfl]

theorem scan_start_sharp (cs : List Char) :
    Reader.scan .start ('#' :: cs) = Reader.scan .sharp cs := by
  rw [Reader.scan, if_neg (by decide), if_neg (by decide), if_neg (by decide),
    if_neg (by decide), if_pos rfl]

theorem scan_start_token (c : Char) (cs : List Char) (hsp : isspace c = false)
    (h1 : c ≠ ';') (h2 : c ≠ Char.ofNat 39) (h3 : c ≠ '(') (h4 : c ≠ ')')
    (h5 : c ≠ Char.ofNat 34) (h6 : c ≠ '#') :
    Reader.scan .start (c :: cs)
      = (Reader.sameToken ((c :: cs).takeWhile Reader.tokenChar) && Reader.scan .token cs) := by
  have hs : ¬ isspace c = true := by rw [hsp]; decide
  have hq : ¬ (c = Char.ofNat 39 ∨ c = '(' ∨ c = ')') := by
    rintro (h | h | h)
    · exact h2 h
    · exact h3 h
    · exact h4 h
  rw [Reader.scan, if_neg hs, if_neg h1, if_neg hq, if_neg h5, if_neg h6]

theorem not_tokenChar (c : Char) (h : ¬ Reader.tokenChar c = true) :
    isspace c = true ∨ c = ')' := by
  by_cases hs : isspace c = true
  · exact Or.inl hs
  · right
    by_contra hc
    apply h
    simp [Reader.tokenChar, hc, hs]

theorem scan_start_delimiter (c : Char) (cs : List Char) (h : ¬ Reader.tokenChar c = true) :
    Reader.scan .start (c :: cs) = Reader.scan .start cs := by
  rcases not_tokenChar c h with hs | hc
  · exact scan_start_space c cs hs
  · exact scan_start_simple c cs (Or.inr (Or.inr hc))

/-- The scan of a token goes on behind the token. -/
theorem scan_token (cs : List Char) :
    Reader.scan .token cs = Reader.scan .start (cs.dropWhile Reader.tokenChar) := by
  induction cs with
  | nil => rfl
  | cons c cs ih =>
    by_cases hc : Reader.tokenChar c = true
    · rw [scan_token_cons, if_pos hc, List.dropWhile_cons_of_pos hc, ih]
    · rw [scan_token_cons, if_neg hc, List.dropWhile_cons_of_neg hc,
        scan_start_delimiter c cs hc]

/-- The scan of a comment goes on at the end of the line. -/
theorem scan_comment (cs : List Char) :
    Reader.scan .comment cs
      = Reader.scan .start (cs.dropWhile fun c => c != Char.ofNat 10) := by
  induction cs with
  | nil => rfl
  | cons c cs ih =>
    simp only [List.dropWhile_cons]
    by_cases hc : c = Char.ofNat 10
    · have hn : ¬ (c != Char.ofNat 10) = true := by simp [hc]
      rw [scan_comment_cons, if_pos hc, if_neg hn]
      subst hc
      rw [scan_start_space _ cs (by decide)]
    · have hn : (c != Char.ofNat 10) = true := by simp [hc]
      rw [scan_comment_cons, if_neg hc, if_pos hn, ih]

theorem scan_space (inp : List Char) :
    Reader.scan .start inp = Reader.scan .start (Reader.skipWhitespace inp) := by
  unfold Reader.skipWhitespace
  induction inp with
  | nil => rfl
  | cons c cs ih =>
    by_cases hc : isspace c = true
    · rw [scan_start_space c cs hc, List.dropWhile_cons_of_pos hc, ih]
    · rw [List.dropWhile_cons_of_neg hc]

theorem skipWhitespace_head (inp : List Char) (c : Char) (cs : List Char)
    (h : Reader.skipWhitespace inp = c :: cs) : isspace c = false := by
  unfold Reader.skipWhitespace at h
  induction inp with
  | nil => cases h
  | cons x xs ih =>
    by_cases hx : isspace x = true
    · rw [List.dropWhile_cons_of_pos hx] at h
      exact ih h
    · rw [List.dropWhile_cons_of_neg hx] at h
      cases h
      simpa using hx

/-- The scan of a string goes on behind the quote that `readString` takes as
its end. -/
theorem scan_string :
    ∀ (k : Nat) (body : List Char) (sb : List Int) (s s1 : Store) (r : Obj × List Char),
      body.length < k → Reader.readStringLoop body sb s = .ok r s1 →
      Reader.scan .string body = Reader.scan .start r.2 := by
  intro k
  induction k with
  | zero => intro body sb s s1 r hlen; simp at hlen
  | succ k ih =>
    intro body sb s s1 r hlen h
    match body, hlen, h with
    | [], _, h => cases h
    | [c], _, h =>
      by_cases hc1 : c = Char.ofNat 34
      · rw [Reader.readStringLoop, if_pos hc1] at h
        cases h
        rw [scan_string_cons, if_pos hc1]
      · by_cases hc2 : c = Char.ofNat 92
        · rw [Reader.readStringLoop, if_neg hc1, if_pos hc2] at h
          cases h
        · rw [Reader.readStringLoop, if_neg hc1, if_neg hc2, Reader.readStringLoop] at h
          cases h
    | c :: d :: ds, hlen, h =>
      by_cases hc1 : c = Char.ofNat 34
      · rw [Reader.readStringLoop, if_pos hc1] at h
        cases h
        rw [scan_string_cons, if_pos hc1]
      · by_cases hc2 : c = Char.ofNat 92
        · rw [Reader.readStringLoop, if_neg hc1, if_pos hc2] at h
          rw [scan_string_cons, if_neg hc1, if_pos hc2, scan_escape_cons]
          exact ih ds _ s s1 r (by simp at hlen; omega) h
        · rw [Reader.readStringLoop, if_neg hc1, if_neg hc2] at h
          rw [scan_string_cons, if_neg hc1, if_neg hc2]
          exact ih (d :: ds) _ s s1 r (by simp at hlen ⊢; omega) h

/-- The scan of a character goes on behind what `readCharacter` takes. -/
theorem scan_character (input : List Char) (s s1 : Store) (r : Obj × List Char)
    (h : Reader.readCharacter input s = .ok r s1) :
    Reader.scan .sharpBackslash input = Reader.scan .start r.2 := by
  cases input with
  | nil => cases h
  | cons c cs =>
    by_cases hc : isalpha c = true
    · have hrest : r.2 = cs.dropWhile Reader.tokenChar := by
        revert h
        unfold Reader.readCharacter
        simp only [hc, Bool.not_true, Bool.false_eq_true, if_false]
        repeat' split
        all_goals intro h
        all_goals first
          | (cases h; rfl)
          | (exact absurd h (by simp))
      rw [scan_sharpBackslash_cons, if_pos hc, hrest, scan_token]
    · have hrest : r.2 = cs := by
        revert h
        unfold Reader.readCharacter
        simp only [hc, Bool.not_false, if_true]
        intro h
        cases h
        rfl
      rw [scan_sharpBackslash_cons, if_neg hc, hrest]

/-- What `readSymbolOrNumber` leaves of the input: all but a closing
parenthesis that it takes as the end of a list, or what is behind the token. -/
theorem readSymbolOrNumber_left (strtod : List Char → Nat) (init input : List Char)
    (s s1 : Store) (r : Obj × List Char)
    (h : Reader.readSymbolOrNumber strtod init input s = .ok r s1) :
    (init = [] ∧ input.head? = some ')' ∧ r.2 = input.tail) ∨
      r.2 = input.dropWhile Reader.tokenChar := by
  revert h
  unfold Reader.readSymbolOrNumber
  dsimp only
  split
  · intro h; cases h
  · split
    · rename_i hp
      intro h
      cases h
      exact Or.inl ⟨hp.1, hp.2, rfl⟩
    · repeat' split
      all_goals intro h
      all_goals (cases h; exact Or.inr rfl)

/-! ### The agreement of the two readers -/

theorem sameTokens_iff (t : List Char) :
    Reader.sameTokens t = true ↔
      Reader.scan .start t = true ∧ ∀ c ∈ t, c ≠ Char.ofNat 96 ∧ c ≠ ',' := by
  simp only [Reader.sameTokens, Bool.and_eq_true, List.all_eq_true, Bool.not_eq_true',
    Bool.or_eq_false_iff, beq_eq_false_iff_ne, ne_eq]

/-- The ends of a text whose tokens the two readers take alike at which the
scan stands before a datum are such texts. -/
theorem sameTokens_of (t inp : List Char) (hsuf : t <:+ inp)
    (hscan : Reader.scan .start inp = true → Reader.scan .start t = true)
    (h : Reader.sameTokens inp = true) : Reader.sameTokens t = true := by
  rw [sameTokens_iff] at h ⊢
  exact ⟨hscan h.1, fun c hc => h.2 c (hsuf.subset hc)⟩

theorem sameTokens_head (c : Char) (cs : List Char) (h : Reader.sameTokens (c :: cs) = true) :
    c ≠ Char.ofNat 96 ∧ c ≠ ',' :=
  ((sameTokens_iff _).mp h).2 c (by simp)

theorem sameTokens_space (inp : List Char) (h : Reader.sameTokens inp = true) :
    Reader.sameTokens (Reader.skipWhitespace inp) = true :=
  sameTokens_of _ inp (List.dropWhile_suffix _) (fun hs => by rw [← scan_space]; exact hs) h

theorem sameTokens_simple (c : Char) (cs : List Char)
    (hc : c = Char.ofNat 39 ∨ c = '(' ∨ c = ')') (h : Reader.sameTokens (c :: cs) = true) :
    Reader.sameTokens cs = true :=
  sameTokens_of cs _ (List.suffix_cons c cs)
    (fun hs => by rw [scan_start_simple c cs hc] at hs; exact hs) h

theorem sameTokens_comment (cs : List Char) (h : Reader.sameTokens (';' :: cs) = true) :
    Reader.sameTokens (Reader.skipComment (';' :: cs)) = true := by
  refine sameTokens_of _ _ (List.dropWhile_suffix _) (fun hs => ?_) h
  have hn : (';' != Char.ofNat 10) = true := by decide
  rw [scan_start_semicolon, scan_comment] at hs
  unfold Reader.skipComment
  simp only [List.dropWhile_cons]
  rw [if_pos hn]
  exact hs

theorem sameTokens_string (cs : List Char) (sb : List Int) (s s1 : Store)
    (r : Obj × List Char) (hr : Reader.readStringLoop cs sb s = .ok r s1)
    (h : Reader.sameTokens (Char.ofNat 34 :: cs) = true) : Reader.sameTokens r.2 = true := by
  refine sameTokens_of _ _
    ((readStringLoop_rest (cs.length + 1) cs sb s s1 r (by omega) hr).trans
      (List.suffix_cons _ _)) (fun hs => ?_) h
  rw [scan_start_string, scan_string (cs.length + 1) cs sb s s1 r (by omega) hr] at hs
  exact hs

theorem sameTokens_vector (ds : List Char) (h : Reader.sameTokens ('#' :: '(' :: ds) = true) :
    Reader.sameTokens ds = true := by
  refine sameTokens_of _ _ ((List.suffix_cons _ _).trans (List.suffix_cons _ _)) (fun hs => ?_) h
  rw [scan_start_sharp, scan_sharp_cons, if_pos rfl] at hs
  exact hs

theorem sameTokens_sharp_token (d : Char) (ds : List Char) (h1 : d ≠ '(')
    (h2 : d ≠ Char.ofNat 92) (h : Reader.sameTokens ('#' :: d :: ds) = true) :
    Reader.sameTokens ((d :: ds).dropWhile Reader.tokenChar) = true := by
  refine sameTokens_of _ _ ((List.dropWhile_suffix _).trans (List.suffix_cons _ _))
    (fun hs => ?_) h
  rw [scan_start_sharp, scan_sharp_cons, if_neg h1, if_neg h2] at hs
  by_cases hd : Reader.tokenChar d = true
  · rw [if_pos hd, scan_token] at hs
    rw [List.dropWhile_cons_of_pos hd]
    exact hs
  · rw [if_neg hd] at hs
    rw [List.dropWhile_cons_of_neg hd, scan_start_delimiter d ds hd]
    exact hs

theorem sameTokens_character (ds : List Char) (s s1 : Store) (r : Obj × List Char)
    (hr : Reader.readCharacter ds s = .ok r s1)
    (h : Reader.sameTokens ('#' :: Char.ofNat 92 :: ds) = true) :
    Reader.sameTokens r.2 = true := by
  refine sameTokens_of _ _
    ((readCharacter_rest ds s s1 r hr).trans
      ((List.suffix_cons _ _).trans (List.suffix_cons _ _))) (fun hs => ?_) h
  rw [scan_start_sharp, scan_sharp_cons, if_neg (by decide), if_pos rfl,
    scan_character ds s s1 r hr] at hs
  exact hs

/-- Before a token the scan asks that the token be one that the two readers
take alike, and goes on behind it. -/
theorem sameTokens_token (c : Char) (cs : List Char) (hsp : isspace c = false)
    (h1 : c ≠ ';') (h2 : c ≠ Char.ofNat 39) (h3 : c ≠ '(')
    (h5 : c ≠ Char.ofNat 34) (h6 : c ≠ '#') (h : Reader.sameTokens (c :: cs) = true) :
    Reader.sameToken ((c :: cs).takeWhile Reader.tokenChar) = true ∧
      Reader.sameTokens ((c :: cs).dropWhile Reader.tokenChar) = true := by
  by_cases hc : Reader.tokenChar c = true
  · have h4 : c ≠ ')' := by
      intro h4
      subst h4
      exact absurd hc (by decide)
    have hs := ((sameTokens_iff _).mp h).1
    rw [scan_start_token c cs hsp h1 h2 h3 h4 h5 h6, Bool.and_eq_true, scan_token] at hs
    refine ⟨hs.1, sameTokens_of _ _ (List.dropWhile_suffix _) (fun _ => ?_) h⟩
    rw [List.dropWhile_cons_of_pos hc]
    exact hs.2
  · rw [List.takeWhile_cons_of_neg hc, List.dropWhile_cons_of_neg hc]
    exact ⟨by decide, h⟩

theorem readListLoop_left (P : List Char → Prop)
    (rd : Bool → List Char → Store → Res (Obj × List Char))
    (hrd : ∀ b inp s r s1, rd b inp s = .ok r s1 → P inp → P r.2) :
    ∀ (k : Nat) (ret cur : Obj) (inp : List Char) (s : Store) (r : Obj × List Char) (s1 : Store),
      Reader.readListLoop rd k ret cur inp s = .ok r s1 → P inp → P r.2 := by
  intro k
  induction k with
  | zero => intro ret cur inp s r s1 h; cases h
  | succ k ih =>
    intro ret cur inp s r s1 h hP
    rw [Reader.readListLoop] at h
    cases hr : rd true inp s with
    | outOfFuel => rw [hr] at h; cases h
    | error e s2 => rw [hr] at h; cases h
    | ok r1 s2 =>
      rw [hr] at h
      simp only [Res.bind] at h
      have hp2 := hrd _ _ _ _ _ hr hP
      by_cases h1 : r1.1 = Reader.listEnd
      · rw [if_pos h1] at h
        cases h; exact hp2
      · rw [if_neg h1] at h
        by_cases h2 : r1.1 = Reader.dot
        · rw [if_pos h2] at h
          by_cases h3 : cur.getType = .otNull
          · rw [if_pos h3] at h; cases h
          · rw [if_neg h3] at h
            cases hr2 : rd true r1.2 s2 with
            | outOfFuel => rw [hr2] at h; cases h
            | error e s3 => rw [hr2] at h; cases h
            | ok r2 s3 =>
              rw [hr2] at h
              simp only [Res.bind] at h
              cases hr3 : rd true r2.2 (s3.setCdr cur r2.1) with
              | outOfFuel => rw [hr3] at h; cases h
              | error e s4 => rw [hr3] at h; cases h
              | ok r3 s4 =>
                rw [hr3] at h
                simp only [Res.bind] at h
                by_cases h4 : r3.1 ≠ Reader.listEnd
                · rw [if_pos h4] at h; cases h
                · rw [if_neg h4] at h; cases h
                  exact hrd true r2.2 _ r3 _ hr3 (hrd _ _ _ _ _ hr2 hp2)
        · rw [if_neg h2] at h
          exact ih _ _ _ _ r s1 h hp2

theorem readVectorLoop_left (P : List Char → Prop)
    (rd : Bool → List Char → Store → Res (Obj × List Char))
    (hrd : ∀ b inp s r s1, rd b inp s = .ok r s1 → P inp → P r.2) :
    ∀ (k : Nat) (ret : List Obj) (inp : List Char) (s : Store) (r : Obj × List Char)
      (s1 : Store), Reader.readVectorLoop rd k ret inp s = .ok r s1 → P inp → P r.2 := by
  intro k
  induction k with
  | zero => intro ret inp s r s1 h; cases h
  | succ k ih =>
    intro ret inp s r s1 h hP
    rw [Reader.readVectorLoop] at h
    cases hr : rd true inp s with
    | outOfFuel => rw [hr] at h; cases h
    | error e s2 => rw [hr] at h; cases h
    | ok r1 s2 =>
      rw [hr] at h
      simp only [Res.bind] at h
      have hp2 := hrd _ _ _ _ _ hr hP
      by_cases h1 : r1.1 = Reader.listEnd
      · rw [if_pos h1] at h
        cases h; exact hp2
      · rw [if_neg h1] at h
        by_cases h2 : r1.1 = Reader.dot
        · rw [if_pos h2] at h; cases h
        · rw [if_neg h2] at h
          exact ih _ _ _ r s1 h hp2

theorem bind_wrap_left (P : List Char → Prop) (name : String) (res : Res (Obj × List Char))
    (hres : ∀ r s1, res = .ok r s1 → P r.2) (r1 : Obj × List Char) (s2 : Store)
    (h : res.bind (Reader.wrap name) = .ok r1 s2) : P r1.2 := by
  cases res with
  | outOfFuel => cases h
  | error e s1 => cases h
  | ok r s1 =>
    have := hres r s1 rfl
    simp only [Res.bind, Reader.wrap] at h
    cases h
    exact this

/-- After a `read` that returns, the scan stands before a datum again: what
`read` leaves of a text whose tokens the two readers take alike is such a
text. -/
theorem read_sameTokens (strtod : List Char → Nat) :
    ∀ (n : Nat) (b : Bool) (inp : List Char) (s : Store) (r : Obj × List Char) (s1 : Store),
      Reader.read strtod n b inp s = .ok r s1 → Reader.sameTokens inp = true →
      Reader.sameTokens r.2 = true := by
  intro n
  induction n with
  | zero => intro b inp s r s1 h; cases h
  | succ n ih =>
    intro b inp s r s1 h hP
    rw [Reader.read, Reader.readStep] at h
    have hws := sameTokens_space inp hP
    cases heq : Reader.skipWhitespace inp with
    | nil =>
      rw [heq] at h
      dsimp only at h
      split at h
      · cases h
      · cases h; rfl
    | cons c cs =>
      rw [heq] at h hws
      dsimp only at h
      have hsp := skipWhitespace_head inp c cs heq
      obtain ⟨hq, hcomma⟩ := sameTokens_head c cs hws
      rw [if_neg hq, if_neg hcomma] at h
      by_cases h1 : c = ';'
      · rw [if_pos h1] at h
        subst h1
        exact ih _ _ _ _ _ h (sameTokens_comment cs hws)
      rw [if_neg h1] at h
      by_cases h2 : c = Char.ofNat 39
      · rw [if_pos h2] at h
        exact bind_wrap_left (fun t => Reader.sameTokens t = true) _ _
          (fun r s1 hr => ih _ _ _ _ _ hr (sameTokens_simple c cs (Or.inl h2) hws)) _ _ h
      rw [if_neg h2] at h
      by_cases h3 : c = '('
      · rw [if_pos h3] at h
        exact readListLoop_left (fun t => Reader.sameTokens t = true) _
          (fun b inp s r s1 => ih b inp s r s1) n _ _ _ _ _ _ h
          (sameTokens_simple c cs (Or.inr (Or.inl h3)) hws)
      rw [if_neg h3] at h
      by_cases h4 : c = Char.ofNat 34
      · rw [if_pos h4] at h
        subst h4
        exact sameTokens_string cs [] s s1 r h hws
      rw [if_neg h4] at h
      by_cases h5 : c = '#'
      · rw [if_pos h5] at h
        subst h5
        unfold Reader.readSpecial at h
        rw [List.tail_cons] at h
        cases cs with
        | nil => cases h
        | cons d ds =>
          dsimp only at h
          by_cases h6 : d = '('
          · rw [if_pos h6] at h
            subst h6
            exact readVectorLoop_left (fun t => Reader.sameTokens t = true) _
              (fun b inp s r s1 => ih b inp s r s1) n _ _ _ _ _ h
              (sameTokens_vector ds hws)
          rw [if_neg h6] at h
          by_cases h7 : d ≠ Char.ofNat 92
          · rw [if_pos h7] at h
            rcases readSymbolOrNumber_left _ _ _ _ _ _ h with ⟨hinit, _, _⟩ | hrest
            · cases hinit
            · rw [hrest]
              exact sameTokens_sharp_token d ds h6 h7 hws
          · rw [if_neg h7] at h
            have h8 : d = Char.ofNat 92 := by
              by_contra hcon
              exact h7 hcon
            subst h8
            exact sameTokens_character ds s s1 r h hws
      rw [if_neg h5] at h
      rcases readSymbolOrNumber_left _ _ _ _ _ _ h with ⟨_, hhead, hrest⟩ | hrest
      · rw [hrest, List.tail_cons]
        simp only [List.head?_cons, Option.some.injEq] at hhead
        exact sameTokens_simple c cs (Or.inr (Or.inr hhead)) hws
      · rw [hrest]
        exact (sameTokens_token c cs hsp h1 h2 h3 h4 h5 hws).2

theorem readListLoop_agree (rd1 rd2 : Bool → List Char → Store → Res (Obj × List Char))
    (hagree : ∀ b inp s, Reader.sameTokens inp = true → rd1 b inp s = rd2 b inp s)
    (hrd : ∀ b inp s r s1, rd2 b inp s = .ok r s1 → Reader.sameTokens inp = true →
      Reader.sameTokens r.2 = true) :
    ∀ (k : Nat) (ret cur : Obj) (inp : List Char) (s : Store),
      Reader.sameTokens inp = true →
      Reader.readListLoop rd1 k ret cur inp s = Reader.readListLoop rd2 k ret cur inp s := by
  intro k
  induction k with
  | zero => intro ret cur inp s _; rfl
  | succ k ih =>
    intro ret cur inp s h
    rw [Reader.readListLoop, Reader.readListLoop, hagree true inp s h]
    cases hr : rd2 true inp s with
    | outOfFuel => rfl
    | error e s2 => rfl
    | ok r1 s2 =>
      have h1 := hrd _ _ _ _ _ hr h
      simp only [Res.bind]
      rw [hagree true r1.2 s2 h1, ih _ _ r1.2 _ h1]
      cases hr2 : rd2 true r1.2 s2 with
      | outOfFuel => rfl
      | error e s3 => rfl
      | ok r2 s3 =>
        have h2 := hrd _ _ _ _ _ hr2 h1
        simp only [Res.bind]
        rw [hagree true r2.2 _ h2]

theorem readVectorLoop_agree (rd1 rd2 : Bool → List Char → Store → Res (Obj × List Char))
    (hagree : ∀ b inp s, Reader.sameTokens inp = true → rd1 b inp s = rd2 b inp s)
    (hrd : ∀ b inp s r s1, rd2 b inp s = .ok r s1 → Reader.sameTokens inp = true →
      Reader.sameTokens r.2 = true) :
    ∀ (k : Nat) (ret : List Obj) (inp : List Char) (s : Store),
      Reader.sameTokens inp = true →
      Reader.readVectorLoop rd1 k ret inp s = Reader.readVectorLoop rd2 k ret inp s := by
  intro k
  induction k with
  | zero => intro ret inp s _; rfl
  | succ k ih =>
    intro ret inp s h
    rw [Reader.readVectorLoop, Reader.readVectorLoop, hagree true inp s h]
    cases hr : rd2 true inp s with
    | outOfFuel => rfl
    | error e s2 => rfl
    | ok r1 s2 =>
      have h1 := hrd _ _ _ _ _ hr h
      simp only [Res.bind]
      rw [ih _ r1.2 _ h1]

/-- A token behind a `#` is one that the two readers take alike. -/
theorem sameToken_sharp (cs : List Char) (hsp : ∀ c ∈ cs, isspace c = false) :
    Reader.sameToken ('#' :: cs) = true := by
  apply sameToken_of_shape
  · intro c hc
    rcases List.mem_cons.mp hc with h | h
    · subst h; decide
    · exact hsp c h
  · exact Or.inr ⟨'#', cs, rfl, by decide⟩

theorem sameToken_iff (symbol : List Char) :
    Reader.sameToken symbol = true ↔
      ((symbol.all fun c => c == '.' || isDecimalDigit c) = true ∧ symbol.count '.' ≤ 1) ∨
      ((symbol.contains '.' = true ∨ extractLong 10 symbol = none) ∧
        Minscm.extractDouble (fun _ => 0)
          (if symbol.contains '.' = false then Minscm.afterLong symbol else symbol) = none) := by
  simp only [Reader.sameToken, Bool.or_eq_true, Bool.and_eq_true, decide_eq_true_eq,
    Option.isNone_iff_eq_none]

/-- On every other token the two methods `readSymbolOrNumber` differ: that of
`minscm.cpp` returns a number and that of `bootstrap.cpp` the Symbol. -/
theorem token_differ (strtod : List Char → Nat) (init input : List Char) (s : Store)
    (hinit : ∀ c ∈ init, isspace c = false)
    (hsame : Reader.sameToken (init ++ input.takeWhile Reader.tokenChar) = false) :
    (∃ o, Minscm.Reader.readSymbolOrNumber strtod init input s
        = .ok (o, input.dropWhile Reader.tokenChar) s ∧
      (o.getType = .otFixnum ∨ o.getType = .otFlonum)) ∧
    Reader.readSymbolOrNumber strtod init input s
      = .ok (.symbol (String.mk (init ++ input.takeWhile Reader.tokenChar)),
          input.dropWhile Reader.tokenChar) s := by
  have hsp : ∀ c ∈ init ++ input.takeWhile Reader.tokenChar, isspace c = false := by
    intro c hc
    rcases List.mem_append.mp hc with h | h
    · exact hinit c h
    · exact tokenChar_not_space c (List.mem_takeWhile_imp h)
  have hn : ¬ Reader.sameToken (init ++ input.takeWhile Reader.tokenChar) = true := by
    rw [hsame]; decide
  have hne : ∀ l : List Char, Reader.sameToken l = true →
      init ++ input.takeWhile Reader.tokenChar ≠ l := by
    intro l hl heq
    rw [heq] at hn
    exact hn hl
  have h1 : ¬ (init = [] ∧ input = []) := by
    rintro ⟨hi, hh⟩
    exact hne [] (by decide) (by rw [hi, hh]; rfl)
  have h2 : ¬ (init = [] ∧ input.head? = some ')') := by
    rintro ⟨hi, hh⟩
    refine hne [] (by decide) ?_
    cases input with
    | nil => cases hh
    | cons c cs =>
      simp only [List.head?_cons, Option.some.injEq] at hh
      rw [hi, hh]
      rfl
  have h3 := hne ['#', 't'] (by decide)
  have h4 := hne ['#', 'f'] (by decide)
  have h5 : ¬ (init ++ input.takeWhile Reader.tokenChar).take 2 = ['#', 'x'] := by
    intro h5
    cases hsym : init ++ input.takeWhile Reader.tokenChar with
    | nil => rw [hsym] at h5; cases h5
    | cons c cs =>
      rw [hsym] at h5 hn hsp
      have hc : c = '#' := by
        cases cs with
        | nil => cases h5
        | cons d ds =>
          simp only [List.take_succ_cons, List.take_zero, List.cons.injEq] at h5
          exact h5.1
      subst hc
      exact hn (sameToken_sharp cs fun x hx => hsp x (List.mem_cons_of_mem _ hx))
  rw [sameToken_iff] at hn
  have hA : ¬ (((init ++ input.takeWhile Reader.tokenChar).all
      fun c => c == '.' || isDecimalDigit c) = true ∧
      (init ++ input.takeWhile Reader.tokenChar).count '.' ≤ 1) :=
    fun hA => hn (Or.inl hA)
  have hg1 : ¬ ((init ++ input.takeWhile Reader.tokenChar).count '.' = 0 ∧
      ((init ++ input.takeWhile Reader.tokenChar).all
        fun c => c == '.' || isDecimalDigit c) = true) :=
    fun h => hA ⟨h.2, by omega⟩
  have hg2 : ¬ ((init ++ input.takeWhile Reader.tokenChar).count '.' < 2 ∧
      ((init ++ input.takeWhile Reader.tokenChar).all
        fun c => c == '.' || isDecimalDigit c) = true) :=
    fun h => hA ⟨h.2, by omega⟩
  constructor
  · simp only [Minscm.Reader.readSymbolOrNumber, if_neg h1, if_neg h2, if_neg h3, if_neg h4]
    by_cases hc : (init ++ input.takeWhile Reader.tokenChar).contains '.' = false
    · rw [if_pos hc, if_pos hc]
      cases hl : extractLong 10 (init ++ input.takeWhile Reader.tokenChar) with
      | some v => exact ⟨_, rfl, Or.inl rfl⟩
      | none =>
        cases hd : Minscm.extractDouble strtod
            (Minscm.afterLong (init ++ input.takeWhile Reader.tokenChar)) with
        | some d => exact ⟨_, rfl, Or.inr rfl⟩
        | none =>
          exfalso
          have hz := extractDouble_isNone strtod (fun _ => 0) _
            (by rw [hd]; rfl : (Minscm.extractDouble strtod (Minscm.afterLong
              (init ++ input.takeWhile Reader.tokenChar))).isNone = true)
          refine hn (Or.inr ⟨Or.inr hl, ?_⟩)
          rw [if_pos hc]
          exact hz
    · rw [if_neg hc, if_neg hc]
      cases hd : Minscm.extractDouble strtod (init ++ input.takeWhile Reader.tokenChar) with
      | some d => exact ⟨_, rfl, Or.inr rfl⟩
      | none =>
        exfalso
        have hz := extractDouble_isNone strtod (fun _ => 0) _
          (by rw [hd]; rfl : (Minscm.extractDouble strtod
            (init ++ input.takeWhile Reader.tokenChar)).isNone = true)
        have hc2 : (init ++ input.takeWhile Reader.tokenChar).contains '.' = true := by
          cases hb : (init ++ input.takeWhile Reader.tokenChar).contains '.' with
          | true => rfl
          | false => exact absurd hb hc
        refine hn (Or.inr ⟨Or.inl hc2, ?_⟩)
        rw [if_neg hc]
        exact hz
  · simp only [Reader.readSymbolOrNumber, if_neg h1, if_neg h2, if_neg h3, if_neg h4,
      if_neg hg1, if_neg hg2, if_neg h5]

/-- C38 (as amended). Take an input text that has neither a backquote nor a
comma and in which every token, the text being split as `read` splits it
(strings, comments and characters are no tokens), is made of digits and at
most one period, or is one from which the stream extractions of `minscm.cpp`
take no number.  Then `read` of `minscm.cpp` and `read` of `bootstrap.cpp`
have the same outcome: the same failure, or the same value and the same input
left, in the same store; and the input left is such a text again, so that the
reads that follow agree as well. -/
theorem readers_agree_on_common_tokens (strtod : List Char → Nat) (n : Nat) (b : Bool)
    (text : List Char) (s : Store) (h : Reader.sameTokens text = true) :
    Minscm.Reader.read strtod n b text s = Reader.read strtod n b text s ∧
    ∀ r s1, Reader.read strtod n b text s = .ok r s1 → Reader.sameTokens r.2 = true := by
  refine ⟨?_, fun r s1 hr => read_sameTokens strtod n b text s r s1 hr h⟩
  induction n generalizing b text s with
  | zero => rfl
  | succ n ih =>
    have hleft := read_sameTokens strtod n
    rw [Minscm.Reader.read, Reader.read, Minscm.Reader.readStep, Reader.readStep]
    have hws := sameTokens_space text h
    cases heq : Reader.skipWhitespace text with
    | nil => rfl
    | cons c cs =>
      rw [heq] at hws
      have hsp := skipWhitespace_head text c cs heq
      obtain ⟨hq, hcomma⟩ := sameTokens_head c cs hws
      simp only [if_neg hq, if_neg hcomma]
      by_cases h1 : c = ';'
      · simp only [if_pos h1]
        subst h1
        exact ih _ _ _ (sameTokens_comment cs hws)
      simp only [if_neg h1]
      by_cases h2 : c = Char.ofNat 39
      · simp only [if_pos h2]
        rw [ih true cs s (sameTokens_simple c cs (Or.inl h2) hws)]
      simp only [if_neg h2]
      by_cases h3 : c = '('
      · simp only [if_pos h3]
        exact readListLoop_agree _ _ (fun b inp s hh => ih b inp s hh) hleft n _ _ cs s
          (sameTokens_simple c cs (Or.inr (Or.inl h3)) hws)
      simp only [if_neg h3]
      by_cases h4 : c = Char.ofNat 34
      · simp only [if_pos h4]
      simp only [if_neg h4]
      by_cases h5 : c = '#'
      · simp only [if_pos h5, Minscm.Reader.readSpecial, Reader.readSpecial, List.tail_cons]
        subst h5
        cases cs with
        | nil => rfl
        | cons d ds =>
          simp only
          by_cases h6 : d = '('
          · simp only [if_pos h6]
            subst h6
            exact readVectorLoop_agree _ _ (fun b inp s hh => ih b inp s hh) hleft n _ ds s
              (sameTokens_vector ds hws)
          simp only [if_neg h6]
          by_cases h7 : d ≠ Char.ofNat 92
          · simp only [if_pos h7]
            apply token_agree
            exact sameToken_sharp _ fun x hx => tokenChar_not_space x (List.mem_takeWhile_imp hx)
          · simp only [if_neg h7]
      simp only [if_neg h5]
      exact token_agree strtod [] (c :: cs) s
        (by simpa using (sameTokens_token c cs hsp h1 h2 h3 h4 h5 hws).1)

/-- On the text `(define r5rs 1) (x-5 a1b)`, whose tokens hold digits, the two
readers return the same list `(define r5rs 1)` and leave the same input, on
which they agree again. -/
theorem readers_agree_on_common_tokens_witness :
    Reader.sameTokens "(define r5rs 1) (x-5 a1b)".toList = true ∧
    (Minscm.Reader.read noDoubles 6 true "(define r5rs 1) (x-5 a1b)".toList emptyStore
        = Reader.read noDoubles 6 true "(define r5rs 1) (x-5 a1b)".toList emptyStore ∧
      ∀ r s1, Reader.read noDoubles 6 true "(define r5rs 1) (x-5 a1b)".toList emptyStore
        = .ok r s1 → Reader.sameTokens r.2 = true) ∧
    Reader.read noDoubles 6 true "(define r5rs 1) (x-5 a1b)".toList emptyStore
      = .ok (.pair 0, " (x-5 a1b)".toList)
          { emptyStore with
            pairs := [(.symbol "define", .pair 1), (.symbol "r5rs", .pair 2),
              (.fixnum 1, .null)] } :=
  ⟨by decide,
   readers_agree_on_common_tokens noDoubles 6 true "(define r5rs 1) (x-5 a1b)".toList
     emptyStore (by decide),
   by decide⟩

/-- C38 (as stated) fails on the two tokens it names: `read` of `minscm.cpp`
returns the Integer -5 for `-5` and the Integer 12 for `12abc`, and `read` of
`bootstrap.cpp`, which extracts a number only from a token of digits and
periods, returns the Symbols `-5` and `12abc`. -/
theorem readers_differ_on_signed_and_mixed_tokens :
    Minscm.Reader.read noDoubles 1 true "-5".toList emptyStore
      = .ok (.fixnum (-5), []) emptyStore ∧
    Reader.read noDoubles 1 true "-5".toList emptyStore = .ok (.symbol "-5", []) emptyStore ∧
    Minscm.Reader.read noDoubles 1 true "12abc".toList emptyStore
      = .ok (.fixnum 12, []) emptyStore ∧
    Reader.read noDoubles 1 true "12abc".toList emptyStore
      = .ok (.symbol "12abc", []) emptyStore := by
  decide

/-! ## C31: printing and reading

### The text `toString` writes for a tree -/

theorem setLast_data (sb : String) (pre : List Char) (c : Char) (h : sb.data = pre ++ [' ']) :
    setLast sb c = String.mk (pre ++ [c]) := by
  simp [setLast, h]

theorem toString_plain_atom (h : Host) (strtod : List Char → Nat) (s : Store) (m : Nat) (o : Obj)
    (hp : Val.plain h strtod (.atom o) = true) :
    Obj.toString h s (m + 1) o = some (String.mk (Val.chars h false (.atom o))) := by
  cases o <;> simp [Val.plain] at hp <;> rfl

theorem holdsIn_atom (s : Store) (lo hi : Nat) (x o : Obj)
    (hh : s.holdsIn lo hi (.atom x) o = true) :
    o = x ∧ x.getType ≠ .otPair ∧ x.getType ≠ .otVector ∧ x.getType ≠ .otTag := by
  simp only [Store.holdsIn, Bool.and_eq_true, decide_eq_true_eq] at hh
  obtain ⟨⟨⟨h1, h2⟩, h3⟩, h4⟩ := hh
  subst h1
  exact ⟨rfl, h2, h3, h4⟩

theorem holdsIn_cons (s : Store) (lo hi : Nat) (x d : Val) (o : Obj)
    (hh : s.holdsIn lo hi (.cons x d) o = true) :
    ∃ a, o = .pair a ∧ lo ≤ a ∧ a < hi ∧ s.holdsIn lo hi x (s.car (.pair a)) = true ∧
      s.holdsIn lo hi d (s.cdr (.pair a)) = true := by
  cases o <;> simp only [Store.holdsIn, Bool.and_eq_true, decide_eq_true_eq] at hh <;>
    first
    | exact ⟨_, rfl, hh.1.1.1, hh.1.1.2, hh.1.2, hh.2⟩
    | exact absurd hh (by simp)

theorem holdsIn_vector (s : Store) (lo hi : Nat) (e : Val) (o : Obj)
    (hh : s.holdsIn lo hi (.vector e) o = true) :
    ∃ a, o = .vector a ∧ a < s.vectors.length ∧
      s.holdsElems lo hi e (s.vectors.getD a []) = true := by
  cases o <;> simp only [Store.holdsIn, Bool.and_eq_true, decide_eq_true_eq] at hh <;>
    first
    | exact ⟨_, rfl, hh.1, hh.2⟩
    | exact absurd hh (by simp)

theorem holdsElems_cons (s : Store) (lo hi : Nat) (x d : Val) (os : List Obj)
    (hh : s.holdsElems lo hi (.cons x d) os = true) :
    ∃ o rest, os = o :: rest ∧ s.holdsIn lo hi x o = true ∧
      s.holdsElems lo hi d rest = true := by
  cases os <;> simp only [Store.holdsElems, Bool.and_eq_true] at hh <;>
    first
    | exact ⟨_, _, rfl, hh.1, hh.2⟩
    | exact absurd hh (by simp)

theorem holdsElems_atom (s : Store) (lo hi : Nat) (x : Obj) (os : List Obj)
    (hh : s.holdsElems lo hi (.atom x) os = true) : x = .null ∧ os = [] := by
  simpa [Store.holdsElems] using hh

/-- The text of a tree: what `toString` returns for an object that holds it;
what the loop of `Pair::toString` and the loop of `Vector::toString` add for
the rest of a list; and what `Vector::toString` writes for the elements. -/
theorem plain_prints (h : Host) (strtod : List Char → Nat) (s : Store) (lo hi : Nat) :
    ∀ v : Val, Val.plain h strtod v = true →
      (∀ o n, s.holdsIn lo hi v o = true → v.size ≤ n →
        Obj.toString h s n o = some (String.mk (v.chars h false))) ∧
      (∀ i n k sb pre, s.holdsIn lo hi v i = true → v.size ≤ n → v.size ≤ k →
        sb.data = pre ++ [' '] →
        Pair.toStringLoop (Obj.toString h s n) s k i sb
          = some (String.mk (pre ++ v.chars h true))) ∧
      (∀ os n sb pre, s.holdsElems lo hi v os = true → v.size ≤ n → sb.data = pre ++ [' '] →
        Vector.toStringLoop (Obj.toString h s n) os sb
          = some (String.mk (pre ++ v.chars h true))) ∧
      (∀ os n x d, v = .cons x d → s.holdsElems lo hi v os = true → v.size ≤ n →
        Vector.toStringLoop (Obj.toString h s n) os "#("
          = some (String.mk ('#' :: v.chars h false))) := by
  intro v
  induction v with
  | atom x =>
    intro hp
    have hatom : ∀ o n, s.holdsIn lo hi (.atom x) o = true → (Val.atom x).size ≤ n →
        Obj.toString h s n o = some (String.mk ((Val.atom x).chars h false)) := by
      intro o n hh hn
      obtain ⟨rfl, _⟩ := holdsIn_atom s lo hi x o hh
      obtain ⟨m, rfl⟩ : ∃ m, n = m + 1 := ⟨n - 1, by simp [Val.size] at hn; omega⟩
      exact toString_plain_atom h strtod s m o hp
    refine ⟨hatom, ?_, ?_, ?_⟩
    · intro i n k sb pre hh hn hk hsb
      have ht := hatom i n hh hn
      obtain ⟨rfl, _⟩ := holdsIn_atom s lo hi x i hh
      obtain ⟨k, rfl⟩ : ∃ m, k = m + 1 := ⟨k - 1, by simp [Val.size] at hk; omega⟩
      cases i <;> simp [Val.plain] at hp <;>
        simp [Pair.toStringLoop, ht, Val.chars, setLast_data _ _ _ hsb, hsb, String.ext_iff]
    · intro os n sb pre hh hn hsb
      obtain ⟨rfl, rfl⟩ := holdsElems_atom s lo hi x os hh
      simp [Vector.toStringLoop, Val.chars, setLast_data _ _ _ hsb]
    · intro os n y d hv
      cases hv
  | cons x d ihx ihd =>
    intro hp
    simp only [Val.plain, Bool.and_eq_true] at hp
    obtain ⟨tx, _, _, _⟩ := ihx hp.1
    obtain ⟨_, tld, tvd, _⟩ := ihd hp.2
    have hloop : ∀ i n k sb pre, s.holdsIn lo hi (.cons x d) i = true → x.size ≤ n →
        d.size ≤ n → d.size < k → sb.data = pre →
        Pair.toStringLoop (Obj.toString h s n) s k i sb
          = some (String.mk (pre ++ x.chars h false ++ d.chars h true)) := by
      intro i n k sb pre hh hnx hnd hk hsb
      obtain ⟨a, rfl, _, _, hcar, hcdr⟩ := holdsIn_cons s lo hi x d i hh
      obtain ⟨k, rfl⟩ : ∃ m, k = m + 1 := ⟨k - 1, by omega⟩
      have h1 := tx _ n hcar hnx
      have h2 := tld _ n k (sb ++ String.mk (x.chars h false) ++ " ") (pre ++ x.chars h false)
        hcdr hnd (by omega) (by simp [hsb])
      simp only [Pair.toStringLoop, h1, Option.bind, h2]
    refine ⟨?_, ?_, ?_, ?_⟩
    · intro o n hh hn
      obtain ⟨a, rfl, _⟩ := holdsIn_cons s lo hi x d o hh
      obtain ⟨m, rfl⟩ : ∃ m, n = m + 1 := ⟨n - 1, by simp [Val.size] at hn; omega⟩
      have hstep : Obj.toString h s (m + 1) (.pair a)
          = Pair.toStringLoop (Obj.toString h s m) s m (.pair a) "(" := rfl
      simp only [Val.size] at hn
      rw [hstep, hloop (.pair a) m m "(" ['('] hh (by omega) (by omega) (by omega) rfl]
      rfl
    · intro i n k sb pre hh hn hk hsb
      simp only [Val.size] at hn hk
      rw [hloop i n k sb (pre ++ [' ']) hh (by omega) (by omega) (by omega) hsb]
      simp [Val.chars]
    · intro os n sb pre hh hn hsb
      obtain ⟨o, rest, rfl, ho, hrest⟩ := holdsElems_cons s lo hi x d os hh
      simp only [Val.size] at hn
      have h1 := tx o n ho (by omega)
      have h2 := tvd rest n (sb ++ String.mk (x.chars h false) ++ " ")
        (pre ++ ' ' :: x.chars h false) hrest (by omega) (by simp [hsb])
      simp only [Vector.toStringLoop, h1, Option.bind, h2]
      simp [Val.chars]
    · intro os n y e hv hh hn
      obtain ⟨o, rest, rfl, ho, hrest⟩ := holdsElems_cons s lo hi x d os hh
      simp only [Val.size] at hn
      have h1 := tx o n ho (by omega)
      have h2 := tvd rest n ("#(" ++ String.mk (x.chars h false) ++ " ")
        ('#' :: '(' :: x.chars h false) hrest (by omega) (by simp)
      simp only [Vector.toStringLoop, h1, Option.bind, h2]
      simp [Val.chars]
  | vector e ihe =>
    intro hp
    simp only [Val.plain, Bool.and_eq_true] at hp
    obtain ⟨_, _, _, tv0⟩ := ihe hp.2
    have hcons : ∃ x d, e = .cons x d := by
      cases e with
      | cons x d => exact ⟨x, d, rfl⟩
      | atom _ => simp at hp
      | vector _ => simp at hp
    obtain ⟨x, d, he⟩ := hcons
    have hvec : ∀ o n, s.holdsIn lo hi (.vector e) o = true → (Val.vector e).size ≤ n →
        Obj.toString h s n o = some (String.mk ((Val.vector e).chars h false)) := by
      intro o n hh hn
      obtain ⟨a, rfl, _, hel⟩ := holdsIn_vector s lo hi e o hh
      obtain ⟨m, rfl⟩ : ∃ m, n = m + 1 := ⟨n - 1, by simp [Val.size] at hn; omega⟩
      have hstep : Obj.toString h s (m + 1) (.vector a)
          = Vector.toStringLoop (Obj.toString h s m) (s.vectors.getD a []) "#(" := rfl
      simp only [Val.size] at hn
      rw [hstep, tv0 _ m x d he hel (by omega)]
      rfl
    refine ⟨hvec, ?_, ?_, ?_⟩
    · intro i n k sb pre hh hn hk hsb
      have ht := hvec i n hh hn
      obtain ⟨a, rfl, _⟩ := holdsIn_vector s lo hi e i hh
      obtain ⟨k, rfl⟩ : ∃ m, k = m + 1 := ⟨k - 1, by simp [Val.size] at hk; omega⟩
      simp [Pair.toStringLoop, ht, Val.chars, hsb, String.ext_iff]
    · intro os n sb pre hh
      simp [Store.holdsElems] at hh
    · intro os n y d hv
      cases hv

/-! ### The digits of an Integer -/

theorem digitChar_digit (d : Nat) (hd : d < 10) :
    isDecimalDigit (Nat.digitChar d) = true ∧ (Nat.digitChar d).toNat - 48 = d := by
  interval_cases d <;> exact ⟨by decide, by decide⟩

theorem digitsValue_append (xs : List Char) (hx : ∀ c ∈ xs, isDecimalDigit c = true) :
    ∀ (ys : List Char) (a : Nat),
      digitsValue 10 (xs ++ ys) a = digitsValue 10 ys (digitsValue 10 xs a) := by
  induction xs with
  | nil => intro ys a; rfl
  | cons c cs ih =>
    intro ys a
    have hc := digitValue_digit c (hx c (by simp))
    simp only [List.cons_append, digitsValue, hc]
    exact ih (fun y hy => hx y (by simp [hy])) ys _

/-- The characters `Nat.toDigits` writes are decimal digits that denote the
number. -/
theorem toDigitsCore_digits :
    ∀ (fuel n : Nat) (acc : List Char), n < fuel →
      ∃ ds, Nat.toDigitsCore 10 fuel n acc = ds ++ acc ∧ ds ≠ [] ∧
        (∀ c ∈ ds, isDecimalDigit c = true) ∧
        ∀ a, digitsValue 10 ds a = a * 10 ^ ds.length + n := by
  intro fuel
  induction fuel with
  | zero => intro n acc h; omega
  | succ fuel ih =>
    intro n acc hn
    have hd := digitChar_digit (n % 10) (Nat.mod_lt _ (by decide))
    have hv := digitValue_digit _ hd.1
    rw [hd.2] at hv
    by_cases h0 : n / 10 = 0
    · refine ⟨[Nat.digitChar (n % 10)], by simp [Nat.toDigitsCore, h0], by simp, ?_, ?_⟩
      · intro c hc
        simp only [List.mem_singleton] at hc
        subst hc
        exact hd.1
      · intro a
        simp only [digitsValue, hv, List.length_singleton, pow_one]
        have : n % 10 = n := by omega
        rw [this]
        ring
    · obtain ⟨ds, h1, _, h3, h4⟩ := ih (n / 10) (Nat.digitChar (n % 10) :: acc) (by omega)
      refine ⟨ds ++ [Nat.digitChar (n % 10)], by simp [Nat.toDigitsCore, h0, h1], by simp, ?_, ?_⟩
      · intro c hc
        rw [List.mem_append, List.mem_singleton] at hc
        rcases hc with h | h
        · exact h3 c h
        · subst h; exact hd.1
      · intro a
        rw [digitsValue_append ds h3, h4 a]
        simp only [digitsValue, hv, List.length_append, List.length_singleton, pow_succ]
        have := Nat.div_add_mod n 10
        nlinarith [this]

theorem repr_digits (n : Nat) :
    (Nat.repr n).data ≠ [] ∧ (∀ c ∈ (Nat.repr n).data, isDecimalDigit c = true) ∧
      digitsValue 10 (Nat.repr n).data 0 = n := by
  obtain ⟨ds, h1, h2, h3, h4⟩ := toDigitsCore_digits (n + 1) n [] (by omega)
  have hdata : (Nat.repr n).data = ds := by
    simp [Nat.repr, Nat.toDigits, h1, List.asString]
  rw [hdata]
  exact ⟨h2, h3, by simpa using h4 0⟩

/-! ### Reading the text of an atom -/

/-- The steps of `read` on an input that begins with a character at which it
does not branch. -/
theorem read_token_head (strtod : List Char → Nat) (n : Nat) (b : Bool) (c : Char)
    (cs : List Char) (s : Store) (hsp : isspace c = false) (h1 : c ≠ ';')
    (h2 : c ≠ Char.ofNat 39) (h3 : c ≠ Char.ofNat 96) (h4 : c ≠ ',') (h5 : c ≠ '(')
    (h6 : c ≠ Char.ofNat 34) (h7 : c ≠ '#') :
    Reader.read strtod (n + 1) b (c :: cs) s
      = Reader.readSymbolOrNumber strtod [] (c :: cs) s := by
  have hws : Reader.skipWhitespace (c :: cs) = c :: cs := by
    simp [Reader.skipWhitespace, List.dropWhile, hsp]
  simp only [Reader.read, Reader.readStep, hws, h1, h2, h3, h4, h5, h6, h7, if_false]

theorem read_paren_close (strtod : List Char → Nat) (n : Nat) (b : Bool) (rest : List Char)
    (s : Store) :
    Reader.read strtod (n + 1) b (')' :: rest) s = .ok (Reader.listEnd, rest) s := by
  rw [read_token_head strtod n b ')' rest s (by decide) (by decide) (by decide) (by decide)
    (by decide) (by decide) (by decide) (by decide)]
  simp [Reader.readSymbolOrNumber]

theorem read_space (strtod : List Char → Nat) (n : Nat) (b : Bool) (inp : List Char)
    (s : Store) :
    Reader.read strtod (n + 1) b (' ' :: inp) s = Reader.read strtod (n + 1) b inp s := by
  have hws : Reader.skipWhitespace (' ' :: inp) = Reader.skipWhitespace inp := by
    have : isspace ' ' = true := by decide
    simp [Reader.skipWhitespace, List.dropWhile, this]
  simp only [Reader.read, Reader.readStep, hws]

/-- A token of decimal digits that denotes a number a `long` holds reads as
that Integer. -/
theorem digits_token_reads (strtod : List Char → Nat) (n : Nat) (b : Bool)
    (digits rest : List Char) (s : Store) (hne : digits ≠ [])
    (hd : ∀ c ∈ digits, isDecimalDigit c = true)
    (hrest : rest = [] ∨ ∃ c cs, rest = c :: cs ∧ Reader.tokenChar c = false)
    (hle : digitsValue 10 digits 0 ≤ 9223372036854775807) :
    Reader.read strtod (n + 1) b (digits ++ rest) s
      = .ok (.fixnum ((digitsValue 10 digits 0 : Nat) : Int), rest) s := by
  obtain ⟨c, cs, hcs⟩ := List.exists_cons_of_ne_nil hne
  subst hcs
  have hc := hd c (by simp)
  have hsplit := token_split Reader.tokenChar (c :: cs) rest
    (fun x hx => digit_tokenChar x (hd x hx)) hrest
  have hext := extractLong_digits c cs hd
  have hle2 : ((digitsValue 10 (c :: cs) 0 : Nat) : Int) ≤ 9223372036854775807 := by
    exact_mod_cast hle
  rw [if_pos hle2] at hext
  have hall := digits_all (c :: cs) hd
  have hper := digits_no_period (c :: cs) hd
  have hparen : c ≠ ')' := digit_ne c ')' hc (by decide)
  have hhash : c ≠ '#' := digit_ne c '#' hc (by decide)
  have hread := read_digit_head strtod n b c (cs ++ rest) s hc
  rw [List.cons_append, hread]
  rw [List.cons_append] at hsplit
  simp [Reader.readSymbolOrNumber, hsplit.1, hsplit.2, hparen, hhash, hall, hper, hext]

theorem symbolName_facts (name : List Char) (h : Reader.symbolName name = true) :
    ∃ c cs, name = c :: cs ∧ (∀ x ∈ name, Reader.tokenChar x = true) ∧
      (c ≠ ';' ∧ c ≠ Char.ofNat 39 ∧ c ≠ Char.ofNat 96 ∧ c ≠ ',' ∧ c ≠ '(' ∧
        c ≠ Char.ofNat 34 ∧ c ≠ '#') ∧
      ((name.all fun c => c == '.' || isDecimalDigit c) = false ∨ 2 ≤ name.count '.') := by
  cases name with
  | nil => simp [Reader.symbolName] at h
  | cons c cs =>
    unfold Reader.symbolName at h
    rw [Bool.and_eq_true, Bool.and_eq_true] at h
    obtain ⟨⟨hA, hB⟩, hC⟩ := h
    have hB2 : (c == ';' || c == Char.ofNat 39 || c == Char.ofNat 96 || c == ',' || c == '(' ||
        c == Char.ofNat 34 || c == '#') = false := by
      cases hb : (c == ';' || c == Char.ofNat 39 || c == Char.ofNat 96 || c == ',' || c == '(' ||
        c == Char.ofNat 34 || c == '#') with
      | false => rfl
      | true =>
        have hh : (!(c == ';' || c == Char.ofNat 39 || c == Char.ofNat 96 || c == ',' ||
          c == '(' || c == Char.ofNat 34 || c == '#')) = true := hB
        rw [hb] at hh
        cases hh
    simp only [Bool.or_eq_false_iff, beq_eq_false_iff_ne, ne_eq] at hB2
    obtain ⟨⟨⟨⟨⟨⟨a1, a2⟩, a3⟩, a4⟩, a5⟩, a6⟩, a7⟩ := hB2
    refine ⟨c, cs, rfl, List.all_eq_true.mp hA, ⟨a1, a2, a3, a4, a5, a6, a7⟩, ?_⟩
    cases hall : ((c :: cs).all fun c => c == '.' || isDecimalDigit c) with
    | false => exact Or.inl rfl
    | true =>
      rw [hall] at hC
      right
      simpa using hC

/-- A token that `Reader.symbolName` accepts reads as the Symbol of that name. -/
theorem symbol_token_reads (strtod : List Char → Nat) (n : Nat) (b : Bool)
    (name rest : List Char) (s : Store) (hname : Reader.symbolName name = true)
    (hrest : rest = [] ∨ ∃ c cs, rest = c :: cs ∧ Reader.tokenChar c = false) :
    Reader.read strtod (n + 1) b (name ++ rest) s = .ok (.symbol (String.mk name), rest) s := by
  obtain ⟨c, cs, rfl, htok, ⟨a1, a2, a3, a4, a5, a6, a7⟩, hnum⟩ := symbolName_facts name hname
  have hc := htok c (by simp)
  have hsp := tokenChar_not_space c hc
  have hparen : c ≠ ')' := by
    intro heq
    subst heq
    exact absurd hc (by decide)
  have hsplit := token_split Reader.tokenChar (c :: cs) rest htok hrest
  rw [List.cons_append] at hsplit
  rw [List.cons_append, read_token_head strtod n b c (cs ++ rest) s hsp a1 a2 a3 a4 a5 a6 a7]
  rcases hnum with hall | hcount
  · simp [Reader.readSymbolOrNumber, hsplit.1, hsplit.2, hparen, a7, hall]
  · have h0 : ¬ List.count '.' (c :: cs) = 0 := by omega
    have h2 : ¬ List.count '.' (c :: cs) < 2 := by omega
    simp [Reader.readSymbolOrNumber, hsplit.1, hsplit.2, hparen, a7, h0, h2]

theorem digit_or_period_facts (c : Char) (h : (c == '.' || isDecimalDigit c) = true) :
    Reader.tokenChar c = true ∧ c ≠ ';' ∧ c ≠ Char.ofNat 39 ∧ c ≠ Char.ofNat 96 ∧ c ≠ ',' ∧
      c ≠ '(' ∧ c ≠ Char.ofNat 34 ∧ c ≠ '#' ∧ c ≠ ')' := by
  rw [Bool.or_eq_true, beq_iff_eq] at h
  rcases h with h | h
  · subst h
    exact ⟨by decide, by decide, by decide, by decide, by decide, by decide, by decide,
      by decide, by decide⟩
  · exact ⟨digit_tokenChar c h, digit_ne c _ h (by decide), digit_ne c _ h (by decide),
      digit_ne c _ h (by decide), digit_ne c _ h (by decide), digit_ne c _ h (by decide),
      digit_ne c _ h (by decide), digit_ne c _ h (by decide), digit_ne c _ h (by decide)⟩

/-- A token of digits, one at least, and exactly one period reads as the Float
`strtod` makes of it. -/
theorem float_token_reads (strtod : List Char → Nat) (n : Nat) (b : Bool)
    (text rest : List Char) (s : Store) (htext : Reader.floatToken text = true)
    (hrest : rest = [] ∨ ∃ c cs, rest = c :: cs ∧ Reader.tokenChar c = false) :
    Reader.read strtod (n + 1) b (text ++ rest) s = .ok (.flonum (strtod text), rest) s := by
  simp only [Reader.floatToken, Bool.and_eq_true, decide_eq_true_eq] at htext
  obtain ⟨⟨hall, hcount⟩, hany⟩ := htext
  have hall2 := List.all_eq_true.mp hall
  cases text with
  | nil => simp at hcount
  | cons c cs =>
    obtain ⟨hc, a1, a2, a3, a4, a5, a6, a7, hparen⟩ := digit_or_period_facts c (hall2 c (by simp))
    have hsplit := token_split Reader.tokenChar (c :: cs) rest
      (fun x hx => (digit_or_period_facts x (hall2 x hx)).1) hrest
    rw [List.cons_append] at hsplit
    rw [List.cons_append, read_token_head strtod n b c (cs ++ rest) s (tokenChar_not_space c hc)
      a1 a2 a3 a4 a5 a6 a7]
    have h0 : ¬ List.count '.' (c :: cs) = 0 := by omega
    have h2 : List.count '.' (c :: cs) < 2 := by omega
    simp only [Reader.readSymbolOrNumber, hsplit.1, hsplit.2, List.nil_append]
    simp [hparen, a7, h0, h2, hall, extractDouble, hany]

theorem boolean_token_reads (strtod : List Char → Nat) (n : Nat) (b v : Bool)
    (rest : List Char) (s : Store)
    (hrest : rest = [] ∨ ∃ c cs, rest = c :: cs ∧ Reader.tokenChar c = false) :
    Reader.read strtod (n + 1) b ((if v then "#t" else "#f").data ++ rest) s
      = .ok (.boolean v, rest) s := by
  have hws : ∀ x : Char, ∀ inp, Reader.skipWhitespace ('#' :: x :: inp) = '#' :: x :: inp := by
    intro x inp
    have : isspace '#' = false := by decide
    simp [Reader.skipWhitespace, List.dropWhile, this]
  cases v with
  | true =>
    have hsplit := token_split Reader.tokenChar ['t'] rest (by decide) hrest
    simp only [List.singleton_append] at hsplit
    have hdata : ("#t" : String).data ++ rest = '#' :: 't' :: rest := rfl
    simp only [if_true, hdata, Reader.read, Reader.readStep, hws]
    simp [Reader.readSpecial, Reader.readSymbolOrNumber, hsplit.1, hsplit.2]
  | false =>
    have hsplit := token_split Reader.tokenChar ['f'] rest (by decide) hrest
    simp only [List.singleton_append] at hsplit
    have hdata : ("#f" : String).data ++ rest = '#' :: 'f' :: rest := rfl
    simp only [Bool.false_eq_true, if_false, hdata, Reader.read, Reader.readStep, hws]
    simp [Reader.readSpecial, Reader.readSymbolOrNumber, hsplit.1, hsplit.2]

theorem null_text_reads (strtod : List Char → Nat) (n : Nat) (b : Bool) (rest : List Char)
    (s : Store) :
    Reader.read strtod (n + 2) b ('(' :: ')' :: rest) s = .ok (.null, rest) s := by
  rw [read_open_paren, Reader.readListLoop, read_paren_close]
  simp [Res.bind]

/-- The text of an atom that is an Integer not negative, a Float with a
faithful text, a Symbol with a readable name, a Boolean or Null reads as that
atom. -/
theorem plain_atom_reads (h : Host) (strtod : List Char → Nat) (n : Nat) (b : Bool) (o : Obj)
    (rest : List Char) (s : Store) (hp : Val.plain h strtod (.atom o) = true)
    (hrest : rest = [] ∨ ∃ c cs, rest = c :: cs ∧ Reader.tokenChar c = false) :
    Reader.read strtod (n + 2) b ((Val.atom o).chars h false ++ rest) s = .ok (o, rest) s := by
  cases o with
  | fixnum v =>
    simp only [Val.plain, decide_eq_true_eq] at hp
    obtain ⟨m, rfl⟩ : ∃ m : Nat, v = (m : Int) := ⟨v.toNat, by omega⟩
    have hchars : (Val.atom (.fixnum (m : Int))).chars h false = (Nat.repr m).data := rfl
    obtain ⟨d1, d2, d3⟩ := repr_digits m
    rw [hchars, digits_token_reads strtod (n + 1) b _ rest s d1 d2 hrest (by rw [d3]; omega), d3]
  | flonum d =>
    simp only [Val.plain, Bool.and_eq_true, decide_eq_true_eq] at hp
    have hchars : (Val.atom (.flonum d)).chars h false = (h.printFlonum d).data := rfl
    rw [hchars, float_token_reads strtod (n + 1) b _ rest s hp.1 hrest, hp.2]
  | symbol name =>
    simp only [Val.plain] at hp
    have hchars : (Val.atom (.symbol name)).chars h false = name.data := rfl
    rw [hchars, symbol_token_reads strtod (n + 1) b _ rest s hp hrest]
  | boolean v =>
    have hchars : (Val.atom (.boolean v)).chars h false = (if v then "#t" else "#f").data := rfl
    rw [hchars, boolean_token_reads strtod (n + 1) b v rest s hrest]
  | null =>
    exact null_text_reads strtod n b rest s
  | _ => simp [Val.plain] at hp

/-! ### Trees in a store that grows -/

theorem keeps_refl (s : Store) : s.Keeps s :=
  ⟨le_refl _, fun _ _ => rfl, le_refl _, fun _ _ => rfl⟩

theorem keeps_trans (s s1 s2 : Store) (h1 : s.Keeps s1) (h2 : s1.Keeps s2) : s.Keeps s2 := by
  obtain ⟨a1, a2, a3, a4⟩ := h1
  obtain ⟨b1, b2, b3, b4⟩ := h2
  exact ⟨by omega, fun a ha => (b2 a (by omega)).trans (a2 a ha), by omega,
    fun a ha => (b4 a (by omega)).trans (a4 a ha)⟩

theorem keepsBut_of_keeps (s s1 : Store) (c : Nat) (h : s.Keeps s1) : s.KeepsBut s1 c :=
  ⟨h.1, fun a ha _ => h.2.1 a ha, h.2.2.1, h.2.2.2⟩

/-- A tree held at addresses from `lo` to `hi` is held in every store that has
the same pairs at these addresses and the same vectors, and for every wider
range of addresses. -/
theorem holdsIn_transfer (s s1 : Store) (lo hi lo1 hi1 : Nat) (hlo : lo1 ≤ lo) (hhi : hi ≤ hi1)
    (hp : ∀ a, lo ≤ a → a < hi →
      s1.pairs.getD a (.null, .null) = s.pairs.getD a (.null, .null))
    (hvl : s.vectors.length ≤ s1.vectors.length)
    (hv : ∀ a, a < s.vectors.length → s1.vectors.getD a [] = s.vectors.getD a []) :
    ∀ v : Val,
      (∀ o, s.holdsIn lo hi v o = true → s1.holdsIn lo1 hi1 v o = true) ∧
      (∀ os, s.holdsElems lo hi v os = true → s1.holdsElems lo1 hi1 v os = true) := by
  intro v
  induction v with
  | atom x =>
    refine ⟨?_, ?_⟩
    · intro o hh
      simpa [Store.holdsIn] using hh
    · intro os hh
      simpa [Store.holdsElems] using hh
  | cons x d ihx ihd =>
    refine ⟨?_, ?_⟩
    · intro o hh
      obtain ⟨a, rfl, h1, h2, h3, h4⟩ := holdsIn_cons s lo hi x d o hh
      have hcar : s1.car (.pair a) = s.car (.pair a) := by
        simp only [Store.car, hp a h1 h2]
      have hcdr : s1.cdr (.pair a) = s.cdr (.pair a) := by
        simp only [Store.cdr, hp a h1 h2]
      have e1 := ihx.1 _ h3
      have e2 := ihd.1 _ h4
      simp only [Store.holdsIn, hcar, hcdr, e1, e2, Bool.and_true, Bool.and_eq_true,
        decide_eq_true_eq]
      omega
    · intro os hh
      obtain ⟨o, rest, rfl, h1, h2⟩ := holdsElems_cons s lo hi x d os hh
      simp only [Store.holdsElems, ihx.1 _ h1, ihd.2 _ h2, Bool.and_self]
  | vector e ihe =>
    refine ⟨?_, ?_⟩
    · intro o hh
      obtain ⟨a, rfl, h1, h2⟩ := holdsIn_vector s lo hi e o hh
      have e1 := ihe.2 _ h2
      simp only [Store.holdsIn, hv a h1, e1, Bool.and_true, decide_eq_true_eq]
      omega
    · intro os hh
      simp [Store.holdsElems] at hh

theorem holdsIn_of_keeps (s s1 : Store) (lo hi lo1 hi1 : Nat) (hlo : lo1 ≤ lo) (hhi : hi ≤ hi1)
    (hle : hi ≤ s.pairs.length) (hk : s.Keeps s1) (v : Val) :
    (∀ o, s.holdsIn lo hi v o = true → s1.holdsIn lo1 hi1 v o = true) ∧
    (∀ os, s.holdsElems lo hi v os = true → s1.holdsElems lo1 hi1 v os = true) :=
  holdsIn_transfer s s1 lo hi lo1 hi1 hlo hhi (fun a _ ha => hk.2.1 a (by omega)) hk.2.2.1
    hk.2.2.2 v

theorem plain_not_delimiter (h : Host) (strtod : List Char → Nat) (s : Store) (lo hi : Nat)
    (v : Val) (o : Obj) (hp : Val.plain h strtod v = true)
    (hh : s.holdsIn lo hi v o = true) : o ≠ Reader.listEnd ∧ o ≠ Reader.dot := by
  cases v with
  | atom x =>
    obtain ⟨rfl, _⟩ := holdsIn_atom s lo hi x o hh
    have h1 : Reader.symbolName (")" : String).data = false := by decide
    have h2 : Reader.symbolName ("." : String).data = false := by decide
    constructor
    · intro heq
      rw [heq] at hp
      simp only [Val.plain, Reader.listEnd, h1] at hp
      cases hp
    · intro heq
      rw [heq] at hp
      simp only [Val.plain, Reader.dot, h2] at hp
      cases hp
  | cons x d =>
    obtain ⟨a, rfl, _⟩ := holdsIn_cons s lo hi x d o hh
    exact ⟨by simp [Reader.listEnd], by simp [Reader.dot]⟩
  | vector e =>
    obtain ⟨a, rfl, _⟩ := holdsIn_vector s lo hi e o hh
    exact ⟨by simp [Reader.listEnd], by simp [Reader.dot]⟩

theorem chars_true_delimited (h : Host) (v : Val) (rest : List Char) :
    Reader.Delimited (v.chars h true ++ rest) := by
  cases v with
  | atom x =>
    by_cases hx : x = .null
    · exact Or.inr ⟨')', rest, by simp [Val.chars, hx], by decide⟩
    · exact Or.inr ⟨' ', _, by simp [Val.chars, hx]; rfl, by decide⟩
  | cons x d => exact Or.inr ⟨' ', _, by simp [Val.chars]; rfl, by decide⟩
  | vector e => exact Or.inr ⟨' ', _, by simp [Val.chars]; rfl, by decide⟩

theorem read_dot (strtod : List Char → Nat) (n : Nat) (b : Bool) (rest : List Char)
    (s : Store) :
    Reader.read strtod (n + 1) b ('.' :: ' ' :: rest) s = .ok (Reader.dot, ' ' :: rest) s := by
  rw [read_token_head strtod n b '.' (' ' :: rest) s (by decide) (by decide) (by decide)
    (by decide) (by decide) (by decide) (by decide) (by decide)]
  have hsplit := token_split Reader.tokenChar ['.'] (' ' :: rest) (by decide)
    (Or.inr ⟨' ', rest, rfl, by decide⟩)
  simp only [List.singleton_append] at hsplit
  simp only [Reader.readSymbolOrNumber, hsplit.1, hsplit.2, List.nil_append]
  simp [extractDouble, Reader.dot, period_not_digit]

/-! ### Reading the text of a tree -/

theorem holdsIn_plain_atom (h : Host) (strtod : List Char → Nat) (x : Obj)
    (hp : Val.plain h strtod (.atom x) = true) (s : Store) (lo hi : Nat) :
    s.holdsIn lo hi (.atom x) x = true := by
  cases x <;> simp [Val.plain] at hp <;> simp [Store.holdsIn, Obj.getType]

theorem reads_atom (h : Host) (strtod : List Char → Nat) (x : Obj)
    (hp : Val.plain h strtod (.atom x) = true) : Reader.ReadsTree h strtod (.atom x) := by
  intro n b rest s hn hrest
  obtain ⟨m, rfl⟩ : ∃ m, n = m + 2 := ⟨n - 2, by simp [Val.size] at hn; omega⟩
  exact ⟨x, s, plain_atom_reads h strtod m b x rest s hp hrest,
    holdsIn_plain_atom h strtod x hp s _ _, keeps_refl s⟩

theorem setCdr_facts (s : Store) (c : Nat) (o : Obj) (hc : c < s.pairs.length) :
    (s.setCdr (.pair c) o).cdr (.pair c) = o ∧
    (s.setCdr (.pair c) o).car (.pair c) = s.car (.pair c) ∧
    (s.setCdr (.pair c) o).pairs.length = s.pairs.length ∧
    (∀ a, a ≠ c → (s.setCdr (.pair c) o).pairs.getD a (.null, .null)
      = s.pairs.getD a (.null, .null)) ∧
    (s.setCdr (.pair c) o).vectors = s.vectors := by
  refine ⟨?_, ?_, ?_, ?_, rfl⟩
  · simp only [Store.cdr, Store.setCdr]
    rw [getD_set_same _ _ _ _ hc]
  · simp only [Store.car, Store.setCdr]
    rw [getD_set_same _ _ _ _ hc]
  · simp [Store.setCdr]
  · intro a ha
    simp only [Store.setCdr]
    rw [getD_set_other _ _ _ _ _ ha]

theorem reads_rest_null (h : Host) (strtod : List Char → Nat) :
    Reader.ReadsRest h strtod (.atom .null) := by
  intro n k rest s ret c hn hk hc hcdr
  obtain ⟨m, rfl⟩ : ∃ m, n = m + 1 := ⟨n - 1, by simp [Val.size] at hn; omega⟩
  obtain ⟨j, rfl⟩ : ∃ m, k = m + 1 := ⟨k - 1, by simp [Val.size] at hk; omega⟩
  refine ⟨s, ?_, ?_, rfl, keepsBut_of_keeps s s c (keeps_refl s)⟩
  · have hchars : (Val.atom .null).chars h true ++ rest = ')' :: rest := rfl
    rw [hchars, Reader.readListLoop, read_paren_close]
    simp [Res.bind]
  · rw [hcdr]
    simp [Store.holdsIn, Obj.getType]

/-- The loop of `readList` on a period and the text of a last object that is
neither Null nor a Pair. -/
theorem reads_rest_tail (h : Host) (strtod : List Char → Nat) (v : Val)
    (hchars : v.chars h true = ' ' :: '.' :: ' ' :: v.chars h false ++ [')'])
    (hR : Reader.ReadsTree h strtod v) (hsize : 2 ≤ v.size) : Reader.ReadsRest h strtod v := by
  intro n k rest s ret c hn hk hc hcdr
  obtain ⟨m, rfl⟩ : ∃ m, n = m + 1 := ⟨n - 1, by omega⟩
  obtain ⟨j, rfl⟩ : ∃ m, k = m + 1 := ⟨k - 1, by omega⟩
  obtain ⟨o, s1, hread, hholds, hkeeps⟩ := hR (m + 1) true (')' :: rest) s hn
    (Or.inr ⟨')', rest, rfl, by decide⟩)
  have hc1 : c < s1.pairs.length := lt_of_lt_of_le hc hkeeps.1
  obtain ⟨f1, f2, f3, f4, f5⟩ := setCdr_facts s1 c o hc1
  refine ⟨s1.setCdr (.pair c) o, ?_, ?_, ?_, ?_⟩
  · have hin : v.chars h true ++ rest
        = ' ' :: '.' :: ' ' :: (v.chars h false ++ ')' :: rest) := by
      rw [hchars]; simp
    have hd : Reader.dot ≠ Reader.listEnd := by decide
    have hp : (Obj.pair c).getType ≠ .otNull := by simp [Obj.getType]
    rw [hin, Reader.readListLoop, read_space, read_dot]
    simp only [Res.bind, if_neg hd, if_true, if_neg hp]
    rw [read_space, hread]
    simp only [Res.bind]
    rw [read_paren_close]
    simp
  · rw [f1]
    exact (holdsIn_transfer s1 _ _ _ _ _ (le_refl _) (le_of_eq f3.symm)
      (fun a ha _ => f4 a (by omega)) (by rw [f5]) (fun a _ => by rw [f5]) v).1 o hholds
  · rw [f2]
    simp only [Store.car, hkeeps.2.1 c hc]
  · refine ⟨by rw [f3]; exact hkeeps.1, ?_, by rw [f5]; exact hkeeps.2.2.1, ?_⟩
    · intro a ha hac
      rw [f4 a hac]
      exact hkeeps.2.1 a ha
    · intro a ha
      rw [f5]
      exact hkeeps.2.2.2 a ha

theorem readListLoop_element (rd : Bool → List Char → Store → Res (Obj × List Char)) (k : Nat)
    (ret cur o : Obj) (inp r : List Char) (s s1 : Store)
    (hr : rd true inp s = .ok (o, r) s1) (h1 : o ≠ Reader.listEnd) (h2 : o ≠ Reader.dot) :
    Reader.readListLoop rd (k + 1) ret cur inp s
      = Reader.readListLoop rd k (Reader.appendCell s1 ret cur o).1
          (Reader.appendCell s1 ret cur o).2.1 r (Reader.appendCell s1 ret cur o).2.2 := by
  rw [Reader.readListLoop, hr]
  simp only [Res.bind, if_neg h1, if_neg h2]

theorem readVectorLoop_element (rd : Bool → List Char → Store → Res (Obj × List Char)) (k : Nat)
    (acc : List Obj) (o : Obj) (inp r : List Char) (s s1 : Store)
    (hr : rd true inp s = .ok (o, r) s1) (h1 : o ≠ Reader.listEnd) (h2 : o ≠ Reader.dot) :
    Reader.readVectorLoop rd (k + 1) acc inp s = Reader.readVectorLoop rd k (acc ++ [o]) r s1 := by
  rw [Reader.readVectorLoop, hr]
  simp only [Res.bind, if_neg h1, if_neg h2]

theorem appendCell_null (s : Store) (ret o : Obj) :
    Reader.appendCell s ret .null o
      = (.pair s.pairs.length, .pair s.pairs.length,
          { s with pairs := s.pairs ++ [(o, .null)] }) := by
  simp [Reader.appendCell, Obj.getType, Store.newPair]

theorem appendCell_pair (s : Store) (ret o : Obj) (c : Nat) :
    Reader.appendCell s ret (.pair c) o
      = (ret, .pair s.pairs.length,
          ({ s with pairs := s.pairs ++ [(o, .null)] } : Store).setCdr (.pair c)
            (.pair s.pairs.length)) := by
  simp [Reader.appendCell, Obj.getType, Store.newPair]

/-- The store with one more pair `(o)`. -/
theorem grown_facts (s : Store) (o : Obj) :
    ({ s with pairs := s.pairs ++ [(o, .null)] } : Store).pairs.length = s.pairs.length + 1 ∧
    (∀ a, a < s.pairs.length →
      ({ s with pairs := s.pairs ++ [(o, .null)] } : Store).pairs.getD a (.null, .null)
        = s.pairs.getD a (.null, .null)) ∧
    ({ s with pairs := s.pairs ++ [(o, .null)] } : Store).pairs.getD s.pairs.length (.null, .null)
      = (o, .null) := by
  refine ⟨by simp, ?_, ?_⟩
  · intro a ha
    simp only [List.getD_eq_getElem?_getD, List.getElem?_append_left ha]
  · simp only [List.getD_eq_getElem?_getD, List.getElem?_append_right (le_refl _)]
    simp

/-- Reading the text of a Pair: the head, then the rest of the list. -/
theorem reads_tree_cons (h : Host) (strtod : List Char → Nat) (x d : Val)
    (hpx : Val.plain h strtod x = true)
    (hx : Reader.ReadsTree h strtod x) (hd : Reader.ReadsRest h strtod d) :
    Reader.ReadsTree h strtod (.cons x d) := by
  intro n b rest s hn hrest
  simp only [Val.size] at hn
  have hx1 : 2 ≤ x.size := by cases x <;> simp [Val.size]
  have hd1 : 2 ≤ d.size := by cases d <;> simp [Val.size]
  obtain ⟨k, rfl⟩ : ∃ m, n = m + 1 + 1 := ⟨n - 2, by omega⟩
  obtain ⟨o, s1, hread, hholds, hk1⟩ := hx (k + 1) true (d.chars h true ++ rest) s (by omega)
    (chars_true_delimited h d rest)
  obtain ⟨hne1, hne2⟩ := plain_not_delimiter h strtod s1 _ _ x o hpx hholds
  obtain ⟨g1, g2, g3⟩ := grown_facts s1 o
  obtain ⟨s3, hloop, hrest3, hcar3, hk3⟩ := hd (k + 1) k rest
    ({ s1 with pairs := s1.pairs ++ [(o, .null)] }) (.pair s1.pairs.length) s1.pairs.length
    (by omega) (by omega) (by rw [g1]; omega) (by simp only [Store.cdr, g3])
  refine ⟨.pair s1.pairs.length, s3, ?_, ?_, ?_⟩
  · have hin : (Val.cons x d).chars h false ++ rest
        = '(' :: (x.chars h false ++ (d.chars h true ++ rest)) := by
      simp [Val.chars]
    rw [hin, read_open_paren, readListLoop_element _ k _ _ o _ _ s s1 hread hne1 hne2,
      appendCell_null]
    exact hloop
  · have hlen3 : s1.pairs.length + 1 ≤ s3.pairs.length := by
      have := hk3.1
      rw [g1] at this
      exact this
    have hxo : s3.holdsIn s.pairs.length s3.pairs.length x o = true := by
      refine (holdsIn_transfer s1 s3 _ _ _ _ (le_refl _) (by omega) ?_ hk3.2.2.1 hk3.2.2.2
        x).1 o hholds
      intro a _ ha
      rw [hk3.2.1 a (by rw [g1]; omega) (by omega), g2 a ha]
    have hdo : s3.holdsIn s.pairs.length s3.pairs.length d (s3.cdr (.pair s1.pairs.length))
        = true := by
      refine (holdsIn_transfer s3 s3 _ _ _ _ ?_ (le_refl _) (fun _ _ _ => rfl) (le_refl _)
        (fun _ _ => rfl) d).1 _ hrest3
      rw [g1]
      have := hk1.1
      omega
    have hcar : s3.car (.pair s1.pairs.length) = o := by
      rw [hcar3]
      simp only [Store.car, g3]
    have h1 := hk1.1
    simp only [Store.holdsIn, hcar, hxo, hdo, Bool.and_true, Bool.and_eq_true, decide_eq_true_eq]
    omega
  · refine ⟨?_, ?_, ?_, ?_⟩
    · have := hk1.1
      have := hk3.1
      rw [g1] at this
      omega
    · intro a ha
      have h1 := hk1.1
      rw [hk3.2.1 a (by rw [g1]; omega) (by omega), g2 a (by omega)]
      exact hk1.2.1 a ha
    · exact le_trans hk1.2.2.1 hk3.2.2.1
    · intro a ha
      rw [hk3.2.2.2 a (lt_of_lt_of_le ha hk1.2.2.1)]
      exact hk1.2.2.2 a ha

/-- The loop of `readList` on the text of one more element and of the rest of
the list. -/
theorem reads_rest_cons (h : Host) (strtod : List Char → Nat) (x d : Val)
    (hpx : Val.plain h strtod x = true)
    (hx : Reader.ReadsTree h strtod x) (hd : Reader.ReadsRest h strtod d) :
    Reader.ReadsRest h strtod (.cons x d) := by
  intro n k rest s ret c hn hk hc hcdr
  simp only [Val.size] at hn hk
  have hx1 : 2 ≤ x.size := by cases x <;> simp [Val.size]
  have hd1 : 2 ≤ d.size := by cases d <;> simp [Val.size]
  obtain ⟨m, rfl⟩ : ∃ m, n = m + 1 := ⟨n - 1, by omega⟩
  obtain ⟨j, rfl⟩ : ∃ m, k = m + 1 := ⟨k - 1, by omega⟩
  obtain ⟨o, s1, hread, hholds, hk1⟩ := hx (m + 1) true (d.chars h true ++ rest) s (by omega)
    (chars_true_delimited h d rest)
  obtain ⟨hne1, hne2⟩ := plain_not_delimiter h strtod s1 _ _ x o hpx hholds
  obtain ⟨g1, g2, g3⟩ := grown_facts s1 o
  have hlen1 := hk1.1
  obtain ⟨f1, f2, f3, f4, f5⟩ := setCdr_facts ({ s1 with pairs := s1.pairs ++ [(o, .null)] })
    c (.pair s1.pairs.length) (by rw [g1]; omega)
  have hnew : (({ s1 with pairs := s1.pairs ++ [(o, .null)] } : Store).setCdr (.pair c)
      (.pair s1.pairs.length)).pairs.getD s1.pairs.length (.null, .null) = (o, .null) := by
    rw [f4 _ (by omega), g3]
  obtain ⟨s3, hloop, hrest3, hcar3, hk3⟩ := hd (m + 1) j rest
    (({ s1 with pairs := s1.pairs ++ [(o, .null)] } : Store).setCdr (.pair c)
      (.pair s1.pairs.length)) ret s1.pairs.length
    (by omega) (by omega) (by rw [f3, g1]; omega) (by simp only [Store.cdr, hnew])
  obtain ⟨k31, k32, k33, k34⟩ := hk3
  rw [f3, g1] at k31 hrest3
  simp only [f3, g1] at k32
  have k33 : s1.vectors.length ≤ s3.vectors.length := k33
  have k34 : ∀ a, a < s1.vectors.length → s3.vectors.getD a [] = s1.vectors.getD a [] := k34
  have hold : ∀ a, a < s1.pairs.length → a ≠ c →
      s3.pairs.getD a (.null, .null) = s1.pairs.getD a (.null, .null) := by
    intro a ha hac
    rw [k32 a (by omega) (by omega), f4 a hac, g2 a ha]
  have hatc : s3.pairs.getD c (.null, .null)
      = ((s1.pairs.getD c (.null, .null)).1, .pair s1.pairs.length) := by
    rw [k32 c (by omega) (by omega)]
    have e1 := f1
    have e2 := f2
    simp only [Store.cdr, Store.car] at e1 e2
    rw [g2 c (by omega)] at e2
    exact Prod.ext e2 e1
  refine ⟨s3, ?_, ?_, ?_, ?_⟩
  · have hin : (Val.cons x d).chars h true ++ rest
        = ' ' :: (x.chars h false ++ (d.chars h true ++ rest)) := by
      simp [Val.chars]
    have hread2 : Reader.read strtod (m + 1) true
        (' ' :: (x.chars h false ++ (d.chars h true ++ rest))) s
          = .ok (o, d.chars h true ++ rest) s1 := by
      rw [read_space]; exact hread
    rw [hin, readListLoop_element _ j _ _ o _ _ s s1 hread2 hne1 hne2, appendCell_pair]
    exact hloop
  · have hcdrc : s3.cdr (.pair c) = .pair s1.pairs.length := by
      simp only [Store.cdr, hatc]
    have hxo : s3.holdsIn s.pairs.length s3.pairs.length x o = true := by
      refine (holdsIn_transfer s1 s3 _ _ _ _ (le_refl _) (by omega) ?_ k33 k34 x).1 o hholds
      intro a ha1 ha2
      exact hold a ha2 (by omega)
    have hdo : s3.holdsIn s.pairs.length s3.pairs.length d (s3.cdr (.pair s1.pairs.length))
        = true := by
      refine (holdsIn_transfer s3 s3 _ _ _ _ ?_ (le_refl _) (fun _ _ _ => rfl) (le_refl _)
        (fun _ _ => rfl) d).1 _ hrest3
      omega
    have hcar : s3.car (.pair s1.pairs.length) = o := by
      rw [hcar3]
      simp only [Store.car, hnew]
    rw [hcdrc]
    simp only [Store.holdsIn, hcar, hxo, hdo, Bool.and_true, Bool.and_eq_true, decide_eq_true_eq]
    omega
  · simp only [Store.car, hatc, hk1.2.1 c hc]
  · refine ⟨by omega, ?_, le_trans hk1.2.2.1 k33, ?_⟩
    · intro a ha hac
      rw [hold a (by omega) hac]
      exact hk1.2.1 a ha
    · intro a ha
      rw [k34 a (lt_of_lt_of_le ha hk1.2.2.1)]
      exact hk1.2.2.2 a ha

theorem reads_elems_null (h : Host) (strtod : List Char → Nat) :
    Reader.ReadsElems h strtod (.atom .null) := by
  intro n k rest s acc hn hk
  obtain ⟨m, rfl⟩ : ∃ m, n = m + 1 := ⟨n - 1, by simp [Val.size] at hn; omega⟩
  obtain ⟨j, rfl⟩ : ∃ m, k = m + 1 := ⟨k - 1, by simp [Val.size] at hk; omega⟩
  refine ⟨[], s, ?_, by simp [Store.holdsElems], keeps_refl s⟩
  have hchars : (Val.atom .null).chars h true ++ rest = ')' :: rest := rfl
  rw [hchars, Reader.readVectorLoop, read_paren_close]
  simp [Res.bind]

/-- The loop of `readVector` on the text of one more element and of the rest
of the elements. -/
theorem reads_elems_cons (h : Host) (strtod : List Char → Nat) (x d : Val)
    (hpx : Val.plain h strtod x = true)
    (hx : Reader.ReadsTree h strtod x) (hd : Reader.ReadsElems h strtod d) :
    Reader.ReadsElems h strtod (.cons x d) := by
  intro n k rest s acc hn hk
  simp only [Val.size] at hn hk
  have hx1 : 2 ≤ x.size := by cases x <;> simp [Val.size]
  have hd1 : 2 ≤ d.size := by cases d <;> simp [Val.size]
  obtain ⟨m, rfl⟩ : ∃ m, n = m + 1 := ⟨n - 1, by omega⟩
  obtain ⟨j, rfl⟩ : ∃ m, k = m + 1 := ⟨k - 1, by omega⟩
  obtain ⟨o, s1, hread, hholds, hk1⟩ := hx (m + 1) true (d.chars h true ++ rest) s (by omega)
    (chars_true_delimited h d rest)
  obtain ⟨hne1, hne2⟩ := plain_not_delimiter h strtod s1 _ _ x o hpx hholds
  obtain ⟨os, s2, hloop, helems, hk2⟩ := hd (m + 1) j rest s1 (acc ++ [o]) (by omega) (by omega)
  refine ⟨o :: os, s2, ?_, ?_, keeps_trans s s1 s2 hk1 hk2⟩
  · have hin : (Val.cons x d).chars h true ++ rest
        = ' ' :: (x.chars h false ++ (d.chars h true ++ rest)) := by
      simp [Val.chars]
    have hread2 : Reader.read strtod (m + 1) true
        (' ' :: (x.chars h false ++ (d.chars h true ++ rest))) s
          = .ok (o, d.chars h true ++ rest) s1 := by
      rw [read_space]; exact hread
    rw [hin, readVectorLoop_element _ j _ o _ _ s s1 hread2 hne1 hne2, hloop]
    simp
  · have e1 := (holdsIn_of_keeps s1 s2 _ _ s.pairs.length s2.pairs.length (le_refl _) hk2.1
      (le_refl _) hk2 x).1 o hholds
    have e2 := (holdsIn_transfer s2 s2 _ _ s.pairs.length s2.pairs.length hk1.1 (le_refl _)
      (fun _ _ _ => rfl) (le_refl _) (fun _ _ => rfl) d).2 os helems
    simp only [Store.holdsElems, e1, e2, Bool.and_self]

/-- Reading the text of a Vector of one element or more. -/
theorem reads_vector_cons (h : Host) (strtod : List Char → Nat) (x d : Val)
    (hpx : Val.plain h strtod x = true)
    (hx : Reader.ReadsTree h strtod x) (hd : Reader.ReadsElems h strtod d) :
    Reader.ReadsVector h strtod (.cons x d) := by
  intro n b rest s hn
  simp only [Val.size] at hn
  have hx1 : 2 ≤ x.size := by cases x <;> simp [Val.size]
  have hd1 : 2 ≤ d.size := by cases d <;> simp [Val.size]
  obtain ⟨j, rfl⟩ : ∃ m, n = m + 1 + 1 := ⟨n - 2, by omega⟩
  obtain ⟨o, s1, hread, hholds, hk1⟩ := hx (j + 1) true (d.chars h true ++ rest) s (by omega)
    (chars_true_delimited h d rest)
  obtain ⟨hne1, hne2⟩ := plain_not_delimiter h strtod s1 _ _ x o hpx hholds
  obtain ⟨os, s2, hloop, helems, hk2⟩ := hd (j + 1) j rest s1 ([] ++ [o]) (by omega) (by omega)
  refine ⟨o :: os, s2, ?_, ?_, keeps_trans s s1 s2 hk1 hk2⟩
  · have hin : '#' :: (Val.cons x d).chars h false ++ rest
        = '#' :: '(' :: (x.chars h false ++ (d.chars h true ++ rest)) := by
      simp [Val.chars]
    rw [hin, read_sharp_paren, readVectorLoop_element _ j _ o _ _ s s1 hread hne1 hne2, hloop]
    simp
  · have e1 := (holdsIn_of_keeps s1 s2 _ _ s.pairs.length s2.pairs.length (le_refl _) hk2.1
      (le_refl _) hk2 x).1 o hholds
    have e2 := (holdsIn_transfer s2 s2 _ _ s.pairs.length s2.pairs.length hk1.1 (le_refl _)
      (fun _ _ _ => rfl) (le_refl _) (fun _ _ => rfl) d).2 os helems
    simp only [Store.holdsElems, e1, e2, Bool.and_self]

theorem reads_tree_vector (h : Host) (strtod : List Char → Nat) (e : Val)
    (he : Reader.ReadsVector h strtod e) : Reader.ReadsTree h strtod (.vector e) := by
  intro n b rest s hn _
  simp only [Val.size] at hn
  obtain ⟨os, s1, hread, helems, hk1⟩ := he n b rest s hn
  refine ⟨.vector s1.vectors.length, { s1 with vectors := s1.vectors ++ [os] }, hread, ?_, ?_⟩
  · have hget : ({ s1 with vectors := s1.vectors ++ [os] } : Store).vectors.getD
        s1.vectors.length [] = os := by
      simp only [List.getD_eq_getElem?_getD, List.getElem?_append_right (le_refl _)]
      simp
    have e1 := (holdsIn_transfer s1 { s1 with vectors := s1.vectors ++ [os] } _ _
      s.pairs.length s1.pairs.length (le_refl _) (le_refl _) (fun _ _ _ => rfl) (by simp)
      (fun a ha => by
        simp only [List.getD_eq_getElem?_getD, List.getElem?_append_left ha]) e).2 os helems
    simp only [Store.holdsIn, hget, e1, Bool.and_true, decide_eq_true_eq]
    simp
  · refine ⟨hk1.1, hk1.2.1, ?_, ?_⟩
    · have := hk1.2.2.1
      simp only [List.length_append, List.length_singleton]
      omega
    · intro a ha
      have ha1 : a < s1.vectors.length := lt_of_lt_of_le ha hk1.2.2.1
      simp only [List.getD_eq_getElem?_getD, List.getElem?_append_left ha1]
      have := hk1.2.2.2 a ha
      simpa [List.getD_eq_getElem?_getD] using this

/-- Reading the text of a printable tree: the four parts of the induction. -/
theorem plain_reads (h : Host) (strtod : List Char → Nat) :
    ∀ v : Val, Val.plain h strtod v = true →
      Reader.ReadsTree h strtod v ∧ Reader.ReadsRest h strtod v ∧
      (v.proper = true → Reader.ReadsElems h strtod v) ∧
      (v.proper = true → ∀ x d, v = .cons x d → Reader.ReadsVector h strtod v) := by
  intro v
  induction v with
  | atom x =>
    intro hp
    have hR := reads_atom h strtod x hp
    refine ⟨hR, ?_, ?_, ?_⟩
    · by_cases hx : x = .null
      · subst hx
        exact reads_rest_null h strtod
      · exact reads_rest_tail h strtod (.atom x) (by simp [Val.chars, hx]) hR
          (by simp [Val.size])
    · intro hproper
      simp only [Val.proper, decide_eq_true_eq] at hproper
      subst hproper
      exact reads_elems_null h strtod
    · intro _ y d hv
      cases hv
  | cons x d ihx ihd =>
    intro hp
    simp only [Val.plain, Bool.and_eq_true] at hp
    obtain ⟨hx, _, _, _⟩ := ihx hp.1
    obtain ⟨_, hdr, hde, _⟩ := ihd hp.2
    exact ⟨reads_tree_cons h strtod x d hp.1 hx hdr, reads_rest_cons h strtod x d hp.1 hx hdr,
      fun hproper => reads_elems_cons h strtod x d hp.1 hx (hde hproper),
      fun hproper y e hv => reads_vector_cons h strtod x d hp.1 hx (hde hproper)⟩
  | vector e ihe =>
    intro hp
    simp only [Val.plain, Bool.and_eq_true] at hp
    obtain ⟨⟨hcons, hproper⟩, hpe⟩ := hp
    obtain ⟨_, _, _, hv⟩ := ihe hpe
    have hc : ∃ x d, e = .cons x d := by
      cases e with
      | cons x d => exact ⟨x, d, rfl⟩
      | atom _ => simp at hcons
      | vector _ => simp at hcons
    obtain ⟨x, d, he⟩ := hc
    have hR := reads_tree_vector h strtod e (hv hproper x d he)
    refine ⟨hR, reads_rest_tail h strtod (.vector e) (by simp [Val.chars]) hR
      (by simp [Val.size]), ?_, ?_⟩
    · intro hpr
      simp [Val.proper] at hpr
    · intro _ y d hv
      cases hv

/-- C31 (as amended). For every object that holds, in its store, a tree built
from Integers that are not negative, Floats whose text is a token of digits
and one period that converts to the same double, Symbols whose name the reader
takes for a Symbol, Booleans, Null, proper and dotted lists, and Vectors of one
element or more: `toString` returns a text, and reading that text, followed by
nothing or by white space or a closing parenthesis, in any store, returns an
object that holds the same tree (same kinds, same numbers, same names, same
shape), leaves what follows the text, and keeps the pairs and vectors of that
store. -/
theorem print_read_round_trip (h : Host) (strtod : List Char → Nat) (s : Store) (o : Obj)
    (v : Val) (n : Nat) (b : Bool) (rest : List Char) (s0 : Store)
    (hholds : s.holds o v = true) (hplain : v.plain h strtod = true) (hn : v.size ≤ n)
    (hrest : Reader.Delimited rest) :
    ∃ text, Obj.toString h s n o = some text ∧
      ∃ o1 s1, Reader.read strtod n b (text.data ++ rest) s0 = .ok (o1, rest) s1 ∧
        s1.holds o1 v = true ∧ s0.Keeps s1 := by
  obtain ⟨hprint, _⟩ := plain_prints h strtod s 0 s.pairs.length v hplain
  obtain ⟨hread, _⟩ := plain_reads h strtod v hplain
  obtain ⟨o1, s1, hr, hh, hk⟩ := hread n b rest s0 hn hrest
  refine ⟨String.mk (v.chars h false), hprint o n hholds hn, o1, s1, hr, ?_, hk⟩
  exact (holdsIn_transfer s1 s1 _ _ 0 s1.pairs.length (Nat.zero_le _) (le_refl _)
    (fun _ _ _ => rfl) (le_refl _) (fun _ _ => rfl) v).1 o1 hh

/-- The list `(a (1 . #t) #(2 3))` of `roundStore` is printed as that text,
and the text is read in `emptyStore` as a list of the same tree. -/
theorem print_read_round_trip_witness :
    roundStore.holds (.pair 0) roundTree = true ∧
    roundTree.plain noNatives noDoubles = true ∧
    (∃ text, Obj.toString noNatives roundStore roundTree.size (.pair 0) = some text ∧
      ∃ o1 s1, Reader.read noDoubles roundTree.size true (text.data ++ []) emptyStore
          = .ok (o1, []) s1 ∧
        s1.holds o1 roundTree = true ∧ emptyStore.Keeps s1) ∧
    Obj.toString noNatives roundStore roundTree.size (.pair 0) = some "(a (1 . #t) #(2 3))" :=
  ⟨by decide, by decide,
   print_read_round_trip noNatives noDoubles roundStore (.pair 0) roundTree roundTree.size true []
     emptyStore (by decide) (by decide) (le_refl _) (Or.inl rfl),
   by decide⟩

/-- C31 (as stated) fails: the Character `a` is printed as `a`, which reads as
the Symbol `a`; the Integer -5 is printed as `-5`, which reads as the Symbol
`-5`; the double 1.0 is printed as `1`, which reads as the Integer 1; the empty
Vector is printed as `#)`, which reads as the Symbol `#`; and the Symbol whose
name is `12` is printed as `12`, which reads as the Integer 12. -/
theorem round_trip_fails_outside_plain_values :
    (Obj.toString noNatives emptyStore 1 (.char 97) = some "a" ∧
      Reader.read noDoubles 2 true "a".toList emptyStore = .ok (.symbol "a", []) emptyStore) ∧
    (Obj.toString noNatives emptyStore 1 (.fixnum (-5)) = some "-5" ∧
      Reader.read noDoubles 2 true "-5".toList emptyStore
        = .ok (.symbol "-5", []) emptyStore) ∧
    (Obj.toString plainFloats emptyStore 1 (.flonum 4607182418800017408) = some "1" ∧
      Reader.read noDoubles 2 true "1".toList emptyStore = .ok (.fixnum 1, []) emptyStore) ∧
    (Obj.toString noNatives quoteStore 1 (.vector 0) = some "#)" ∧
      Reader.read noDoubles 2 true "#)".toList quoteStore
        = .ok (.symbol "#", [')']) quoteStore) ∧
    (Obj.toString noNatives emptyStore 1 (.symbol "12") = some "12" ∧
      Reader.read noDoubles 2 true "12".toList emptyStore
        = .ok (.fixnum 12, []) emptyStore) := by
  decide

/-! ## C36: the collector and a pair that refers to itself -/

theorem size_pos (r : Record) : 0 < r.size := by
  unfold Record.size
  split <;> omega

theorem refs_length (r : Record) : (Heap.refs r).length ≤ 2 := by
  unfold Heap.refs
  split <;> simp

theorem recordAt_setLive_same :
    ∀ (heap : List Record) (p : Nat) (r : Record), Heap.recordAt heap p = some r →
      Heap.recordAt (Heap.setLive heap p) p = some { r with live := true } := by
  intro heap
  induction heap with
  | nil => intro p r h; simp [Heap.recordAt] at h
  | cons r0 rs ih =>
    intro p r h
    by_cases hp : p = 0
    · subst hp
      simp only [Heap.recordAt, if_true, Option.some.injEq] at h
      subst h
      simp [Heap.setLive, Heap.recordAt]
    · by_cases hlt : p < r0.size
      · simp [Heap.recordAt, hp, hlt] at h
      · simp only [Heap.recordAt, if_neg hp, if_neg hlt] at h
        simp only [Heap.setLive, if_neg hp, if_neg hlt, Heap.recordAt]
        exact ih _ r h

theorem recordAt_setLive_other :
    ∀ (heap : List Record) (p q : Nat), q ≠ p →
      Heap.recordAt (Heap.setLive heap p) q = Heap.recordAt heap q := by
  intro heap
  induction heap with
  | nil => intro p q _; rfl
  | cons r0 rs ih =>
    intro p q hq
    by_cases hp : p = 0
    · subst hp
      have hs : ({ r0 with live := true } : Record).size = r0.size := rfl
      simp only [Heap.setLive, if_true, Heap.recordAt, if_neg hq, hs]
    · by_cases hlt : p < r0.size
      · simp only [Heap.setLive, if_neg hp, if_pos hlt]
      · simp only [Heap.setLive, if_neg hp, if_neg hlt, Heap.recordAt]
        by_cases hq0 : q = 0
        · simp [hq0]
        · by_cases hql : q < r0.size
          · simp [hq0, hql]
          · simp only [if_neg hq0, if_neg hql]
            exact ih _ _ (by omega)

theorem bytes_setLive :
    ∀ (heap : List Record) (p : Nat), Heap.bytes (Heap.setLive heap p) = Heap.bytes heap := by
  intro heap
  induction heap with
  | nil => intro p; rfl
  | cons r0 rs ih =>
    intro p
    have hs : ({ r0 with live := true } : Record).size = r0.size := rfl
    by_cases hp : p = 0
    · simp [Heap.setLive, hp, Heap.bytes, hs]
    · by_cases hlt : p < r0.size
      · simp [Heap.setLive, hp, hlt]
      · have := ih (p - r0.size)
        simp only [Heap.bytes] at this
        simp [Heap.setLive, hp, hlt, Heap.bytes, this]

theorem unmarked_setLive :
    ∀ (heap : List Record) (p : Nat) (r : Record), Heap.recordAt heap p = some r →
      r.live = false → Heap.unmarked (Heap.setLive heap p) + 1 = Heap.unmarked heap := by
  intro heap
  induction heap with
  | nil => intro p r h; simp [Heap.recordAt] at h
  | cons r0 rs ih =>
    intro p r h hl
    by_cases hp : p = 0
    · subst hp
      simp only [Heap.recordAt, if_true, Option.some.injEq] at h
      subst h
      simp [Heap.setLive, Heap.unmarked, List.countP_cons, hl]
    · by_cases hlt : p < r0.size
      · simp [Heap.recordAt, hp, hlt] at h
      · simp only [Heap.recordAt, if_neg hp, if_neg hlt] at h
        have := ih _ r h hl
        simp only [Heap.unmarked] at this
        simp only [Heap.setLive, if_neg hp, if_neg hlt, Heap.unmarked, List.countP_cons]
        omega

/-- The mark phase ends on every heap: each record is entered once. -/
theorem mark_terminates :
    ∀ (fuel : Nat) (stack : List Nat) (heap : List Record),
      stack.length + 3 * Heap.unmarked heap + 1 ≤ fuel →
      ∃ marked, Heap.mark fuel stack heap = some marked := by
  intro fuel
  induction fuel with
  | zero => intro stack heap h; omega
  | succ fuel ih =>
    intro stack heap h
    cases stack with
    | nil => exact ⟨heap, rfl⟩
    | cons p stack =>
      simp only [List.length_cons] at h
      rw [Heap.mark]
      cases hr : Heap.recordAt heap p with
      | none => exact ih stack heap (by omega)
      | some r =>
        by_cases hl : r.live = true
        · simp only [hl, if_true]
          exact ih stack heap (by omega)
        · simp only [hl, if_false]
          have hu := unmarked_setLive heap p r hr (by simpa using hl)
          have hrefs := refs_length r
          exact ih _ _ (by simp only [List.length_append]; omega)

theorem recordAt_mem :
    ∀ (heap : List Record) (p : Nat) (r : Record), Heap.recordAt heap p = some r → r ∈ heap := by
  intro heap
  induction heap with
  | nil => intro p r h; simp [Heap.recordAt] at h
  | cons r0 rs ih =>
    intro p r h
    by_cases hp : p = 0
    · simp only [Heap.recordAt, if_pos hp, Option.some.injEq] at h
      simp [h]
    · by_cases hlt : p < r0.size
      · simp [Heap.recordAt, hp, hlt] at h
      · simp only [Heap.recordAt, if_neg hp, if_neg hlt] at h
        exact List.mem_cons_of_mem _ (ih _ r h)

/-- The record the heap has at `q` once the record at `p` has been marked. -/
theorem recordAt_setLive (heap : List Record) (p q : Nat) (r : Record)
    (h : Heap.recordAt heap q = some r) :
    ∃ r1, Heap.recordAt (Heap.setLive heap p) q = some r1 ∧ r1.fields = r.fields ∧
      r1.keepAlive = r.keepAlive ∧ (r.live = true → r1.live = true) ∧
      (q = p → r1.live = true) ∧ (q ≠ p → r1 = r) := by
  by_cases hq : q = p
  · subst hq
    exact ⟨_, recordAt_setLive_same heap q r h, rfl, rfl, fun _ => rfl, fun _ => rfl,
      fun hne => absurd rfl hne⟩
  · exact ⟨r, by rw [recordAt_setLive_other heap p q hq]; exact h, rfl, rfl, fun hl => hl,
      fun he => absurd he hq, fun _ => rfl⟩

/-- The mark phase changes nothing but live flags, which it sets. -/
theorem mark_keeps :
    ∀ (fuel : Nat) (stack : List Nat) (heap marked : List Record),
      Heap.mark fuel stack heap = some marked →
      (∀ q r, Heap.recordAt heap q = some r →
        ∃ r1, Heap.recordAt marked q = some r1 ∧ r1.fields = r.fields ∧
          r1.keepAlive = r.keepAlive ∧ (r.live = true → r1.live = true)) ∧
      Heap.bytes marked = Heap.bytes heap := by
  intro fuel
  induction fuel with
  | zero => intro stack heap marked h; cases h
  | succ fuel ih =>
    intro stack heap marked h
    cases stack with
    | nil =>
      simp only [Heap.mark, Option.some.injEq] at h
      subst h
      exact ⟨fun q r hr => ⟨r, hr, rfl, rfl, fun hl => hl⟩, rfl⟩
    | cons p stack =>
      rw [Heap.mark] at h
      cases hr : Heap.recordAt heap p with
      | none => rw [hr] at h; exact ih stack heap marked h
      | some r0 =>
        rw [hr] at h
        by_cases hl : r0.live = true
        · simp only [hl, if_true] at h
          exact ih stack heap marked h
        · simp only [hl, if_false] at h
          obtain ⟨i1, i2⟩ := ih _ _ marked h
          refine ⟨?_, by rw [i2, bytes_setLive]⟩
          intro q r hq
          obtain ⟨r1, a1, a2, a3, a4, _, _⟩ := recordAt_setLive heap p q r hq
          obtain ⟨r2, b1, b2, b3, b4⟩ := i1 q r1 a1
          exact ⟨r2, b1, b2.trans a2, b3.trans a3, fun hl => b4 (a4 hl)⟩

/-- The mark phase sets the live flag of every record at a position of the
stack. -/
theorem mark_stack_live :
    ∀ (fuel : Nat) (stack : List Nat) (heap marked : List Record),
      Heap.mark fuel stack heap = some marked →
      ∀ p ∈ stack, ∀ r, Heap.recordAt heap p = some r →
        ∃ r1, Heap.recordAt marked p = some r1 ∧ r1.live = true := by
  intro fuel
  induction fuel with
  | zero => intro stack heap marked h; cases h
  | succ fuel ih =>
    intro stack heap marked h p hp r hpr
    cases stack with
    | nil => cases hp
    | cons p0 stack =>
      rw [Heap.mark] at h
      cases hr : Heap.recordAt heap p0 with
      | none =>
        rw [hr] at h
        rcases List.mem_cons.mp hp with rfl | hmem
        · rw [hr] at hpr; cases hpr
        · exact ih stack heap marked h p hmem r hpr
      | some r0 =>
        rw [hr] at h
        by_cases hl : r0.live = true
        · simp only [hl, if_true] at h
          rcases List.mem_cons.mp hp with rfl | hmem
          · obtain ⟨r1, a1, _, _, a4⟩ := (mark_keeps fuel stack heap marked h).1 p r0 hr
            exact ⟨r1, a1, a4 hl⟩
          · exact ih stack heap marked h p hmem r hpr
        · simp only [hl, if_false] at h
          obtain ⟨r1, a1, _, _, _, a5, _⟩ := recordAt_setLive heap p0 p r hpr
          rcases List.mem_cons.mp hp with rfl | hmem
          · obtain ⟨r2, b1, _, _, b4⟩ := (mark_keeps fuel _ _ marked h).1 p r1 a1
            exact ⟨r2, b1, b4 (a5 rfl)⟩
          · exact ih _ _ marked h p (List.mem_append_right _ hmem) r1 a1

/-- When the mark phase ends, every record a live record refers to is live. -/
theorem mark_closed :
    ∀ (fuel : Nat) (stack : List Nat) (heap marked : List Record),
      Heap.mark fuel stack heap = some marked → Heap.Closed stack heap →
      Heap.Closed [] marked := by
  intro fuel
  induction fuel with
  | zero => intro stack heap marked h; cases h
  | succ fuel ih =>
    intro stack heap marked h hinv
    cases stack with
    | nil =>
      simp only [Heap.mark, Option.some.injEq] at h
      subst h
      exact hinv
    | cons p0 stack =>
      rw [Heap.mark] at h
      cases hr : Heap.recordAt heap p0 with
      | none =>
        rw [hr] at h
        refine ih stack heap marked h ?_
        intro q r hq hl x hx
        rcases hinv q r hq hl x hx with hmem | hlive
        · rcases List.mem_cons.mp hmem with rfl | hmem
          · exact Or.inr fun rx hrx => by rw [hr] at hrx; cases hrx
          · exact Or.inl hmem
        · exact Or.inr hlive
      | some r0 =>
        rw [hr] at h
        by_cases hl0 : r0.live = true
        · simp only [hl0, if_true] at h
          refine ih stack heap marked h ?_
          intro q r hq hl x hx
          rcases hinv q r hq hl x hx with hmem | hlive
          · rcases List.mem_cons.mp hmem with rfl | hmem
            · exact Or.inr fun rx hrx => by
                rw [hr] at hrx
                cases hrx
                exact hl0
            · exact Or.inl hmem
          · exact Or.inr hlive
        · simp only [hl0, if_false] at h
          refine ih _ _ marked h ?_
          intro q r hq hl x hx
          have hlive_new : ∀ y, (∀ ry, Heap.recordAt heap y = some ry → ry.live = true) →
              ∀ ry, Heap.recordAt (Heap.setLive heap p0) y = some ry → ry.live = true := by
            intro y hy ry hry
            by_cases hyp : y = p0
            · subst hyp
              rw [recordAt_setLive_same heap y r0 hr] at hry
              cases hry
              rfl
            · rw [recordAt_setLive_other heap p0 y hyp] at hry
              exact hy ry hry
          by_cases hqp : q = p0
          · subst hqp
            rw [recordAt_setLive_same heap q r0 hr] at hq
            cases hq
            exact Or.inl (List.mem_append_left _ hx)
          · rw [recordAt_setLive_other heap p0 q hqp] at hq
            rcases hinv q r hq hl x hx with hmem | hlive
            · rcases List.mem_cons.mp hmem with rfl | hmem
              · refine Or.inr fun rx hrx => ?_
                rw [recordAt_setLive_same heap x r0 hr] at hrx
                cases hrx
                rfl
              · exact Or.inl (List.mem_append_right _ hmem)
            · exact Or.inr (hlive_new x hlive)

/-- The mark phase leaves a record to which no root and no other record
refers as it is. -/
theorem mark_unreached :
    ∀ (fuel : Nat) (stack : List Nat) (heap marked : List Record) (p : Nat) (r : Record),
      Heap.mark fuel stack heap = some marked → p ∉ stack →
      Heap.recordAt heap p = some r → r.live = false →
      (∀ q rq, q ≠ p → Heap.recordAt heap q = some rq → p ∉ Heap.refs rq) →
      Heap.recordAt marked p = some r := by
  intro fuel
  induction fuel with
  | zero => intro stack heap marked p r h; cases h
  | succ fuel ih =>
    intro stack heap marked p r h hp hpr hlive hrefs
    cases stack with
    | nil =>
      simp only [Heap.mark, Option.some.injEq] at h
      subst h
      exact hpr
    | cons p0 stack =>
      have hp0 : p0 ≠ p := fun he => hp (by simp [he])
      have hps : p ∉ stack := fun hm => hp (List.mem_cons_of_mem _ hm)
      rw [Heap.mark] at h
      cases hr : Heap.recordAt heap p0 with
      | none => rw [hr] at h; exact ih stack heap marked p r h hps hpr hlive hrefs
      | some r0 =>
        rw [hr] at h
        by_cases hl0 : r0.live = true
        · simp only [hl0, if_true] at h
          exact ih stack heap marked p r h hps hpr hlive hrefs
        · simp only [hl0, if_false] at h
          refine ih _ _ marked p r h ?_ ?_ hlive ?_
          · intro hm
            rcases List.mem_append.mp hm with h1 | h1
            · exact hrefs p0 r0 hp0 hr h1
            · exact hps h1
          · rw [recordAt_setLive_other heap p0 p (Ne.symm hp0)]
            exact hpr
          · intro q rq hq hrq
            by_cases hqp : q = p0
            · subst hqp
              rw [recordAt_setLive_same heap q r0 hr] at hrq
              cases hrq
              exact hrefs q r0 hq hr
            · rw [recordAt_setLive_other heap p0 q hqp] at hrq
              exact hrefs q rq hq hrq

/-- The mark phase sets the live flag of records reachable from the stack
only: a record that is live at the end was live at the beginning or is
reachable. -/
theorem mark_sound (heap0 : List Record) (roots : List Nat) :
    ∀ (fuel : Nat) (stack : List Nat) (heap marked : List Record),
      Heap.mark fuel stack heap = some marked →
      (∀ q r, Heap.recordAt heap q = some r →
        ∃ r0, Heap.recordAt heap0 q = some r0 ∧ r0.fields = r.fields) →
      (∀ x ∈ stack, Heap.Reach heap0 roots x) →
      (∀ q r, Heap.recordAt heap q = some r → r.live = true → Heap.Reach heap0 roots q) →
      ∀ q r, Heap.recordAt marked q = some r → r.live = true → Heap.Reach heap0 roots q := by
  intro fuel
  induction fuel with
  | zero => intro stack heap marked h; cases h
  | succ fuel ih =>
    intro stack heap marked h hsame hstack hlive
    cases stack with
    | nil =>
      simp only [Heap.mark, Option.some.injEq] at h
      subst h
      exact hlive
    | cons p0 stack =>
      have hs : ∀ x ∈ stack, Heap.Reach heap0 roots x :=
        fun x hx => hstack x (List.mem_cons_of_mem _ hx)
      rw [Heap.mark] at h
      cases hr : Heap.recordAt heap p0 with
      | none => rw [hr] at h; exact ih stack heap marked h hsame hs hlive
      | some r0 =>
        rw [hr] at h
        by_cases hl0 : r0.live = true
        · simp only [hl0, if_true] at h
          exact ih stack heap marked h hsame hs hlive
        · simp only [hl0, if_false] at h
          have hp0 : Heap.Reach heap0 roots p0 := hstack p0 (List.mem_cons_self _ _)
          refine ih _ _ marked h ?_ ?_ ?_
          · intro q r hq
            by_cases hqp : q = p0
            · subst hqp
              rw [recordAt_setLive_same heap q r0 hr] at hq
              cases hq
              exact hsame q r0 hr
            · rw [recordAt_setLive_other heap p0 q hqp] at hq
              exact hsame q r hq
          · intro x hx
            rcases List.mem_append.mp hx with h1 | h1
            · obtain ⟨r1, a1, a2⟩ := hsame p0 r0 hr
              refine Heap.Reach.step p0 x r1 hp0 a1 ?_
              have : Heap.refs r1 = Heap.refs r0 := by simp only [Heap.refs, a2]
              rw [this]
              exact h1
            · exact hs x h1
          · intro q r hq hl
            by_cases hqp : q = p0
            · subst hqp
              exact hp0
            · rw [recordAt_setLive_other heap p0 q hqp] at hq
              exact hlive q r hq hl

/-- The mark phase, started on a heap without a live flag, sets the flag of
every record reachable from the stack. -/
theorem mark_complete (fuel : Nat) (stack : List Nat) (heap marked : List Record)
    (h : Heap.mark fuel stack heap = some marked) (hclear : ∀ r ∈ heap, r.live = false)
    (p : Nat) (hreach : Heap.Reach heap stack p) :
    ∀ r, Heap.recordAt heap p = some r →
      ∃ r1, Heap.recordAt marked p = some r1 ∧ r1.live = true ∧ r1.fields = r.fields := by
  have hclosed : Heap.Closed [] marked := by
    refine mark_closed fuel stack heap marked h ?_
    intro q r hq hl
    have := hclear r (recordAt_mem heap q r hq)
    rw [this] at hl
    cases hl
  induction hreach with
  | root p hp =>
    intro r hr
    obtain ⟨r1, a1, a2⟩ := mark_stack_live fuel stack heap marked h p hp r hr
    obtain ⟨r2, b1, b2, _, _⟩ := (mark_keeps fuel stack heap marked h).1 p r hr
    rw [a1] at b1
    cases b1
    exact ⟨r1, a1, a2, b2⟩
  | step p q r0 _ hr0 hq ih =>
    intro r hr
    obtain ⟨r1, a1, a2, a3⟩ := ih r0 hr0
    obtain ⟨r2, b1, b2, _, _⟩ := (mark_keeps fuel stack heap marked h).1 q r hr
    have hq1 : q ∈ Heap.refs r1 := by
      have : Heap.refs r1 = Heap.refs r0 := by simp only [Heap.refs, a3]
      rw [this]
      exact hq
    rcases hclosed p r1 a1 a2 q hq1 with hmem | hlive
    · cases hmem
    · exact ⟨r2, b1, hlive r2 b1, b2⟩

theorem size_move (fwd : Nat → Nat) (r : Record) : (Heap.move fwd r).size = r.size := by
  unfold Heap.move Record.size
  cases r.fields <;> rfl

theorem plan_cons_live (r0 : Record) (rs : List Record) (t : Nat) (h : r0.live = true) :
    Heap.plan (r0 :: rs) t
      = { r0 with gcTargetPosition := t } :: Heap.plan rs (t + r0.size) := by
  rw [Heap.plan, if_pos h]

theorem plan_cons_dead (r0 : Record) (rs : List Record) (t : Nat) (h : ¬ r0.live = true) :
    Heap.plan (r0 :: rs) t = r0 :: Heap.plan rs t := by
  rw [Heap.plan, if_neg h]

theorem compact_cons_live (fwd : Nat → Nat) (r0 : Record) (rs : List Record)
    (h : r0.live = true) :
    Heap.compact fwd (r0 :: rs) = Heap.move fwd r0 :: Heap.compact fwd rs := by
  unfold Heap.compact
  rw [List.filter_cons_of_pos h, List.map_cons]

theorem compact_cons_dead (fwd : Nat → Nat) (r0 : Record) (rs : List Record)
    (h : ¬ r0.live = true) :
    Heap.compact fwd (r0 :: rs) = Heap.compact fwd rs := by
  unfold Heap.compact
  rw [List.filter_cons_of_neg h]

theorem recordAt_cons_zero (r0 : Record) (rs : List Record) :
    Heap.recordAt (r0 :: rs) 0 = some r0 := by
  rw [Heap.recordAt, if_pos rfl]

theorem recordAt_cons_behind (r0 : Record) (rs : List Record) (p : Nat)
    (hp : ¬ p = 0) (hlt : ¬ p < r0.size) :
    Heap.recordAt (r0 :: rs) p = Heap.recordAt rs (p - r0.size) := by
  rw [Heap.recordAt, if_neg hp, if_neg hlt]

theorem bytes_cons (r0 : Record) (rs : List Record) :
    Heap.bytes (r0 :: rs) = r0.size + Heap.bytes rs := by
  simp [Heap.bytes]

/-- The plan phase gives a live record a target position, and the compact
phase puts the record there. -/
theorem plan_compact_live (fwd : Nat → Nat) :
    ∀ (heap : List Record) (t p : Nat) (r : Record),
      Heap.recordAt heap p = some r → r.live = true →
      ∃ tg, t ≤ tg ∧
        Heap.recordAt (Heap.plan heap t) p = some { r with gcTargetPosition := tg } ∧
        Heap.recordAt (Heap.compact fwd (Heap.plan heap t)) (tg - t)
          = some (Heap.move fwd { r with gcTargetPosition := tg }) := by
  intro heap
  induction heap with
  | nil => intro t p r h; simp [Heap.recordAt] at h
  | cons r0 rs ih =>
    intro t p r h hl
    have hs : ({ r0 with gcTargetPosition := t } : Record).size = r0.size := rfl
    by_cases hp : p = 0
    · subst hp
      rw [recordAt_cons_zero] at h
      cases h
      refine ⟨t, le_refl _, ?_, ?_⟩
      · rw [plan_cons_live r0 rs t hl, recordAt_cons_zero]
      · rw [plan_cons_live r0 rs t hl, compact_cons_live fwd { r0 with gcTargetPosition := t } _ hl, Nat.sub_self,
          recordAt_cons_zero]
    · by_cases hlt : p < r0.size
      · simp [Heap.recordAt, hp, hlt] at h
      · rw [recordAt_cons_behind r0 rs p hp hlt] at h
        by_cases hl0 : r0.live = true
        · obtain ⟨tg, h1, h2, h3⟩ := ih (t + r0.size) (p - r0.size) r h hl
          have hpos := size_pos r0
          refine ⟨tg, by omega, ?_, ?_⟩
          · rw [plan_cons_live r0 rs t hl0, recordAt_cons_behind _ _ p hp (by rw [hs]; exact hlt),
              hs]
            exact h2
          · have e0 : ¬ tg - t = 0 := by omega
            have e1 : ¬ tg - t < (Heap.move fwd { r0 with gcTargetPosition := t }).size := by
              rw [size_move, hs]; omega
            have e2 : tg - t - r0.size = tg - (t + r0.size) := by omega
            rw [plan_cons_live r0 rs t hl0, compact_cons_live fwd { r0 with gcTargetPosition := t } _ hl0,
              recordAt_cons_behind _ _ _ e0 e1, size_move, hs, e2]
            exact h3
        · obtain ⟨tg, h1, h2, h3⟩ := ih t (p - r0.size) r h hl
          refine ⟨tg, h1, ?_, ?_⟩
          · rw [plan_cons_dead r0 rs t hl0, recordAt_cons_behind _ _ p hp hlt]
            exact h2
          · rw [plan_cons_dead r0 rs t hl0, compact_cons_dead fwd _ _ hl0]
            exact h3

/-- The compact phase leaves the bytes of a record that is not live out. -/
theorem plan_compact_dead (fwd : Nat → Nat) :
    ∀ (heap : List Record) (t : Nat),
      Heap.bytes (Heap.compact fwd (Heap.plan heap t)) ≤ Heap.bytes heap ∧
      ∀ (p : Nat) (r : Record), Heap.recordAt heap p = some r → r.live = false →
        Heap.bytes (Heap.compact fwd (Heap.plan heap t)) + r.size ≤ Heap.bytes heap := by
  intro heap
  induction heap with
  | nil =>
    intro t
    exact ⟨le_refl _, fun p r h => by simp [Heap.recordAt] at h⟩
  | cons r0 rs ih =>
    intro t
    by_cases hl0 : r0.live = true
    · obtain ⟨i1, i2⟩ := ih (t + r0.size)
      have hs : (Heap.move fwd { r0 with gcTargetPosition := t }).size = r0.size := by
        rw [size_move]; rfl
      rw [plan_cons_live r0 rs t hl0, compact_cons_live fwd { r0 with gcTargetPosition := t } _ hl0,
        bytes_cons, bytes_cons, hs]
      refine ⟨by omega, ?_⟩
      intro p r h hl
      by_cases hp : p = 0
      · subst hp
        rw [recordAt_cons_zero] at h
        cases h
        rw [hl] at hl0
        cases hl0
      · by_cases hlt : p < r0.size
        · simp [Heap.recordAt, hp, hlt] at h
        · rw [recordAt_cons_behind r0 rs p hp hlt] at h
          have := i2 _ r h hl
          omega
    · obtain ⟨i1, i2⟩ := ih t
      rw [plan_cons_dead r0 rs t hl0, compact_cons_dead fwd _ _ hl0, bytes_cons]
      refine ⟨by omega, ?_⟩
      intro p r h hl
      by_cases hp : p = 0
      · subst hp
        rw [recordAt_cons_zero] at h
        cases h
        omega
      · by_cases hlt : p < r0.size
        · simp [Heap.recordAt, hp, hlt] at h
        · rw [recordAt_cons_behind r0 rs p hp hlt] at h
          have := i2 _ r h hl
          omega

theorem reach_mono (heap : List Record) (roots more : List Nat) (p : Nat)
    (h : Heap.Reach heap roots p) : Heap.Reach heap (roots ++ more) p := by
  induction h with
  | root p hp => exact Heap.Reach.root p (List.mem_append_left _ hp)
  | step p q r _ hr hq ih => exact Heap.Reach.step p q r ih hr hq

theorem reach_nil (heap : List Record) (p : Nat) : ¬ Heap.Reach heap [] p := by
  intro h
  induction h with
  | root p hp => cases hp
  | step p q r _ _ _ ih => exact ih

theorem unmarked_le (heap : List Record) : Heap.unmarked heap ≤ heap.length :=
  List.countP_le_length _

/-- On the sample heap with the pair at 16 as the only root, `gc` drops the
pair at 0 and moves the pair that refers to itself to the position 0, with its
car and the root replaced by 0; a second `gc` without a root leaves nothing. -/
theorem selfHeap_collections :
    Heap.gc [16] selfHeap
        = some ([0], [⟨false, false, 0, .pair 0 16⟩, ⟨false, false, 16, .other 8 0⟩]) ∧
      Heap.gc [] [⟨false, false, 0, .pair 0 16⟩, ⟨false, false, 16, .other 8 0⟩]
        = some ([], []) := by
  decide

/-- C36: on a heap in which no live flag is set, as `gc` leaves it, `gc`
returns for every root set, also when a pair refers to itself: the mark phase
ends, since a record whose flag is set is not entered again, and the new heap
has no live flag set either.  A pair at `p` whose car is `p` and which is
reachable from a root lies, after `gc`, at the position `fwd p` by which the
roots that referred to it were replaced, and its car is `fwd p`.  When the pair
is reachable neither from a root nor from a record kept alive, the heap after
`gc` is shorter by the 16 bytes of the pair at least. -/
theorem self_referential_pair_collected (roots : List Nat) (heap : List Record) (p d : Nat)
    (r : Record) (hclear : ∀ x ∈ heap, x.live = false)
    (hr : Heap.recordAt heap p = some r) (hself : r.fields = .pair p d) :
    ∃ roots1 heap1, Heap.gc roots heap = some (roots1, heap1) ∧
      (∀ x ∈ heap1, x.live = false) ∧
      (Heap.Reach heap roots p →
        ∃ fwd : Nat → Nat, roots1 = roots.map fwd ∧
          ∃ r1, Heap.recordAt heap1 (fwd p) = some r1 ∧
            r1.fields = .pair (fwd p) (fwd d)) ∧
      (¬ Heap.Reach heap (roots ++ Heap.pinned heap 0) p →
        Heap.bytes heap1 + 16 ≤ Heap.bytes heap) := by
  obtain ⟨marked, hm⟩ := mark_terminates
    (3 * heap.length + (roots ++ Heap.pinned heap 0).length + 1)
    (roots ++ Heap.pinned heap 0) heap (by have := unmarked_le heap; omega)
  refine ⟨roots.map (Heap.forward (Heap.plan marked 0)),
    Heap.compact (Heap.forward (Heap.plan marked 0)) (Heap.plan marked 0), ?_, ?_, ?_, ?_⟩
  · simp only [Heap.gc, hm]
  · intro x hx
    simp only [Heap.compact, List.mem_map] at hx
    obtain ⟨y, _, hy⟩ := hx
    rw [← hy]
    rfl
  · intro hreach
    obtain ⟨r1, a1, a2, a3⟩ := mark_complete _ _ heap marked hm hclear p
      (reach_mono heap roots _ p hreach) r hr
    obtain ⟨tg, _, b2, b3⟩ :=
      plan_compact_live (Heap.forward (Heap.plan marked 0)) marked 0 p r1 a1 a2
    have hfwd : Heap.forward (Heap.plan marked 0) p = tg := by
      simp only [Heap.forward, b2]
    refine ⟨Heap.forward (Heap.plan marked 0), rfl,
      Heap.move (Heap.forward (Heap.plan marked 0)) { r1 with gcTargetPosition := tg }, ?_, ?_⟩
    · rw [hfwd]
      exact b3
    · simp only [Heap.move, a3, hself]
  · intro hnot
    obtain ⟨r1, a1, a2, _, _⟩ := (mark_keeps _ _ heap marked hm).1 p r hr
    have hdead : r1.live = false := by
      cases hl : r1.live with
      | false => rfl
      | true =>
        exfalso
        refine hnot (mark_sound heap (roots ++ Heap.pinned heap 0) _ _ heap marked hm
          (fun q rq hq => ⟨rq, hq, rfl⟩) (fun x hx => Heap.Reach.root x hx) ?_ p r1 a1 hl)
        intro q rq hq hlq
        rw [hclear rq (recordAt_mem heap q rq hq)] at hlq
        cases hlq
    have hsize : r1.size = 16 := by
      simp only [Record.size, a2, hself]
    have h1 := (plan_compact_dead (Heap.forward (Heap.plan marked 0)) marked 0).2 p r1 a1 hdead
    have h2 := (mark_keeps _ _ heap marked hm).2
    omega

theorem self_referential_pair_collected_witness :
    (∀ x ∈ selfHeap, x.live = false) ∧
      Heap.recordAt selfHeap 16 = some ⟨false, false, 0, .pair 16 32⟩ ∧
      ∃ roots1 heap1, Heap.gc [16] selfHeap = some (roots1, heap1) ∧
        (∀ x ∈ heap1, x.live = false) ∧
        (Heap.Reach selfHeap [16] 16 →
          ∃ fwd : Nat → Nat, roots1 = [16].map fwd ∧
            ∃ r1, Heap.recordAt heap1 (fwd 16) = some r1 ∧
              r1.fields = .pair (fwd 16) (fwd 32)) ∧
        (¬ Heap.Reach selfHeap ([16] ++ Heap.pinned selfHeap 0) 16 →
          Heap.bytes heap1 + 16 ≤ Heap.bytes selfHeap) :=
  ⟨by decide, by decide,
    self_referential_pair_collected [16] selfHeap 16 32 ⟨false, false, 0, .pair 16 32⟩
      (by decide) (by decide) rfl⟩

end MinScm
